import Mathlib

/-!
Package `deep`: deep comparison with options

A shallow embedding of `deep.go` (`Comparer`, `Diff`, `compareState`,
`Comparer.Equal`, `compareState.deepValueEqual`) together with the properties
established about it.

Modelling conventions.

* A Go value is a tree `Val`.  Every constructor carries the description of its
  type (`reflect.Type.String()`); the reference-bearing kinds (slice, map,
  pointer, interface) also carry `loc`, the address of the variable that holds
  the value (what `reflect.Value.UnsafeAddr` returns when the value is
  addressable), and slices, maps and pointers carry the address they refer to.
  Shared storage is expressed by repeating an address.
* Map entries are listed in the order in which `MapKeys` returns them.
* `reflect.Value` is `Value`: an optional `Val` (absent for the zero `Value`)
  with the `CanAddr` flag and the read-only bits, which are set on values
  reached through an unexported struct field and make `Interface`, hence
  `append` on such an operand, panic.
* A Go panic is the `error` branch of `Except Fault`.  The recursion of
  `deepValueEqual` is driven by a fuel counter; `Comparer.Equal` supplies the
  size of its left operand plus one, which is always enough: by
  `equal_returns` it returns a list of diffs, the panic of `SetFloat64` or the
  panic of `Interface`.
* A value that refers to itself is not a tree.  The traversal reads such a value
  through its references, so it is studied on the unfoldings of the value
  (`typeLoopVar`, `interfaceLoopVar`, `selfMap`), which follow the references a
  given number of times.
* `fmt.Sprintf("%v", _)` is `fmtV`; floats are rendered as mantissa and binary
  exponent and map entries in stored order.
-/

namespace deep

/-! ## Floating point values -/

/-- A float64 value: NaN, an infinity, or `(-1)^neg * m * 2^e`. -/
inductive GoFloat where
  | nan
  | inf (neg : Bool)
  | fin (neg : Bool) (m : Nat) (e : Int)
  deriving DecidableEq, Repr

/-- The test `v != v` of the source. -/
def GoFloat.isNaN : GoFloat → Bool
  | .nan => true
  | _ => false

/-- Go's `==` on float64 values (IEEE 754: NaN differs from everything, the two
zeros are equal). -/
def GoFloat.eq : GoFloat → GoFloat → Bool
  | .nan, _ => false
  | _, .nan => false
  | .inf a, .inf b => a == b
  | .inf _, .fin _ _ _ => false
  | .fin _ _ _, .inf _ => false
  | .fin n1 m1 e1, .fin n2 m2 e2 =>
    if m1 = 0 ∧ m2 = 0 then true
    else n1 == n2 && m1 * 2 ^ (e1 - min e1 e2).toNat == m2 * 2 ^ (e2 - min e1 e2).toNat

/-- Number of binary digits of `m` (`fuel` bounds the number of halvings). -/
def bitLen : Nat → Nat → Nat
  | 0, _ => 0
  | fuel + 1, m => if m = 0 then 0 else bitLen fuel (m / 2) + 1

/-- Rounding of the mantissa `m * 2^e` to `p` binary digits, to nearest, ties to
even (`big.Float.round` in the default mode). -/
def roundMant (p : Nat) (m : Nat) (e : Int) : Nat × Int :=
  let n := bitLen m m
  if n ≤ p then (m, e)
  else
    let sh := n - p
    let q := m / 2 ^ sh
    let r := m % 2 ^ sh
    let half := 2 ^ (sh - 1)
    if r > half ∨ (r = half ∧ q % 2 = 1) then (q + 1, e + sh) else (q, e + sh)

/-- The call `new(big.Float).SetPrec(prec).SetFloat64(v)`: it panics on NaN
(`none`), keeps zeros and infinities, and rounds a finite value when the
precision is below the 53 bits of a float64. -/
def setFloat64 (prec : Int) : GoFloat → Option GoFloat
  | .nan => none
  | .inf s => some (.inf s)
  | .fin s m e =>
    if m = 0 then some (.fin s 0 0)
    else if prec < 53 then some (.fin s (roundMant prec.toNat m e).1 (roundMant prec.toNat m e).2)
    else some (.fin s m e)

/-- The test `floatx.Cmp(floaty) != 0` on two values set by `setFloat64`. -/
def cmpNe (a b : GoFloat) : Bool := !(GoFloat.eq a b)

/-- Rendering of a float: mantissa and binary exponent. -/
def fmtFloat : GoFloat → String
  | .nan => "NaN"
  | .inf false => "+Inf"
  | .inf true => "-Inf"
  | .fin s m e => (if s then "-" else "") ++ toString m ++ "p" ++ toString e

/-- Rendering of the imaginary part of a complex number, with its sign. -/
def fmtImag : GoFloat → String
  | .nan => "+NaN"
  | .inf false => "+Inf"
  | .inf true => "-Inf"
  | .fin s m e => (if s then "-" else "+") ++ toString m ++ "p" ++ toString e

/-! ## Types and values -/

/-- The kinds `deepValueEqual` switches on; `int` and `uint` stand for all
widths, `float` and `complex` for both sizes. -/
inductive Kind where
  | bool | int | uint | float | complex | string
  | array | slice | struct | map | ptr | iface | func
  | uintptr | chan | unsafePointer
  deriving DecidableEq, Repr

/-- The fields of `reflect.StructField` the source reads, and `Anonymous`,
which `reflect.Value.Field` consults (an embedded field). -/
structure StructField where
  Name : String
  PkgPath : String
  Anonymous : Bool
  deriving DecidableEq, Repr

/-- The three kinds handled by the default branch of the switch. -/
inductive WordKind where
  | uintptr | chan | unsafePointer
  deriving DecidableEq, Repr

/-- A Go value. -/
inductive Val where
  | bool (t : String) (b : Bool)
  | int (t : String) (i : Int)
  | uint (t : String) (n : Nat)
  | float (t : String) (f : GoFloat)
  | complex (t : String) (re im : GoFloat)
  | str (t : String) (s : String)
  | array (t : String) (elems : List Val)
  | slice (t : String) (loc : Nat) (hdr : Option (Nat × List Val))
  | struct (t : String) (fields : List (StructField × Val))
  | map (t : String) (loc : Nat) (hdr : Option (Nat × List (Val × Val)))
  | ptr (t : String) (loc : Nat) (target : Option (Nat × Val))
  | iface (t : String) (loc : Nat) (dyn : Option Val)
  | func (t : String) (code : Nat)
  | word (t : String) (k : WordKind) (w : Nat)

/-- The identity of a type: its description, its kind, and for arrays the length
and for structs the declared fields. -/
structure GoType where
  name : String
  kind : Kind
  len : Nat
  fields : List StructField
  deriving DecidableEq, Repr

/-- The method `reflect.Value.Kind`. -/
def Val.kind : Val → Kind
  | .bool _ _ => .bool
  | .int _ _ => .int
  | .uint _ _ => .uint
  | .float _ _ => .float
  | .complex _ _ _ => .complex
  | .str _ _ => .string
  | .array _ _ => .array
  | .slice _ _ _ => .slice
  | .struct _ _ => .struct
  | .map _ _ _ => .map
  | .ptr _ _ _ => .ptr
  | .iface _ _ _ => .iface
  | .func _ _ => .func
  | .word _ .uintptr _ => .uintptr
  | .word _ .chan _ => .chan
  | .word _ .unsafePointer _ => .unsafePointer

/-- The description of the type, as `reflect.Type.String` gives it. -/
def Val.tname : Val → String
  | .bool t _ => t
  | .int t _ => t
  | .uint t _ => t
  | .float t _ => t
  | .complex t _ _ => t
  | .str t _ => t
  | .array t _ => t
  | .slice t _ _ => t
  | .struct t _ => t
  | .map t _ _ => t
  | .ptr t _ _ => t
  | .iface t _ _ => t
  | .func t _ => t
  | .word t _ _ => t

/-- The method `reflect.Value.Type`. -/
def Val.typ : Val → GoType
  | .array t es => ⟨t, .array, es.length, []⟩
  | .struct t fs => ⟨t, .struct, 0, fs.map Prod.fst⟩
  | v => ⟨v.tname, v.kind, 0, []⟩

/-- The method `reflect.Value.UnsafeAddr` for the reference-bearing kinds. -/
def Val.loc : Val → Nat
  | .slice _ l _ => l
  | .map _ l _ => l
  | .ptr _ l _ => l
  | .iface _ l _ => l
  | _ => 0

/-- The local function `hard` of `deepValueEqual`. -/
def hard : Kind → Bool
  | .map => true
  | .slice => true
  | .ptr => true
  | .iface => true
  | _ => false

/-- The method `reflect.Value.Pointer` of a slice, map or pointer header. -/
def pointerOf {α : Type} : Option (Nat × α) → Nat
  | none => 0
  | some (a, _) => a

/-- The elements of a slice header (none for the nil slice). -/
def elemsOf {α : Type} : Option (Nat × List α) → List α
  | none => []
  | some (_, es) => es

mutual
/-- Number of constructors of a value. -/
def Val.size : Val → Nat
  | .array _ es => 1 + sizeList es
  | .slice _ _ none => 1
  | .slice _ _ (some (_, es)) => 1 + sizeList es
  | .struct _ fs => 1 + sizeFields fs
  | .map _ _ none => 1
  | .map _ _ (some (_, es)) => 1 + sizeEntries es
  | .ptr _ _ none => 1
  | .ptr _ _ (some (_, v)) => 1 + Val.size v
  | .iface _ _ none => 1
  | .iface _ _ (some v) => 1 + Val.size v
  | .bool _ _ => 1
  | .int _ _ => 1
  | .uint _ _ => 1
  | .float _ _ => 1
  | .complex _ _ _ => 1
  | .str _ _ => 1
  | .func _ _ => 1
  | .word _ _ _ => 1
/-- Total size of a list of values. -/
def sizeList : List Val → Nat
  | [] => 0
  | v :: vs => Val.size v + sizeList vs
/-- Total size of the fields of a struct. -/
def sizeFields : List (StructField × Val) → Nat
  | [] => 0
  | (_, v) :: fs => Val.size v + sizeFields fs
/-- Total size of the entries of a map. -/
def sizeEntries : List (Val × Val) → Nat
  | [] => 0
  | (k, v) :: es => Val.size k + Val.size v + sizeEntries es
end

mutual
/-- Go's `==` on two values of one comparable type, as used for map keys:
pointers and channels by address, arrays and structs element by element,
interfaces by dynamic type and value; slices, maps and functions are never
equal to anything. -/
def goEq : Val → Val → Bool
  | .bool t a, .bool u b => t == u && a == b
  | .int t a, .int u b => t == u && a == b
  | .uint t a, .uint u b => t == u && a == b
  | .float t a, .float u b => t == u && GoFloat.eq a b
  | .complex t a b, .complex u a2 b2 => t == u && GoFloat.eq a a2 && GoFloat.eq b b2
  | .str t a, .str u b => t == u && a == b
  | .array t xs, .array u ys => t == u && goEqList xs ys
  | .struct t xs, .struct u ys => t == u && goEqFields xs ys
  | .ptr t _ p, .ptr u _ q => t == u && pointerOf p == pointerOf q
  | .iface t _ none, .iface u _ none => t == u
  | .iface t _ (some a), .iface u _ (some b) => t == u && goEq a b
  | .word t k a, .word u k2 b => t == u && k == k2 && a == b
  | _, _ => false
/-- Element-wise `==` of two lists of the same length. -/
def goEqList : List Val → List Val → Bool
  | [], [] => true
  | x :: xs, y :: ys => goEq x y && goEqList xs ys
  | _, _ => false
/-- Field-wise `==` of two structs with the same fields. -/
def goEqFields : List (StructField × Val) → List (StructField × Val) → Bool
  | [], [] => true
  | (f, x) :: xs, (g, y) :: ys => f == g && goEq x y && goEqFields xs ys
  | _, _ => false
end

/-- The method `reflect.Value.MapIndex` on the entries of a map: the value
stored under a key equal to `k`, if any. -/
def mapIndex : List (Val × Val) → Val → Option Val
  | [], _ => none
  | (k2, v) :: es, k => if goEq k2 k then some v else mapIndex es k

/-- The method `reflect.Value.MapKeys`. -/
def mapKeys (es : List (Val × Val)) : List Val := es.map Prod.fst

/-! ## Rendering -/

/-- Rendering of an address. -/
def fmtAddr (a : Nat) : String := "0x" ++ (Nat.toDigits 16 a).asString

mutual
/-- The result of `fmt.Sprintf("%v", v)`; `depth` is the nesting depth inside the
printed operand. -/
def fmtV : Nat → Val → String
  | _, .bool _ b => toString b
  | _, .int _ i => toString i
  | _, .uint _ n => toString n
  | _, .float _ f => fmtFloat f
  | _, .complex _ re im => "(" ++ fmtFloat re ++ fmtImag im ++ "i)"
  | _, .str _ s => s
  | d, .array _ es => "[" ++ " ".intercalate (fmtList (d + 1) es) ++ "]"
  | _, .slice _ _ none => "[]"
  | d, .slice _ _ (some (_, es)) => "[" ++ " ".intercalate (fmtList (d + 1) es) ++ "]"
  | d, .struct _ fs => "\x7b" ++ " ".intercalate (fmtFields (d + 1) fs) ++ "\x7d"
  | _, .map _ _ none => "map[]"
  | d, .map _ _ (some (_, es)) => "map[" ++ " ".intercalate (fmtEntries (d + 1) es) ++ "]"
  | _, .ptr _ _ none => "<nil>"
  | d, .ptr _ _ (some (a, v)) =>
    if d = 0 ∧ (v.kind = .array ∨ v.kind = .slice ∨ v.kind = .struct ∨ v.kind = .map)
    then "&" ++ fmtV (d + 1) v else fmtAddr a
  | _, .iface _ _ none => "<nil>"
  | d, .iface _ _ (some v) => fmtV (d + 1) v
  | _, .func _ code => if code = 0 then "<nil>" else fmtAddr code
  | _, .word _ .uintptr w => toString w
  | _, .word _ _ w => fmtAddr w
/-- Renderings of the elements of a list. -/
def fmtList : Nat → List Val → List String
  | _, [] => []
  | d, v :: vs => fmtV d v :: fmtList d vs
/-- Renderings of the fields of a struct. -/
def fmtFields : Nat → List (StructField × Val) → List String
  | _, [] => []
  | d, (_, v) :: fs => fmtV d v :: fmtFields d fs
/-- Renderings `key:value` of the entries of a map. -/
def fmtEntries : Nat → List (Val × Val) → List String
  | _, [] => []
  | d, (k, v) :: es => (fmtV d k ++ ":" ++ fmtV d v) :: fmtEntries d es
end

/-! ## The source: configuration, diffs and state -/

/-- Comparer configures how comparisons are made. -/
structure Comparer where
  CompareUnexportedFields : Bool
  FloatPrecision : Int
  MaxDepth : Int
  MaxDiffs : Int
  NilMapsAreEmpty : Bool
  NilSlicesAreEmpty : Bool
  deriving DecidableEq, Repr

/-- NewComparer returns a new Comparer with a sensible default configuration. -/
def NewComparer : Comparer :=
  { CompareUnexportedFields := false
    FloatPrecision := 34
    MaxDepth := 0
    MaxDiffs := 10
    NilMapsAreEmpty := false
    NilSlicesAreEmpty := false }

/-- Diff represents a single unit of difference between two values. -/
structure Diff where
  left : String
  right : String
  stack : String
  deriving DecidableEq, Repr

/-- String returns a string representation of the diff. -/
def Diff.String (d : Diff) : String :=
  if d.stack ≠ "" then d.stack ++ ": " ++ d.left ++ " != " ++ d.right
  else d.left ++ " != " ++ d.right

/-- The key of the visited set. -/
structure visit where
  a1 : Nat
  a2 : Nat
  typ : GoType
  deriving DecidableEq, Repr

/-- The mutable state of one comparison (the embedded Comparer is passed
separately; the two scratch floats are determined by its FloatPrecision). -/
structure compareState where
  result : List Diff
  stack : List String
  visited : List visit
  deriving DecidableEq, Repr

/-- The ways a run can stop without a result. -/
inductive Fault where
  | nanFloat
  | sliceBounds
  | reflectKind
  | readOnly
  | outOfFuel
  deriving DecidableEq, Repr

/-- The read-only bits of a `reflect.Value` (`flagStickyRO` and `flagEmbedRO`),
set on a value obtained through an unexported struct field. -/
structure RO where
  sticky : Bool
  embed : Bool
  deriving DecidableEq, Repr

/-- Neither bit is set (a value obtained from `reflect.ValueOf`). -/
def RO.clear : RO := ⟨false, false⟩

/-- The test `flag&flagRO != 0`, under which `reflect.Value.Interface`
panics. -/
def RO.isRO (r : RO) : Bool := r.sticky || r.embed

/-- The method `flag.ro`, by which `Index`, `MapKeys`, `MapIndex` and the `Elem`
of an interface pass the bits on. -/
def RO.ro (r : RO) : RO := ⟨r.isRO, false⟩

/-- The bits of `v.Field(i)` for the field `f`: the sticky bit is inherited, and
an unexported field sets the embed bit when embedded and the sticky bit
otherwise. -/
def RO.field (r : RO) (f : StructField) : RO :=
  if f.PkgPath != "" then
    if f.Anonymous then ⟨r.sticky, true⟩ else ⟨true, false⟩
  else ⟨r.sticky, false⟩

/-- The bits of `v.flag | key.flag`. -/
def RO.join (a b : RO) : RO := ⟨a.sticky || b.sticky, a.embed || b.embed⟩

/-- The flags of a `reflect.Value` the traversal depends on: `CanAddr` and the
read-only bits. -/
structure Flag where
  addr : Bool
  ro : RO
  deriving DecidableEq, Repr

/-- The flags of a value obtained from `reflect.ValueOf`. -/
def Flag.root : Flag := ⟨false, RO.clear⟩

/-- A `reflect.Value`: the value it holds, if valid, and its flags (which play
no part when it is invalid). -/
structure Value where
  v : Option Val
  flag : Flag

/-- The stack after `push(v, i)`: the first segment carries the descriptor `v`
of the root value. -/
def pushStack (stack : List String) (v i : String) : List String :=
  if stack.length = 0 then stack ++ [v ++ i] else stack ++ [i]

/-- The method `compareState.push`. -/
def compareState.push (s : compareState) (v i : String) : compareState :=
  { s with stack := pushStack s.stack v i }

/-- The method `compareState.pop`; the slice expression panics on an empty
stack. -/
def compareState.pop (s : compareState) : Except Fault compareState :=
  if s.stack.length = 0 then .error .sliceBounds
  else .ok { s with stack := s.stack.dropLast }

/-- The method `compareState.append`, applied to the renderings of its two
operands. -/
def compareState.append (s : compareState) (x y : String) : compareState :=
  { s with result := s.result ++ [{ left := x, right := y, stack := String.join s.stack }] }

/-- Rendering of an operand of `append` that is a `reflect.Value`: the value it
holds when valid (`i.Interface()`, for which see `appendV`). -/
def fmtValue : Option Val → String
  | none => "<invalid reflect.Value>"
  | some (.iface _ _ (some v)) => fmtV 0 v
  | some v => fmtV 0 v

/-! ## The traversal -/

/-- What a call of `deepValueEqual` produces: its boolean result and the state it
leaves, or a fault. -/
abbrev Outcome := Except Fault (Bool × compareState)

/-- The type of the recursive call handed to the loops. -/
abbrev Rec := Value → Value → Int → compareState → Outcome

/-- The method `compareState.append` with an operand that is a `reflect.Value`
of read-only bits `r` (for two such operands, the join of their bits):
`i.Interface()` panics when a bit is set.  The boolean is the `false` the
switch returns after it. -/
def compareState.appendV (s : compareState) (r : RO) (x y : String) : Outcome :=
  if r.isRO then .error .readOnly else .ok (false, s.append x y)

/-- The end of every loop body: `s.pop()`, then the test
`len(s.result) >= s.MaxDiffs`, which leaves the loop with `false`; otherwise the
loop goes on with `next`. -/
def popCheck (c : Comparer) (o : Outcome) (next : compareState → Outcome) : Outcome :=
  match o with
  | .error e => .error e
  | .ok (_, s1) =>
    match s1.pop with
    | .error e => .error e
    | .ok s2 => if (s2.result.length : Int) ≥ c.MaxDiffs then .ok (false, s2) else next s2

/-- The loop of the `reflect.Array` branch, from index `i` on; `xa` and `ya` are
the flags of the elements. -/
def arrayLoop (c : Comparer) (rec : Rec) (xa ya : Flag) (depth : Int) :
    List Val → List Val → Nat → compareState → Outcome
  | [], _, _, s => .ok (true, s)
  | _ :: _, [], _, _ => .error .reflectKind
  | xe :: xs, ye :: ys, i, s =>
    popCheck c
      (rec ⟨some xe, xa⟩ ⟨some ye, ya⟩ (depth + 1) (s.push "array" ("[" ++ toString i ++ "]")))
      (arrayLoop c rec xa ya depth xs ys (i + 1))

/-- The loop of the `reflect.Slice` branch once the left slice is exhausted:
every remaining index has a value on the right only; `ya` holds the flags of
the elements. -/
def sliceLoopRight (c : Comparer) (ya : Flag) : List Val → Nat → compareState → Outcome
  | [], _, s => .ok (true, s)
  | ye :: ys, i, s =>
    popCheck c
      ((s.push "slice" ("[" ++ toString i ++ "]")).appendV ya.ro "<no value>" (fmtValue (some ye)))
      (sliceLoopRight c ya ys (i + 1))

/-- The loop of the `reflect.Slice` branch, from index `i` on, up to the longer
length; `xa` and `ya` are the flags of the elements. -/
def sliceLoop (c : Comparer) (rec : Rec) (xa ya : Flag) (depth : Int) :
    List Val → List Val → Nat → compareState → Outcome
  | [], ys, i, s => sliceLoopRight c ya ys i s
  | xe :: xs, [], i, s =>
    popCheck c
      ((s.push "slice" ("[" ++ toString i ++ "]")).appendV xa.ro (fmtValue (some xe)) "<no value>")
      (sliceLoop c rec xa ya depth xs [] (i + 1))
  | xe :: xs, ye :: ys, i, s =>
    popCheck c
      (rec ⟨some xe, xa⟩ ⟨some ye, ya⟩ (depth + 1) (s.push "slice" ("[" ++ toString i ++ "]")))
      (sliceLoop c rec xa ya depth xs ys (i + 1))

/-- The loop of the `reflect.Struct` branch over the declared fields; `xa` and
`ya` are the flags of the two structs, and both have the fields of the one
type (the type test precedes the switch). -/
def structLoop (c : Comparer) (rec : Rec) (xa ya : Flag) (depth : Int) :
    List (StructField × Val) → List (StructField × Val) → compareState → Outcome
  | [], _, s => .ok (true, s)
  | (f, xv) :: xs, ys, s =>
    if !c.CompareUnexportedFields && f.PkgPath != "" then
      structLoop c rec xa ya depth xs ys.tail s
    else
      match ys with
      | (_, yv) :: ys2 =>
        popCheck c
          (rec ⟨some xv, ⟨xa.addr, xa.ro.field f⟩⟩ ⟨some yv, ⟨ya.addr, ya.ro.field f⟩⟩ (depth + 1)
            (s.push "struct" ("." ++ f.Name)))
          (structLoop c rec xa ya depth xs ys2)
      | [] => .error .reflectKind

/-- The second loop of the `reflect.Map` branch: the keys of the right map that
the left map lacks; `yr` holds the read-only bits of the right map.  When
`y.MapIndex(k)` is invalid (a key that differs from itself), `append` does not
call `Interface` on it. -/
def mapLoopRight (c : Comparer) (yr : RO) (xes yes : List (Val × Val)) :
    List Val → compareState → Outcome
  | [], s => .ok (true, s)
  | k :: ks, s =>
    if (mapIndex xes k).isSome then mapLoopRight c yr xes yes ks s
    else
      popCheck c
        ((s.push "map" ("[" ++ fmtValue (some k) ++ "]")).appendV
          (if (mapIndex yes k).isSome then (yr.join yr.ro).ro else RO.clear) "<no key>"
          (fmtValue (mapIndex yes k)))
        (mapLoopRight c yr xes yes ks)

/-- The first loop of the `reflect.Map` branch, over the keys of the left map,
followed by the second loop; `xr` and `yr` are the read-only bits of the two
maps.  A key from `x.MapKeys()` carries the bits of `x`, and `MapIndex` joins
the bits of the map and of the key. -/
def mapLoop (c : Comparer) (rec : Rec) (xr yr : RO) (depth : Int) (xes yes : List (Val × Val)) :
    List Val → compareState → Outcome
  | [], s => mapLoopRight c yr xes yes (mapKeys yes) s
  | k :: ks, s =>
    popCheck c
      (if (mapIndex yes k).isSome then
        rec ⟨mapIndex xes k, ⟨false, (xr.join xr.ro).ro⟩⟩
          ⟨mapIndex yes k, ⟨false, (yr.join xr.ro).ro⟩⟩ (depth + 1)
          (s.push "map" ("[" ++ fmtValue (some k) ++ "]"))
      else if (mapIndex xes k).isSome then
        (s.push "map" ("[" ++ fmtValue (some k) ++ "]")).appendV (xr.join xr.ro).ro
          (fmtValue (mapIndex xes k)) "<no key>"
      else
        .ok (true, (s.push "map" ("[" ++ fmtValue (some k) ++ "]")).append
          "<invalid key>" "<no key>"))
      (mapLoop c rec xr yr depth xes yes ks)

/-- The nil tests that open the slice and map branches: the outcome of the
`append` and `return false` when one of them fires; `xr` and `yr` are the
read-only bits of the operands. -/
def nilCheck (nilIsEmpty : Bool) (marker : String) (x y : Val) (xr yr : RO) (xNil yNil : Bool)
    (xLen yLen : Nat) (s : compareState) : Option Outcome :=
  if nilIsEmpty then
    if xNil && yLen != 0 then some (s.appendV yr marker (fmtValue (some y)))
    else if xLen != 0 && yNil then some (s.appendV xr (fmtValue (some x)) marker)
    else none
  else
    if xNil && !yNil then some (s.appendV yr marker (fmtValue (some y)))
    else if !xNil && yNil then some (s.appendV xr (fmtValue (some x)) marker)
    else none

/-- The comparison of two non-NaN floats (the end of the float branch, used for
each part of a complex number): none when `SetFloat64` panics. -/
def floatDiffers (c : Comparer) (vx vy : GoFloat) : Option Bool :=
  match setFloat64 c.FloatPrecision vx, setFloat64 c.FloatPrecision vy with
  | some fx, some fy => some (cmpNe fx fy)
  | _, _ => none

/-- The `switch x.Kind()` of `deepValueEqual` on two valid values of one type;
`rec` is the recursive call. -/
def kindSwitch (c : Comparer) (rec : Rec) (x y : Value) (xv yv : Val) (depth : Int)
    (s : compareState) : Outcome :=
  match xv, yv with
  | .array _ xs, .array _ ys =>
    arrayLoop c rec ⟨x.flag.addr, x.flag.ro.ro⟩ ⟨y.flag.addr, y.flag.ro.ro⟩ depth xs ys 0 s
  | .slice _ _ hx, .slice _ _ hy =>
    match nilCheck c.NilSlicesAreEmpty "<nil slice>" xv yv x.flag.ro y.flag.ro hx.isNone hy.isNone
        (elemsOf hx).length (elemsOf hy).length s with
    | some o => o
    | none =>
      if pointerOf hx = pointerOf hy ∧ (elemsOf hx).length ≠ (elemsOf hy).length then .ok (true, s)
      else sliceLoop c rec ⟨true, x.flag.ro.ro⟩ ⟨true, y.flag.ro.ro⟩ depth
        (elemsOf hx) (elemsOf hy) 0 s
  | .iface tx _ dx, .iface ty _ dy =>
    match dx, dy with
    | none, none => .ok (true, s)
    | none, some _ => s.appendV y.flag.ro ("<nil " ++ tx ++ ">") (fmtValue (some yv))
    | some _, none => s.appendV x.flag.ro (fmtValue (some xv)) ("<nil " ++ ty ++ ">")
    | some a, some b => rec ⟨some a, ⟨false, x.flag.ro.ro⟩⟩ ⟨some b, ⟨false, y.flag.ro.ro⟩⟩ depth s
  | .ptr _ _ px, .ptr _ _ py =>
    if pointerOf px = pointerOf py then .ok (true, s)
    else rec ⟨px.map Prod.snd, ⟨px.isSome, x.flag.ro⟩⟩ ⟨py.map Prod.snd, ⟨py.isSome, y.flag.ro⟩⟩
      depth s
  | .struct _ xs, .struct _ ys => structLoop c rec x.flag y.flag depth xs ys s
  | .map _ _ hx, .map _ _ hy =>
    match nilCheck c.NilMapsAreEmpty "<nil map>" xv yv x.flag.ro y.flag.ro hx.isNone hy.isNone
        (elemsOf hx).length (elemsOf hy).length s with
    | some o => o
    | none =>
      if pointerOf hx = pointerOf hy then .ok (true, s)
      else mapLoop c rec x.flag.ro y.flag.ro depth (elemsOf hx) (elemsOf hy)
        (mapKeys (elemsOf hx)) s
  | .func _ fx, .func _ fy =>
    if fx ≠ 0 ∨ fy ≠ 0 then
      s.appendV (x.flag.ro.join y.flag.ro) (fmtValue (some xv)) (fmtValue (some yv))
    else .ok (true, s)
  | .bool _ a, .bool _ b =>
    if a ≠ b then .ok (false, s.append (toString a) (toString b)) else .ok (true, s)
  | .int _ a, .int _ b =>
    if a ≠ b then .ok (false, s.append (toString a) (toString b)) else .ok (true, s)
  | .uint _ a, .uint _ b =>
    if a ≠ b then .ok (false, s.append (toString a) (toString b)) else .ok (true, s)
  | .float _ vx, .float _ vy =>
    if vx.isNaN ∧ vy.isNaN then .ok (true, s)
    else if vx.isNaN ∨ vy.isNaN then .ok (false, s.append (fmtFloat vx) (fmtFloat vy))
    else if c.FloatPrecision ≤ 0 then
      if !(GoFloat.eq vx vy) then .ok (false, s.append (fmtFloat vx) (fmtFloat vy))
      else .ok (true, s)
    else
      match floatDiffers c vx vy with
      | none => .error .nanFloat
      | some true => .ok (false, s.append (fmtFloat vx) (fmtFloat vy))
      | some false => .ok (true, s)
  | .complex _ rx ix, .complex _ ry iy =>
    if c.FloatPrecision ≤ 0 then
      if !(GoFloat.eq rx ry) ∨ !(GoFloat.eq ix iy) then
        .ok (false, s.append (fmtValue (some xv)) (fmtValue (some yv)))
      else .ok (true, s)
    else
      match floatDiffers c rx ry with
      | none => .error .nanFloat
      | some true => .ok (false, s.append (fmtValue (some xv)) (fmtValue (some yv)))
      | some false =>
        match floatDiffers c ix iy with
        | none => .error .nanFloat
        | some true => .ok (false, s.append (fmtValue (some xv)) (fmtValue (some yv)))
        | some false => .ok (true, s)
  | .str _ a, .str _ b =>
    if a ≠ b then .ok (false, s.append a b) else .ok (true, s)
  | .word _ _ a, .word _ _ b =>
    if (x.flag.ro.join y.flag.ro).isRO then .error .readOnly
    else if a ≠ b then .ok (false, s.append (fmtValue (some xv)) (fmtValue (some yv)))
    else .ok (true, s)
  | _, _ => .error .reflectKind

/-- The method `compareState.deepValueEqual`; the first argument after the
configuration is the fuel of the recursion. -/
def deepValueEqual (c : Comparer) : Nat → Value → Value → Int → compareState → Outcome
  | 0, _, _, _, _ => .error .outOfFuel
  | fuel + 1, x, y, depth, s =>
    if c.MaxDepth > 0 ∧ depth > c.MaxDepth then .ok (true, s)
    else
      match x.v, y.v with
      | none, none => .ok (true, s)
      | none, some yv => .ok (false, s.append "<nil>" yv.typ.name)
      | some xv, none => .ok (false, s.append xv.typ.name "<nil>")
      | some xv, some yv =>
        if xv.typ ≠ yv.typ then .ok (false, s.append xv.typ.name yv.typ.name)
        else if (x.flag.addr && y.flag.addr && hard xv.kind) = true
            ∧ (⟨min xv.loc yv.loc, max xv.loc yv.loc, xv.typ⟩ : visit) ∈ s.visited then
          .ok (true, s)
        else
          kindSwitch c (deepValueEqual c fuel) x y xv yv depth
            (if x.flag.addr && y.flag.addr && hard xv.kind then
              { s with visited := ⟨min xv.loc yv.loc, max xv.loc yv.loc, xv.typ⟩ :: s.visited }
            else s)

/-- The state a comparison starts from. -/
def compareState.init : compareState := { result := [], stack := [], visited := [] }

/-- Equal makes a comparison between two values, and returns a list of
differences between them; an operand is absent when the interface passed is
nil. -/
def Comparer.Equal (c : Comparer) (x y : Option Val) : Except Fault (List Diff) :=
  match x, y with
  | none, none => .ok []
  | none, some yv => .ok (compareState.init.append "<nil>" (fmtV 0 yv)).result
  | some xv, none => .ok (compareState.init.append (fmtV 0 xv) "<nil>").result
  | some xv, some yv =>
    match deepValueEqual c (xv.size + 1) ⟨some xv, Flag.root⟩ ⟨some yv, Flag.root⟩ 0
        compareState.init with
    | .ok (_, s) => .ok s.result
    | .error e => .error e

/-- Config is the Comparer used by Equal. -/
def Config : Comparer := NewComparer

/-- Equal makes a comparison between two values under the global
configuration. -/
def Equal (x y : Option Val) : Except Fault (List Diff) := Config.Equal x y

/-! ## The values of the test table -/

/-- An `int`. -/
def vInt (i : Int) : Val := .int "int" i

/-- A `string`. -/
def vStr (s : String) : Val := .str "string" s

/-- An array `[n]int`. -/
def intArray (xs : List Int) : Val :=
  .array ("[" ++ toString xs.length ++ "]int") (xs.map vInt)

/-- A non-nil slice `[]int` with its elements stored at `data`. -/
def intSlice (data : Nat) (xs : List Int) : Val :=
  .slice "[]int" 0 (some (data, xs.map vInt))

/-- A non-nil `map[int]string` at address `data`. -/
def intStrMap (data : Nat) (es : List (Int × String)) : Val :=
  .map "map[int]string" 0 (some (data, es.map (fun e => (vInt e.1, vStr e.2))))

/-! ## The unbounded comparison as a pure function

`diffTrace` lists, in traversal order, what a comparison without diff cap and
without visited set reports: the diffs, and the faults where a run would stop.
`scan` reads off the outcome of a capped run. -/

/-- One event of the traversal. -/
inductive Item where
  | diff (d : Diff)
  | fault (f : Fault)
  deriving DecidableEq, Repr

/-- The type of the recursive call handed to the trace loops; its first argument
holds the read-only bits of the two operands, which are reached along the same
path and so carry the same bits. -/
abbrev RecT := RO → Option Val → Option Val → Int → List String → List Item

/-- The diff `append` records under the path `stack`. -/
def mkDiff (stack : List String) (l r : String) : Diff :=
  { left := l, right := r, stack := String.join stack }

/-- The event of an `append` with an operand that is a `reflect.Value` of
read-only bits `r`: the panic of `Interface`, or the diff. -/
def mkItem (r : RO) (stack : List String) (x y : String) : Item :=
  if r.isRO then .fault .readOnly else .diff (mkDiff stack x y)

/-- Events of the array loop; `r` holds the bits of the elements. -/
def traceArray (recT : RecT) (r : RO) (depth : Int) (stack : List String) :
    List Val → List Val → Nat → List Item
  | [], _, _ => []
  | _ :: _, [], _ => [.fault .reflectKind]
  | xe :: xs, ye :: ys, i =>
    recT r (some xe) (some ye) (depth + 1) (pushStack stack "array" ("[" ++ toString i ++ "]"))
      ++ traceArray recT r depth stack xs ys (i + 1)

/-- Events of the slice loop once the left slice is exhausted. -/
def traceSliceRight (r : RO) (stack : List String) : List Val → Nat → List Item
  | [], _ => []
  | ye :: ys, i =>
    mkItem r (pushStack stack "slice" ("[" ++ toString i ++ "]")) "<no value>"
        (fmtValue (some ye))
      :: traceSliceRight r stack ys (i + 1)

/-- Events of the slice loop; `r` holds the bits of the elements. -/
def traceSlice (recT : RecT) (r : RO) (depth : Int) (stack : List String) :
    List Val → List Val → Nat → List Item
  | [], ys, i => traceSliceRight r stack ys i
  | xe :: xs, [], i =>
    mkItem r (pushStack stack "slice" ("[" ++ toString i ++ "]")) (fmtValue (some xe))
        "<no value>"
      :: traceSlice recT r depth stack xs [] (i + 1)
  | xe :: xs, ye :: ys, i =>
    recT r (some xe) (some ye) (depth + 1) (pushStack stack "slice" ("[" ++ toString i ++ "]"))
      ++ traceSlice recT r depth stack xs ys (i + 1)

/-- Events of the struct loop; `r` holds the bits of the structs. -/
def traceStruct (c : Comparer) (recT : RecT) (r : RO) (depth : Int) (stack : List String) :
    List (StructField × Val) → List (StructField × Val) → List Item
  | [], _ => []
  | (f, xv) :: xs, ys =>
    if !c.CompareUnexportedFields && f.PkgPath != "" then
      traceStruct c recT r depth stack xs ys.tail
    else
      match ys with
      | (_, yv) :: ys2 =>
        recT (r.field f) (some xv) (some yv) (depth + 1)
            (pushStack stack "struct" ("." ++ f.Name))
          ++ traceStruct c recT r depth stack xs ys2
      | [] => [.fault .reflectKind]

/-- Events of the second map loop; `r` holds the bits of the maps. -/
def traceMapRight (r : RO) (stack : List String) (xes yes : List (Val × Val)) :
    List Val → List Item
  | [] => []
  | k :: ks =>
    if (mapIndex xes k).isSome then traceMapRight r stack xes yes ks
    else
      mkItem (if (mapIndex yes k).isSome then r.ro else RO.clear)
          (pushStack stack "map" ("[" ++ fmtValue (some k) ++ "]")) "<no key>"
          (fmtValue (mapIndex yes k))
        :: traceMapRight r stack xes yes ks

/-- Events of the first map loop, followed by those of the second; `r` holds
the bits of the maps. -/
def traceMap (recT : RecT) (r : RO) (depth : Int) (stack : List String)
    (xes yes : List (Val × Val)) : List Val → List Item
  | [] => traceMapRight r stack xes yes (mapKeys yes)
  | k :: ks =>
    (if (mapIndex yes k).isSome then
      recT r.ro (mapIndex xes k) (mapIndex yes k) (depth + 1)
        (pushStack stack "map" ("[" ++ fmtValue (some k) ++ "]"))
    else if (mapIndex xes k).isSome then
      [mkItem r.ro (pushStack stack "map" ("[" ++ fmtValue (some k) ++ "]"))
        (fmtValue (mapIndex xes k)) "<no key>"]
    else
      [.diff (mkDiff (pushStack stack "map" ("[" ++ fmtValue (some k) ++ "]"))
        "<invalid key>" "<no key>")])
      ++ traceMap recT r depth stack xes yes ks

/-- The event of the nil tests of the slice and map branches, if one fires. -/
def nilDiff (nilIsEmpty : Bool) (marker : String) (x y : Val) (r : RO) (xNil yNil : Bool)
    (xLen yLen : Nat) (stack : List String) : Option Item :=
  if nilIsEmpty then
    if xNil && yLen != 0 then some (mkItem r stack marker (fmtValue (some y)))
    else if xLen != 0 && yNil then some (mkItem r stack (fmtValue (some x)) marker)
    else none
  else
    if xNil && !yNil then some (mkItem r stack marker (fmtValue (some y)))
    else if !xNil && yNil then some (mkItem r stack (fmtValue (some x)) marker)
    else none

/-- Events of the kind switch on two valid values of one type, both of read-only
bits `r`. -/
def traceSwitch (c : Comparer) (recT : RecT) (r : RO) (xv yv : Val) (depth : Int)
    (stack : List String) : List Item :=
  match xv, yv with
  | .array _ xs, .array _ ys => traceArray recT r.ro depth stack xs ys 0
  | .slice _ _ hx, .slice _ _ hy =>
    match nilDiff c.NilSlicesAreEmpty "<nil slice>" xv yv r hx.isNone hy.isNone
        (elemsOf hx).length (elemsOf hy).length stack with
    | some it => [it]
    | none =>
      if pointerOf hx = pointerOf hy ∧ (elemsOf hx).length ≠ (elemsOf hy).length then []
      else traceSlice recT r.ro depth stack (elemsOf hx) (elemsOf hy) 0
  | .iface tx _ dx, .iface ty _ dy =>
    match dx, dy with
    | none, none => []
    | none, some _ => [mkItem r stack ("<nil " ++ tx ++ ">") (fmtValue (some yv))]
    | some _, none => [mkItem r stack (fmtValue (some xv)) ("<nil " ++ ty ++ ">")]
    | some a, some b => recT r.ro (some a) (some b) depth stack
  | .ptr _ _ px, .ptr _ _ py =>
    if pointerOf px = pointerOf py then []
    else recT r (px.map Prod.snd) (py.map Prod.snd) depth stack
  | .struct _ xs, .struct _ ys => traceStruct c recT r depth stack xs ys
  | .map _ _ hx, .map _ _ hy =>
    match nilDiff c.NilMapsAreEmpty "<nil map>" xv yv r hx.isNone hy.isNone
        (elemsOf hx).length (elemsOf hy).length stack with
    | some it => [it]
    | none =>
      if pointerOf hx = pointerOf hy then []
      else traceMap recT r depth stack (elemsOf hx) (elemsOf hy) (mapKeys (elemsOf hx))
  | .func _ fx, .func _ fy =>
    if fx ≠ 0 ∨ fy ≠ 0 then [mkItem r stack (fmtValue (some xv)) (fmtValue (some yv))]
    else []
  | .bool _ a, .bool _ b =>
    if a ≠ b then [.diff (mkDiff stack (toString a) (toString b))] else []
  | .int _ a, .int _ b =>
    if a ≠ b then [.diff (mkDiff stack (toString a) (toString b))] else []
  | .uint _ a, .uint _ b =>
    if a ≠ b then [.diff (mkDiff stack (toString a) (toString b))] else []
  | .float _ vx, .float _ vy =>
    if vx.isNaN ∧ vy.isNaN then []
    else if vx.isNaN ∨ vy.isNaN then [.diff (mkDiff stack (fmtFloat vx) (fmtFloat vy))]
    else if c.FloatPrecision ≤ 0 then
      if !(GoFloat.eq vx vy) then [.diff (mkDiff stack (fmtFloat vx) (fmtFloat vy))]
      else []
    else
      match floatDiffers c vx vy with
      | none => [.fault .nanFloat]
      | some true => [.diff (mkDiff stack (fmtFloat vx) (fmtFloat vy))]
      | some false => []
  | .complex _ rx ix, .complex _ ry iy =>
    if c.FloatPrecision ≤ 0 then
      if !(GoFloat.eq rx ry) ∨ !(GoFloat.eq ix iy) then
        [.diff (mkDiff stack (fmtValue (some xv)) (fmtValue (some yv)))]
      else []
    else
      match floatDiffers c rx ry with
      | none => [.fault .nanFloat]
      | some true => [.diff (mkDiff stack (fmtValue (some xv)) (fmtValue (some yv)))]
      | some false =>
        match floatDiffers c ix iy with
        | none => [.fault .nanFloat]
        | some true => [.diff (mkDiff stack (fmtValue (some xv)) (fmtValue (some yv)))]
        | some false => []
  | .str _ a, .str _ b =>
    if a ≠ b then [.diff (mkDiff stack a b)] else []
  | .word _ _ a, .word _ _ b =>
    if r.isRO then [.fault .readOnly]
    else if a ≠ b then [.diff (mkDiff stack (fmtValue (some xv)) (fmtValue (some yv)))]
    else []
  | _, _ => [.fault .reflectKind]

/-- Events of `deepValueEqual` on two values of read-only bits `r` at the path
`stack`, with neither diff cap nor visited set. -/
def diffTrace (c : Comparer) : Nat → RecT
  | 0, _, _, _, _, _ => [.fault .outOfFuel]
  | fuel + 1, r, x, y, depth, stack =>
    if c.MaxDepth > 0 ∧ depth > c.MaxDepth then []
    else
      match x, y with
      | none, none => []
      | none, some yv => [.diff (mkDiff stack "<nil>" yv.typ.name)]
      | some xv, none => [.diff (mkDiff stack xv.typ.name "<nil>")]
      | some xv, some yv =>
        if xv.typ ≠ yv.typ then [.diff (mkDiff stack xv.typ.name yv.typ.name)]
        else traceSwitch c (diffTrace c fuel) r xv yv depth stack

/-- The outcome of a run that may still record `k` diffs (`k` at least one) on a
sequence of events: it stops at the first fault, or as soon as `k` diffs are
recorded. -/
def scan : Nat → List Item → Except Fault (List Diff)
  | _, [] => .ok []
  | _, .fault f :: _ => .error f
  | k, .diff d :: rest =>
    if k ≤ 1 then .ok [d]
    else
      match scan (k - 1) rest with
      | .ok ds => .ok (d :: ds)
      | .error e => .error e

mutual
/-- Addresses of the addressable reference-bearing values inside a value, in
traversal order; the flag tells whether the value itself is addressable.
Elements of slices and targets of pointers are addressable, values held by
interfaces and maps are not, array elements and struct fields inherit. -/
def Val.locs : Bool → Val → List Nat
  | a, .array _ es => locsList a es
  | a, .slice _ l none => if a then [l] else []
  | a, .slice _ l (some (_, es)) => (if a then [l] else []) ++ locsList true es
  | a, .struct _ fs => locsFields a fs
  | a, .map _ l none => if a then [l] else []
  | a, .map _ l (some (_, es)) => (if a then [l] else []) ++ locsEntries es
  | a, .ptr _ l none => if a then [l] else []
  | a, .ptr _ l (some (_, v)) => (if a then [l] else []) ++ Val.locs true v
  | a, .iface _ l none => if a then [l] else []
  | a, .iface _ l (some v) => (if a then [l] else []) ++ Val.locs false v
  | _, .bool _ _ => []
  | _, .int _ _ => []
  | _, .uint _ _ => []
  | _, .float _ _ => []
  | _, .complex _ _ _ => []
  | _, .str _ _ => []
  | _, .func _ _ => []
  | _, .word _ _ _ => []
/-- Addresses inside the elements of a list. -/
def locsList : Bool → List Val → List Nat
  | _, [] => []
  | a, v :: vs => Val.locs a v ++ locsList a vs
/-- Addresses inside the fields of a struct. -/
def locsFields : Bool → List (StructField × Val) → List Nat
  | _, [] => []
  | a, (_, v) :: fs => Val.locs a v ++ locsFields a fs
/-- Addresses inside the values of a map. -/
def locsEntries : List (Val × Val) → List Nat
  | [] => []
  | (_, v) :: es => Val.locs false v ++ locsEntries es
end

/-- Addresses inside an optional value. -/
def locsOpt (a : Bool) : Option Val → List Nat
  | none => []
  | some v => v.locs a

/-- No key of the list equals `k`, in either direction. -/
def keyFresh (k : Val) : List (Val × Val) → Bool
  | [] => true
  | (k2, _) :: es => !goEq k k2 && !goEq k2 k && keyFresh k es

/-- The keys of the entries are pairwise different. -/
def keysDistinct : List (Val × Val) → Bool
  | [] => true
  | (k, _) :: es => keyFresh k es && keysDistinct es

mutual
/-- Every map inside the value (not looking into keys) has pairwise different
keys, as every Go map has. -/
def Val.mapsOk : Val → Bool
  | .array _ es => mapsOkList es
  | .slice _ _ none => true
  | .slice _ _ (some (_, es)) => mapsOkList es
  | .struct _ fs => mapsOkFields fs
  | .map _ _ none => true
  | .map _ _ (some (_, es)) => keysDistinct es && mapsOkEntries es
  | .ptr _ _ none => true
  | .ptr _ _ (some (_, v)) => Val.mapsOk v
  | .iface _ _ none => true
  | .iface _ _ (some v) => Val.mapsOk v
  | .bool _ _ => true
  | .int _ _ => true
  | .uint _ _ => true
  | .float _ _ => true
  | .complex _ _ _ => true
  | .str _ _ => true
  | .func _ _ => true
  | .word _ _ _ => true
/-- The maps inside the elements of a list are well formed. -/
def mapsOkList : List Val → Bool
  | [] => true
  | v :: vs => Val.mapsOk v && mapsOkList vs
/-- The maps inside the fields of a struct are well formed. -/
def mapsOkFields : List (StructField × Val) → Bool
  | [] => true
  | (_, v) :: fs => Val.mapsOk v && mapsOkFields fs
/-- The maps inside the values of a map are well formed. -/
def mapsOkEntries : List (Val × Val) → Bool
  | [] => true
  | (_, v) :: es => Val.mapsOk v && mapsOkEntries es
end

/-- The addresses recorded in a visited set. -/
def footprint : List visit → List Nat
  | [] => []
  | v :: vs => v.a1 :: v.a2 :: footprint vs

/-! ## Relations used in the proofs -/

/-- A recursive call that keeps the number of diffs within the cap. -/
def RecCap (c : Comparer) (rec : Rec) : Prop :=
  ∀ x y d s b s', rec x y d s = .ok (b, s') →
    (s.result.length : Int) < c.MaxDiffs → (s'.result.length : Int) ≤ c.MaxDiffs

/-- The addresses `lx` are pairwise different and occur neither in the visited
set nor among `ly`. -/
def FreshL (lx ly : List Nat) (V : List visit) : Prop :=
  lx.Nodup ∧ ∀ a ∈ lx, a ∉ footprint V ∧ a ∉ ly

/-- The outcome `o` of a run started in state `s` is the one `scan` reads off the
events `items`: the same fault, or the diffs appended to the result, the stack
restored, and a visited set grown only by addresses of `L`. -/
def Agree (c : Comparer) (s : compareState) (items : List Item) (L : List Nat)
    (o : Outcome) : Prop :=
  match scan (c.MaxDiffs - s.result.length).toNat items with
  | .error f => o = .error f
  | .ok ds => ∃ b V, o = .ok (b, ⟨s.result ++ ds, s.stack, V⟩) ∧
      ∀ a ∈ footprint V, a ∈ footprint s.visited ∨ a ∈ L

/-- The maps of an optional value are well formed. -/
def mapsOkOpt : Option Val → Bool
  | none => true
  | some v => v.mapsOk

/-- A recursive call whose outcomes are those read off the events of `recT`,
on operands with fresh storage. -/
def RecAgree (c : Comparer) (rec : Rec) (recT : RecT) : Prop :=
  ∀ (x y : Value) (d : Int) (s : compareState),
    (s.result.length : Int) < c.MaxDiffs →
    FreshL (locsOpt x.flag.addr x.v) (locsOpt y.flag.addr y.v) s.visited →
    mapsOkOpt x.v = true → y.flag.ro = x.flag.ro →
    Agree c s (recT x.flag.ro x.v y.v d s.stack)
      (locsOpt x.flag.addr x.v ++ locsOpt y.flag.addr y.v) (rec x y d s)

/-- Every entry of `es` is either not found in `xes` under its own key (a key
that differs from itself) or found with its own value. -/
def Own (xes es : List (Val × Val)) : Prop :=
  ∀ e ∈ es, mapIndex xes e.1 = none ∨ mapIndex xes e.1 = some e.2

/-- The addresses inside a value other than its own. -/
def Val.innerLocs : Bool → Val → List Nat
  | a, .array _ es => locsList a es
  | _, .slice _ _ hdr => locsList true (elemsOf hdr)
  | a, .struct _ fs => locsFields a fs
  | _, .map _ _ hdr => locsEntries (elemsOf hdr)
  | _, .ptr _ _ tgt => locsOpt true (tgt.map Prod.snd)
  | _, .iface _ _ dyn => locsOpt false dyn
  | _, _ => []

/-! ## What the spec says about integer arrays and maps -/

/-- The diffs the spec lists for two integer arrays, from index `i` on: one for
each index where the elements differ, with path `array[i]` and the decimal
renderings of the two elements. -/
def intArrayDiffs : Nat → List Int → List Int → List Diff
  | i, x :: xs, y :: ys =>
    (if x ≠ y then [⟨toString x, toString y, "array[" ++ toString i ++ "]"⟩] else [])
      ++ intArrayDiffs (i + 1) xs ys
  | _, _, _ => []

/-- The path of the diff at key `k` of a map with integer keys. -/
def mapPath (k : Int) : String := "map[" ++ toString k ++ "]"

/-- The diffs the spec lists for the keys of the left map, in order: a key the
right map lacks gives the left value against "<no key>", a common key with
different values gives both values. -/
def mapDiffsLeft (ys : List (Int × String)) : List (Int × String) → List Diff
  | [] => []
  | (k, v) :: xs =>
    (match ys.lookup k with
     | none => [⟨v, "<no key>", mapPath k⟩]
     | some w => if v ≠ w then [⟨v, w, mapPath k⟩] else [])
      ++ mapDiffsLeft ys xs

/-- The diffs the spec lists for the keys of the right map that the left map
lacks: "<no key>" against the right value. -/
def mapDiffsRight (xs : List (Int × String)) : List (Int × String) → List Diff
  | [] => []
  | (k, w) :: ys =>
    (if (xs.lookup k).isSome then [] else [⟨"<no key>", w, mapPath k⟩])
      ++ mapDiffsRight xs ys

/-- All diffs of two maps from integers to strings. -/
def mapDiffs (xs ys : List (Int × String)) : List Diff :=
  mapDiffsLeft ys xs ++ mapDiffsRight xs ys

/-- Number of keys of `xs` that `ys` lacks. -/
def keysOnlyIn (xs ys : List (Int × String)) : Nat :=
  (xs.filter (fun e => (ys.lookup e.1).isNone)).length

/-- Number of keys of `xs` that `ys` has with a different value. -/
def keysDiffering (xs ys : List (Int × String)) : Nat :=
  (xs.filter (fun e =>
    match ys.lookup e.1 with
    | some w => decide (e.2 ≠ w)
    | none => false)).length

/-- Size of an optional value (zero when absent). -/
def sizeOpt : Option Val → Nat
  | none => 0
  | some v => v.size

/-! ## Structural equality and the operands of the contract -/

/-- Every key of `yes` is a key of `xes`. -/
def keysIn (xes yes : List (Val × Val)) : Bool :=
  yes.all (fun e => (mapIndex xes e.1).isSome)

mutual
/-- Two values are deeply equal: same type and kind; scalars equal; arrays,
slices and structs of the same length with deeply equal elements; slices,
maps, pointers and interfaces both nil or both non-nil; pointers and
interfaces with deeply equal contents; maps with the same keys (matched by Go
equality) and deeply equal values under them; functions only when both are
nil.  Addresses play no part. -/
def deepEq : Val → Val → Bool
  | .bool t a, .bool u b => t == u && a == b
  | .int t a, .int u b => t == u && a == b
  | .uint t a, .uint u b => t == u && a == b
  | .str t a, .str u b => t == u && a == b
  | .float t a, .float u b => t == u && GoFloat.eq a b
  | .complex t a a2, .complex u b b2 => t == u && GoFloat.eq a b && GoFloat.eq a2 b2
  | .func t a, .func u b => t == u && a == 0 && b == 0
  | .word t k a, .word u k2 b => t == u && k == k2 && a == b
  | .array t xs, .array u ys => t == u && deepEqList xs ys
  | .slice t _ none, .slice u _ none => t == u
  | .slice t _ (some (_, xs)), .slice u _ (some (_, ys)) => t == u && deepEqList xs ys
  | .struct t xs, .struct u ys => t == u && deepEqFields xs ys
  | .map t _ none, .map u _ none => t == u
  | .map t _ (some (_, xes)), .map u _ (some (_, yes)) =>
    t == u && deepEqEntries yes xes && keysIn xes yes
  | .ptr t _ none, .ptr u _ none => t == u
  | .ptr t _ (some (_, v)), .ptr u _ (some (_, w)) => t == u && deepEq v w
  | .iface t _ none, .iface u _ none => t == u
  | .iface t _ (some v), .iface u _ (some w) => t == u && deepEq v w
  | _, _ => false
/-- Two lists have the same length and deeply equal elements. -/
def deepEqList : List Val → List Val → Bool
  | [], [] => true
  | x :: xs, y :: ys => deepEq x y && deepEqList xs ys
  | _, _ => false
/-- Two structs have the same fields with deeply equal values. -/
def deepEqFields : List (StructField × Val) → List (StructField × Val) → Bool
  | [], [] => true
  | (f, x) :: xs, (g, y) :: ys => f == g && deepEq x y && deepEqFields xs ys
  | _, _ => false
/-- Every entry of the second list has its key in `yes`, with a deeply equal
value. -/
def deepEqEntries (yes : List (Val × Val)) : List (Val × Val) → Bool
  | [] => true
  | (k, v) :: es =>
    (match mapIndex yes k with
     | some w => deepEq v w
     | none => false) && deepEqEntries yes es
end

mutual
/-- The value is built only from booleans, integers, strings, arrays, slices,
structs, maps, pointers and interfaces. -/
def Val.plain : Val → Bool
  | .bool _ _ => true
  | .int _ _ => true
  | .uint _ _ => true
  | .str _ _ => true
  | .float _ _ => false
  | .complex _ _ _ => false
  | .func _ _ => false
  | .word _ _ _ => false
  | .array _ es => plainList es
  | .slice _ _ none => true
  | .slice _ _ (some (_, es)) => plainList es
  | .struct _ fs => plainFields fs
  | .map _ _ none => true
  | .map _ _ (some (_, es)) => plainEntries es
  | .ptr _ _ none => true
  | .ptr _ _ (some (_, v)) => Val.plain v
  | .iface _ _ none => true
  | .iface _ _ (some v) => Val.plain v
/-- The elements of a list are plain. -/
def plainList : List Val → Bool
  | [] => true
  | v :: vs => Val.plain v && plainList vs
/-- The fields of a struct are plain. -/
def plainFields : List (StructField × Val) → Bool
  | [] => true
  | (_, v) :: fs => Val.plain v && plainFields fs
/-- The keys and values of a map are plain. -/
def plainEntries : List (Val × Val) → Bool
  | [] => true
  | (k, v) :: es => Val.plain k && Val.plain v && plainEntries es
end

mutual
/-- The addresses held by the non-nil slices, maps and pointers inside a value
(not looking into map keys).  The address of an empty slice, which holds no
storage, is listed only when `all` is set. -/
def Val.refs (all : Bool) : Val → List Nat
  | .array _ es => refsList all es
  | .slice _ _ none => []
  | .slice _ _ (some (a, es)) => (if all || !es.isEmpty then [a] else []) ++ refsList all es
  | .struct _ fs => refsFields all fs
  | .map _ _ none => []
  | .map _ _ (some (a, es)) => a :: refsEntries all es
  | .ptr _ _ none => []
  | .ptr _ _ (some (a, v)) => a :: Val.refs all v
  | .iface _ _ none => []
  | .iface _ _ (some v) => Val.refs all v
  | .bool _ _ => []
  | .int _ _ => []
  | .uint _ _ => []
  | .float _ _ => []
  | .complex _ _ _ => []
  | .str _ _ => []
  | .func _ _ => []
  | .word _ _ _ => []
/-- Addresses held inside the elements of a list. -/
def refsList (all : Bool) : List Val → List Nat
  | [] => []
  | v :: vs => Val.refs all v ++ refsList all vs
/-- Addresses held inside the fields of a struct. -/
def refsFields (all : Bool) : List (StructField × Val) → List Nat
  | [] => []
  | (_, v) :: fs => Val.refs all v ++ refsFields all fs
/-- Addresses held inside the values of a map. -/
def refsEntries (all : Bool) : List (Val × Val) → List Nat
  | [] => []
  | (_, v) :: es => Val.refs all v ++ refsEntries all es
end

/-- Separation of two families of addresses: no address holding storage on one
side occurs on the other side, and none of them is the nil address. -/
def SepL (rx ax ry ay : List Nat) : Prop :=
  (∀ a ∈ rx, a ∉ ay) ∧ (∀ a ∈ ry, a ∉ ax) ∧ 0 ∉ rx ∧ 0 ∉ ry

/-- The two operands share no storage: no address of an addressable
reference-bearing value occurs twice, and no address holding storage on one
side is held on the other side. -/
def NoShare (x y : Val) : Prop :=
  (x.locs false ++ y.locs false).Nodup ∧
  SepL (x.refs false) (x.refs true) (y.refs false) (y.refs true)

/-! ## Values of the symmetry counterexample

Two maps of type `map[int]interface{}`.  In each, the value under key 1 is a
pointer of type `**[1]int` and the value under key 2 is an array holding the
same pointer, so that the variable of type `*[1]int` it points to is reached
twice, at two depths.  The left map is iterated in the order 1, 2 and the right
one in the order 2, 1. -/

/-- The variable of type `*[1]int` stored at address `here`, pointing to the
array `[1]int{n}` stored at address `target`. -/
def ptrVar (here target : Nat) (n : Int) : Val :=
  .ptr "*[1]int" here (some (target, .array "[1]int" [vInt n]))

/-- A pointer of type `**[1]int` to the variable at address `here`. -/
def ptrPtr (here target : Nat) (n : Int) : Val :=
  .ptr "**[1]int" 0 (some (here, ptrVar here target n))

/-- The left map of the counterexample, iterated in the order 1, 2. -/
def sharedLeft : Val :=
  .map "map[int]interface {}" 0 (some (1000,
    [(vInt 1, .iface "interface {}" 0 (some (ptrPtr 200 100 1))),
     (vInt 2, .iface "interface {}" 0 (some (.array "[1]**[1]int" [ptrPtr 200 100 1])))]))

/-- The right map of the counterexample, iterated in the order 2, 1. -/
def sharedRight : Val :=
  .map "map[int]interface {}" 0 (some (2000,
    [(vInt 2, .iface "interface {}" 0 (some (.array "[1]**[1]int" [ptrPtr 400 300 2]))),
     (vInt 1, .iface "interface {}" 0 (some (ptrPtr 400 300 2)))]))

/-! ## Runs that return -/

mutual
/-- No complex number inside the value (not looking into map keys) has a NaN
part. -/
def Val.complexOk : Val → Bool
  | .complex _ re im => !re.isNaN && !im.isNaN
  | .array _ es => complexOkList es
  | .slice _ _ none => true
  | .slice _ _ (some (_, es)) => complexOkList es
  | .struct _ fs => complexOkFields fs
  | .map _ _ none => true
  | .map _ _ (some (_, es)) => complexOkEntries es
  | .ptr _ _ none => true
  | .ptr _ _ (some (_, v)) => Val.complexOk v
  | .iface _ _ none => true
  | .iface _ _ (some v) => Val.complexOk v
  | .bool _ _ => true
  | .int _ _ => true
  | .uint _ _ => true
  | .float _ _ => true
  | .str _ _ => true
  | .func _ _ => true
  | .word _ _ _ => true
/-- The complex numbers inside the elements of a list have no NaN part. -/
def complexOkList : List Val → Bool
  | [] => true
  | v :: vs => Val.complexOk v && complexOkList vs
/-- The complex numbers inside the fields of a struct have no NaN part. -/
def complexOkFields : List (StructField × Val) → Bool
  | [] => true
  | (_, v) :: fs => Val.complexOk v && complexOkFields fs
/-- The complex numbers inside the values of a map have no NaN part. -/
def complexOkEntries : List (Val × Val) → Bool
  | [] => true
  | (_, v) :: es => Val.complexOk v && complexOkEntries es
end

/-- The complex numbers inside an optional value have no NaN part. -/
def complexOkOpt : Option Val → Bool
  | none => true
  | some v => v.complexOk

mutual
/-- No struct inside the value (not looking into map keys) has an unexported
field. -/
def Val.exported : Val → Bool
  | .array _ es => exportedList es
  | .slice _ _ none => true
  | .slice _ _ (some (_, es)) => exportedList es
  | .struct _ fs => exportedFields fs
  | .map _ _ none => true
  | .map _ _ (some (_, es)) => exportedEntries es
  | .ptr _ _ none => true
  | .ptr _ _ (some (_, v)) => Val.exported v
  | .iface _ _ none => true
  | .iface _ _ (some v) => Val.exported v
  | .bool _ _ => true
  | .int _ _ => true
  | .uint _ _ => true
  | .float _ _ => true
  | .complex _ _ _ => true
  | .str _ _ => true
  | .func _ _ => true
  | .word _ _ _ => true
/-- The structs inside the elements of a list have exported fields only. -/
def exportedList : List Val → Bool
  | [] => true
  | v :: vs => Val.exported v && exportedList vs
/-- The fields are exported, and so are those of the structs inside them. -/
def exportedFields : List (StructField × Val) → Bool
  | [] => true
  | (f, v) :: fs => f.PkgPath == "" && Val.exported v && exportedFields fs
/-- The structs inside the values of a map have exported fields only. -/
def exportedEntries : List (Val × Val) → Bool
  | [] => true
  | (_, v) :: es => Val.exported v && exportedEntries es
end

/-- The structs inside an optional value have exported fields only. -/
def exportedOpt : Option Val → Bool
  | none => true
  | some v => v.exported

/-- No `append` of a comparison of `x` with `y` meets a read-only operand: the
two values are not read-only, and no unexported field is entered. -/
def RoSafe (c : Comparer) (x y : Value) : Prop :=
  x.flag.ro.isRO = false ∧ y.flag.ro.isRO = false ∧
  (c.CompareUnexportedFields = false ∨ exportedOpt x.v = true)

/-- The outcome `o` of a run started in state `s` is a result that leaves the
stack as it found it, or the panic of `SetFloat64` on NaN, only when `g1` fails,
or the panic of `Interface` on a read-only value, only when `g2` fails. -/
def Ret (s : compareState) (g1 g2 : Prop) (o : Outcome) : Prop :=
  match o with
  | .ok (_, s') => s'.stack = s.stack
  | .error e => (e = .nanFloat ∧ ¬ g1) ∨ (e = .readOnly ∧ ¬ g2)

/-! ## What the spec says about integer slices -/

/-- The diffs the spec lists for the indices beyond the length of the shorter
slice, from index `i` on: "<no value>" on the side of the shorter slice (the
right side when `left` is set) against the element of the longer one. -/
def intSliceRest (left : Bool) : Nat → List Int → List Diff
  | _, [] => []
  | i, v :: vs =>
    (if left then ⟨toString v, "<no value>", "slice[" ++ toString i ++ "]"⟩
      else ⟨"<no value>", toString v, "slice[" ++ toString i ++ "]"⟩)
      :: intSliceRest left (i + 1) vs

/-- The diffs the spec lists for two integer slices, from index `i` on: one for
each common index where the elements differ, then one for each index beyond the
shorter length; each at path `slice[i]`. -/
def intSliceDiffs : Nat → List Int → List Int → List Diff
  | i, [], ys => intSliceRest false i ys
  | i, x :: xs, [] => intSliceRest true i (x :: xs)
  | i, x :: xs, y :: ys =>
    (if x ≠ y then [⟨toString x, toString y, "slice[" ++ toString i ++ "]"⟩] else [])
      ++ intSliceDiffs (i + 1) xs ys

/-! ## Scalars and structs of scalars -/

/-- The value is a boolean, an integer or a string. -/
def Val.scalar : Val → Bool
  | .bool _ _ => true
  | .int _ _ => true
  | .uint _ _ => true
  | .str _ _ => true
  | _ => false

/-- Two scalars of one kind hold different values. -/
def scalarNe : Val → Val → Bool
  | .bool _ a, .bool _ b => a != b
  | .int _ a, .int _ b => a != b
  | .uint _ a, .uint _ b => a != b
  | .str _ a, .str _ b => a != b
  | _, _ => false

/-- The diff the spec lists for two scalars at the path `path`: none when they
hold the same value. -/
def scalarDiffs (path : String) (x y : Val) : List Diff :=
  if scalarNe x y then [⟨fmtV 0 x, fmtV 0 y, path⟩] else []

/-- The two field lists declare the same fields, and each field holds two
scalars of one type. -/
def scalarFields : List (StructField × Val) → List (StructField × Val) → Bool
  | [], [] => true
  | (f, x) :: xs, (g, y) :: ys => f == g && x.scalar && x.typ == y.typ && scalarFields xs ys
  | _, _ => false

/-- The diffs the spec lists for two structs of scalars, in field order: one for
each compared field whose values differ, at path `struct.<Name>`; the
unexported fields are compared only when `cu` is set. -/
def structDiffs (cu : Bool) :
    List (StructField × Val) → List (StructField × Val) → List Diff
  | (f, x) :: xs, (_, y) :: ys =>
    (if !cu && f.PkgPath != "" then [] else scalarDiffs ("struct." ++ f.Name) x y)
      ++ structDiffs cu xs ys
  | _, _ => []

/-- The exported fields of the two structs hold the same values. -/
def exportedAgree : List (StructField × Val) → List (StructField × Val) → Bool
  | (f, x) :: xs, (_, y) :: ys => (f.PkgPath != "" || !scalarNe x y) && exportedAgree xs ys
  | _, _ => true

/-- Number of unexported fields whose values differ. -/
def differingUnexported : List (StructField × Val) → List (StructField × Val) → Nat
  | (f, x) :: xs, (_, y) :: ys =>
    (if f.PkgPath != "" && scalarNe x y then 1 else 0) + differingUnexported xs ys
  | _, _ => 0

/-- The struct `unexported{E: e, u: u}` of the test table. -/
def unexportedVal (e u : Int) : Val :=
  .struct "deep.unexported" [(⟨"E", "", false⟩, vInt e), (⟨"u", "deep", false⟩, vInt u)]

/-! ## Nests: two scalars at one place of two operands

The two operands are described from the root down to the place of the two
scalars: each level names the container met on the way and, for an array, a
slice, a struct or a map, what the container holds on either side besides the
element, field or entry that leads on. -/

/-- One level on the way to a place: an array or slice with the elements before
and after the place on the left (`xpre`, `xpost`) and on the right (`ypre`,
`ypost`), a struct with the fields before and after the field `f`, a map with
the entries before and after the entry under the key `kx` on the left and `ky`
on the right, a pointer, or an interface; `lx`, `ly` are the addresses of the
two variables and `px`, `py` the addresses they refer to. -/
inductive Layer where
  | array (t : String) (xpre ypre xpost ypost : List Val)
  | slice (t : String) (lx ly px py : Nat) (xpre ypre xpost ypost : List Val)
  | struct (t : String) (f : StructField) (xpre ypre xpost ypost : List (StructField × Val))
  | map (t : String) (lx ly px py : Nat) (kx ky : Val) (xpre ypre xpost ypost : List (Val × Val))
  | ptr (t : String) (lx ly px py : Nat)
  | iface (t : String) (lx ly : Nat)

/-- The level around a value of the left operand. -/
def Layer.left : Layer → Val → Val
  | .array t xpre _ xpost _, v => .array t (xpre ++ v :: xpost)
  | .slice t lx _ px _ xpre _ xpost _, v => .slice t lx (some (px, xpre ++ v :: xpost))
  | .struct t f xpre _ xpost _, v => .struct t (xpre ++ (f, v) :: xpost)
  | .map t lx _ px _ kx _ xpre _ xpost _, v => .map t lx (some (px, xpre ++ (kx, v) :: xpost))
  | .ptr t lx _ px _, v => .ptr t lx (some (px, v))
  | .iface t lx _, v => .iface t lx (some v)

/-- The level around a value of the right operand. -/
def Layer.right : Layer → Val → Val
  | .array t _ ypre _ ypost, v => .array t (ypre ++ v :: ypost)
  | .slice t _ ly _ py _ ypre _ ypost, v => .slice t ly (some (py, ypre ++ v :: ypost))
  | .struct t f _ ypre _ ypost, v => .struct t (ypre ++ (f, v) :: ypost)
  | .map t _ ly _ py _ ky _ ypre _ ypost, v => .map t ly (some (py, ypre ++ (ky, v) :: ypost))
  | .ptr t _ ly _ py, v => .ptr t ly (some (py, v))
  | .iface t _ ly, v => .iface t ly (some v)

/-- The left operand: the value under the levels, outermost first. -/
def nestLeft : List Layer → Val → Val
  | [], v => v
  | l :: ls, v => l.left (nestLeft ls v)

/-- The right operand: the value under the levels, outermost first. -/
def nestRight : List Layer → Val → Val
  | [], v => v
  | l :: ls, v => l.right (nestRight ls v)

/-- What a level adds to the nesting depth: one for an array, slice, struct or
map, nothing for a pointer or an interface. -/
def Layer.level : Layer → Nat
  | .ptr _ _ _ _ _ => 0
  | .iface _ _ _ => 0
  | _ => 1

/-- The nesting depth of the place under the levels. -/
def nestDepth : List Layer → Nat
  | [] => 0
  | l :: ls => l.level + nestDepth ls

/-- The path segments of the place under the levels, starting from the stack
`st`. -/
def nestStack (st : List String) : List Layer → List String
  | [] => st
  | .array _ xpre _ _ _ :: ls =>
    nestStack (pushStack st "array" ("[" ++ toString xpre.length ++ "]")) ls
  | .slice _ _ _ _ _ xpre _ _ _ :: ls =>
    nestStack (pushStack st "slice" ("[" ++ toString xpre.length ++ "]")) ls
  | .struct _ f _ _ _ _ :: ls => nestStack (pushStack st "struct" ("." ++ f.Name)) ls
  | .map _ _ _ _ _ kx _ _ _ _ _ :: ls =>
    nestStack (pushStack st "map" ("[" ++ fmtValue (some kx) ++ "]")) ls
  | .ptr _ _ _ _ _ :: ls => nestStack st ls
  | .iface _ _ _ :: ls => nestStack st ls

/-- The level leads the comparison to the place.  The place has the same index
on both sides and the two containers have one type (arrays of one length,
structs with the same fields); two slices that start at the same address have
the same length; a struct field is exported unless unexported fields are
compared; a pointer or a map refers to different storage on the two sides; the
two keys of a map entry are equal, and no other key of either map equals
them. -/
def Layer.entered (c : Comparer) : Layer → Bool
  | .array _ xpre ypre xpost ypost =>
    xpre.length == ypre.length && xpost.length == ypost.length
  | .slice _ _ _ px py xpre ypre xpost ypost =>
    xpre.length == ypre.length && (px != py || xpost.length == ypost.length)
  | .struct _ f xpre ypre xpost ypost =>
    (f.PkgPath == "" || c.CompareUnexportedFields) &&
      xpre.map Prod.fst == ypre.map Prod.fst && xpost.map Prod.fst == ypost.map Prod.fst
  | .map _ _ _ px py kx ky xpre ypre xpost ypost =>
    px != py && goEq kx kx && goEq ky kx &&
      (xpre ++ xpost ++ ypre ++ ypost).all
        (fun e => !goEq e.1 kx && !goEq kx e.1 && !goEq e.1 ky && !goEq ky e.1)
  | .ptr _ _ _ px py => px != py
  | .iface _ _ _ => true

/-- Every level leads the comparison on. -/
def nestEntered (c : Comparer) : List Layer → Bool
  | [] => true
  | l :: ls => l.entered c && nestEntered c ls

/-- Two slices of pointers to structs that hold a slice of integers: both
elements of a slice are the same pointer, so that the field `F` of the struct
it points to is one variable, met under index 0 and again under index 1.  The
integer is 1 on the left and 2 on the right. -/
def twicePointed (data target field elems : Nat) (n : Int) : Val :=
  .slice "[]*deep.S" 0 (some (data,
    [.ptr "*deep.S" data (some (target,
        .struct "deep.S" [(⟨"F", "", false⟩, .slice "[]int" field (some (elems, [vInt n])))])),
     .ptr "*deep.S" (data + 8) (some (target,
        .struct "deep.S" [(⟨"F", "", false⟩, .slice "[]int" field (some (elems, [vInt n])))]))]))

/-! ## Unfoldings of the loops of the test table

A value that refers to itself is seen by the traversal as the tree of what its
references lead to.  The unfoldings below follow the references `n` times and
then hold an arbitrary value `rest`. -/

/-- The variable of type `typeLoop` (a pointer type) at address `here`, which
points to the variable at address `there`, which points back. -/
def typeLoopVar (rest : Val) : Nat → Nat → Nat → Val
  | 0, _, _ => rest
  | n + 1, here, there =>
    .ptr "deep.typeLoop" here (some (there, typeLoopVar rest n there here))

/-- The variable of type `interfaceLoop` at address `here`, which holds a pointer
to the variable at address `there`, which holds a pointer back. -/
def interfaceLoopVar (rest : Val) : Nat → Nat → Nat → Val
  | 0, _, _ => rest
  | n + 1, here, there =>
    .iface "deep.interfaceLoop" here
      (some (.ptr "*deep.interfaceLoop" 0 (some (there, interfaceLoopVar rest n there here))))

/-- A map of type `map[string]M` stored at `data` whose entry under "a" is the
map itself. -/
def selfMap (rest : Val) : Nat → Nat → Val
  | 0, _ => rest
  | n + 1, data => .map "deep.M" 0 (some (data, [(vStr "a", selfMap rest n data)]))

/-- The segments of the path that enters the entry "a" `n` times. -/
def selfPath : Nat → List String → List String
  | 0, st => st
  | n + 1, st => selfPath n (pushStack st "map" ("[" ++ fmtValue (some (vStr "a")) ++ "]"))

/-! ## Floats of the test table -/

/-- The float64 value of the literal 0.123456781. -/
def float0123456781 : GoFloat := .fin false 8895998606527375 (-56)

/-- The float64 value of the literal 0.123456782. -/
def float0123456782 : GoFloat := .fin false 8895998678584969 (-56)

/-- Two floats that are not NaN round to the same value at the precision `p`
(to nearest, ties to even, as `setFloat64` does). -/
def sameRounded (p : Int) (x y : GoFloat) : Bool :=
  match setFloat64 p x, setFloat64 p y with
  | some a, some b => GoFloat.eq a b
  | _, _ => false

/-! ## Events of the map loops, key by key -/

/-- The diffs among the events. -/
def diffsOf : List Item → List Diff
  | [] => []
  | .diff d :: rest => d :: diffsOf rest
  | .fault _ :: rest => diffsOf rest

/-- No event is a fault. -/
def noFault : List Item → Bool
  | [] => true
  | .diff _ :: rest => noFault rest
  | .fault _ :: _ => false

/-- Events of one turn of the first map loop, for the key `k`; `mx` and `my`
are the lookups in the left and in the right map. -/
def keyItems (recT : RecT) (r : RO) (depth : Int) (stack : List String)
    (mx my : Val → Option Val) (k : Val) : List Item :=
  if (my k).isSome then
    recT r.ro (mx k) (my k) (depth + 1) (pushStack stack "map" ("[" ++ fmtValue (some k) ++ "]"))
  else if (mx k).isSome then
    [mkItem r.ro (pushStack stack "map" ("[" ++ fmtValue (some k) ++ "]"))
      (fmtValue (mx k)) "<no key>"]
  else
    [.diff (mkDiff (pushStack stack "map" ("[" ++ fmtValue (some k) ++ "]"))
      "<invalid key>" "<no key>")]

/-- Events of one turn of the second map loop, for the key `k`. -/
def keyItemsRight (r : RO) (stack : List String) (mx my : Val → Option Val) (k : Val) :
    List Item :=
  if (mx k).isSome then []
  else
    [mkItem (if (my k).isSome then r.ro else RO.clear)
      (pushStack stack "map" ("[" ++ fmtValue (some k) ++ "]")) "<no key>" (fmtValue (my k))]

/-! ## Runs under two diff caps -/

/-- A recursive call that only appends to the result. -/
def RecExt (rec : Rec) : Prop :=
  ∀ x y d s b s', rec x y d s = .ok (b, s') → ∃ ds, s'.result = s.result ++ ds

/-- The outcome `o` of a run under the cap `m` against the outcome `o2` of the
same run under a cap that is at least `m`, both started with the stack `st` and
fewer than `m` diffs: when the second returns with fewer than `m` diffs, the
first returns the same, with the stack as it was; when the second returns with
`m` diffs or more, the first returns the first `m` of them, with the stack as
it was. -/
def Sim (m : Nat) (st : List String) (o2 o : Outcome) : Prop :=
  ∀ b2 s2, o2 = .ok (b2, s2) →
    (s2.result.length < m ∧ s2.stack = st ∧ o = .ok (b2, s2)) ∨
    (m ≤ s2.result.length ∧
      ∃ b s1, o = .ok (b, s1) ∧ s1.result = s2.result.take m ∧ s1.stack = st)

/-- Two recursive calls of which the first, under the cap `m`, follows the
second. -/
def RecSim (m : Nat) (rec2 rec : Rec) : Prop :=
  ∀ x y d s, s.result.length < m → Sim m s.stack (rec2 x y d s) (rec x y d s)

/-- The two configurations agree on everything but MaxDiffs. -/
def SameButCap (c c2 : Comparer) : Prop :=
  c2.CompareUnexportedFields = c.CompareUnexportedFields ∧
  c2.FloatPrecision = c.FloatPrecision ∧ c2.MaxDepth = c.MaxDepth ∧
  c2.NilMapsAreEmpty = c.NilMapsAreEmpty ∧ c2.NilSlicesAreEmpty = c.NilSlicesAreEmpty

/-! ## Ties of the rounding -/

/-- The mantissa `q` has more than `p` digits, and the digits beyond the first
`p` are a one followed by zeros: the value lies exactly halfway between two
adjacent values with a mantissa of `p` digits. -/
def tieMant (p q : Nat) : Bool :=
  decide (p < bitLen q q) && q % 2 ^ (bitLen q q - p) == 2 ^ (bitLen q q - p - 1)

/-- The float lies exactly halfway between two adjacent floats of precision
`p`. -/
def GoFloat.tieAt (p : Int) : GoFloat → Bool
  | .fin _ m _ => tieMant p.toNat m
  | _ => false

/-- The float64 value `1 + 2^-21 - 2^-52`. -/
def floatBelowTie : GoFloat := .fin false 4503601774854143 (-52)

/-- The float64 value `1 + 2^-21 + 2^-52`. -/
def floatAboveTie : GoFloat := .fin false 4503601774854145 (-52)

/-! ## Shared storage: what one pair of variables contributes

A comparison enters a pair of addressable variables of a reference-bearing kind
at most once.  `regionSwitch` lists what the comparison of two values at a
depth reports and which pairs of variables it meets, each with the depth at
which it is met, before entering any of them. -/

/-- An event of a comparison that stops at every pair of addressable variables
it records in the visited set: a diff reported, or such a pair met. -/
inductive Ev where
  | diff
  | pair (d : Int) (x y : Val)

/-- Number of diffs among the events. -/
def evCount : List Ev → Nat
  | [] => 0
  | .diff :: rest => evCount rest + 1
  | .pair _ _ _ :: rest => evCount rest

/-- The pairs of variables among the events, each with its depth. -/
def evPairs : List Ev → List (Int × Val × Val)
  | [] => []
  | .diff :: rest => evPairs rest
  | .pair d x y :: rest => (d, x, y) :: evPairs rest

/-- The events of a call of `deepValueEqual` at depth `d` on two valid values,
given the events `sub` of the kind switch: none beyond the depth limit, the diff
of the type test, or the pair when both values are addressable (`a`) and of a
kind the visited set records. -/
def nodeEv (c : Comparer) (d : Int) (a : Bool) (x y : Val) (sub : List Ev) : List Ev :=
  if c.MaxDepth > 0 ∧ d > c.MaxDepth then []
  else if x.typ ≠ y.typ then [.diff]
  else if a && hard x.kind then [.pair d x y]
  else sub

/-- One of the nil tests that open the slice and map branches fires. -/
def nilFires (nilIsEmpty xNil yNil : Bool) (xLen yLen : Nat) : Bool :=
  if nilIsEmpty then (xNil && yLen != 0) || (xLen != 0 && yNil)
  else (xNil && !yNil) || (!xNil && yNil)

/-- Events of the second map loop: one diff for each key of the right map that
the left map lacks. -/
def regionRight (xes : List (Val × Val)) : List (Val × Val) → List Ev
  | [] => []
  | (k, _) :: es => (if (mapIndex xes k).isSome then [] else [.diff]) ++ regionRight xes es

mutual
/-- Events of the kind switch at depth `d` on two values of one type; `ax` and
`ay` tell whether the values are addressable.  A panic counts as no event. -/
def regionSwitch (c : Comparer) : Int → Bool → Bool → Val → Val → List Ev
  | d, ax, ay, .array _ xs, y =>
    match y with
    | .array _ ys => regionArray c (d + 1) ax ay xs ys
    | _ => []
  | _, _, _, .slice _ _ none, y =>
    match y with
    | .slice _ _ hy =>
      if nilFires c.NilSlicesAreEmpty true hy.isNone 0 (elemsOf hy).length then [.diff]
      else if 0 = pointerOf hy ∧ 0 ≠ (elemsOf hy).length then []
      else List.replicate (elemsOf hy).length .diff
    | _ => []
  | d, _, _, .slice _ _ (some (p, xs)), y =>
    match y with
    | .slice _ _ hy =>
      if nilFires c.NilSlicesAreEmpty false hy.isNone xs.length (elemsOf hy).length then [.diff]
      else if p = pointerOf hy ∧ xs.length ≠ (elemsOf hy).length then []
      else regionSlice c (d + 1) xs (elemsOf hy)
    | _ => []
  | _, _, _, .iface _ _ none, y =>
    match y with
    | .iface _ _ none => []
    | .iface _ _ (some _) => [.diff]
    | _ => []
  | d, _, _, .iface _ _ (some a), y =>
    match y with
    | .iface _ _ none => [.diff]
    | .iface _ _ (some b) => nodeEv c d false a b (regionSwitch c d false false a b)
    | _ => []
  | _, _, _, .ptr _ _ none, y =>
    match y with
    | .ptr _ _ py => if 0 = pointerOf py then [] else [.diff]
    | _ => []
  | d, _, _, .ptr _ _ (some (p, v)), y =>
    match y with
    | .ptr _ _ none => if p = 0 then [] else [.diff]
    | .ptr _ _ (some (q, w)) =>
      if p = q then [] else nodeEv c d true v w (regionSwitch c d true true v w)
    | _ => []
  | d, ax, ay, .struct _ xs, y =>
    match y with
    | .struct _ ys => regionFields c (d + 1) ax ay xs ys
    | _ => []
  | _, _, _, .map _ _ none, y =>
    match y with
    | .map _ _ hy =>
      if nilFires c.NilMapsAreEmpty true hy.isNone 0 (elemsOf hy).length then [.diff]
      else if 0 = pointerOf hy then []
      else regionRight [] (elemsOf hy)
    | _ => []
  | d, _, _, .map _ _ (some (p, xes)), y =>
    match y with
    | .map _ _ hy =>
      if nilFires c.NilMapsAreEmpty false hy.isNone xes.length (elemsOf hy).length then [.diff]
      else if p = pointerOf hy then []
      else regionEntries c (d + 1) (elemsOf hy) xes ++ regionRight xes (elemsOf hy)
    | _ => []
  | _, _, _, .func _ fx, y =>
    match y with
    | .func _ fy => if fx ≠ 0 ∨ fy ≠ 0 then [.diff] else []
    | _ => []
  | _, _, _, .bool _ a, y =>
    match y with
    | .bool _ b => if a ≠ b then [.diff] else []
    | _ => []
  | _, _, _, .int _ a, y =>
    match y with
    | .int _ b => if a ≠ b then [.diff] else []
    | _ => []
  | _, _, _, .uint _ a, y =>
    match y with
    | .uint _ b => if a ≠ b then [.diff] else []
    | _ => []
  | _, _, _, .float _ vx, y =>
    match y with
    | .float _ vy =>
      if vx.isNaN ∧ vy.isNaN then []
      else if vx.isNaN ∨ vy.isNaN then [.diff]
      else if c.FloatPrecision ≤ 0 then (if !(GoFloat.eq vx vy) then [.diff] else [])
      else if floatDiffers c vx vy = some true then [.diff] else []
    | _ => []
  | _, _, _, .complex _ rx ix, y =>
    match y with
    | .complex _ ry iy =>
      if c.FloatPrecision ≤ 0 then
        (if !(GoFloat.eq rx ry) ∨ !(GoFloat.eq ix iy) then [.diff] else [])
      else if floatDiffers c rx ry = some true then [.diff]
      else if floatDiffers c rx ry = some false ∧ floatDiffers c ix iy = some true then [.diff]
      else []
    | _ => []
  | _, _, _, .str _ a, y =>
    match y with
    | .str _ b => if a ≠ b then [.diff] else []
    | _ => []
  | _, _, _, .word _ _ a, y =>
    match y with
    | .word _ _ b => if a ≠ b then [.diff] else []
    | _ => []
termination_by structural _ _ _ x _ => x
/-- Events of the array loop. -/
def regionArray (c : Comparer) : Int → Bool → Bool → List Val → List Val → List Ev
  | _, _, _, [], _ => []
  | _, _, _, _ :: _, [] => []
  | d, ax, ay, x :: xs, y :: ys =>
    nodeEv c d (ax && ay) x y (regionSwitch c d ax ay x y) ++ regionArray c d ax ay xs ys
termination_by structural _ _ _ xs _ => xs
/-- Events of the slice loop. -/
def regionSlice (c : Comparer) : Int → List Val → List Val → List Ev
  | _, [], ys => List.replicate ys.length .diff
  | d, _ :: xs, [] => .diff :: regionSlice c d xs []
  | d, x :: xs, y :: ys =>
    nodeEv c d true x y (regionSwitch c d true true x y) ++ regionSlice c d xs ys
termination_by structural _ xs _ => xs
/-- Events of the struct loop. -/
def regionFields (c : Comparer) :
    Int → Bool → Bool → List (StructField × Val) → List (StructField × Val) → List Ev
  | _, _, _, [], _ => []
  | d, ax, ay, (f, x) :: xs, ys =>
    if !c.CompareUnexportedFields && f.PkgPath != "" then regionFields c d ax ay xs ys.tail
    else
      match ys with
      | (_, y) :: ys2 =>
        nodeEv c d (ax && ay) x y (regionSwitch c d ax ay x y) ++ regionFields c d ax ay xs ys2
      | [] => []
termination_by structural _ _ _ xs _ => xs
/-- Events of the first map loop over the entries of the left map; `yes` holds
the entries of the right map. -/
def regionEntries (c : Comparer) (d : Int) (yes : List (Val × Val)) :
    List (Val × Val) → List Ev
  | [] => []
  | (k, v) :: es =>
    (match mapIndex yes k with
     | some w => nodeEv c d false v w (regionSwitch c d false false v w)
     | none => [.diff]) ++ regionEntries c d yes es
termination_by structural es => es
end

mutual
/-- The addressable variables of a reference-bearing kind inside a value that
lies at depth `d`, each with the depth at which it lies and the value it holds;
the flag tells whether the value itself is addressable (compare `Val.locs`).
Arrays, slices, structs and maps add one to the depth of what they hold,
pointers and interfaces nothing. -/
def Val.vars : Int → Bool → Val → List (Int × Val)
  | d, a, .array _ es => varsList (d + 1) a es
  | d, a, .slice t l none => if a then [(d, .slice t l none)] else []
  | d, a, .slice t l (some (p, es)) =>
    (if a then [(d, .slice t l (some (p, es)))] else []) ++ varsList (d + 1) true es
  | d, a, .struct _ fs => varsFields (d + 1) a fs
  | d, a, .map t l none => if a then [(d, .map t l none)] else []
  | d, a, .map t l (some (p, es)) =>
    (if a then [(d, .map t l (some (p, es)))] else []) ++ varsEntries (d + 1) es
  | d, a, .ptr t l none => if a then [(d, .ptr t l none)] else []
  | d, a, .ptr t l (some (p, v)) =>
    (if a then [(d, .ptr t l (some (p, v)))] else []) ++ Val.vars d true v
  | d, a, .iface t l none => if a then [(d, .iface t l none)] else []
  | d, a, .iface t l (some v) =>
    (if a then [(d, .iface t l (some v))] else []) ++ Val.vars d false v
  | _, _, .bool _ _ => []
  | _, _, .int _ _ => []
  | _, _, .uint _ _ => []
  | _, _, .float _ _ => []
  | _, _, .complex _ _ _ => []
  | _, _, .str _ _ => []
  | _, _, .func _ _ => []
  | _, _, .word _ _ _ => []
/-- Variables inside the elements of a list. -/
def varsList : Int → Bool → List Val → List (Int × Val)
  | _, _, [] => []
  | d, a, v :: vs => Val.vars d a v ++ varsList d a vs
/-- Variables inside the fields of a struct. -/
def varsFields : Int → Bool → List (StructField × Val) → List (Int × Val)
  | _, _, [] => []
  | d, a, (_, v) :: fs => Val.vars d a v ++ varsFields d a fs
/-- Variables inside the values of a map. -/
def varsEntries : Int → List (Val × Val) → List (Int × Val)
  | _, [] => []
  | d, (_, v) :: es => Val.vars d false v ++ varsEntries d es
end

mutual
/-- Number of levels below a value: one for each array, slice, struct and map
that holds something, nothing for a pointer or an interface. -/
def Val.height : Val → Nat
  | .array _ es => heightList es
  | .slice _ _ none => 0
  | .slice _ _ (some (_, es)) => heightList es
  | .struct _ fs => heightFields fs
  | .map _ _ none => 0
  | .map _ _ (some (_, es)) => heightEntries es
  | .ptr _ _ none => 0
  | .ptr _ _ (some (_, v)) => Val.height v
  | .iface _ _ none => 0
  | .iface _ _ (some v) => Val.height v
  | .bool _ _ => 0
  | .int _ _ => 0
  | .uint _ _ => 0
  | .float _ _ => 0
  | .complex _ _ _ => 0
  | .str _ _ => 0
  | .func _ _ => 0
  | .word _ _ _ => 0
/-- Levels down to the deepest value below the elements of a list. -/
def heightList : List Val → Nat
  | [] => 0
  | v :: vs => max (Val.height v + 1) (heightList vs)
/-- Levels down to the deepest value below the fields of a struct. -/
def heightFields : List (StructField × Val) → Nat
  | [] => 0
  | (_, v) :: fs => max (Val.height v + 1) (heightFields fs)
/-- Levels down to the deepest value below the values of a map. -/
def heightEntries : List (Val × Val) → Nat
  | [] => 0
  | (_, v) :: es => max (Val.height v + 1) (heightEntries es)
end

mutual
/-- The two values are the same value. -/
def Val.same : Val → Val → Bool
  | .bool t a, y =>
    match y with
    | .bool u b => t == u && a == b
    | _ => false
  | .int t a, y =>
    match y with
    | .int u b => t == u && a == b
    | _ => false
  | .uint t a, y =>
    match y with
    | .uint u b => t == u && a == b
    | _ => false
  | .float t a, y =>
    match y with
    | .float u b => t == u && a == b
    | _ => false
  | .complex t a b, y =>
    match y with
    | .complex u a2 b2 => t == u && a == a2 && b == b2
    | _ => false
  | .str t a, y =>
    match y with
    | .str u b => t == u && a == b
    | _ => false
  | .func t a, y =>
    match y with
    | .func u b => t == u && a == b
    | _ => false
  | .word t k a, y =>
    match y with
    | .word u k2 b => t == u && k == k2 && a == b
    | _ => false
  | .array t xs, y =>
    match y with
    | .array u ys => t == u && sameList xs ys
    | _ => false
  | .slice t l none, y =>
    match y with
    | .slice u l2 none => t == u && l == l2
    | _ => false
  | .slice t l (some (p, xs)), y =>
    match y with
    | .slice u l2 (some (q, ys)) => t == u && l == l2 && p == q && sameList xs ys
    | _ => false
  | .struct t xs, y =>
    match y with
    | .struct u ys => t == u && sameFields xs ys
    | _ => false
  | .map t l none, y =>
    match y with
    | .map u l2 none => t == u && l == l2
    | _ => false
  | .map t l (some (p, xs)), y =>
    match y with
    | .map u l2 (some (q, ys)) => t == u && l == l2 && p == q && sameEntries xs ys
    | _ => false
  | .ptr t l none, y =>
    match y with
    | .ptr u l2 none => t == u && l == l2
    | _ => false
  | .ptr t l (some (p, v)), y =>
    match y with
    | .ptr u l2 (some (q, w)) => t == u && l == l2 && p == q && Val.same v w
    | _ => false
  | .iface t l none, y =>
    match y with
    | .iface u l2 none => t == u && l == l2
    | _ => false
  | .iface t l (some v), y =>
    match y with
    | .iface u l2 (some w) => t == u && l == l2 && Val.same v w
    | _ => false
termination_by structural x _ => x
/-- The two lists hold the same values. -/
def sameList : List Val → List Val → Bool
  | [], [] => true
  | x :: xs, y :: ys => Val.same x y && sameList xs ys
  | _, _ => false
termination_by structural xs _ => xs
/-- The two field lists hold the same fields with the same values. -/
def sameFields : List (StructField × Val) → List (StructField × Val) → Bool
  | [], [] => true
  | (f, x) :: xs, (g, y) :: ys => f == g && Val.same x y && sameFields xs ys
  | _, _ => false
termination_by structural xs _ => xs
/-- The two entry lists hold the same keys with the same values. -/
def sameEntries : List (Val × Val) → List (Val × Val) → Bool
  | [], [] => true
  | (k, x) :: xs, (k2, y) :: ys => Val.same k k2 && Val.same x y && sameEntries xs ys
  | _, _ => false
termination_by structural xs _ => xs
end

/-- Two lists of events report the same number of diffs and meet the same pairs
at the same depths, each with its two variables exchanged. -/
def EvSymm (R1 R2 : List Ev) : Prop :=
  evCount R1 = evCount R2 ∧ ∀ d p q, (d, p, q) ∈ evPairs R1 ↔ (d, q, p) ∈ evPairs R2

/-- Two lists of events report the same number of diffs and meet the same pairs
in the same order, whatever the depths. -/
def EvShift (R1 R2 : List Ev) : Prop :=
  evCount R1 = evCount R2 ∧ (evPairs R1).map Prod.snd = (evPairs R2).map Prod.snd

/-! ## The unbounded comparison with its visited set

`vtrace` lists, in traversal order, what a comparison without diff cap reports
and threads the visited set through the traversal: a pair of addressable
variables that was entered before contributes nothing.  It returns the events
together with the visited set the traversal leaves. -/

/-- The type of the recursive call handed to the loops of `vtrace`: the
read-only bits of the two operands, whether both are addressable, the operands,
the depth, the path and the visited set. -/
abbrev RecV :=
  RO → Bool → Option Val → Option Val → Int → List String → List visit → List Item × List visit

/-- The events of one step followed by those of the rest, which starts from the
visited set the step leaves. -/
def seqV (t : List Item × List visit) (next : List visit → List Item × List visit) :
    List Item × List visit :=
  (t.1 ++ (next t.2).1, (next t.2).2)

/-- Events of the array loop; `a` tells whether the elements are addressable. -/
def traceArrayV (recV : RecV) (r : RO) (a : Bool) (depth : Int) (stack : List String) :
    List Val → List Val → Nat → List visit → List Item × List visit
  | [], _, _, V => ([], V)
  | _ :: _, [], _, V => ([.fault .reflectKind], V)
  | xe :: xs, ye :: ys, i, V =>
    seqV (recV r a (some xe) (some ye) (depth + 1)
        (pushStack stack "array" ("[" ++ toString i ++ "]")) V)
      (traceArrayV recV r a depth stack xs ys (i + 1))

/-- Events of the slice loop, whose elements are addressable. -/
def traceSliceV (recV : RecV) (r : RO) (depth : Int) (stack : List String) :
    List Val → List Val → Nat → List visit → List Item × List visit
  | [], ys, i, V => (traceSliceRight r stack ys i, V)
  | xe :: xs, [], i, V =>
    seqV ([mkItem r (pushStack stack "slice" ("[" ++ toString i ++ "]")) (fmtValue (some xe))
        "<no value>"], V)
      (traceSliceV recV r depth stack xs [] (i + 1))
  | xe :: xs, ye :: ys, i, V =>
    seqV (recV r true (some xe) (some ye) (depth + 1)
        (pushStack stack "slice" ("[" ++ toString i ++ "]")) V)
      (traceSliceV recV r depth stack xs ys (i + 1))

/-- Events of the struct loop; `a` tells whether the structs are addressable. -/
def traceStructV (c : Comparer) (recV : RecV) (r : RO) (a : Bool) (depth : Int)
    (stack : List String) :
    List (StructField × Val) → List (StructField × Val) → List visit → List Item × List visit
  | [], _, V => ([], V)
  | (f, xv) :: xs, ys, V =>
    if !c.CompareUnexportedFields && f.PkgPath != "" then
      traceStructV c recV r a depth stack xs ys.tail V
    else
      match ys with
      | (_, yv) :: ys2 =>
        seqV (recV (r.field f) a (some xv) (some yv) (depth + 1)
            (pushStack stack "struct" ("." ++ f.Name)) V)
          (traceStructV c recV r a depth stack xs ys2)
      | [] => ([.fault .reflectKind], V)

/-- Events of one key of the first map loop; the values of a map are not
addressable. -/
def traceKeyV (recV : RecV) (r : RO) (depth : Int) (stack : List String)
    (xes yes : List (Val × Val)) (k : Val) (V : List visit) : List Item × List visit :=
  if (mapIndex yes k).isSome then
    recV r.ro false (mapIndex xes k) (mapIndex yes k) (depth + 1)
      (pushStack stack "map" ("[" ++ fmtValue (some k) ++ "]")) V
  else if (mapIndex xes k).isSome then
    ([mkItem r.ro (pushStack stack "map" ("[" ++ fmtValue (some k) ++ "]"))
      (fmtValue (mapIndex xes k)) "<no key>"], V)
  else
    ([.diff (mkDiff (pushStack stack "map" ("[" ++ fmtValue (some k) ++ "]"))
      "<invalid key>" "<no key>")], V)

/-- Events of the first map loop over the keys given. -/
def traceKeysV (recV : RecV) (r : RO) (depth : Int) (stack : List String)
    (xes yes : List (Val × Val)) : List Val → List visit → List Item × List visit
  | [], V => ([], V)
  | k :: ks, V =>
    seqV (traceKeyV recV r depth stack xes yes k V) (traceKeysV recV r depth stack xes yes ks)

/-- Events of the first map loop, followed by those of the second. -/
def traceMapV (recV : RecV) (r : RO) (depth : Int) (stack : List String)
    (xes yes : List (Val × Val)) : List Val → List visit → List Item × List visit
  | [], V => (traceMapRight r stack xes yes (mapKeys yes), V)
  | k :: ks, V =>
    seqV (traceKeyV recV r depth stack xes yes k V) (traceMapV recV r depth stack xes yes ks)

/-- Events of the kind switch on two valid values of one type, both of read-only
bits `r`; `a` tells whether both are addressable.  The kinds that hold no other
value report what `traceSwitch` reports. -/
def traceSwitchV (c : Comparer) (recV : RecV) (r : RO) (a : Bool) (xv yv : Val) (depth : Int)
    (stack : List String) (V : List visit) : List Item × List visit :=
  match xv, yv with
  | .array _ xs, .array _ ys => traceArrayV recV r.ro a depth stack xs ys 0 V
  | .slice _ _ hx, .slice _ _ hy =>
    match nilDiff c.NilSlicesAreEmpty "<nil slice>" xv yv r hx.isNone hy.isNone
        (elemsOf hx).length (elemsOf hy).length stack with
    | some it => ([it], V)
    | none =>
      if pointerOf hx = pointerOf hy ∧ (elemsOf hx).length ≠ (elemsOf hy).length then ([], V)
      else traceSliceV recV r.ro depth stack (elemsOf hx) (elemsOf hy) 0 V
  | .iface tx _ dx, .iface ty _ dy =>
    match dx, dy with
    | none, none => ([], V)
    | none, some _ => ([mkItem r stack ("<nil " ++ tx ++ ">") (fmtValue (some yv))], V)
    | some _, none => ([mkItem r stack (fmtValue (some xv)) ("<nil " ++ ty ++ ">")], V)
    | some v, some w => recV r.ro false (some v) (some w) depth stack V
  | .ptr _ _ px, .ptr _ _ py =>
    if pointerOf px = pointerOf py then ([], V)
    else recV r (px.isSome && py.isSome) (px.map Prod.snd) (py.map Prod.snd) depth stack V
  | .struct _ xs, .struct _ ys => traceStructV c recV r a depth stack xs ys V
  | .map _ _ hx, .map _ _ hy =>
    match nilDiff c.NilMapsAreEmpty "<nil map>" xv yv r hx.isNone hy.isNone
        (elemsOf hx).length (elemsOf hy).length stack with
    | some it => ([it], V)
    | none =>
      if pointerOf hx = pointerOf hy then ([], V)
      else traceMapV recV r depth stack (elemsOf hx) (elemsOf hy) (mapKeys (elemsOf hx)) V
  | _, _ => (traceSwitch c (fun _ _ _ _ _ => []) r xv yv depth stack, V)

/-- Events of `deepValueEqual` on two values of read-only bits `r` at the path
`stack`, with no diff cap, started with the visited set `V`; `a` tells whether
both values are addressable. -/
def vtrace (c : Comparer) : Nat → RecV
  | 0, _, _, _, _, _, _, V => ([.fault .outOfFuel], V)
  | fuel + 1, r, a, x, y, depth, stack, V =>
    if c.MaxDepth > 0 ∧ depth > c.MaxDepth then ([], V)
    else
      match x, y with
      | none, none => ([], V)
      | none, some yv => ([.diff (mkDiff stack "<nil>" yv.typ.name)], V)
      | some xv, none => ([.diff (mkDiff stack xv.typ.name "<nil>")], V)
      | some xv, some yv =>
        if xv.typ ≠ yv.typ then ([.diff (mkDiff stack xv.typ.name yv.typ.name)], V)
        else if (a && hard xv.kind) = true
            ∧ (⟨min xv.loc yv.loc, max xv.loc yv.loc, xv.typ⟩ : visit) ∈ V then
          ([], V)
        else
          traceSwitchV c (vtrace c fuel) r a xv yv depth stack
            (if a && hard xv.kind then
              ⟨min xv.loc yv.loc, max xv.loc yv.loc, xv.typ⟩ :: V
            else V)

/-- The outcome `o` of a run started in state `s` is the one `scan` reads off the
events of `t`: the same fault, or the diffs appended to the result and the stack
restored; and when the run ends below the cap, it leaves the visited set of
`t`. -/
def AgreeV (c : Comparer) (s : compareState) (t : List Item × List visit) (o : Outcome) : Prop :=
  match scan (c.MaxDiffs - s.result.length).toNat t.1 with
  | .error f => o = .error f
  | .ok ds => ∃ b V, o = .ok (b, ⟨s.result ++ ds, s.stack, V⟩) ∧
      (((s.result ++ ds).length : Int) < c.MaxDiffs → V = t.2)

/-- A recursive trace that adds to the visited set only addresses of variables
inside its operands, and nothing when an operand is missing. -/
def FootV (recV : RecV) : Prop :=
  ∀ (r : RO) (a : Bool) (x y : Option Val) (d : Int) (st : List String) (V : List visit),
    ∀ z ∈ footprint (recV r a x y d st V).2,
      z ∈ footprint V ∨
        (x.isSome = true ∧ y.isSome = true ∧ (z ∈ locsOpt a x ∨ z ∈ locsOpt a y))

/-- A recursive call whose outcomes are those read off the events of `recV`. -/
def RecAgreeV (c : Comparer) (rec : Rec) (recV : RecV) : Prop :=
  ∀ (x y : Value) (d : Int) (s : compareState),
    (s.result.length : Int) < c.MaxDiffs → y.flag.ro = x.flag.ro →
    AgreeV c s (recV x.flag.ro (x.flag.addr && y.flag.addr) x.v y.v d s.stack s.visited)
      (rec x y d s)

/-! ## Places reached for the first time -/

/-- The level is a variable of a kind the visited set records. -/
def Layer.hard : Layer → Bool
  | .array _ _ _ _ _ => false
  | .struct _ _ _ _ _ _ => false
  | _ => true

/-- The addresses of the two variables of a level, left and right. -/
def Layer.addrs : Layer → Nat × Nat
  | .slice _ lx ly _ _ _ _ _ _ => (lx, ly)
  | .map _ lx ly _ _ _ _ _ _ _ _ => (lx, ly)
  | .ptr _ lx ly _ _ => (lx, ly)
  | .iface _ lx ly => (lx, ly)
  | _ => (0, 0)

/-- Whether what a level holds is addressable, given whether the level is:
elements of slices and targets of pointers are, values held by interfaces and
maps are not, array elements and struct fields inherit. -/
def Layer.inner (a : Bool) : Layer → Bool
  | .array _ _ _ _ _ => a
  | .struct _ _ _ _ _ _ => a
  | .slice _ _ _ _ _ _ _ _ _ => true
  | .ptr _ _ _ _ _ => true
  | .map _ _ _ _ _ _ _ _ _ _ _ => false
  | .iface _ _ _ => false

/-- The addresses of the variables that the traversal may pass inside a level
before it goes on towards the place: those inside the elements and fields that
precede, on either side, and for a map, which is searched by key, those inside
every other entry. -/
def Layer.passed (a : Bool) : Layer → List Nat
  | .array _ xpre ypre _ _ => locsList a xpre ++ locsList a ypre
  | .slice _ _ _ _ _ xpre ypre _ _ => locsList true xpre ++ locsList true ypre
  | .struct _ _ xpre ypre _ _ => locsFields a xpre ++ locsFields a ypre
  | .map _ _ _ _ _ _ _ xpre ypre xpost ypost =>
    locsEntries (xpre ++ xpost) ++ locsEntries (ypre ++ ypost)
  | .ptr _ _ _ _ _ => []
  | .iface _ _ _ => []

/-- Every variable on the way to the place is reached for the first time: when
the traversal, having passed the addresses `seen`, comes to a level that is an
addressable variable of a kind the visited set records, the address of the
variable has not been passed on one of the two sides. -/
def nestFirst : Bool → List Nat → List Layer → Bool
  | _, _, [] => true
  | a, seen, l :: ls =>
    (!(a && l.hard) || !(seen.contains l.addrs.1 && seen.contains l.addrs.2)) &&
      nestFirst (l.inner a)
        (seen ++ (if a && l.hard then [l.addrs.1, l.addrs.2] else []) ++ l.passed a) ls

/-! ## Basic facts about the state -/

theorem pop_ok {s s2 : compareState} (h : s.pop = .ok s2) :
    s2.result = s.result ∧ s2.visited = s.visited ∧ s2.stack = s.stack.dropLast ∧ s.stack ≠ [] := by
  unfold compareState.pop at h
  split at h
  · cases h
  · rename_i hne
    injection h with h
    subst h
    refine ⟨rfl, rfl, rfl, ?_⟩
    intro h0
    exact hne (by simp [h0])

theorem popCheck_ok {c : Comparer} {o : Outcome} {next : compareState → Outcome} {b : Bool}
    {s' : compareState} (h : popCheck c o next = .ok (b, s')) :
    ∃ b1 s1 s2, o = .ok (b1, s1) ∧ s1.pop = .ok s2 ∧
      (((s2.result.length : Int) ≥ c.MaxDiffs ∧ b = false ∧ s' = s2) ∨
       (¬ (s2.result.length : Int) ≥ c.MaxDiffs ∧ next s2 = .ok (b, s'))) := by
  unfold popCheck at h
  split at h
  · cases h
  · rename_i b1 s1
    split at h
    · cases h
    · rename_i s2 hp
      refine ⟨b1, s1, s2, rfl, hp, ?_⟩
      split at h
      · rename_i hge
        injection h with h
        injection h with h1 h2
        exact Or.inl ⟨hge, h1.symm, h2.symm⟩
      · rename_i hlt
        exact Or.inr ⟨hlt, h⟩

@[simp] theorem push_result (s : compareState) (v i : String) : (s.push v i).result = s.result := rfl

@[simp] theorem push_visited (s : compareState) (v i : String) :
    (s.push v i).visited = s.visited := rfl

@[simp] theorem push_stack (s : compareState) (v i : String) :
    (s.push v i).stack = pushStack s.stack v i := rfl

@[simp] theorem append_result (s : compareState) (x y : String) :
    (s.append x y).result = s.result ++ [mkDiff s.stack x y] := rfl

@[simp] theorem append_stack (s : compareState) (x y : String) :
    (s.append x y).stack = s.stack := rfl

@[simp] theorem append_visited (s : compareState) (x y : String) :
    (s.append x y).visited = s.visited := rfl

theorem pushStack_ne_nil (st : List String) (v i : String) : pushStack st v i ≠ [] := by
  unfold pushStack; split <;> simp

@[simp] theorem pushStack_dropLast (st : List String) (v i : String) :
    (pushStack st v i).dropLast = st := by
  unfold pushStack; split <;> simp

theorem pop_push (s : compareState) (r : List Diff) (V : List visit) (v i : String) :
    compareState.pop ⟨r, pushStack s.stack v i, V⟩ = .ok ⟨r, s.stack, V⟩ := by
  have h := pushStack_ne_nil s.stack v i
  unfold compareState.pop
  have h2 : ¬ (pushStack s.stack v i).length = 0 := by
    intro h0; exact h (List.length_eq_zero.mp h0)
  simp [h2]

/-! ## Reading outcomes off the events -/

theorem scan_append_error {k : Nat} {a b : List Item} {f : Fault}
    (h : scan k a = .error f) : scan k (a ++ b) = .error f := by
  induction a generalizing k with
  | nil => simp [scan] at h
  | cons it a ih =>
    cases it with
    | fault g => simpa [scan] using h
    | diff d =>
      rw [List.cons_append]
      simp only [scan] at h ⊢
      split at h
      · cases h
      · rename_i hk
        rw [if_neg hk]
        cases hs : scan (k - 1) a with
        | error e =>
          rw [hs] at h
          injection h with h
          subst h
          rw [ih hs]
        | ok ds => rw [hs] at h; cases h

theorem scan_length_le {k : Nat} {a : List Item} {ds : List Diff} (hk : 1 ≤ k)
    (h : scan k a = .ok ds) : ds.length ≤ k := by
  induction a generalizing k ds with
  | nil => simp [scan] at h; subst h; simp
  | cons it a ih =>
    cases it with
    | fault g => simp [scan] at h
    | diff d =>
      simp only [scan] at h
      split at h
      · injection h with h; subst h; simpa using hk
      · rename_i hk1
        cases hs : scan (k - 1) a with
        | error e => rw [hs] at h; cases h
        | ok ds1 =>
          rw [hs] at h
          injection h with h; subst h
          have := ih (by omega) hs
          simp; omega

theorem scan_append_full {k : Nat} {a b : List Item} {ds : List Diff} (hk : 1 ≤ k)
    (h : scan k a = .ok ds) (hl : k ≤ ds.length) : scan k (a ++ b) = .ok ds := by
  induction a generalizing k ds with
  | nil => simp [scan] at h; subst h; simp at hl; omega
  | cons it a ih =>
    cases it with
    | fault g => simp [scan] at h
    | diff d =>
      rw [List.cons_append]
      simp only [scan] at h ⊢
      split at h
      · rename_i hk1
        rw [if_pos hk1]; exact h
      · rename_i hk1
        rw [if_neg hk1]
        cases hs : scan (k - 1) a with
        | error e => rw [hs] at h; cases h
        | ok ds1 =>
          rw [hs] at h
          injection h with h; subst h
          simp at hl
          rw [ih (by omega) hs (by omega)]

theorem scan_append_lt {k : Nat} {a b : List Item} {ds : List Diff}
    (h : scan k a = .ok ds) (hl : ds.length < k) :
    scan k (a ++ b) =
      (match scan (k - ds.length) b with
       | .ok ds2 => .ok (ds ++ ds2)
       | .error e => .error e) := by
  induction a generalizing k ds with
  | nil =>
    simp [scan] at h; subst h
    simp
    cases scan k b <;> rfl
  | cons it a ih =>
    cases it with
    | fault g => simp [scan] at h
    | diff d =>
      rw [List.cons_append]
      simp only [scan] at h ⊢
      split at h
      · rename_i hk1
        injection h with h; subst h
        simp at hl; omega
      · rename_i hk1
        rw [if_neg hk1]
        cases hs : scan (k - 1) a with
        | error e => rw [hs] at h; cases h
        | ok ds1 =>
          rw [hs] at h
          injection h with h; subst h
          simp at hl
          rw [ih hs (by omega)]
          have e : k - 1 - ds1.length = k - (d :: ds1).length := by simp; omega
          rw [e]
          cases scan (k - (d :: ds1).length) b <;> rfl

theorem agree_intro_ok {c : Comparer} {s : compareState} {items : List Item} {L : List Nat}
    {o : Outcome} (ds : List Diff) (b : Bool) (V : List visit)
    (hs : scan (c.MaxDiffs - s.result.length).toNat items = .ok ds)
    (ho : o = .ok (b, ⟨s.result ++ ds, s.stack, V⟩))
    (hV : ∀ a ∈ footprint V, a ∈ footprint s.visited ∨ a ∈ L) : Agree c s items L o := by
  unfold Agree; rw [hs]; exact ⟨b, V, ho, hV⟩

theorem agree_intro_error {c : Comparer} {s : compareState} {items : List Item} {L : List Nat}
    {o : Outcome} {f : Fault}
    (hs : scan (c.MaxDiffs - s.result.length).toNat items = .error f)
    (ho : o = .error f) : Agree c s items L o := by
  unfold Agree; rw [hs]; exact ho

theorem agree_mono {c : Comparer} {s : compareState} {items : List Item} {L L2 : List Nat}
    {o : Outcome} (h : Agree c s items L o) (hL : ∀ a ∈ L, a ∈ L2) : Agree c s items L2 o := by
  unfold Agree at h ⊢
  cases hs : scan (c.MaxDiffs - s.result.length).toNat items with
  | error f => rw [hs] at h; exact h
  | ok ds =>
    rw [hs] at h
    obtain ⟨b, V, ho, hV⟩ := h
    exact ⟨b, V, ho, fun a ha => (hV a ha).imp id (hL a)⟩

theorem agree_nil (c : Comparer) (s : compareState) (L : List Nat) (b : Bool) :
    Agree c s [] L (.ok (b, s)) := by
  refine agree_intro_ok [] b s.visited (by simp [scan]) ?_ ?_
  · simp
  · intro a ha; exact Or.inl ha

theorem agree_diff (c : Comparer) (s : compareState) (L : List Nat) (b : Bool) (l r : String) :
    Agree c s [.diff (mkDiff s.stack l r)] L (.ok (b, s.append l r)) := by
  refine agree_intro_ok [mkDiff s.stack l r] b s.visited ?_ ?_ ?_
  · simp only [scan]
    split
    · rfl
    · rfl
  · rfl
  · intro a ha; exact Or.inl ha

theorem agree_fault (c : Comparer) (s : compareState) (L : List Nat) (f : Fault) :
    Agree c s [.fault f] L (.error f) :=
  agree_intro_error (by simp [scan]) rfl

/-- Sequencing: the body of a loop iteration followed by the rest of the loop. -/
theorem popCheck_agree {c : Comparer} {s : compareState} (v i : String)
    {items1 items2 : List Item} (L1 L2 : List Nat) {L : List Nat} {o : Outcome}
    {next : compareState → Outcome}
    (hl : (s.result.length : Int) < c.MaxDiffs)
    (h1 : Agree c (s.push v i) items1 L1 o)
    (h2 : ∀ s2 : compareState, s2.stack = s.stack → (s2.result.length : Int) < c.MaxDiffs →
      (∃ ds, s2.result = s.result ++ ds ∧
        scan (c.MaxDiffs - s.result.length).toNat items1 = .ok ds) →
      (∀ a ∈ footprint s2.visited, a ∈ footprint s.visited ∨ a ∈ L1) →
      Agree c s2 items2 L2 (next s2))
    (hL1 : ∀ a ∈ L1, a ∈ L) (hL2 : ∀ a ∈ L2, a ∈ L) :
    Agree c s (items1 ++ items2) L (popCheck c o next) := by
  unfold Agree at h1
  simp only [push_result] at h1
  cases hs : scan (c.MaxDiffs - s.result.length).toNat items1 with
  | error f =>
    rw [hs] at h1
    subst h1
    exact agree_intro_error (scan_append_error hs) rfl
  | ok ds1 =>
    rw [hs] at h1
    obtain ⟨b, V, ho, hV⟩ := h1
    subst ho
    simp only [push_stack, push_visited] at hV
    have hk : 1 ≤ (c.MaxDiffs - s.result.length).toNat := by omega
    have hpop : compareState.pop ⟨s.result ++ ds1, (s.push v i).stack, V⟩
        = .ok ⟨s.result ++ ds1, s.stack, V⟩ := pop_push s _ V v i
    unfold popCheck
    simp only [hpop]
    by_cases hge : ((s.result ++ ds1).length : Int) ≥ c.MaxDiffs
    · rw [if_pos hge]
      refine agree_intro_ok ds1 false V
        (scan_append_full hk hs ?_) rfl ?_
      · simp at hge; omega
      · intro a ha; exact (hV a ha).imp id (hL1 a)
    · rw [if_neg hge]
      have hlt : ds1.length < (c.MaxDiffs - s.result.length).toNat := by
        simp at hge; omega
      have h2' := h2 ⟨s.result ++ ds1, s.stack, V⟩ rfl (by simpa using hge) ⟨ds1, rfl, hs⟩ hV
      unfold Agree at h2' ⊢
      rw [scan_append_lt hs hlt]
      have e : (c.MaxDiffs - ((s.result ++ ds1).length : Nat)).toNat
          = (c.MaxDiffs - s.result.length).toNat - ds1.length := by
        simp; omega
      simp only [] at h2'
      rw [e] at h2'
      cases hs2 : scan ((c.MaxDiffs - s.result.length).toNat - ds1.length) items2 with
      | error f => rw [hs2] at h2'; simpa using h2'
      | ok ds2 =>
        rw [hs2] at h2'
        obtain ⟨b2, V2, ho2, hV2⟩ := h2'
        refine ⟨b2, V2, ?_, ?_⟩
        · simp only [ho2, List.append_assoc]
        · intro a ha
          rcases hV2 a ha with h | h
          · exact (hV a h).imp id (hL1 a)
          · exact Or.inr (hL2 a h)

/-! ## Fresh storage -/

theorem freshL_nil (ly : List Nat) (V : List visit) : FreshL [] ly V :=
  ⟨List.nodup_nil, fun _ h => absurd h (List.not_mem_nil _)⟩

theorem freshL_append {a b ly : List Nat} {V : List visit} (h : FreshL (a ++ b) ly V) :
    FreshL a ly V ∧ FreshL b ly V ∧ ∀ z ∈ b, z ∉ a := by
  obtain ⟨hn, hf⟩ := h
  rw [List.nodup_append] at hn
  refine ⟨⟨hn.1, fun z hz => hf z (List.mem_append_left _ hz)⟩,
    ⟨hn.2.1, fun z hz => hf z (List.mem_append_right _ hz)⟩, ?_⟩
  intro z hzb hza
  exact hn.2.2 hza hzb

theorem freshL_sub {lx ly ly2 : List Nat} {V : List visit} (h : FreshL lx ly V)
    (hs : ∀ z ∈ ly2, z ∈ ly) : FreshL lx ly2 V :=
  ⟨h.1, fun z hz => ⟨(h.2 z hz).1, fun h2 => (h.2 z hz).2 (hs z h2)⟩⟩

theorem freshL_grow {lx ly L1 : List Nat} {V V2 : List visit} (h : FreshL lx ly V)
    (hV : ∀ z ∈ footprint V2, z ∈ footprint V ∨ z ∈ L1) (hd : ∀ z ∈ lx, z ∉ L1) :
    FreshL lx ly V2 :=
  ⟨h.1, fun z hz => ⟨fun h2 => (hV z h2).elim (h.2 z hz).1 (hd z hz), (h.2 z hz).2⟩⟩

/-! ## The loops agree with their events -/

@[simp] theorem RO.join_ro_ro (r : RO) : (r.join r.ro).ro = r.ro := by
  obtain ⟨a, b⟩ := r; cases a <;> cases b <;> rfl

@[simp] theorem RO.join_self (r : RO) : r.join r = r := by
  obtain ⟨a, b⟩ := r; cases a <;> cases b <;> rfl

theorem agree_appendV (c : Comparer) (s : compareState) (L : List Nat) (r : RO)
    (x y : String) : Agree c s [mkItem r s.stack x y] L (s.appendV r x y) := by
  unfold mkItem compareState.appendV
  split
  · exact agree_fault c s _ _
  · exact agree_diff c s _ false _ _

theorem arrayLoop_agree {c : Comparer} {rec : Rec} {recT : RecT} (hrec : RecAgree c rec recT)
    (xa ya : Flag) (hro : ya.ro = xa.ro) (d : Int) :
    ∀ (xs ys : List Val) (i : Nat) (s : compareState),
      (s.result.length : Int) < c.MaxDiffs →
      FreshL (locsList xa.addr xs) (locsList ya.addr ys) s.visited →
      mapsOkList xs = true →
      Agree c s (traceArray recT xa.ro d s.stack xs ys i)
        (locsList xa.addr xs ++ locsList ya.addr ys)
        (arrayLoop c rec xa ya d xs ys i s) := by
  intro xs
  induction xs with
  | nil =>
    intro ys i s hl hf hm
    simp only [arrayLoop, traceArray]
    exact agree_nil c s _ true
  | cons xe xs ih =>
    intro ys i s hl hf hm
    cases ys with
    | nil =>
      simp only [arrayLoop, traceArray]
      exact agree_fault c s _ _
    | cons ye ys =>
      simp only [arrayLoop, traceArray]
      simp only [locsList] at hf
      simp only [mapsOkList, Bool.and_eq_true] at hm
      obtain ⟨hf1, hf2, hdis⟩ := freshL_append hf
      refine popCheck_agree "array" ("[" ++ toString i ++ "]") (Val.locs xa.addr xe ++ Val.locs ya.addr ye)
        (locsList xa.addr xs ++ locsList ya.addr ys) hl ?_ ?_ ?_ ?_
      · have := hrec ⟨some xe, xa⟩ ⟨some ye, ya⟩ (d + 1)
          (s.push "array" ("[" ++ toString i ++ "]")) (by simpa using hl)
          (freshL_sub hf1 (by intro z hz; simp [locsOpt] at hz; simp [hz])) hm.1 hro
        simpa [locsOpt] using this
      · intro s2 hst hl2 _ hV
        have := ih ys (i + 1) s2 hl2
          (freshL_grow (freshL_sub hf2 (by intro z hz; simp [hz])) hV (by
            intro z hz hz1
            rcases List.mem_append.mp hz1 with h | h
            · exact hdis z hz h
            · exact (hf2.2 z hz).2 (by simp [h]))) hm.2
        rw [hst] at this
        exact this
      · intro z hz; simp only [locsList, List.mem_append] at hz ⊢; tauto
      · intro z hz; simp only [locsList, List.mem_append] at hz ⊢; tauto

theorem sliceLoopRight_agree {c : Comparer} (L : List Nat) (ya : Flag) :
    ∀ (ys : List Val) (i : Nat) (s : compareState),
      (s.result.length : Int) < c.MaxDiffs →
      Agree c s (traceSliceRight ya.ro s.stack ys i) L (sliceLoopRight c ya ys i s) := by
  intro ys
  induction ys with
  | nil =>
    intro i s hl
    simp only [sliceLoopRight, traceSliceRight]
    exact agree_nil c s _ true
  | cons ye ys ih =>
    intro i s hl
    simp only [sliceLoopRight, traceSliceRight]
    rw [← List.singleton_append]
    refine popCheck_agree "slice" ("[" ++ toString i ++ "]") [] L hl ?_ ?_ ?_ ?_
    · exact agree_appendV c (s.push "slice" ("[" ++ toString i ++ "]")) [] _ _ _
    · intro s2 hst hl2 _ hV
      have := ih (i + 1) s2 hl2
      rw [hst] at this
      exact this
    · intro z hz; simp at hz
    · intro z hz; exact hz

theorem sliceLoop_agree {c : Comparer} {rec : Rec} {recT : RecT} (hrec : RecAgree c rec recT)
    (xa ya : Flag) (hro : ya.ro = xa.ro) (d : Int) :
    ∀ (xs ys : List Val) (i : Nat) (s : compareState),
      (s.result.length : Int) < c.MaxDiffs →
      FreshL (locsList xa.addr xs) (locsList ya.addr ys) s.visited →
      mapsOkList xs = true →
      Agree c s (traceSlice recT xa.ro d s.stack xs ys i)
        (locsList xa.addr xs ++ locsList ya.addr ys)
        (sliceLoop c rec xa ya d xs ys i s) := by
  intro xs
  induction xs with
  | nil =>
    intro ys i s hl hf hm
    simp only [sliceLoop, traceSlice]
    rw [← hro]
    exact sliceLoopRight_agree _ ya ys i s hl
  | cons xe xs ih =>
    intro ys i s hl hf hm
    simp only [locsList] at hf
    simp only [mapsOkList, Bool.and_eq_true] at hm
    obtain ⟨hf1, hf2, hdis⟩ := freshL_append hf
    cases ys with
    | nil =>
      simp only [sliceLoop, traceSlice]
      rw [← List.singleton_append]
      refine popCheck_agree "slice" ("[" ++ toString i ++ "]") []
        (locsList xa.addr xs ++ locsList ya.addr []) hl ?_ ?_ ?_ ?_
      · exact agree_appendV c (s.push "slice" ("[" ++ toString i ++ "]")) [] _ _ _
      · intro s2 hst hl2 _ hV
        have := ih [] (i + 1) s2 hl2
          (freshL_grow hf2 hV (by intro z _ hz1; simp at hz1)) hm.2
        rw [hst] at this
        exact this
      · intro z hz; simp at hz
      · intro z hz; simp only [locsList, List.mem_append] at hz ⊢; tauto
    | cons ye ys =>
      simp only [sliceLoop, traceSlice]
      refine popCheck_agree "slice" ("[" ++ toString i ++ "]") (Val.locs xa.addr xe ++ Val.locs ya.addr ye)
        (locsList xa.addr xs ++ locsList ya.addr ys) hl ?_ ?_ ?_ ?_
      · have := hrec ⟨some xe, xa⟩ ⟨some ye, ya⟩ (d + 1)
          (s.push "slice" ("[" ++ toString i ++ "]")) (by simpa using hl)
          (freshL_sub hf1 (by intro z hz; simp [locsOpt] at hz; simp [locsList, hz])) hm.1 hro
        simpa [locsOpt] using this
      · intro s2 hst hl2 _ hV
        have := ih ys (i + 1) s2 hl2
          (freshL_grow (freshL_sub hf2 (by intro z hz; simp [locsList, hz])) hV (by
            intro z hz hz1
            rcases List.mem_append.mp hz1 with h | h
            · exact hdis z hz h
            · exact (hf2.2 z hz).2 (by simp [locsList, h]))) hm.2
        rw [hst] at this
        exact this
      · intro z hz; simp only [locsList, List.mem_append] at hz ⊢; tauto
      · intro z hz; simp only [locsList, List.mem_append] at hz ⊢; tauto

theorem locsFields_tail (a : Bool) (ys : List (StructField × Val)) :
    ∀ z ∈ locsFields a ys.tail, z ∈ locsFields a ys := by
  cases ys with
  | nil => intro z hz; exact hz
  | cons y ys =>
    obtain ⟨f, v⟩ := y
    intro z hz
    simp only [List.tail_cons] at hz
    simp only [locsFields, List.mem_append]
    exact Or.inr hz

theorem structLoop_agree {c : Comparer} {rec : Rec} {recT : RecT} (hrec : RecAgree c rec recT)
    (xa ya : Flag) (hro : ya.ro = xa.ro) (d : Int) :
    ∀ (xs ys : List (StructField × Val)) (s : compareState),
      (s.result.length : Int) < c.MaxDiffs →
      FreshL (locsFields xa.addr xs) (locsFields ya.addr ys) s.visited →
      mapsOkFields xs = true →
      Agree c s (traceStruct c recT xa.ro d s.stack xs ys)
        (locsFields xa.addr xs ++ locsFields ya.addr ys)
        (structLoop c rec xa ya d xs ys s) := by
  intro xs
  induction xs with
  | nil =>
    intro ys s hl hf hm
    simp only [structLoop, traceStruct]
    exact agree_nil c s _ true
  | cons x xs ih =>
    obtain ⟨f, xv⟩ := x
    intro ys s hl hf hm
    simp only [locsFields] at hf
    simp only [mapsOkFields, Bool.and_eq_true] at hm
    obtain ⟨hf1, hf2, hdis⟩ := freshL_append hf
    simp only [structLoop, traceStruct]
    split
    · refine agree_mono (ih ys.tail s hl (freshL_sub hf2 (locsFields_tail ya.addr ys)) hm.2) ?_
      intro z hz
      simp only [locsFields, List.mem_append] at hz ⊢
      rcases hz with h | h
      · exact Or.inl (Or.inr h)
      · exact Or.inr (locsFields_tail ya.addr ys z h)
    · cases ys with
      | nil => exact agree_fault c s _ _
      | cons y ys =>
        obtain ⟨g, yv⟩ := y
        simp only []
        refine popCheck_agree "struct" ("." ++ f.Name) (Val.locs xa.addr xv ++ Val.locs ya.addr yv)
          (locsFields xa.addr xs ++ locsFields ya.addr ys) hl ?_ ?_ ?_ ?_
        · have := hrec ⟨some xv, ⟨xa.addr, xa.ro.field f⟩⟩ ⟨some yv, ⟨ya.addr, ya.ro.field f⟩⟩ (d + 1)
            (s.push "struct" ("." ++ f.Name)) (by simpa using hl)
            (freshL_sub hf1 (by intro z hz; simp [locsOpt] at hz; simp [locsFields, hz])) hm.1
            (by simp only [hro])
          simpa [locsOpt] using this
        · intro s2 hst hl2 _ hV
          have := ih ys s2 hl2
            (freshL_grow (freshL_sub hf2 (by intro z hz; simp [locsFields, hz])) hV (by
              intro z hz hz1
              rcases List.mem_append.mp hz1 with h | h
              · exact hdis z hz h
              · exact (hf2.2 z hz).2 (by simp [locsFields, h]))) hm.2
          rw [hst] at this
          exact this
        · intro z hz; simp only [locsFields, List.mem_append] at hz ⊢; tauto
        · intro z hz; simp only [locsFields, List.mem_append] at hz ⊢; tauto

theorem mapLoopRight_agree {c : Comparer} (L : List Nat) (r : RO)
    (xes yes : List (Val × Val)) :
    ∀ (ks : List Val) (s : compareState),
      (s.result.length : Int) < c.MaxDiffs →
      Agree c s (traceMapRight r s.stack xes yes ks) L (mapLoopRight c r xes yes ks s) := by
  intro ks
  induction ks with
  | nil =>
    intro s hl
    simp only [mapLoopRight, traceMapRight]
    exact agree_nil c s _ true
  | cons k ks ih =>
    intro s hl
    simp only [mapLoopRight, traceMapRight, RO.join_ro_ro]
    split
    · exact ih s hl
    · rw [← List.singleton_append]
      refine popCheck_agree "map" ("[" ++ fmtValue (some k) ++ "]") [] L hl ?_ ?_ ?_ ?_
      · exact agree_appendV c (s.push "map" ("[" ++ fmtValue (some k) ++ "]")) [] _ _ _
      · intro s2 hst hl2 _ hV
        have := ih s2 hl2
        rw [hst] at this
        exact this
      · intro z hz; simp at hz
      · intro z hz; exact hz

theorem mapIndex_locs {yes : List (Val × Val)} {k w : Val} (h : mapIndex yes k = some w) :
    ∀ z ∈ Val.locs false w, z ∈ locsEntries yes := by
  induction yes with
  | nil => simp [mapIndex] at h
  | cons e es ih =>
    obtain ⟨k2, v⟩ := e
    simp only [mapIndex] at h
    intro z hz
    simp only [locsEntries, List.mem_append]
    split at h
    · injection h with h; subst h; exact Or.inl hz
    · exact Or.inr (ih h z hz)

theorem mapLoop_agree {c : Comparer} {rec : Rec} {recT : RecT} (hrec : RecAgree c rec recT)
    (r : RO) (d : Int) (xes yes : List (Val × Val)) :
    ∀ (es : List (Val × Val)) (s : compareState),
      (s.result.length : Int) < c.MaxDiffs →
      Own xes es →
      FreshL (locsEntries es) (locsEntries yes) s.visited →
      mapsOkEntries es = true →
      Agree c s (traceMap recT r d s.stack xes yes (mapKeys es))
        (locsEntries es ++ locsEntries yes)
        (mapLoop c rec r r d xes yes (mapKeys es) s) := by
  intro es
  induction es with
  | nil =>
    intro s hl ho hf hm
    simp only [mapKeys, List.map_nil, mapLoop, traceMap]
    exact mapLoopRight_agree _ r xes yes _ s hl
  | cons e es ih =>
    obtain ⟨k, v⟩ := e
    intro s hl ho hf hm
    simp only [locsEntries] at hf
    simp only [mapsOkEntries, Bool.and_eq_true] at hm
    obtain ⟨hf1, hf2, hdis⟩ := freshL_append hf
    have hown := ho (k, v) (List.mem_cons_self _ _)
    have ho2 : Own xes es := fun e he => ho e (List.mem_cons_of_mem _ he)
    simp only [mapKeys, List.map_cons, mapLoop, traceMap, RO.join_ro_ro]
    have hnext : ∀ s2 : compareState, s2.stack = s.stack →
        (s2.result.length : Int) < c.MaxDiffs →
        (∀ a ∈ footprint s2.visited, a ∈ footprint s.visited ∨
          a ∈ Val.locs false v ++ locsEntries yes) →
        Agree c s2 (traceMap recT r d s.stack xes yes (List.map Prod.fst es))
          (locsEntries es ++ locsEntries yes)
          (mapLoop c rec r r d xes yes (List.map Prod.fst es) s2) := by
      intro s2 hst hl2 hV
      have := ih s2 hl2 ho2
        (freshL_grow hf2 hV (by
          intro z hz hz1
          rcases List.mem_append.mp hz1 with h | h
          · exact hdis z hz h
          · exact (hf2.2 z hz).2 h)) hm.2
      rw [hst] at this
      exact this
    refine popCheck_agree "map" ("[" ++ fmtValue (some k) ++ "]")
      (Val.locs false v ++ locsEntries yes) (locsEntries es ++ locsEntries yes) hl ?_
      (fun s2 hst hl2 _ hV => hnext s2 hst hl2 hV) ?_ ?_
    · split
      · rename_i hy
        obtain ⟨w, hw⟩ := Option.isSome_iff_exists.mp hy
        have hx : ∀ z ∈ locsOpt false (mapIndex xes k), z ∈ Val.locs false v := by
          intro z hz
          rcases hown with h | h
          · simp [h, locsOpt] at hz
          · simpa [h, locsOpt] using hz
        have hxm : mapsOkOpt (mapIndex xes k) = true := by
          rcases hown with h | h
          · simp [h, mapsOkOpt]
          · simp [h, mapsOkOpt, hm.1]
        have hxn : (locsOpt false (mapIndex xes k)).Nodup := by
          rcases hown with h | h
          · simp [h, locsOpt]
          · simpa [h, locsOpt] using hf1.1
        have := hrec ⟨mapIndex xes k, ⟨false, r.ro⟩⟩ ⟨mapIndex yes k, ⟨false, r.ro⟩⟩ (d + 1)
          (s.push "map" ("[" ++ fmtValue (some k) ++ "]")) (by simpa using hl)
          ⟨hxn, fun z hz => ⟨(hf1.2 z (hx z hz)).1, fun hz2 => (hf1.2 z (hx z hz)).2 (by
              rw [hw] at hz2
              exact mapIndex_locs hw z hz2)⟩⟩ hxm rfl
        refine agree_mono this ?_
        intro z hz
        simp only [List.mem_append] at hz ⊢
        rcases hz with h | h
        · exact Or.inl (hx z h)
        · rw [hw] at h; exact Or.inr (mapIndex_locs hw z h)
      · split
        · exact agree_appendV c (s.push "map" ("[" ++ fmtValue (some k) ++ "]")) _ _ _ _
        · exact agree_diff c (s.push "map" ("[" ++ fmtValue (some k) ++ "]")) _ true _ _
    · intro z hz; simp only [locsEntries, List.mem_append] at hz ⊢; tauto
    · intro z hz; simp only [locsEntries, List.mem_append] at hz ⊢; tauto

theorem mapIndex_none_of_keyFresh {k : Val} {es : List (Val × Val)} (h : keyFresh k es = true) :
    mapIndex es k = none := by
  induction es with
  | nil => rfl
  | cons e es ih =>
    obtain ⟨k2, v⟩ := e
    simp only [keyFresh, Bool.and_eq_true, Bool.not_eq_true'] at h
    simp only [mapIndex, h.1.2]
    exact ih h.2

theorem keyFresh_mem {k : Val} {es : List (Val × Val)} (h : keyFresh k es = true)
    {e : Val × Val} (he : e ∈ es) : goEq k e.1 = false ∧ goEq e.1 k = false := by
  induction es with
  | nil => simp at he
  | cons e2 es ih =>
    obtain ⟨k2, v⟩ := e2
    simp only [keyFresh, Bool.and_eq_true, Bool.not_eq_true'] at h
    rcases List.mem_cons.mp he with rfl | h2
    · exact h.1
    · exact ih h.2 h2

theorem own_of_keysDistinct {es : List (Val × Val)} (h : keysDistinct es = true) : Own es es := by
  induction es with
  | nil => intro e he; simp at he
  | cons e0 es ih =>
    obtain ⟨k0, v0⟩ := e0
    simp only [keysDistinct, Bool.and_eq_true] at h
    intro e he
    rcases List.mem_cons.mp he with rfl | h2
    · simp only [mapIndex]
      split
      · exact Or.inr rfl
      · exact Or.inl (mapIndex_none_of_keyFresh h.1)
    · simp only [mapIndex, (keyFresh_mem h.1 h2).1]
      exact ih h.2 e h2

theorem nilCheck_agree (c : Comparer) (L : List Nat) (e : Bool) (mk : String) (x y : Val)
    (r : RO) (xn yn : Bool) (xl yl : Nat) (s : compareState) :
    (nilCheck e mk x y r r xn yn xl yl s = none ∧ nilDiff e mk x y r xn yn xl yl s.stack = none) ∨
    (∃ o it, nilCheck e mk x y r r xn yn xl yl s = some o ∧
      nilDiff e mk x y r xn yn xl yl s.stack = some it ∧ Agree c s [it] L o) := by
  unfold nilCheck nilDiff
  split
  · split
    · exact Or.inr ⟨_, _, rfl, rfl, agree_appendV c s L r _ _⟩
    · split
      · exact Or.inr ⟨_, _, rfl, rfl, agree_appendV c s L r _ _⟩
      · exact Or.inl ⟨rfl, rfl⟩
  · split
    · exact Or.inr ⟨_, _, rfl, rfl, agree_appendV c s L r _ _⟩
    · split
      · exact Or.inr ⟨_, _, rfl, rfl, agree_appendV c s L r _ _⟩
      · exact Or.inl ⟨rfl, rfl⟩

theorem agree_diff2 (c : Comparer) (s : compareState) (L : List Nat) (b : Bool) (d : Diff) :
    Agree c s [.diff d] L (.ok (b, ⟨s.result ++ [d], s.stack, s.visited⟩)) := by
  refine agree_intro_ok [d] b s.visited ?_ rfl ?_
  · simp only [scan]
    split
    · rfl
    · rfl
  · intro a ha; exact Or.inl ha

theorem kindSwitch_agree {c : Comparer} {rec : Rec} {recT : RecT} (hrec : RecAgree c rec recT)
    (x y : Value) (xv yv : Val) (d : Int) (s : compareState)
    (hl : (s.result.length : Int) < c.MaxDiffs)
    (hf : FreshL (xv.innerLocs x.flag.addr) (yv.innerLocs y.flag.addr) s.visited)
    (hm : xv.mapsOk = true) (hro : y.flag.ro = x.flag.ro) :
    Agree c s (traceSwitch c recT x.flag.ro xv yv d s.stack)
      (xv.innerLocs x.flag.addr ++ yv.innerLocs y.flag.addr) (kindSwitch c rec x y xv yv d s) := by
  obtain ⟨xo, xa, r⟩ := x
  obtain ⟨yo, ya, r2⟩ := y
  simp only [] at hro hf ⊢
  subst hro
  cases xv with
  | bool t a =>
    cases yv <;> simp only [kindSwitch, traceSwitch] <;> try exact agree_fault c s _ _
    split
    · exact agree_diff c s _ _ _ _
    · exact agree_nil c s _ _
  | int t a =>
    cases yv <;> simp only [kindSwitch, traceSwitch] <;> try exact agree_fault c s _ _
    split
    · exact agree_diff c s _ _ _ _
    · exact agree_nil c s _ _
  | uint t a =>
    cases yv <;> simp only [kindSwitch, traceSwitch] <;> try exact agree_fault c s _ _
    split
    · exact agree_diff c s _ _ _ _
    · exact agree_nil c s _ _
  | str t a =>
    cases yv <;> simp only [kindSwitch, traceSwitch] <;> try exact agree_fault c s _ _
    split
    · exact agree_diff c s _ _ _ _
    · exact agree_nil c s _ _
  | func t a =>
    cases yv <;> simp only [kindSwitch, traceSwitch, RO.join_self] <;>
      try exact agree_fault c s _ _
    split
    · exact agree_appendV c s _ _ _ _
    · exact agree_nil c s _ _
  | word t k a =>
    cases yv <;> simp only [kindSwitch, traceSwitch, RO.join_self] <;>
      try exact agree_fault c s _ _
    split
    · exact agree_fault c s _ _
    · split
      · exact agree_diff c s _ _ _ _
      · exact agree_nil c s _ _
  | float t a =>
    cases yv <;> simp only [kindSwitch, traceSwitch] <;> try exact agree_fault c s _ _
    repeat' split
    all_goals first
      | exact agree_diff c s _ _ _ _
      | exact agree_nil c s _ _
      | exact agree_fault c s _ _
  | complex t a b =>
    cases yv <;> simp only [kindSwitch, traceSwitch] <;> try exact agree_fault c s _ _
    repeat' split
    all_goals first
      | exact agree_diff c s _ _ _ _
      | exact agree_nil c s _ _
      | exact agree_fault c s _ _
  | array t xs =>
    cases yv <;> simp only [kindSwitch, traceSwitch] <;> try exact agree_fault c s _ _
    simp only [Val.mapsOk] at hm
    exact arrayLoop_agree hrec ⟨xa, r2.ro⟩ ⟨ya, r2.ro⟩ rfl d xs _ 0 s hl hf hm
  | struct t xs =>
    cases yv <;> simp only [kindSwitch, traceSwitch] <;> try exact agree_fault c s _ _
    simp only [Val.mapsOk] at hm
    exact structLoop_agree hrec ⟨xa, r2⟩ ⟨ya, r2⟩ rfl d xs _ s hl hf hm
  | slice t l hx =>
    cases yv <;> simp only [kindSwitch, traceSwitch] <;> try exact agree_fault c s _ _
    rename_i u l2 hy
    rcases nilCheck_agree c (locsList true (elemsOf hx) ++ locsList true (elemsOf hy))
        c.NilSlicesAreEmpty "<nil slice>" (Val.slice t l hx) (Val.slice u l2 hy) r2
        hx.isNone hy.isNone (elemsOf hx).length (elemsOf hy).length s with
      ⟨h1, h2⟩ | ⟨o, it, h1, h2, hag⟩
    · simp only [h1, h2]
      split
      · exact agree_nil c s _ _
      · have hm2 : mapsOkList (elemsOf hx) = true := by
          cases hx with
          | none => rfl
          | some p => obtain ⟨p, es⟩ := p; simpa [Val.mapsOk, elemsOf] using hm
        exact sliceLoop_agree hrec ⟨true, r2.ro⟩ ⟨true, r2.ro⟩ rfl d _ _ 0 s hl hf hm2
    · simp only [h1, h2]
      exact hag
  | map t l hx =>
    cases yv <;> simp only [kindSwitch, traceSwitch] <;> try exact agree_fault c s _ _
    rename_i u l2 hy
    rcases nilCheck_agree c (locsEntries (elemsOf hx) ++ locsEntries (elemsOf hy))
        c.NilMapsAreEmpty "<nil map>" (Val.map t l hx) (Val.map u l2 hy) r2
        hx.isNone hy.isNone (elemsOf hx).length (elemsOf hy).length s with
      ⟨h1, h2⟩ | ⟨o, it, h1, h2, hag⟩
    · simp only [h1, h2]
      split
      · exact agree_nil c s _ _
      · have hm2 : keysDistinct (elemsOf hx) = true ∧ mapsOkEntries (elemsOf hx) = true := by
          cases hx with
          | none => exact ⟨rfl, rfl⟩
          | some p => obtain ⟨p, es⟩ := p; simpa [Val.mapsOk, elemsOf] using hm
        exact mapLoop_agree hrec r2 d _ _ (elemsOf hx) s hl (own_of_keysDistinct hm2.1) hf hm2.2
    · simp only [h1, h2]
      exact hag
  | ptr t l px =>
    cases yv <;> simp only [kindSwitch, traceSwitch] <;> try exact agree_fault c s _ _
    rename_i u l2 py
    split
    · exact agree_nil c s _ _
    · have e1 : locsOpt px.isSome (px.map Prod.snd) = locsOpt true (px.map Prod.snd) := by
        cases px <;> rfl
      have e2 : locsOpt py.isSome (py.map Prod.snd) = locsOpt true (py.map Prod.snd) := by
        cases py <;> rfl
      have hm2 : mapsOkOpt (px.map Prod.snd) = true := by
        cases px with
        | none => rfl
        | some p => obtain ⟨p, v⟩ := p; simpa [Val.mapsOk, mapsOkOpt] using hm
      have := hrec ⟨px.map Prod.snd, ⟨px.isSome, r2⟩⟩ ⟨py.map Prod.snd, ⟨py.isSome, r2⟩⟩ d s hl
        (by simpa only [e1, e2, Val.innerLocs] using hf) hm2 rfl
      simpa only [e1, e2, Val.innerLocs] using this
  | iface t l dx =>
    cases yv <;> simp only [kindSwitch, traceSwitch] <;> try exact agree_fault c s _ _
    rename_i u l2 dy
    cases dx with
    | none =>
      cases dy with
      | none => exact agree_nil c s _ _
      | some b => exact agree_appendV c s _ _ _ _
    | some a =>
      cases dy with
      | none => exact agree_appendV c s _ _ _ _
      | some b =>
        have hm2 : mapsOkOpt (some a) = true := by simpa [Val.mapsOk, mapsOkOpt] using hm
        exact hrec ⟨some a, ⟨false, r2.ro⟩⟩ ⟨some b, ⟨false, r2.ro⟩⟩ d s hl hf hm2 rfl

theorem typ_kind (v : Val) : v.typ.kind = v.kind := by
  cases v <;> rfl

theorem locs_eq (a : Bool) (v : Val) :
    Val.locs a v = (if (a && hard v.kind) = true then [v.loc] else []) ++ v.innerLocs a := by
  cases v with
  | slice t l h =>
    cases h with
    | none => cases a <;> simp [Val.locs, Val.innerLocs, Val.kind, hard, Val.loc, elemsOf, locsList]
    | some p => obtain ⟨p, es⟩ := p; cases a <;> simp [Val.locs, Val.innerLocs, Val.kind, hard, Val.loc, elemsOf]
  | map t l h =>
    cases h with
    | none => cases a <;> simp [Val.locs, Val.innerLocs, Val.kind, hard, Val.loc, elemsOf, locsEntries]
    | some p => obtain ⟨p, es⟩ := p; cases a <;> simp [Val.locs, Val.innerLocs, Val.kind, hard, Val.loc, elemsOf]
  | ptr t l h =>
    cases h with
    | none => cases a <;> simp [Val.locs, Val.innerLocs, Val.kind, hard, Val.loc, locsOpt]
    | some p => obtain ⟨p, es⟩ := p; cases a <;> simp [Val.locs, Val.innerLocs, Val.kind, hard, Val.loc, locsOpt]
  | iface t l h =>
    cases h with
    | none => cases a <;> simp [Val.locs, Val.innerLocs, Val.kind, hard, Val.loc, locsOpt]
    | some p => cases a <;> simp [Val.locs, Val.innerLocs, Val.kind, hard, Val.loc, locsOpt]
  | word t k w => cases k <;> simp [Val.locs, Val.innerLocs, Val.kind, hard]
  | _ => simp [Val.locs, Val.innerLocs, Val.kind, hard]

theorem mem_footprint {v : visit} {V : List visit} (h : v ∈ V) :
    v.a1 ∈ footprint V ∧ v.a2 ∈ footprint V := by
  induction V with
  | nil => simp at h
  | cons w V ih =>
    simp only [footprint, List.mem_cons]
    rcases List.mem_cons.mp h with rfl | h2
    · exact ⟨Or.inl rfl, Or.inr (Or.inl rfl)⟩
    · exact ⟨Or.inr (Or.inr (ih h2).1), Or.inr (Or.inr (ih h2).2)⟩

theorem agree_state {c : Comparer} {s s2 : compareState} {items : List Item} {L L2 : List Nat}
    {o : Outcome} (h : Agree c s2 items L2 o) (hr : s2.result = s.result)
    (hst : s2.stack = s.stack)
    (hV : ∀ a ∈ footprint s2.visited, a ∈ footprint s.visited ∨ a ∈ L)
    (hL : ∀ a ∈ L2, a ∈ L) : Agree c s items L o := by
  unfold Agree at h ⊢
  rw [hr] at h
  cases hs : scan (c.MaxDiffs - s.result.length).toNat items with
  | error f => rw [hs] at h; exact h
  | ok ds =>
    rw [hs] at h
    obtain ⟨b, V, ho, hV2⟩ := h
    refine ⟨b, V, ?_, ?_⟩
    · rw [ho, hst]
    · intro a ha
      rcases hV2 a ha with h1 | h1
      · exact hV a h1
      · exact Or.inr (hL a h1)

theorem min_max_cases (a b : Nat) : (min a b = a ∧ max a b = b) ∨ (min a b = b ∧ max a b = a) := by
  rcases Nat.le_total a b with h | h
  · exact Or.inl ⟨Nat.min_eq_left h, Nat.max_eq_right h⟩
  · exact Or.inr ⟨Nat.min_eq_right h, Nat.max_eq_left h⟩

/-- On operands with fresh storage, a capped run of `deepValueEqual` is the
outcome read off the events of the unbounded comparison. -/
theorem deepValueEqual_agree (c : Comparer) :
    ∀ fuel : Nat, RecAgree c (deepValueEqual c fuel) (diffTrace c fuel) := by
  intro fuel
  induction fuel with
  | zero =>
    intro x y d s hl hf hm hro
    simp only [deepValueEqual, diffTrace]
    exact agree_fault c s _ _
  | succ n ih =>
    intro x y d s hl hf hm hro
    obtain ⟨xo, xa⟩ := x
    obtain ⟨yo, ya⟩ := y
    simp only [] at hro
    simp only [deepValueEqual, diffTrace]
    split
    · exact agree_nil c s _ _
    · cases xo with
      | none =>
        cases yo with
        | none => exact agree_nil c s _ _
        | some yv => exact agree_diff c s _ _ _ _
      | some xv =>
        cases yo with
        | none => exact agree_diff c s _ _ _ _
        | some yv =>
          simp only []
          split
          · exact agree_diff c s _ _ _ _
          · rename_i hty
            have hty : xv.typ = yv.typ := by simpa using hty
            have hk : yv.kind = xv.kind := by rw [← typ_kind, ← typ_kind, hty]
            simp only [locsOpt] at hf hm ⊢
            rw [locs_eq xa.addr xv, locs_eq ya.addr yv] at hf
            split
            · rename_i hg
              exfalso
              obtain ⟨hg1, hg2⟩ := hg
              have hx : (xa.addr && hard xv.kind) = true := by
                simp only [Bool.and_eq_true] at hg1 ⊢; exact ⟨hg1.1.1, hg1.2⟩
              rw [if_pos hx] at hf
              have h1 := (hf.2 xv.loc (by simp)).1
              have h2 := mem_footprint hg2
              simp only [] at h2
              rcases min_max_cases xv.loc yv.loc with h | h
              · rw [h.1] at h2; exact h1 h2.1
              · rw [h.2] at h2; exact h1 h2.2
            · obtain ⟨hf1, hf2, hdis⟩ := freshL_append hf
              by_cases hg : (xa.addr && ya.addr && hard xv.kind) = true
              · simp only [hg, if_true]
                have hx : (xa.addr && hard xv.kind) = true := by
                  simp only [Bool.and_eq_true] at hg ⊢; exact ⟨hg.1.1, hg.2⟩
                have hy : (ya.addr && hard yv.kind) = true := by
                  rw [hk]; simp only [Bool.and_eq_true] at hg ⊢; exact ⟨hg.1.2, hg.2⟩
                rw [if_pos hx] at hdis
                have hin : ∀ z ∈ xv.innerLocs xa.addr, z ∉ footprint
                    ((⟨min xv.loc yv.loc, max xv.loc yv.loc, xv.typ⟩ : visit) :: s.visited) := by
                  intro z hz hz2
                  simp only [footprint, List.mem_cons] at hz2
                  have hzx : z ≠ xv.loc := fun e => hdis z hz (by simp [e])
                  have hzy : z ≠ yv.loc := fun e => (hf2.2 z hz).2 (by simp [hy, e])
                  rcases min_max_cases xv.loc yv.loc with h | h
                  · rw [h.1, h.2] at hz2
                    rcases hz2 with h3 | h3 | h3
                    · exact hzx h3
                    · exact hzy h3
                    · exact (hf2.2 z hz).1 h3
                  · rw [h.1, h.2] at hz2
                    rcases hz2 with h3 | h3 | h3
                    · exact hzy h3
                    · exact hzx h3
                    · exact (hf2.2 z hz).1 h3
                have := kindSwitch_agree ih ⟨some xv, xa⟩ ⟨some yv, ya⟩ xv yv d
                  { s with visited := ⟨min xv.loc yv.loc, max xv.loc yv.loc, xv.typ⟩ :: s.visited }
                  hl ⟨hf2.1, fun z hz => ⟨hin z hz, fun h3 => (hf2.2 z hz).2 (by simp [h3])⟩⟩ hm hro
                refine agree_state this rfl rfl ?_ ?_
                · intro a ha
                  simp only [footprint, List.mem_cons] at ha
                  rw [locs_eq xa.addr xv, locs_eq ya.addr yv]
                  simp only [hx, hy, if_true, List.mem_append, List.mem_singleton,
                    List.singleton_append, List.mem_cons]
                  rcases min_max_cases xv.loc yv.loc with h | h
                  · rw [h.1, h.2] at ha
                    rcases ha with h3 | h3 | h3
                    · exact Or.inr (Or.inl (Or.inl h3))
                    · exact Or.inr (Or.inr (Or.inl h3))
                    · exact Or.inl h3
                  · rw [h.1, h.2] at ha
                    rcases ha with h3 | h3 | h3
                    · exact Or.inr (Or.inr (Or.inl h3))
                    · exact Or.inr (Or.inl (Or.inl h3))
                    · exact Or.inl h3
                · intro a ha
                  rw [locs_eq xa.addr xv, locs_eq ya.addr yv]
                  simp only [List.mem_append] at ha ⊢
                  rcases ha with h3 | h3
                  · exact Or.inl (Or.inr h3)
                  · exact Or.inr (Or.inr h3)
              · simp only [hg]
                have := kindSwitch_agree ih ⟨some xv, xa⟩ ⟨some yv, ya⟩ xv yv d s
                  hl ⟨hf2.1, fun z hz => ⟨(hf2.2 z hz).1, fun h3 => (hf2.2 z hz).2 (by simp [h3])⟩⟩ hm hro
                refine agree_mono this ?_
                intro a ha
                rw [locs_eq xa.addr xv, locs_eq ya.addr yv]
                simp only [List.mem_append] at ha ⊢
                rcases ha with h3 | h3
                · exact Or.inl (Or.inr h3)
                · exact Or.inr (Or.inr h3)

/-! ## The diff cap -/

theorem popCheck_cap {c : Comparer} {o : Outcome} {next : compareState → Outcome} {b : Bool}
    {s' : compareState}
    (ho : ∀ b1 s1, o = .ok (b1, s1) → (s1.result.length : Int) ≤ c.MaxDiffs)
    (hn : ∀ s2 b s', next s2 = .ok (b, s') → (s2.result.length : Int) < c.MaxDiffs →
      (s'.result.length : Int) ≤ c.MaxDiffs)
    (h : popCheck c o next = .ok (b, s')) : (s'.result.length : Int) ≤ c.MaxDiffs := by
  obtain ⟨b1, s1, s2, h1, hp, h2⟩ := popCheck_ok h
  have hr := (pop_ok hp).1
  have := ho b1 s1 h1
  rcases h2 with ⟨_, _, rfl⟩ | ⟨hlt, hnx⟩
  · rw [hr]; exact this
  · exact hn s2 b s' hnx (by omega)

theorem arrayLoop_cap {c : Comparer} {rec : Rec} (hrec : RecCap c rec) (xa ya : Flag) (d : Int) :
    ∀ (xs ys : List Val) (i : Nat) (s : compareState) (b : Bool) (s' : compareState),
      arrayLoop c rec xa ya d xs ys i s = .ok (b, s') →
      (s.result.length : Int) < c.MaxDiffs → (s'.result.length : Int) ≤ c.MaxDiffs := by
  intro xs
  induction xs with
  | nil =>
    intro ys i s b s' h hl
    simp only [arrayLoop] at h
    cases h; omega
  | cons xe xs ih =>
    intro ys i s b s' h hl
    cases ys with
    | nil => simp [arrayLoop] at h
    | cons ye ys =>
      simp only [arrayLoop] at h
      refine popCheck_cap ?_ ?_ h
      · intro b1 s1 h1
        exact hrec _ _ _ _ _ _ h1 (by simpa using hl)
      · intro s2 b s' hn hl2
        exact ih ys (i+1) s2 b s' hn hl2

theorem ok_cap {c : Comparer} {s : compareState} {x y : String} {b : Bool}
    (hl : (s.result.length : Int) < c.MaxDiffs) :
    ∀ b1 s1, (Except.ok (b, s.append x y) : Outcome) = .ok (b1, s1) →
      (s1.result.length : Int) ≤ c.MaxDiffs := by
  intro b1 s1 h
  injection h with h
  injection h with _ h2
  subst h2
  simp
  omega

theorem appendV_cap {c : Comparer} {s : compareState} {r : RO} {x y : String}
    (hl : (s.result.length : Int) < c.MaxDiffs) :
    ∀ b1 s1, s.appendV r x y = .ok (b1, s1) → (s1.result.length : Int) ≤ c.MaxDiffs := by
  intro b1 s1 h
  unfold compareState.appendV at h
  split at h
  · cases h
  · exact ok_cap hl b1 s1 h

theorem sliceLoopRight_cap {c : Comparer} (ya : Flag) :
    ∀ (ys : List Val) (i : Nat) (s : compareState) (b : Bool) (s' : compareState),
      sliceLoopRight c ya ys i s = .ok (b, s') →
      (s.result.length : Int) < c.MaxDiffs → (s'.result.length : Int) ≤ c.MaxDiffs := by
  intro ys
  induction ys with
  | nil =>
    intro i s b s' h hl
    simp only [sliceLoopRight] at h
    cases h; omega
  | cons ye ys ih =>
    intro i s b s' h hl
    simp only [sliceLoopRight] at h
    refine popCheck_cap (appendV_cap (by simpa using hl)) ?_ h
    intro s2 b s' hn hl2
    exact ih (i+1) s2 b s' hn hl2

theorem sliceLoop_cap {c : Comparer} {rec : Rec} (hrec : RecCap c rec) (xa ya : Flag)
    (d : Int) :
    ∀ (xs ys : List Val) (i : Nat) (s : compareState) (b : Bool) (s' : compareState),
      sliceLoop c rec xa ya d xs ys i s = .ok (b, s') →
      (s.result.length : Int) < c.MaxDiffs → (s'.result.length : Int) ≤ c.MaxDiffs := by
  intro xs
  induction xs with
  | nil =>
    intro ys i s b s' h hl
    simp only [sliceLoop] at h
    exact sliceLoopRight_cap ya ys i s b s' h hl
  | cons xe xs ih =>
    intro ys i s b s' h hl
    cases ys with
    | nil =>
      simp only [sliceLoop] at h
      refine popCheck_cap (appendV_cap (by simpa using hl)) ?_ h
      intro s2 b s' hn hl2
      exact ih [] (i+1) s2 b s' hn hl2
    | cons ye ys =>
      simp only [sliceLoop] at h
      refine popCheck_cap ?_ ?_ h
      · intro b1 s1 h1
        exact hrec _ _ _ _ _ _ h1 (by simpa using hl)
      · intro s2 b s' hn hl2
        exact ih ys (i+1) s2 b s' hn hl2

theorem structLoop_cap {c : Comparer} {rec : Rec} (hrec : RecCap c rec) (xa ya : Flag) (d : Int) :
    ∀ (xs ys : List (StructField × Val)) (s : compareState) (b : Bool) (s' : compareState),
      structLoop c rec xa ya d xs ys s = .ok (b, s') →
      (s.result.length : Int) < c.MaxDiffs → (s'.result.length : Int) ≤ c.MaxDiffs := by
  intro xs
  induction xs with
  | nil =>
    intro ys s b s' h hl
    simp only [structLoop] at h
    cases h; omega
  | cons x xs ih =>
    obtain ⟨f, xv⟩ := x
    intro ys s b s' h hl
    simp only [structLoop] at h
    split at h
    · exact ih _ s b s' h hl
    · split at h
      · refine popCheck_cap ?_ ?_ h
        · intro b1 s1 h1
          exact hrec _ _ _ _ _ _ h1 (by simpa using hl)
        · intro s2 b s' hn hl2
          exact ih _ s2 b s' hn hl2
      · cases h

theorem mapLoopRight_cap {c : Comparer} (yr : RO) (xes yes : List (Val × Val)) :
    ∀ (ks : List Val) (s : compareState) (b : Bool) (s' : compareState),
      mapLoopRight c yr xes yes ks s = .ok (b, s') →
      (s.result.length : Int) < c.MaxDiffs → (s'.result.length : Int) ≤ c.MaxDiffs := by
  intro ks
  induction ks with
  | nil =>
    intro s b s' h hl
    simp only [mapLoopRight] at h
    cases h; omega
  | cons k ks ih =>
    intro s b s' h hl
    simp only [mapLoopRight] at h
    split at h
    · exact ih s b s' h hl
    · refine popCheck_cap (appendV_cap (by simpa using hl)) ?_ h
      intro s2 b s' hn hl2
      exact ih s2 b s' hn hl2

theorem mapLoop_cap {c : Comparer} {rec : Rec} (hrec : RecCap c rec) (xr yr : RO) (d : Int)
    (xes yes : List (Val × Val)) :
    ∀ (ks : List Val) (s : compareState) (b : Bool) (s' : compareState),
      mapLoop c rec xr yr d xes yes ks s = .ok (b, s') →
      (s.result.length : Int) < c.MaxDiffs → (s'.result.length : Int) ≤ c.MaxDiffs := by
  intro ks
  induction ks with
  | nil =>
    intro s b s' h hl
    simp only [mapLoop] at h
    exact mapLoopRight_cap yr xes yes _ s b s' h hl
  | cons k ks ih =>
    intro s b s' h hl
    simp only [mapLoop] at h
    refine popCheck_cap ?_ ?_ h
    · intro b1 s1 h1
      split at h1
      · exact hrec _ _ _ _ _ _ h1 (by simpa using hl)
      · split at h1
        · exact appendV_cap (by simpa using hl) b1 s1 h1
        · exact ok_cap (by simpa using hl) b1 s1 h1
    · intro s2 b s' hn hl2
      exact ih s2 b s' hn hl2

theorem nilCheck_cap {c : Comparer} {e : Bool} {mk : String} {x y : Val} {xr yr : RO}
    {xn yn : Bool} {xl yl : Nat} {s : compareState} {o : Outcome}
    (hl : (s.result.length : Int) < c.MaxDiffs)
    (h : nilCheck e mk x y xr yr xn yn xl yl s = some o) :
    ∀ b1 s1, o = .ok (b1, s1) → (s1.result.length : Int) ≤ c.MaxDiffs := by
  unfold nilCheck at h
  split at h <;> split at h
  · cases h; exact appendV_cap hl
  · split at h
    · cases h; exact appendV_cap hl
    · cases h
  · cases h; exact appendV_cap hl
  · split at h
    · cases h; exact appendV_cap hl
    · cases h

theorem kindSwitch_cap {c : Comparer} {rec : Rec} (hrec : RecCap c rec) (x y : Value)
    (xv yv : Val) (d : Int) (s : compareState) (b : Bool) (s' : compareState)
    (h : kindSwitch c rec x y xv yv d s = .ok (b, s'))
    (hl : (s.result.length : Int) < c.MaxDiffs) : (s'.result.length : Int) ≤ c.MaxDiffs := by
  have hok : ∀ (l r : String) (b0 : Bool), (Except.ok (b0, s.append l r) : Outcome) = .ok (b, s') →
      (s'.result.length : Int) ≤ c.MaxDiffs := fun l r b0 h0 => ok_cap hl b s' h0
  have hsame : ∀ (b0 : Bool), (Except.ok (b0, s) : Outcome) = .ok (b, s') →
      (s'.result.length : Int) ≤ c.MaxDiffs := by
    intro b0 h0
    injection h0 with h0
    injection h0 with _ h2
    subst h2; omega
  unfold kindSwitch at h
  split at h
  · exact arrayLoop_cap hrec _ _ _ _ _ _ _ _ _ h hl
  · split at h
    · rename_i o hn
      exact nilCheck_cap hl hn _ _ h
    · split at h
      · exact hsame _ h
      · exact sliceLoop_cap hrec _ _ _ _ _ _ _ _ _ h hl
  · split at h
    · exact hsame _ h
    · exact appendV_cap hl _ _ h
    · exact appendV_cap hl _ _ h
    · exact hrec _ _ _ _ _ _ h hl
  · split at h
    · exact hsame _ h
    · exact hrec _ _ _ _ _ _ h hl
  · exact structLoop_cap hrec _ _ _ _ _ _ _ _ h hl
  · split at h
    · rename_i o hn
      exact nilCheck_cap hl hn _ _ h
    · split at h
      · exact hsame _ h
      · exact mapLoop_cap hrec _ _ _ _ _ _ _ _ _ h hl
  all_goals (repeat' split at h) <;>
    first | exact hsame _ h | exact hok _ _ _ h | exact appendV_cap hl _ _ h | cases h

theorem deepValueEqual_cap (c : Comparer) : ∀ fuel : Nat, RecCap c (deepValueEqual c fuel) := by
  intro fuel
  induction fuel with
  | zero => intro x y d s b s' h; simp [deepValueEqual] at h
  | succ n ih =>
    intro x y d s b s' h hl
    have hok : ∀ (l r : String) (b0 : Bool), (Except.ok (b0, s.append l r) : Outcome) = .ok (b, s') →
        (s'.result.length : Int) ≤ c.MaxDiffs := fun l r b0 h0 => ok_cap hl b s' h0
    have hsame : ∀ (b0 : Bool), (Except.ok (b0, s) : Outcome) = .ok (b, s') →
        (s'.result.length : Int) ≤ c.MaxDiffs := by
      intro b0 h0
      injection h0 with h0
      injection h0 with _ h2
      subst h2; omega
    simp only [deepValueEqual] at h
    split at h
    · exact hsame _ h
    · split at h
      · exact hsame _ h
      · exact hok _ _ _ h
      · exact hok _ _ _ h
      · split at h
        · exact hok _ _ _ h
        · split at h
          · exact hsame _ h
          · refine kindSwitch_cap ih _ _ _ _ _ _ _ _ h ?_
            split <;> simpa using hl

/-! ## Events of comparisons of scalars -/

theorem scan_diffs (k : Nat) (hk : 1 ≤ k) (ds : List Diff) :
    scan k (ds.map Item.diff) = .ok (ds.take k) := by
  induction ds generalizing k with
  | nil => simp [scan]
  | cons d ds ih =>
    simp only [List.map_cons, scan]
    split
    · rename_i h1
      have : k = 1 := by omega
      subst this
      simp
    · rename_i h1
      rw [ih (k - 1) (by omega)]
      have : k = (k - 1) + 1 := by omega
      conv_rhs => rw [this, List.take_succ_cons]

theorem diffTrace_int (c : Comparer) (f : Nat) (r : RO) (a b : Int) (d : Int) (st : List String)
    (hd : ¬ (c.MaxDepth > 0 ∧ d > c.MaxDepth)) :
    diffTrace c (f + 1) r (some (vInt a)) (some (vInt b)) d st
      = if a ≠ b then [.diff (mkDiff st (toString a) (toString b))] else [] := by
  simp only [diffTrace, if_neg hd, vInt, Val.typ, Val.tname, Val.kind, ne_eq, not_true_eq_false,
    if_false, traceSwitch]

theorem diffTrace_str (c : Comparer) (f : Nat) (r : RO) (a b : String) (d : Int)
    (st : List String)
    (hd : ¬ (c.MaxDepth > 0 ∧ d > c.MaxDepth)) :
    diffTrace c (f + 1) r (some (vStr a)) (some (vStr b)) d st
      = if a ≠ b then [.diff (mkDiff st a b)] else [] := by
  simp only [diffTrace, if_neg hd, vStr, Val.typ, Val.tname, Val.kind, ne_eq, not_true_eq_false,
    if_false, traceSwitch]

theorem join_single (a : String) : String.join [a] = a := by
  simp [String.join]

theorem path_root (v i : String) : String.join (pushStack [] v i) = v ++ i := by
  simp [pushStack, String.join]

theorem locsList_ints (a : Bool) (xs : List Int) : locsList a (xs.map vInt) = [] := by
  induction xs with
  | nil => rfl
  | cons x xs ih => simp [locsList, vInt, Val.locs, ih]

theorem mapsOkList_ints (xs : List Int) : mapsOkList (xs.map vInt) = true := by
  induction xs with
  | nil => rfl
  | cons x xs ih => simp [mapsOkList, vInt, Val.mapsOk, ih]

theorem traceArray_ints (c : Comparer) (f : Nat) (r : RO)
    (hd : ¬ (c.MaxDepth > 0 ∧ (0 : Int) + 1 > c.MaxDepth)) :
    ∀ (xs ys : List Int) (i : Nat), xs.length = ys.length →
      traceArray (diffTrace c (f + 1)) r 0 [] (xs.map vInt) (ys.map vInt) i
        = (intArrayDiffs i xs ys).map Item.diff := by
  intro xs
  induction xs with
  | nil => intro ys i h; simp [traceArray, intArrayDiffs]
  | cons x xs ih =>
    intro ys i h
    cases ys with
    | nil => simp at h
    | cons y ys =>
      simp only [List.length_cons, Nat.add_right_cancel_iff] at h
      simp only [List.map_cons, traceArray, intArrayDiffs, List.map_append]
      rw [ih ys (i + 1) h, diffTrace_int c f r x y _ _ hd]
      congr 1
      split
      · simp only [List.map_cons, List.map_nil, mkDiff, path_root]
        have e : "array" ++ ("[" ++ toString i ++ "]") = "array[" ++ toString i ++ "]" := by
          rw [← String.append_assoc, ← String.append_assoc]
          rfl
        rw [e]
      · rfl

theorem intArray_size (xs : List Int) : (intArray xs).size = sizeList (xs.map vInt) + 1 := by
  simp [intArray, Val.size, Nat.add_comm]

theorem intArray_typ (xs ys : List Int) (h : xs.length = ys.length) :
    (intArray xs).typ = (intArray ys).typ := by
  simp [intArray, Val.typ, h]

theorem diffTrace_intArray (c : Comparer) (xs ys : List Int) (h : xs.length = ys.length) :
    diffTrace c ((intArray xs).size + 1) RO.clear (some (intArray xs)) (some (intArray ys)) 0 []
      = (intArrayDiffs 0 xs ys).map Item.diff := by
  have hd0 : ¬ (c.MaxDepth > 0 ∧ (0 : Int) > c.MaxDepth) := by omega
  have hd1 : ¬ (c.MaxDepth > 0 ∧ (0 : Int) + 1 > c.MaxDepth) := by omega
  simp only [diffTrace, if_neg hd0, intArray_typ xs ys h, ne_eq, not_true_eq_false, if_false]
  rw [intArray_size]
  simp only [intArray, traceSwitch]
  exact traceArray_ints c _ _ hd1 xs ys 0 h

/-! ## Maps from integers to strings -/

/-- The entries of `intStrMap`. -/
theorem intStrMap_def (p : Nat) (es : List (Int × String)) :
    intStrMap p es = .map "map[int]string" 0 (some (p, es.map (fun e => (vInt e.1, vStr e.2)))) :=
  rfl

theorem goEq_vInt (a b : Int) : goEq (vInt a) (vInt b) = (a == b) := by
  simp [goEq, vInt]

theorem mapIndex_enc (es : List (Int × String)) (k : Int) :
    mapIndex (es.map (fun e => (vInt e.1, vStr e.2))) (vInt k) = (es.lookup k).map vStr := by
  induction es with
  | nil => rfl
  | cons e es ih =>
    obtain ⟨a, b⟩ := e
    simp only [List.map_cons, mapIndex, goEq_vInt, List.lookup]
    by_cases h : a = k
    · subst h; simp
    · have h2 : (k == a) = false := by simpa using fun e => h e.symm
      simp [h, h2, ih]

theorem lookup_own {es : List (Int × String)} (h : (es.map Prod.fst).Nodup) :
    ∀ e ∈ es, es.lookup e.1 = some e.2 := by
  induction es with
  | nil => intro e he; simp at he
  | cons e0 es ih =>
    obtain ⟨a, b⟩ := e0
    simp only [List.map_cons, List.nodup_cons] at h
    intro e he
    rcases List.mem_cons.mp he with rfl | h2
    · simp [List.lookup]
    · have hne : (e.1 == a) = false := by
        simp only [beq_eq_false_iff_ne, ne_eq]
        intro e1
        exact h.1 (e1 ▸ List.mem_map_of_mem Prod.fst h2)
      simp only [List.lookup, hne]
      exact ih h.2 e h2

theorem keyFresh_enc (k : Int) (es : List (Int × String)) (h : k ∉ es.map Prod.fst) :
    keyFresh (vInt k) (es.map (fun e => (vInt e.1, vStr e.2))) = true := by
  induction es with
  | nil => rfl
  | cons e es ih =>
    obtain ⟨a, b⟩ := e
    simp only [List.map_cons, List.mem_cons, not_or] at h
    simp only [List.map_cons, keyFresh, goEq_vInt, Bool.and_eq_true, Bool.not_eq_true',
      beq_eq_false_iff_ne, ne_eq]
    exact ⟨⟨h.1, fun e => h.1 e.symm⟩, ih h.2⟩

theorem keysDistinct_enc (es : List (Int × String)) (h : (es.map Prod.fst).Nodup) :
    keysDistinct (es.map (fun e => (vInt e.1, vStr e.2))) = true := by
  induction es with
  | nil => rfl
  | cons e es ih =>
    obtain ⟨a, b⟩ := e
    simp only [List.map_cons, List.nodup_cons] at h
    simp only [List.map_cons, keysDistinct, Bool.and_eq_true]
    exact ⟨keyFresh_enc a es h.1, ih h.2⟩

theorem locsEntries_enc (es : List (Int × String)) :
    locsEntries (es.map (fun e => (vInt e.1, vStr e.2))) = [] := by
  induction es with
  | nil => rfl
  | cons e es ih => rw [List.map_cons, locsEntries, ih]; rfl

theorem mapsOkEntries_enc (es : List (Int × String)) :
    mapsOkEntries (es.map (fun e => (vInt e.1, vStr e.2))) = true := by
  induction es with
  | nil => rfl
  | cons e es ih => rw [List.map_cons, mapsOkEntries, ih]; rfl

theorem map_path (k : Int) :
    String.join (pushStack [] "map" ("[" ++ fmtValue (some (vInt k)) ++ "]")) = mapPath k := by
  rw [path_root]
  have e : fmtValue (some (vInt k)) = toString k := rfl
  rw [e, mapPath, ← String.append_assoc, ← String.append_assoc]
  rfl

theorem mkItem_clear (st : List String) (x y : String) :
    mkItem RO.clear st x y = .diff (mkDiff st x y) := rfl

theorem mkItem_clear_ro (st : List String) (x y : String) :
    mkItem RO.clear.ro st x y = .diff (mkDiff st x y) := rfl

theorem traceMapRight_enc (xs ys : List (Int × String)) :
    ∀ es : List (Int × String), (∀ e ∈ es, ys.lookup e.1 = some e.2) →
      traceMapRight RO.clear [] (xs.map (fun e => (vInt e.1, vStr e.2)))
          (ys.map (fun e => (vInt e.1, vStr e.2)))
          (mapKeys (es.map (fun e => (vInt e.1, vStr e.2))))
        = (mapDiffsRight xs es).map Item.diff := by
  intro es
  induction es with
  | nil => intro _; rfl
  | cons e es ih =>
    obtain ⟨k, w⟩ := e
    intro hown
    have h1 := hown (k, w) (List.mem_cons_self _ _)
    have ih2 := ih (fun e he => hown e (List.mem_cons_of_mem _ he))
    simp only [mapKeys, List.map_cons, List.map_map] at ih2 ⊢
    simp only [traceMapRight, mapDiffsRight, mapIndex_enc, Option.isSome_map', List.map_append,
      mkItem_clear_ro]
    simp only [] at h1
    split
    · simpa using ih2
    · rw [h1]
      simp only [Option.map_some', List.nil_append, mkDiff, map_path, List.map_cons,
        List.map_nil, List.singleton_append]
      rw [ih2]
      rfl

theorem traceMap_enc (c : Comparer) (f : Nat)
    (hd : ¬ (c.MaxDepth > 0 ∧ (0 : Int) + 1 > c.MaxDepth)) (xs ys : List (Int × String))
    (hy : ∀ e ∈ ys, ys.lookup e.1 = some e.2) :
    ∀ es : List (Int × String), (∀ e ∈ es, xs.lookup e.1 = some e.2) →
      traceMap (diffTrace c (f + 1)) RO.clear 0 [] (xs.map (fun e => (vInt e.1, vStr e.2)))
          (ys.map (fun e => (vInt e.1, vStr e.2)))
          (mapKeys (es.map (fun e => (vInt e.1, vStr e.2))))
        = (mapDiffsLeft ys es ++ mapDiffsRight xs ys).map Item.diff := by
  intro es
  induction es with
  | nil =>
    intro _
    simp only [List.map_nil, mapKeys, traceMap, mapDiffsLeft, List.nil_append]
    exact traceMapRight_enc xs ys ys hy
  | cons e es ih =>
    obtain ⟨k, v⟩ := e
    intro hown
    have h1 := hown (k, v) (List.mem_cons_self _ _)
    have ih2 := ih (fun e he => hown e (List.mem_cons_of_mem _ he))
    simp only [mapKeys, List.map_cons, List.map_map] at ih2 ⊢
    simp only [traceMap, mapDiffsLeft, mapIndex_enc, Option.isSome_map', List.map_append,
      List.append_assoc, mkItem_clear_ro]
    simp only [] at h1
    rw [h1]
    simp only [List.map_append] at ih2
    rw [ih2]
    congr 1
    cases hl : ys.lookup k with
    | none =>
      simp only [Option.isSome_none, Bool.false_eq_true, if_false, Option.map_some',
        Option.isSome_some, if_true, mkDiff, map_path, List.map_cons, List.map_nil]
      rfl
    | some w =>
      simp only [Option.isSome_some, if_true, Option.map_some']
      rw [diffTrace_str c f _ v w _ _ hd]
      split
      · simp only [mkDiff, map_path, List.map_cons, List.map_nil]
      · rfl

theorem intStrMap_size (p : Nat) (es : List (Int × String)) :
    (intStrMap p es).size = sizeEntries (es.map (fun e => (vInt e.1, vStr e.2))) + 1 := by
  simp [intStrMap, Val.size, Nat.add_comm]

theorem diffTrace_intStrMap (c : Comparer) (px py : Nat) (hp : px ≠ py)
    (xs ys : List (Int × String)) (hx : (xs.map Prod.fst).Nodup) (hy : (ys.map Prod.fst).Nodup) :
    diffTrace c ((intStrMap px xs).size + 1) RO.clear (some (intStrMap px xs))
        (some (intStrMap py ys)) 0 []
      = (mapDiffs xs ys).map Item.diff := by
  have hd0 : ¬ (c.MaxDepth > 0 ∧ (0 : Int) > c.MaxDepth) := by omega
  have hd1 : ¬ (c.MaxDepth > 0 ∧ (0 : Int) + 1 > c.MaxDepth) := by omega
  rw [intStrMap_size]
  simp only [diffTrace, if_neg hd0, intStrMap, Val.typ, Val.tname, Val.kind, ne_eq,
    not_true_eq_false, if_false, traceSwitch, nilDiff, Option.isNone_some, Bool.false_and,
    Bool.false_eq_true, Bool.not_false, Bool.and_false, Bool.and_true, if_false, pointerOf,
    elemsOf, if_neg hp, ite_self]
  exact traceMap_enc c (sizeEntries (xs.map (fun e => (vInt e.1, vStr e.2)))) hd1 xs ys
    (lookup_own hy) xs (lookup_own hx)

theorem length_mapDiffsLeft (ys : List (Int × String)) :
    ∀ xs : List (Int × String),
      (mapDiffsLeft ys xs).length = keysOnlyIn xs ys + keysDiffering xs ys := by
  intro xs
  induction xs with
  | nil => rfl
  | cons e xs ih =>
    obtain ⟨k, v⟩ := e
    simp only [keysOnlyIn, keysDiffering] at ih ⊢
    simp only [mapDiffsLeft, List.length_append, ih, List.filter_cons]
    cases hl : ys.lookup k with
    | none => simp; omega
    | some w =>
      by_cases hvw : v = w
      · simp [hvw]
      · simp [hvw]; omega

theorem length_mapDiffsRight (xs : List (Int × String)) :
    ∀ ys : List (Int × String), (mapDiffsRight xs ys).length = keysOnlyIn ys xs := by
  intro ys
  induction ys with
  | nil => rfl
  | cons e ys ih =>
    obtain ⟨k, w⟩ := e
    simp only [keysOnlyIn] at ih ⊢
    simp only [mapDiffsRight, List.length_append, ih, List.filter_cons]
    cases hl : xs.lookup k with
    | none => simp; omega
    | some v => simp

/-! ## Go equality is a partial equivalence -/

theorem floatEq_symm (a b : GoFloat) : GoFloat.eq a b = GoFloat.eq b a := by
  cases a with
  | nan => cases b <;> rfl
  | inf s =>
    cases b with
    | nan => rfl
    | inf s2 => simp only [GoFloat.eq]; exact Bool.beq_comm
    | fin n m e => rfl
  | fin n m e =>
    cases b with
    | nan => rfl
    | inf s => rfl
    | fin n2 m2 e2 =>
      simp only [GoFloat.eq]
      rw [min_comm e2 e]
      by_cases h : m = 0 ∧ m2 = 0
      · rw [if_pos h, if_pos ⟨h.2, h.1⟩]
      · rw [if_neg h, if_neg (fun h2 => h ⟨h2.2, h2.1⟩)]
        rw [Bool.beq_comm (a := n), Bool.beq_comm (a := m * 2 ^ (e - min e e2).toNat)]

theorem pow_shift_eq (m1 m2 : Nat) (e1 e2 : Int) :
    m1 * 2 ^ (e1 - min e1 e2).toNat = m2 * 2 ^ (e2 - min e1 e2).toNat ↔
      (m1 : ℚ) * (2 : ℚ) ^ e1 = (m2 : ℚ) * (2 : ℚ) ^ e2 := by
  have h1 : (0 : Int) ≤ e1 - min e1 e2 := by have := min_le_left e1 e2; omega
  have h2 : (0 : Int) ≤ e2 - min e1 e2 := by have := min_le_right e1 e2; omega
  have hz : ((2 : ℚ) ^ (min e1 e2)) ≠ 0 := zpow_ne_zero _ (by norm_num)
  have c1 : ((2 : ℚ) ^ (e1 - min e1 e2).toNat) = (2 : ℚ) ^ (e1 - min e1 e2) := by
    rw [← zpow_natCast, Int.toNat_of_nonneg h1]
  have c2 : ((2 : ℚ) ^ (e2 - min e1 e2).toNat) = (2 : ℚ) ^ (e2 - min e1 e2) := by
    rw [← zpow_natCast, Int.toNat_of_nonneg h2]
  rw [← Nat.cast_inj (R := ℚ)]
  push_cast
  rw [c1, c2, zpow_sub₀ (by norm_num : (2 : ℚ) ≠ 0), zpow_sub₀ (by norm_num : (2 : ℚ) ≠ 0)]
  constructor
  · intro h
    field_simp at h
    exact h
  · intro h
    field_simp
    exact h

theorem floatEq_fin (n1 n2 : Bool) (m1 m2 : Nat) (e1 e2 : Int) :
    GoFloat.eq (.fin n1 m1 e1) (.fin n2 m2 e2) = true ↔
      (m1 = 0 ∧ m2 = 0) ∨ (n1 = n2 ∧ (m1 : ℚ) * (2 : ℚ) ^ e1 = (m2 : ℚ) * (2 : ℚ) ^ e2) := by
  simp only [GoFloat.eq]
  split
  · rename_i h; simp [h]
  · rename_i h
    simp only [Bool.and_eq_true, beq_iff_eq, pow_shift_eq]
    constructor
    · intro h2; exact Or.inr h2
    · intro h2
      rcases h2 with h2 | h2
      · exact absurd h2 h
      · exact h2

theorem floatEq_trans {a b c : GoFloat} (h1 : GoFloat.eq a b = true) (h2 : GoFloat.eq b c = true) :
    GoFloat.eq a c = true := by
  cases a with
  | nan => simp [GoFloat.eq] at h1
  | inf s =>
    cases b with
    | nan => simp [GoFloat.eq] at h1
    | fin _ _ _ => simp [GoFloat.eq] at h1
    | inf s2 =>
      cases c with
      | nan => simp [GoFloat.eq] at h2
      | fin _ _ _ => simp [GoFloat.eq] at h2
      | inf s3 =>
        simp only [GoFloat.eq, beq_iff_eq] at h1 h2 ⊢
        rw [h1, h2]
  | fin n1 m1 e1 =>
    cases b with
    | nan => simp [GoFloat.eq] at h1
    | inf _ => simp [GoFloat.eq] at h1
    | fin n2 m2 e2 =>
      cases c with
      | nan => simp [GoFloat.eq] at h2
      | inf _ => simp [GoFloat.eq] at h2
      | fin n3 m3 e3 =>
        rw [floatEq_fin] at h1 h2 ⊢
        have p1 : (0 : ℚ) < (2 : ℚ) ^ e1 := zpow_pos (by norm_num) _
        have p2 : (0 : ℚ) < (2 : ℚ) ^ e2 := zpow_pos (by norm_num) _
        have p3 : (0 : ℚ) < (2 : ℚ) ^ e3 := zpow_pos (by norm_num) _
        rcases h1 with ⟨a1, a2⟩ | ⟨a1, a2⟩
        · rcases h2 with ⟨b1, b2⟩ | ⟨b1, b2⟩
          · exact Or.inl ⟨a1, b2⟩
          · left
            refine ⟨a1, ?_⟩
            rw [a2] at b2
            simp only [Nat.cast_zero, zero_mul] at b2
            have := mul_eq_zero.mp b2.symm
            rcases this with h | h
            · exact_mod_cast h
            · exact absurd h p3.ne'
        · rcases h2 with ⟨b1, b2⟩ | ⟨b1, b2⟩
          · left
            refine ⟨?_, b2⟩
            rw [b1] at a2
            simp only [Nat.cast_zero, zero_mul] at a2
            have := mul_eq_zero.mp a2
            rcases this with h | h
            · exact_mod_cast h
            · exact absurd h p1.ne'
          · exact Or.inr ⟨a1.trans b1, a2.trans b2⟩

theorem size_pos (v : Val) : 0 < v.size := by
  cases v with
  | slice t l h => cases h with
    | none => simp [Val.size]
    | some p => obtain ⟨p, es⟩ := p; simp [Val.size]
  | map t l h => cases h with
    | none => simp [Val.size]
    | some p => obtain ⟨p, es⟩ := p; simp [Val.size]
  | ptr t l h => cases h with
    | none => simp [Val.size]
    | some p => obtain ⟨p, es⟩ := p; simp [Val.size]
  | iface t l h => cases h with
    | none => simp [Val.size]
    | some p => simp [Val.size]
  | _ => simp [Val.size]

theorem goEqList_symm_of {n : Nat} (ih : ∀ a b : Val, a.size ≤ n → goEq a b = goEq b a) :
    ∀ xs ys : List Val, sizeList xs ≤ n → goEqList xs ys = goEqList ys xs := by
  intro xs
  induction xs with
  | nil => intro ys _; cases ys <;> rfl
  | cons x xs ihl =>
    intro ys h
    cases ys with
    | nil => rfl
    | cons y ys =>
      simp only [sizeList] at h
      simp only [goEqList]
      rw [ih x y (by omega), ihl ys (by omega)]

theorem goEqFields_symm_of {n : Nat} (ih : ∀ a b : Val, a.size ≤ n → goEq a b = goEq b a) :
    ∀ xs ys : List (StructField × Val), sizeFields xs ≤ n → goEqFields xs ys = goEqFields ys xs := by
  intro xs
  induction xs with
  | nil => intro ys _; cases ys <;> rfl
  | cons x xs ihl =>
    obtain ⟨f, x⟩ := x
    intro ys h
    cases ys with
    | nil => rfl
    | cons y ys =>
      obtain ⟨g, y⟩ := y
      simp only [sizeFields] at h
      simp only [goEqFields]
      rw [ih x y (by omega), ihl ys (by omega), Bool.beq_comm (a := f)]

theorem goEq_symm_le : ∀ (n : Nat) (a b : Val), a.size ≤ n → goEq a b = goEq b a := by
  intro n
  induction n with
  | zero => intro a b h; have := size_pos a; omega
  | succ n ih =>
    intro a b h
    cases a with
    | bool t x =>
      cases b <;> simp only [goEq]
      rw [Bool.beq_comm (a := t), Bool.beq_comm (a := x)]
    | int t x =>
      cases b <;> simp only [goEq]
      rw [Bool.beq_comm (a := t), Bool.beq_comm (a := x)]
    | uint t x =>
      cases b <;> simp only [goEq]
      rw [Bool.beq_comm (a := t), Bool.beq_comm (a := x)]
    | str t x =>
      cases b <;> simp only [goEq]
      rw [Bool.beq_comm (a := t), Bool.beq_comm (a := x)]
    | float t x =>
      cases b <;> simp only [goEq]
      rw [Bool.beq_comm (a := t), floatEq_symm x]
    | complex t x y =>
      cases b <;> simp only [goEq]
      rw [Bool.beq_comm (a := t), floatEq_symm x, floatEq_symm y]
    | word t k x =>
      cases b <;> simp only [goEq]
      rw [Bool.beq_comm (a := t), Bool.beq_comm (a := k), Bool.beq_comm (a := x)]
    | func t x => cases b <;> simp only [goEq]
    | slice t l hx => cases b <;> simp only [goEq]
    | map t l hx => cases b <;> simp only [goEq]
    | ptr t l px =>
      cases b <;> simp only [goEq]
      rw [Bool.beq_comm (a := t), Bool.beq_comm (a := pointerOf px)]
    | array t xs =>
      cases b <;> simp only [goEq]
      simp only [Val.size] at h
      rw [Bool.beq_comm (a := t), goEqList_symm_of ih xs _ (by omega)]
    | struct t xs =>
      cases b <;> simp only [goEq]
      simp only [Val.size] at h
      rw [Bool.beq_comm (a := t), goEqFields_symm_of ih xs _ (by omega)]
    | iface t l dx =>
      cases dx with
      | none =>
        cases b with
        | iface u l2 dy =>
          cases dy with
          | none => simp only [goEq]; rw [Bool.beq_comm (a := t)]
          | some w => simp only [goEq]
        | _ => simp only [goEq]
      | some v =>
        cases b with
        | iface u l2 dy =>
          cases dy with
          | none => simp only [goEq]
          | some w =>
            simp only [goEq]
            simp only [Val.size] at h
            rw [Bool.beq_comm (a := t), ih v w (by omega)]
        | _ => simp only [goEq]

theorem goEq_symm (a b : Val) : goEq a b = goEq b a := goEq_symm_le a.size a b (le_refl _)

theorem goEqList_trans_of {n : Nat}
    (ih : ∀ a b c : Val, a.size ≤ n → goEq a b = true → goEq b c = true → goEq a c = true) :
    ∀ xs ys zs : List Val, sizeList xs ≤ n → goEqList xs ys = true → goEqList ys zs = true →
      goEqList xs zs = true := by
  intro xs
  induction xs with
  | nil =>
    intro ys zs _ h1 h2
    cases ys with
    | nil => exact h2
    | cons y ys => simp [goEqList] at h1
  | cons x xs ihl =>
    intro ys zs h h1 h2
    cases ys with
    | nil => simp [goEqList] at h1
    | cons y ys =>
      cases zs with
      | nil => simp [goEqList] at h2
      | cons z zs =>
        simp only [sizeList] at h
        simp only [goEqList, Bool.and_eq_true] at h1 h2 ⊢
        exact ⟨ih x y z (by omega) h1.1 h2.1, ihl ys zs (by omega) h1.2 h2.2⟩

theorem goEqFields_trans_of {n : Nat}
    (ih : ∀ a b c : Val, a.size ≤ n → goEq a b = true → goEq b c = true → goEq a c = true) :
    ∀ xs ys zs : List (StructField × Val), sizeFields xs ≤ n → goEqFields xs ys = true →
      goEqFields ys zs = true → goEqFields xs zs = true := by
  intro xs
  induction xs with
  | nil =>
    intro ys zs _ h1 h2
    cases ys with
    | nil => exact h2
    | cons y ys => simp [goEqFields] at h1
  | cons x xs ihl =>
    obtain ⟨f, x⟩ := x
    intro ys zs h h1 h2
    cases ys with
    | nil => simp [goEqFields] at h1
    | cons y ys =>
      obtain ⟨g, y⟩ := y
      cases zs with
      | nil => simp [goEqFields] at h2
      | cons z zs =>
        obtain ⟨k, z⟩ := z
        simp only [sizeFields] at h
        simp only [goEqFields, Bool.and_eq_true, beq_iff_eq] at h1 h2 ⊢
        exact ⟨⟨h1.1.1.trans h2.1.1, ih x y z (by omega) h1.1.2 h2.1.2⟩,
          ihl ys zs (by omega) h1.2 h2.2⟩

theorem goEq_trans_le : ∀ (n : Nat) (a b c : Val), a.size ≤ n →
    goEq a b = true → goEq b c = true → goEq a c = true := by
  intro n
  induction n with
  | zero => intro a b c h; have := size_pos a; omega
  | succ n ih =>
    intro a b c h h1 h2
    cases a with
    | bool t x =>
      cases b <;> simp only [goEq, Bool.false_eq_true] at h1
      cases c <;> simp only [goEq, Bool.false_eq_true] at h2
      simp only [goEq, Bool.and_eq_true, beq_iff_eq] at h1 h2 ⊢
      exact ⟨h1.1.trans h2.1, h1.2.trans h2.2⟩
    | int t x =>
      cases b <;> simp only [goEq, Bool.false_eq_true] at h1
      cases c <;> simp only [goEq, Bool.false_eq_true] at h2
      simp only [goEq, Bool.and_eq_true, beq_iff_eq] at h1 h2 ⊢
      exact ⟨h1.1.trans h2.1, h1.2.trans h2.2⟩
    | uint t x =>
      cases b <;> simp only [goEq, Bool.false_eq_true] at h1
      cases c <;> simp only [goEq, Bool.false_eq_true] at h2
      simp only [goEq, Bool.and_eq_true, beq_iff_eq] at h1 h2 ⊢
      exact ⟨h1.1.trans h2.1, h1.2.trans h2.2⟩
    | str t x =>
      cases b <;> simp only [goEq, Bool.false_eq_true] at h1
      cases c <;> simp only [goEq, Bool.false_eq_true] at h2
      simp only [goEq, Bool.and_eq_true, beq_iff_eq] at h1 h2 ⊢
      exact ⟨h1.1.trans h2.1, h1.2.trans h2.2⟩
    | float t x =>
      cases b <;> simp only [goEq, Bool.false_eq_true] at h1
      cases c <;> simp only [goEq, Bool.false_eq_true] at h2
      simp only [goEq, Bool.and_eq_true, beq_iff_eq] at h1 h2 ⊢
      exact ⟨h1.1.trans h2.1, floatEq_trans h1.2 h2.2⟩
    | complex t x y =>
      cases b <;> simp only [goEq, Bool.false_eq_true] at h1
      cases c <;> simp only [goEq, Bool.false_eq_true] at h2
      simp only [goEq, Bool.and_eq_true, beq_iff_eq] at h1 h2 ⊢
      exact ⟨⟨h1.1.1.trans h2.1.1, floatEq_trans h1.1.2 h2.1.2⟩, floatEq_trans h1.2 h2.2⟩
    | word t k x =>
      cases b <;> simp only [goEq, Bool.false_eq_true] at h1
      cases c <;> simp only [goEq, Bool.false_eq_true] at h2
      simp only [goEq, Bool.and_eq_true, beq_iff_eq] at h1 h2 ⊢
      exact ⟨⟨h1.1.1.trans h2.1.1, h1.1.2.trans h2.1.2⟩, h1.2.trans h2.2⟩
    | func t x => cases b <;> simp only [goEq, Bool.false_eq_true] at h1
    | slice t l hx => cases b <;> simp only [goEq, Bool.false_eq_true] at h1
    | map t l hx => cases b <;> simp only [goEq, Bool.false_eq_true] at h1
    | ptr t l px =>
      cases b <;> simp only [goEq, Bool.false_eq_true] at h1
      cases c <;> simp only [goEq, Bool.false_eq_true] at h2
      simp only [goEq, Bool.and_eq_true, beq_iff_eq] at h1 h2 ⊢
      exact ⟨h1.1.trans h2.1, h1.2.trans h2.2⟩
    | array t xs =>
      cases b <;> simp only [goEq, Bool.false_eq_true] at h1
      cases c <;> simp only [goEq, Bool.false_eq_true] at h2
      simp only [Val.size] at h
      simp only [goEq, Bool.and_eq_true, beq_iff_eq] at h1 h2 ⊢
      exact ⟨h1.1.trans h2.1, goEqList_trans_of ih xs _ _ (by omega) h1.2 h2.2⟩
    | struct t xs =>
      cases b <;> simp only [goEq, Bool.false_eq_true] at h1
      cases c <;> simp only [goEq, Bool.false_eq_true] at h2
      simp only [Val.size] at h
      simp only [goEq, Bool.and_eq_true, beq_iff_eq] at h1 h2 ⊢
      exact ⟨h1.1.trans h2.1, goEqFields_trans_of ih xs _ _ (by omega) h1.2 h2.2⟩
    | iface t l dx =>
      cases b with
      | iface u l2 dy =>
        cases c with
        | iface w l3 dz =>
          cases dx with
          | none =>
            cases dy with
            | none =>
              cases dz with
              | none =>
                simp only [goEq, beq_iff_eq] at h1 h2 ⊢
                exact h1.trans h2
              | some z => simp [goEq] at h2
            | some y => simp [goEq] at h1
          | some x =>
            cases dy with
            | none => simp [goEq] at h1
            | some y =>
              cases dz with
              | none => simp [goEq] at h2
              | some z =>
                simp only [Val.size] at h
                simp only [goEq, Bool.and_eq_true, beq_iff_eq] at h1 h2 ⊢
                exact ⟨h1.1.trans h2.1, ih x y z (by omega) h1.2 h2.2⟩
        | _ => cases dy <;> simp [goEq] at h2
      | _ => cases dx <;> simp [goEq] at h1

theorem goEq_trans {a b c : Val} (h1 : goEq a b = true) (h2 : goEq b c = true) :
    goEq a c = true := goEq_trans_le a.size a b c (le_refl _) h1 h2

theorem goEq_refl_right {a b : Val} (h : goEq a b = true) : goEq b b = true :=
  goEq_trans (by rw [goEq_symm]; exact h) h

theorem goEq_refl_left {a b : Val} (h : goEq a b = true) : goEq a a = true :=
  goEq_trans h (by rw [goEq_symm]; exact h)

/-! ## Counting diffs -/

theorem mapIndex_isSome_of_mem {es : List (Val × Val)} {e : Val × Val} {k : Val}
    (he : e ∈ es) (hk : goEq e.1 k = true) : (mapIndex es k).isSome = true := by
  induction es with
  | nil => simp at he
  | cons e0 es ih =>
    obtain ⟨k0, v0⟩ := e0
    simp only [mapIndex]
    split
    · rfl
    · rcases List.mem_cons.mp he with rfl | h2
      · rename_i hne; exact absurd hk hne
      · exact ih h2

theorem mapIndex_some_mem {es : List (Val × Val)} {k w : Val} (h : mapIndex es k = some w) :
    ∃ e ∈ es, goEq e.1 k = true ∧ e.2 = w := by
  induction es with
  | nil => simp [mapIndex] at h
  | cons e0 es ih =>
    obtain ⟨k0, v0⟩ := e0
    simp only [mapIndex] at h
    split at h
    · rename_i hk
      injection h with h
      exact ⟨(k0, v0), List.mem_cons_self _ _, hk, h⟩
    · obtain ⟨e, he, h1, h2⟩ := ih h
      exact ⟨e, List.mem_cons_of_mem _ he, h1, h2⟩

theorem mem_sizeList {x : Val} {xs : List Val} (h : x ∈ xs) : x.size ≤ sizeList xs := by
  induction xs with
  | nil => simp at h
  | cons y ys ih =>
    simp only [sizeList]
    rcases List.mem_cons.mp h with rfl | h2
    · omega
    · have := ih h2; omega

theorem mem_sizeFields {e : StructField × Val} {xs : List (StructField × Val)} (h : e ∈ xs) :
    e.2.size ≤ sizeFields xs := by
  induction xs with
  | nil => simp at h
  | cons y ys ih =>
    obtain ⟨f, v⟩ := y
    simp only [sizeFields]
    rcases List.mem_cons.mp h with rfl | h2
    · simp
    · have := ih h2; omega

theorem mem_sizeEntries {e : Val × Val} {xs : List (Val × Val)} (h : e ∈ xs) :
    e.2.size ≤ sizeEntries xs := by
  induction xs with
  | nil => simp at h
  | cons y ys ih =>
    obtain ⟨k, v⟩ := y
    simp only [sizeEntries]
    rcases List.mem_cons.mp h with rfl | h2
    · simp only []; omega
    · have := ih h2; omega

theorem mem_mapsOkList {x : Val} {xs : List Val} (h : x ∈ xs) (hm : mapsOkList xs = true) :
    x.mapsOk = true := by
  induction xs with
  | nil => simp at h
  | cons y ys ih =>
    simp only [mapsOkList, Bool.and_eq_true] at hm
    rcases List.mem_cons.mp h with rfl | h2
    · exact hm.1
    · exact ih h2 hm.2

theorem mem_mapsOkFields {e : StructField × Val} {xs : List (StructField × Val)} (h : e ∈ xs)
    (hm : mapsOkFields xs = true) : e.2.mapsOk = true := by
  induction xs with
  | nil => simp at h
  | cons y ys ih =>
    obtain ⟨f, v⟩ := y
    simp only [mapsOkFields, Bool.and_eq_true] at hm
    rcases List.mem_cons.mp h with rfl | h2
    · exact hm.1
    · exact ih h2 hm.2

theorem mem_mapsOkEntries {e : Val × Val} {xs : List (Val × Val)} (h : e ∈ xs)
    (hm : mapsOkEntries xs = true) : e.2.mapsOk = true := by
  induction xs with
  | nil => simp at h
  | cons y ys ih =>
    obtain ⟨k, v⟩ := y
    simp only [mapsOkEntries, Bool.and_eq_true] at hm
    rcases List.mem_cons.mp h with rfl | h2
    · exact hm.1
    · exact ih h2 hm.2

theorem scan_eq_nil_iff (k : Nat) (items : List Item) :
    scan k items = .ok [] ↔ items = [] := by
  cases items with
  | nil => simp [scan]
  | cons it items =>
    cases it with
    | fault f => simp [scan]
    | diff d =>
      simp only [scan]
      split
      · simp
      · cases scan (k - 1) items <;> simp

theorem deepEqList_length : ∀ (xs ys : List Val), deepEqList xs ys = true →
    xs.length = ys.length := by
  intro xs
  induction xs with
  | nil => intro ys h; cases ys with
    | nil => rfl
    | cons y ys => simp [deepEqList] at h
  | cons x xs ih =>
    intro ys h
    cases ys with
    | nil => simp [deepEqList] at h
    | cons y ys =>
      simp only [deepEqList, Bool.and_eq_true] at h
      simp [ih ys h.2]

theorem deepEqFields_names : ∀ (xs ys : List (StructField × Val)), deepEqFields xs ys = true →
    xs.map Prod.fst = ys.map Prod.fst := by
  intro xs
  induction xs with
  | nil => intro ys h; cases ys with
    | nil => rfl
    | cons y ys => obtain ⟨g, y⟩ := y; simp [deepEqFields] at h
  | cons x xs ih =>
    obtain ⟨f, x⟩ := x
    intro ys h
    cases ys with
    | nil => simp [deepEqFields] at h
    | cons y ys =>
      obtain ⟨g, y⟩ := y
      simp only [deepEqFields, Bool.and_eq_true, beq_iff_eq] at h
      simp [ih ys h.2, h.1.1]

theorem deepEq_typ {x y : Val} (h : deepEq x y = true) : x.typ = y.typ := by
  cases x with
  | bool t a =>
    cases y <;> simp only [deepEq, Bool.false_eq_true] at h
    simp only [Bool.and_eq_true, beq_iff_eq] at h
    simp [Val.typ, Val.tname, Val.kind, h.1]
  | int t a =>
    cases y <;> simp only [deepEq, Bool.false_eq_true] at h
    simp only [Bool.and_eq_true, beq_iff_eq] at h
    simp [Val.typ, Val.tname, Val.kind, h.1]
  | uint t a =>
    cases y <;> simp only [deepEq, Bool.false_eq_true] at h
    simp only [Bool.and_eq_true, beq_iff_eq] at h
    simp [Val.typ, Val.tname, Val.kind, h.1]
  | str t a =>
    cases y <;> simp only [deepEq, Bool.false_eq_true] at h
    simp only [Bool.and_eq_true, beq_iff_eq] at h
    simp [Val.typ, Val.tname, Val.kind, h.1]
  | float t a =>
    cases y <;> simp only [deepEq, Bool.false_eq_true] at h
    simp only [Bool.and_eq_true, beq_iff_eq] at h
    simp [Val.typ, Val.tname, Val.kind, h.1]
  | complex t a a2 =>
    cases y <;> simp only [deepEq, Bool.false_eq_true] at h
    simp only [Bool.and_eq_true, beq_iff_eq] at h
    simp [Val.typ, Val.tname, Val.kind, h.1.1]
  | func t a =>
    cases y <;> simp only [deepEq, Bool.false_eq_true] at h
    simp only [Bool.and_eq_true, beq_iff_eq] at h
    simp [Val.typ, Val.tname, Val.kind, h.1.1]
  | word t k a =>
    cases y <;> simp only [deepEq, Bool.false_eq_true] at h
    simp only [Bool.and_eq_true, beq_iff_eq] at h
    obtain ⟨⟨h1, h2⟩, h3⟩ := h
    subst h1 h2
    cases k <;> simp [Val.typ, Val.tname, Val.kind]
  | array t xs =>
    cases y <;> simp only [deepEq, Bool.false_eq_true] at h
    simp only [Bool.and_eq_true, beq_iff_eq] at h
    simp [Val.typ, h.1, deepEqList_length _ _ h.2]
  | struct t xs =>
    cases y <;> simp only [deepEq, Bool.false_eq_true] at h
    simp only [Bool.and_eq_true, beq_iff_eq] at h
    simp [Val.typ, h.1, deepEqFields_names _ _ h.2]
  | slice t l hx =>
    cases y with
    | slice u l2 hy =>
      cases hx with
      | none =>
        cases hy with
        | none => simp only [deepEq, beq_iff_eq] at h; simp [Val.typ, Val.tname, Val.kind, h]
        | some q => obtain ⟨q, ys⟩ := q; simp [deepEq] at h
      | some p =>
        obtain ⟨p, xs⟩ := p
        cases hy with
        | none => simp [deepEq] at h
        | some q =>
          obtain ⟨q, ys⟩ := q
          simp only [deepEq, Bool.and_eq_true, beq_iff_eq] at h
          simp [Val.typ, Val.tname, Val.kind, h.1]
    | _ => cases hx with
      | none => simp [deepEq] at h
      | some p => obtain ⟨p, xs⟩ := p; simp [deepEq] at h
  | map t l hx =>
    cases y with
    | map u l2 hy =>
      cases hx with
      | none =>
        cases hy with
        | none => simp only [deepEq, beq_iff_eq] at h; simp [Val.typ, Val.tname, Val.kind, h]
        | some q => obtain ⟨q, ys⟩ := q; simp [deepEq] at h
      | some p =>
        obtain ⟨p, xs⟩ := p
        cases hy with
        | none => simp [deepEq] at h
        | some q =>
          obtain ⟨q, ys⟩ := q
          simp only [deepEq, Bool.and_eq_true, beq_iff_eq] at h
          simp [Val.typ, Val.tname, Val.kind, h.1.1]
    | _ => cases hx with
      | none => simp [deepEq] at h
      | some p => obtain ⟨p, xs⟩ := p; simp [deepEq] at h
  | ptr t l hx =>
    cases y with
    | ptr u l2 hy =>
      cases hx with
      | none =>
        cases hy with
        | none => simp only [deepEq, beq_iff_eq] at h; simp [Val.typ, Val.tname, Val.kind, h]
        | some q => obtain ⟨q, ys⟩ := q; simp [deepEq] at h
      | some p =>
        obtain ⟨p, xs⟩ := p
        cases hy with
        | none => simp [deepEq] at h
        | some q =>
          obtain ⟨q, ys⟩ := q
          simp only [deepEq, Bool.and_eq_true, beq_iff_eq] at h
          simp [Val.typ, Val.tname, Val.kind, h.1]
    | _ => cases hx with
      | none => simp [deepEq] at h
      | some p => obtain ⟨p, xs⟩ := p; simp [deepEq] at h
  | iface t l hx =>
    cases y with
    | iface u l2 hy =>
      cases hx with
      | none =>
        cases hy with
        | none => simp only [deepEq, beq_iff_eq] at h; simp [Val.typ, Val.tname, Val.kind, h]
        | some q => simp [deepEq] at h
      | some p =>
        cases hy with
        | none => simp [deepEq] at h
        | some q =>
          simp only [deepEq, Bool.and_eq_true, beq_iff_eq] at h
          simp [Val.typ, Val.tname, Val.kind, h.1]
    | _ => cases hx with
      | none => simp [deepEq] at h
      | some p => simp [deepEq] at h

theorem sepL_mono {rx ax ry ay rx2 ax2 ry2 ay2 : List Nat} (h : SepL rx ax ry ay)
    (h1 : ∀ a ∈ rx2, a ∈ rx) (h2 : ∀ a ∈ ax2, a ∈ ax) (h3 : ∀ a ∈ ry2, a ∈ ry)
    (h4 : ∀ a ∈ ay2, a ∈ ay) : SepL rx2 ax2 ry2 ay2 :=
  ⟨fun a ha hb => h.1 a (h1 a ha) (h4 a hb), fun a ha hb => h.2.1 a (h3 a ha) (h2 a hb),
   fun h0 => h.2.2.1 (h1 0 h0), fun h0 => h.2.2.2 (h3 0 h0)⟩

theorem mem_refsList {b : Bool} {x : Val} {xs : List Val} (h : x ∈ xs) :
    ∀ a ∈ x.refs b, a ∈ refsList b xs := by
  induction xs with
  | nil => simp at h
  | cons y ys ih =>
    intro a ha
    simp only [refsList, List.mem_append]
    rcases List.mem_cons.mp h with rfl | h2
    · exact Or.inl ha
    · exact Or.inr (ih h2 a ha)

theorem mem_refsFields {b : Bool} {e : StructField × Val} {xs : List (StructField × Val)}
    (h : e ∈ xs) : ∀ a ∈ e.2.refs b, a ∈ refsFields b xs := by
  induction xs with
  | nil => simp at h
  | cons y ys ih =>
    obtain ⟨f, v⟩ := y
    intro a ha
    simp only [refsFields, List.mem_append]
    rcases List.mem_cons.mp h with rfl | h2
    · exact Or.inl ha
    · exact Or.inr (ih h2 a ha)

theorem mem_refsEntries {b : Bool} {e : Val × Val} {xs : List (Val × Val)}
    (h : e ∈ xs) : ∀ a ∈ e.2.refs b, a ∈ refsEntries b xs := by
  induction xs with
  | nil => simp at h
  | cons y ys ih =>
    obtain ⟨f, v⟩ := y
    intro a ha
    simp only [refsEntries, List.mem_append]
    rcases List.mem_cons.mp h with rfl | h2
    · exact Or.inl ha
    · exact Or.inr (ih h2 a ha)

theorem mem_plainList {x : Val} {xs : List Val} (h : x ∈ xs) (hp : plainList xs = true) :
    x.plain = true := by
  induction xs with
  | nil => simp at h
  | cons y ys ih =>
    simp only [plainList, Bool.and_eq_true] at hp
    rcases List.mem_cons.mp h with rfl | h2
    · exact hp.1
    · exact ih h2 hp.2

theorem mem_plainFields {e : StructField × Val} {xs : List (StructField × Val)} (h : e ∈ xs)
    (hp : plainFields xs = true) : e.2.plain = true := by
  induction xs with
  | nil => simp at h
  | cons y ys ih =>
    obtain ⟨f, v⟩ := y
    simp only [plainFields, Bool.and_eq_true] at hp
    rcases List.mem_cons.mp h with rfl | h2
    · exact hp.1
    · exact ih h2 hp.2

theorem mem_plainEntries {e : Val × Val} {xs : List (Val × Val)} (h : e ∈ xs)
    (hp : plainEntries xs = true) : e.2.plain = true := by
  induction xs with
  | nil => simp at h
  | cons y ys ih =>
    obtain ⟨f, v⟩ := y
    simp only [plainEntries, Bool.and_eq_true] at hp
    rcases List.mem_cons.mp h with rfl | h2
    · exact hp.1.2
    · exact ih h2 hp.2

theorem traceArray_nil_iff {recT : RecT} {r : RO} {d : Int} (st : List String) :
    ∀ (xs ys : List Val) (i : Nat), xs.length = ys.length →
      (∀ x ∈ xs, ∀ y ∈ ys, ∀ (r2 : RO) (d2 : Int) (s : List String),
        (recT r2 (some x) (some y) d2 s = [] ↔ deepEq x y = true)) →
      (traceArray recT r d st xs ys i = [] ↔ deepEqList xs ys = true) := by
  intro xs
  induction xs with
  | nil =>
    intro ys i h _
    cases ys with
    | nil => simp [traceArray, deepEqList]
    | cons y ys => simp at h
  | cons x xs ih =>
    intro ys i h hrec
    cases ys with
    | nil => simp at h
    | cons y ys =>
      simp only [List.length_cons, Nat.add_right_cancel_iff] at h
      simp only [traceArray, List.append_eq_nil, deepEqList, Bool.and_eq_true]
      rw [hrec x (List.mem_cons_self _ _) y (List.mem_cons_self _ _),
        ih ys (i + 1) h (fun a ha b hb =>
          hrec a (List.mem_cons_of_mem _ ha) b (List.mem_cons_of_mem _ hb))]

theorem traceSlice_nil_iff {recT : RecT} {r : RO} {d : Int} (st : List String) :
    ∀ (xs ys : List Val) (i : Nat),
      (∀ x ∈ xs, ∀ y ∈ ys, ∀ (r2 : RO) (d2 : Int) (s : List String),
        (recT r2 (some x) (some y) d2 s = [] ↔ deepEq x y = true)) →
      (traceSlice recT r d st xs ys i = [] ↔ deepEqList xs ys = true) := by
  intro xs
  induction xs with
  | nil =>
    intro ys i _
    cases ys with
    | nil => simp [traceSlice, traceSliceRight, deepEqList]
    | cons y ys => simp [traceSlice, traceSliceRight, deepEqList]
  | cons x xs ih =>
    intro ys i hrec
    cases ys with
    | nil => simp [traceSlice, deepEqList]
    | cons y ys =>
      simp only [traceSlice, List.append_eq_nil, deepEqList, Bool.and_eq_true]
      rw [hrec x (List.mem_cons_self _ _) y (List.mem_cons_self _ _),
        ih ys (i + 1) (fun a ha b hb =>
          hrec a (List.mem_cons_of_mem _ ha) b (List.mem_cons_of_mem _ hb))]

theorem traceStruct_nil_iff (c : Comparer) (hu : c.CompareUnexportedFields = true)
    {recT : RecT} {r : RO} {d : Int} (st : List String) :
    ∀ (xs ys : List (StructField × Val)), xs.map Prod.fst = ys.map Prod.fst →
      (∀ x ∈ xs, ∀ y ∈ ys, ∀ (r2 : RO) (d2 : Int) (s : List String),
        (recT r2 (some x.2) (some y.2) d2 s = [] ↔ deepEq x.2 y.2 = true)) →
      (traceStruct c recT r d st xs ys = [] ↔ deepEqFields xs ys = true) := by
  intro xs
  induction xs with
  | nil =>
    intro ys h _
    cases ys with
    | nil => simp [traceStruct, deepEqFields]
    | cons y ys => simp at h
  | cons x xs ih =>
    obtain ⟨f, xv⟩ := x
    intro ys h hrec
    cases ys with
    | nil => simp at h
    | cons y ys =>
      obtain ⟨g, yv⟩ := y
      simp only [List.map_cons, List.cons.injEq] at h
      obtain ⟨hfg, htl⟩ := h
      subst hfg
      simp only [traceStruct, hu, Bool.not_true, Bool.false_and, Bool.false_eq_true, if_false,
        List.append_eq_nil, deepEqFields, Bool.and_eq_true, beq_self_eq_true, true_and]
      rw [hrec (f, xv) (List.mem_cons_self _ _) (f, yv) (List.mem_cons_self _ _),
        ih ys htl (fun a ha b hb =>
          hrec a (List.mem_cons_of_mem _ ha) b (List.mem_cons_of_mem _ hb))]

theorem traceMapRight_nil_iff (r : RO) (st : List String) (xes yes : List (Val × Val)) :
    ∀ ks : List Val, traceMapRight r st xes yes ks = [] ↔
      ks.all (fun k => (mapIndex xes k).isSome) = true := by
  intro ks
  induction ks with
  | nil => simp [traceMapRight]
  | cons k ks ih =>
    simp only [traceMapRight, List.all_cons, Bool.and_eq_true]
    split
    · rename_i h; simp [h, ih]
    · rename_i h; simp [h]

theorem traceMap_nil_iff {recT : RecT} {r : RO} {d : Int} (st : List String)
    (xes yes : List (Val × Val)) (hdx : keysDistinct xes = true)
    (hrec : ∀ e ∈ xes, ∀ e2 ∈ yes, ∀ (r2 : RO) (d2 : Int) (s : List String),
      (recT r2 (some e.2) (some e2.2) d2 s = [] ↔ deepEq e.2 e2.2 = true)) :
    ∀ es : List (Val × Val), (∀ e ∈ es, e ∈ xes) →
      (traceMap recT r d st xes yes (mapKeys es) = [] ↔
        (deepEqEntries yes es = true ∧ keysIn xes yes = true)) := by
  intro es
  induction es with
  | nil =>
    intro _
    simp only [mapKeys, List.map_nil, traceMap, deepEqEntries, true_and, keysIn]
    rw [traceMapRight_nil_iff]
    simp only [List.all_eq_true, List.mem_map, forall_exists_index, and_imp,
      forall_apply_eq_imp_iff₂]
  | cons e es ih =>
    obtain ⟨k, v⟩ := e
    intro hsub
    have hmem : (k, v) ∈ xes := hsub (k, v) (List.mem_cons_self _ _)
    have ih2 := ih (fun e he => hsub e (List.mem_cons_of_mem _ he))
    simp only [mapKeys, List.map_cons] at ih2 ⊢
    simp only [traceMap, List.append_eq_nil, deepEqEntries, Bool.and_eq_true, ih2]
    cases hy : mapIndex yes k with
    | none =>
      simp only [Option.isSome_none, Bool.false_eq_true, if_false]
      constructor
      · intro h
        exfalso
        have h1 := h.1
        split at h1 <;> simp at h1
      · intro h; simp at h
    | some w =>
      obtain ⟨e2, he2, hk, hw⟩ := mapIndex_some_mem hy
      have hrefl : goEq k k = true := goEq_refl_right hk
      have hx : mapIndex xes k = some v := by
        rcases own_of_keysDistinct hdx (k, v) hmem with h | h
        · have := mapIndex_isSome_of_mem hmem hrefl
          simp only [] at h
          rw [h] at this
          cases this
        · exact h
      simp only [Option.isSome_some, if_true, hx]
      rw [← hw, hrec (k, v) hmem e2 he2]
      tauto

theorem typ_word (t : String) (k : WordKind) (w : Nat) (x : Val) (hp : x.plain = true) :
    x.typ ≠ (Val.word t k w).typ := by
  cases k <;> cases x <;> simp [Val.typ, Val.kind, Val.plain] at hp ⊢

theorem switch_nil_iff (c : Comparer) (hu : c.CompareUnexportedFields = true)
    (hnm : c.NilMapsAreEmpty = false) (hns : c.NilSlicesAreEmpty = false)
    {recT : RecT} (r : RO) (xv yv : Val) (d : Int) (st : List String)
    (hty : xv.typ = yv.typ) (hp : xv.plain = true) (hm : xv.mapsOk = true)
    (hsep : SepL (xv.refs false) (xv.refs true) (yv.refs false) (yv.refs true))
    (hrec : ∀ (r2 : RO) (x y : Val) (d2 : Int) (s : List String), x.size < xv.size →
      x.plain = true → x.mapsOk = true →
      SepL (x.refs false) (x.refs true) (y.refs false) (y.refs true) →
      (recT r2 (some x) (some y) d2 s = [] ↔ deepEq x y = true))
    (hnone : ∀ (r2 : RO) (v : Val) (d2 : Int) (s : List String),
      recT r2 (some v) none d2 s ≠ [] ∧ recT r2 none (some v) d2 s ≠ []) :
    traceSwitch c recT r xv yv d st = [] ↔ deepEq xv yv = true := by
  have hw : ∀ t k w, yv ≠ .word t k w := fun t k w e => typ_word t k w xv hp (e ▸ hty)
  cases xv with
  | float t a => simp [Val.plain] at hp
  | complex t a b => simp [Val.plain] at hp
  | func t a => simp [Val.plain] at hp
  | word t k a => simp [Val.plain] at hp
  | bool t a =>
    cases yv <;> first | exact absurd rfl (hw _ _ _) | simp only [Val.typ, Val.tname, Val.kind,
      GoType.mk.injEq, and_true, and_false, reduceCtorEq, true_and, false_and] at hty
    subst hty
    simp only [traceSwitch, deepEq, beq_self_eq_true, Bool.true_and, beq_iff_eq]
    split <;> simp_all
  | int t a =>
    cases yv <;> first | exact absurd rfl (hw _ _ _) | simp only [Val.typ, Val.tname, Val.kind,
      GoType.mk.injEq, and_true, and_false, reduceCtorEq, true_and, false_and] at hty
    subst hty
    simp only [traceSwitch, deepEq, beq_self_eq_true, Bool.true_and, beq_iff_eq]
    split <;> simp_all
  | uint t a =>
    cases yv <;> first | exact absurd rfl (hw _ _ _) | simp only [Val.typ, Val.tname, Val.kind,
      GoType.mk.injEq, and_true, and_false, reduceCtorEq, true_and, false_and] at hty
    subst hty
    simp only [traceSwitch, deepEq, beq_self_eq_true, Bool.true_and, beq_iff_eq]
    split <;> simp_all
  | str t a =>
    cases yv <;> first | exact absurd rfl (hw _ _ _) | simp only [Val.typ, Val.tname, Val.kind,
      GoType.mk.injEq, and_true, and_false, reduceCtorEq, true_and, false_and] at hty
    subst hty
    simp only [traceSwitch, deepEq, beq_self_eq_true, Bool.true_and, beq_iff_eq]
    split <;> simp_all
  | array t xs =>
    cases yv <;> first | exact absurd rfl (hw _ _ _) | simp only [Val.typ, Val.tname, Val.kind,
      GoType.mk.injEq, and_true, and_false, reduceCtorEq, true_and, false_and] at hty
    rename_i u ys
    obtain ⟨htu, hlen⟩ := hty
    subst htu
    simp only [Val.plain, Val.mapsOk, Val.refs] at hp hm hsep
    simp only [traceSwitch, deepEq, beq_self_eq_true, Bool.true_and]
    apply traceArray_nil_iff st xs ys 0 hlen
    intro x hx y hy r2 d2 s
    exact hrec r2 x y d2 s (by have := mem_sizeList hx; simp only [Val.size]; omega)
      (mem_plainList hx hp) (mem_mapsOkList hx hm)
      (sepL_mono hsep (mem_refsList hx) (mem_refsList hx) (mem_refsList hy) (mem_refsList hy))
  | struct t xs =>
    cases yv <;> first | exact absurd rfl (hw _ _ _) | simp only [Val.typ, Val.tname, Val.kind,
      GoType.mk.injEq, and_true, and_false, reduceCtorEq, true_and, false_and] at hty
    rename_i u ys
    obtain ⟨htu, hnames⟩ := hty
    subst htu
    simp only [Val.plain, Val.mapsOk, Val.refs] at hp hm hsep
    simp only [traceSwitch, deepEq, beq_self_eq_true, Bool.true_and]
    apply traceStruct_nil_iff c hu st xs ys hnames
    intro x hx y hy r2 d2 s
    exact hrec r2 x.2 y.2 d2 s (by have := mem_sizeFields hx; simp only [Val.size]; omega)
      (mem_plainFields hx hp) (mem_mapsOkFields hx hm)
      (sepL_mono hsep (mem_refsFields hx) (mem_refsFields hx) (mem_refsFields hy)
        (mem_refsFields hy))
  | slice t l hx =>
    cases yv <;> first | exact absurd rfl (hw _ _ _) | simp only [Val.typ, Val.tname, Val.kind,
      GoType.mk.injEq, and_true, and_false, reduceCtorEq, true_and, false_and] at hty
    rename_i u l2 hy
    subst hty
    simp only [traceSwitch, nilDiff, hns, Bool.false_eq_true, if_false]
    cases hx with
    | none =>
      cases hy with
      | none => simp [deepEq, elemsOf, pointerOf, traceSlice, traceSliceRight]
      | some q => obtain ⟨q, ys⟩ := q; simp [deepEq]
    | some p =>
      obtain ⟨p, xs⟩ := p
      cases hy with
      | none => simp [deepEq]
      | some q =>
        obtain ⟨q, ys⟩ := q
        simp only [Val.plain, Val.mapsOk, Val.refs] at hp hm hsep
        have hne : ¬ (p = q ∧ xs.length ≠ ys.length) := by
          rintro ⟨hpq, hl⟩
          subst hpq
          cases xs with
          | nil =>
            cases ys with
            | nil => exact hl rfl
            | cons y ys => exact hsep.2.1 p (by simp) (by simp)
          | cons x xs => exact hsep.1 p (by simp) (by simp)
        simp only [Option.isNone_some, Bool.false_and, Bool.not_false, Bool.and_false,
          Bool.false_eq_true, if_false, pointerOf, elemsOf, if_neg hne, deepEq,
          beq_self_eq_true, Bool.true_and]
        apply traceSlice_nil_iff st xs ys 0
        intro x hx y hy r2 d2 s
        exact hrec r2 x y d2 s (by have := mem_sizeList hx; simp only [Val.size]; omega)
          (mem_plainList hx hp) (mem_mapsOkList hx hm)
          (sepL_mono hsep
            (fun a ha => List.mem_append_right _ (mem_refsList hx a ha))
            (fun a ha => List.mem_append_right _ (mem_refsList hx a ha))
            (fun a ha => List.mem_append_right _ (mem_refsList hy a ha))
            (fun a ha => List.mem_append_right _ (mem_refsList hy a ha)))
  | map t l hx =>
    cases yv <;> first | exact absurd rfl (hw _ _ _) | simp only [Val.typ, Val.tname, Val.kind,
      GoType.mk.injEq, and_true, and_false, reduceCtorEq, true_and, false_and] at hty
    rename_i u l2 hy
    subst hty
    simp only [traceSwitch, nilDiff, hnm, Bool.false_eq_true, if_false]
    cases hx with
    | none =>
      cases hy with
      | none => simp [deepEq, pointerOf]
      | some q => obtain ⟨q, ys⟩ := q; simp [deepEq]
    | some p =>
      obtain ⟨p, xs⟩ := p
      cases hy with
      | none => simp [deepEq]
      | some q =>
        obtain ⟨q, ys⟩ := q
        simp only [Val.plain, Val.mapsOk, Val.refs, Bool.and_eq_true] at hp hm hsep
        have hne : ¬ p = q := by
          intro hpq
          subst hpq
          exact hsep.1 p (by simp) (by simp)
        simp only [Option.isNone_some, Bool.false_and, Bool.not_false, Bool.and_false,
          Bool.false_eq_true, if_false, pointerOf, elemsOf, if_neg hne, deepEq,
          beq_self_eq_true, Bool.true_and, Bool.and_eq_true]
        apply traceMap_nil_iff st xs ys hm.1 _ xs (fun e he => he)
        intro e he e2 he2 r2 d2 s
        exact hrec r2 e.2 e2.2 d2 s (by have := mem_sizeEntries he; simp only [Val.size]; omega)
          (mem_plainEntries he hp) (mem_mapsOkEntries he hm.2)
          (sepL_mono hsep
            (fun a ha => List.mem_cons_of_mem _ (mem_refsEntries he a ha))
            (fun a ha => List.mem_cons_of_mem _ (mem_refsEntries he a ha))
            (fun a ha => List.mem_cons_of_mem _ (mem_refsEntries he2 a ha))
            (fun a ha => List.mem_cons_of_mem _ (mem_refsEntries he2 a ha)))
  | ptr t l hx =>
    cases yv <;> first | exact absurd rfl (hw _ _ _) | simp only [Val.typ, Val.tname, Val.kind,
      GoType.mk.injEq, and_true, and_false, reduceCtorEq, true_and, false_and] at hty
    rename_i u l2 hy
    subst hty
    simp only [traceSwitch]
    cases hx with
    | none =>
      cases hy with
      | none => simp [deepEq, pointerOf]
      | some q =>
        obtain ⟨q, w⟩ := q
        simp only [Val.refs] at hsep
        have hq : ¬ 0 = q := fun e => hsep.2.2.2 (by simp [e])
        simp only [pointerOf, if_neg hq, Option.map_none', Option.map_some', deepEq,
          Bool.false_eq_true, iff_false]
        exact (hnone _ w d st).2
    | some p =>
      obtain ⟨p, v⟩ := p
      cases hy with
      | none =>
        simp only [Val.refs] at hsep
        have hq : ¬ p = 0 := fun e => hsep.2.2.1 (by simp [e])
        simp only [pointerOf, if_neg hq, Option.map_none', Option.map_some', deepEq,
          Bool.false_eq_true, iff_false]
        exact (hnone _ v d st).1
      | some q =>
        obtain ⟨q, w⟩ := q
        simp only [Val.plain, Val.mapsOk, Val.refs] at hp hm hsep
        have hne : ¬ p = q := by
          intro hpq
          subst hpq
          exact hsep.1 p (by simp) (by simp)
        simp only [pointerOf, if_neg hne, Option.map_some', deepEq, beq_self_eq_true,
          Bool.true_and]
        exact hrec _ v w d st (by simp [Val.size]) hp hm
          (sepL_mono hsep (fun a ha => List.mem_cons_of_mem _ ha)
            (fun a ha => List.mem_cons_of_mem _ ha) (fun a ha => List.mem_cons_of_mem _ ha)
            (fun a ha => List.mem_cons_of_mem _ ha))
  | iface t l hx =>
    cases yv <;> first | exact absurd rfl (hw _ _ _) | simp only [Val.typ, Val.tname, Val.kind,
      GoType.mk.injEq, and_true, and_false, reduceCtorEq, true_and, false_and] at hty
    rename_i u l2 hy
    subst hty
    simp only [traceSwitch]
    cases hx with
    | none =>
      cases hy with
      | none => simp [deepEq]
      | some w => simp [deepEq]
    | some v =>
      cases hy with
      | none => simp [deepEq]
      | some w =>
        simp only [Val.plain, Val.mapsOk, Val.refs] at hp hm hsep
        simp only [deepEq, beq_self_eq_true, Bool.true_and]
        exact hrec _ v w d st (by simp [Val.size]) hp hm hsep

/-- Without depth limit, with unexported fields compared and nil distinguished from
empty, the unbounded comparison of two plain operands that share no storage
reports nothing exactly when they are deeply equal. -/
theorem trace_nil_iff (c : Comparer) (hd : c.MaxDepth ≤ 0)
    (hu : c.CompareUnexportedFields = true)
    (hnm : c.NilMapsAreEmpty = false) (hns : c.NilSlicesAreEmpty = false) :
    ∀ (f : Nat) (r : RO) (x y : Val) (d : Int) (st : List String), x.size < f →
      x.plain = true → x.mapsOk = true →
      SepL (x.refs false) (x.refs true) (y.refs false) (y.refs true) →
      (diffTrace c f r (some x) (some y) d st = [] ↔ deepEq x y = true) := by
  intro f
  induction f with
  | zero => intro r x y d st h; omega
  | succ f ih =>
    intro r x y d st hsz hp hm hsep
    have hcut : ∀ d2 : Int, ¬ (c.MaxDepth > 0 ∧ d2 > c.MaxDepth) := by intro d2; omega
    simp only [diffTrace, if_neg (hcut d)]
    by_cases hty : x.typ = y.typ
    · rw [if_neg (by simpa using hty)]
      apply switch_nil_iff c hu hnm hns r x y d st hty hp hm hsep
      · intro r2 x2 y2 d2 s h2 hp2 hm2 hs2
        exact ih r2 x2 y2 d2 s (by omega) hp2 hm2 hs2
      · intro r2 v d2 s
        cases f with
        | zero => simp [diffTrace]
        | succ f => simp [diffTrace, hcut d2]
    · rw [if_pos (by simpa using hty)]
      simp only [reduceCtorEq, false_iff]
      intro h
      exact hty (deepEq_typ h)

/-! ## Every comparison returns, or panics in `SetFloat64` or in `Interface` -/

theorem isRO_ro (r : RO) : r.ro.isRO = r.isRO := by
  obtain ⟨a, b⟩ := r; cases a <;> cases b <;> rfl

theorem isRO_join (a b : RO) : (a.join b).isRO = (a.isRO || b.isRO) := by
  obtain ⟨a1, a2⟩ := a; obtain ⟨b1, b2⟩ := b
  cases a1 <;> cases a2 <;> cases b1 <;> cases b2 <;> rfl

theorem isRO_clear : RO.clear.isRO = false := rfl

theorem isRO_field (r : RO) (f : StructField) (hr : r.isRO = false) (hf : f.PkgPath = "") :
    (r.field f).isRO = false := by
  obtain ⟨a, b⟩ := r
  cases a <;> cases b <;> simp [RO.isRO, RO.field, hf] at hr ⊢

theorem ret_conv {s1 s2 : compareState} {g1 g2 h1 h2 : Prop} {o : Outcome}
    (hs : s1.stack = s2.stack) (a : h1 → g1) (b : h2 → g2) (h : Ret s1 g1 g2 o) :
    Ret s2 h1 h2 o := by
  unfold Ret at h ⊢
  cases o with
  | error e =>
    rcases h with h | h
    · exact Or.inl ⟨h.1, fun k => h.2 (a k)⟩
    · exact Or.inr ⟨h.1, fun k => h.2 (b k)⟩
  | ok r => obtain ⟨b, s'⟩ := r; simp only [] at h ⊢; rw [h, hs]

theorem ret_ok (s s' : compareState) (g1 g2 : Prop) (b : Bool) (h : s'.stack = s.stack) :
    Ret s g1 g2 (.ok (b, s')) := h

theorem ret_appendV (s : compareState) (r : RO) (x y : String) (g1 g2 : Prop)
    (h : g2 → r.isRO = false) : Ret s g1 g2 (s.appendV r x y) := by
  unfold compareState.appendV
  split
  · rename_i hr
    exact Or.inr ⟨rfl, fun k => by rw [h k] at hr; cases hr⟩
  · exact ret_ok _ _ _ _ _ rfl

theorem popCheck_ret {c : Comparer} {s : compareState} {v i : String} {g1 g2 : Prop}
    {o : Outcome} {next : compareState → Outcome} (ho : Ret (s.push v i) g1 g2 o)
    (hn : ∀ s2 : compareState, s2.stack = s.stack → Ret s2 g1 g2 (next s2)) :
    Ret s g1 g2 (popCheck c o next) := by
  cases o with
  | error e => exact ho
  | ok r =>
    obtain ⟨b, s1⟩ := r
    have h1 : s1.stack = pushStack s.stack v i := ho
    have hne : ¬ s1.stack.length = 0 := by
      intro h0
      exact pushStack_ne_nil s.stack v i (by rw [← h1]; exact List.length_eq_zero.mp h0)
    simp only [popCheck, compareState.pop, if_neg hne]
    have h2 : s1.stack.dropLast = s.stack := by rw [h1, pushStack_dropLast]
    split
    · exact h2
    · exact ret_conv (by simpa using h2) id id (hn _ h2)

theorem mem_complexOkList {x : Val} {xs : List Val} (h : x ∈ xs)
    (hm : complexOkList xs = true) : x.complexOk = true := by
  induction xs with
  | nil => simp at h
  | cons y ys ih =>
    simp only [complexOkList, Bool.and_eq_true] at hm
    rcases List.mem_cons.mp h with rfl | h2
    · exact hm.1
    · exact ih h2 hm.2

theorem mem_complexOkFields {e : StructField × Val} {xs : List (StructField × Val)}
    (h : e ∈ xs) (hm : complexOkFields xs = true) : e.2.complexOk = true := by
  induction xs with
  | nil => simp at h
  | cons y ys ih =>
    obtain ⟨f, v⟩ := y
    simp only [complexOkFields, Bool.and_eq_true] at hm
    rcases List.mem_cons.mp h with rfl | h2
    · exact hm.1
    · exact ih h2 hm.2

theorem mem_complexOkEntries {e : Val × Val} {xs : List (Val × Val)} (h : e ∈ xs)
    (hm : complexOkEntries xs = true) : e.2.complexOk = true := by
  induction xs with
  | nil => simp at h
  | cons y ys ih =>
    obtain ⟨f, v⟩ := y
    simp only [complexOkEntries, Bool.and_eq_true] at hm
    rcases List.mem_cons.mp h with rfl | h2
    · exact hm.1
    · exact ih h2 hm.2

theorem mem_exportedList {x : Val} {xs : List Val} (h : x ∈ xs)
    (hm : exportedList xs = true) : x.exported = true := by
  induction xs with
  | nil => simp at h
  | cons y ys ih =>
    simp only [exportedList, Bool.and_eq_true] at hm
    rcases List.mem_cons.mp h with rfl | h2
    · exact hm.1
    · exact ih h2 hm.2

theorem mem_exportedFields {e : StructField × Val} {xs : List (StructField × Val)}
    (h : e ∈ xs) (hm : exportedFields xs = true) :
    e.1.PkgPath = "" ∧ e.2.exported = true := by
  induction xs with
  | nil => simp at h
  | cons y ys ih =>
    obtain ⟨f, v⟩ := y
    simp only [exportedFields, Bool.and_eq_true, beq_iff_eq] at hm
    rcases List.mem_cons.mp h with rfl | h2
    · exact hm.1
    · exact ih h2 hm.2

theorem mem_exportedEntries {e : Val × Val} {xs : List (Val × Val)} (h : e ∈ xs)
    (hm : exportedEntries xs = true) : e.2.exported = true := by
  induction xs with
  | nil => simp at h
  | cons y ys ih =>
    obtain ⟨f, v⟩ := y
    simp only [exportedEntries, Bool.and_eq_true] at hm
    rcases List.mem_cons.mp h with rfl | h2
    · exact hm.1
    · exact ih h2 hm.2

theorem arrayLoop_ret (c : Comparer) {rec : Rec} (xa ya : Flag) (d : Int) (g1 g2 : Prop)
    (xs ys : List Val) (hlen : xs.length = ys.length)
    (hrec : ∀ x ∈ xs, ∀ y ∈ ys, ∀ (d2 : Int) (s : compareState),
      Ret s g1 g2 (rec ⟨some x, xa⟩ ⟨some y, ya⟩ d2 s)) :
    ∀ (i : Nat) (s : compareState), Ret s g1 g2 (arrayLoop c rec xa ya d xs ys i s) := by
  induction xs generalizing ys with
  | nil => intro i s; exact ret_ok s s g1 g2 true rfl
  | cons x xs ih =>
    cases ys with
    | nil => simp at hlen
    | cons y ys =>
      intro i s
      simp only [arrayLoop]
      apply popCheck_ret (hrec x (by simp) y (by simp) _ _)
      intro s2 h2
      exact ih ys (by simpa using hlen)
        (fun x2 hx2 y2 hy2 => hrec x2 (by simp [hx2]) y2 (by simp [hy2])) (i + 1) s2

theorem sliceLoopRight_ret (c : Comparer) (ya : Flag) (g1 g2 : Prop)
    (hy : g2 → ya.ro.isRO = false) (ys : List Val) :
    ∀ (i : Nat) (s : compareState), Ret s g1 g2 (sliceLoopRight c ya ys i s) := by
  induction ys with
  | nil => intro i s; exact ret_ok s s g1 g2 true rfl
  | cons y ys ih =>
    intro i s
    simp only [sliceLoopRight]
    apply popCheck_ret (ret_appendV (s.push _ _) _ _ _ g1 g2 hy)
    intro s2 h2
    exact ih (i + 1) s2

theorem sliceLoop_ret (c : Comparer) {rec : Rec} (xa ya : Flag) (d : Int) (g1 g2 : Prop)
    (hx : g2 → xa.ro.isRO = false) (hy : g2 → ya.ro.isRO = false)
    (xs ys : List Val)
    (hrec : ∀ x ∈ xs, ∀ y ∈ ys, ∀ (d2 : Int) (s : compareState),
      Ret s g1 g2 (rec ⟨some x, xa⟩ ⟨some y, ya⟩ d2 s)) :
    ∀ (i : Nat) (s : compareState), Ret s g1 g2 (sliceLoop c rec xa ya d xs ys i s) := by
  induction xs generalizing ys with
  | nil => intro i s; simp only [sliceLoop]; exact sliceLoopRight_ret c ya g1 g2 hy ys i s
  | cons x xs ih =>
    cases ys with
    | nil =>
      intro i s
      simp only [sliceLoop]
      apply popCheck_ret (ret_appendV (s.push _ _) _ _ _ g1 g2 hx)
      intro s2 h2
      exact ih [] (fun x2 hx2 y2 hy2 => by simp at hy2) (i + 1) s2
    | cons y ys =>
      intro i s
      simp only [sliceLoop]
      apply popCheck_ret (hrec x (by simp) y (by simp) _ _)
      intro s2 h2
      exact ih ys (fun x2 hx2 y2 hy2 => hrec x2 (by simp [hx2]) y2 (by simp [hy2])) (i + 1) s2

theorem structLoop_ret (c : Comparer) {rec : Rec} (xa ya : Flag) (d : Int) (g1 g2 : Prop)
    (xs ys : List (StructField × Val)) (hlen : xs.length = ys.length)
    (hrec : ∀ x ∈ xs, ∀ y ∈ ys, ∀ (d2 : Int) (s : compareState),
      ¬ ((!c.CompareUnexportedFields && x.1.PkgPath != "") = true) →
      Ret s g1 g2 (rec ⟨some x.2, ⟨xa.addr, xa.ro.field x.1⟩⟩
        ⟨some y.2, ⟨ya.addr, ya.ro.field x.1⟩⟩ d2 s)) :
    ∀ (s : compareState), Ret s g1 g2 (structLoop c rec xa ya d xs ys s) := by
  induction xs generalizing ys with
  | nil => intro s; exact ret_ok s s g1 g2 true rfl
  | cons x xs ih =>
    obtain ⟨f, xv⟩ := x
    cases ys with
    | nil => simp at hlen
    | cons y ys =>
      obtain ⟨f2, yv⟩ := y
      intro s
      have hl : xs.length = ys.length := by simpa using hlen
      have hr : ∀ x2 ∈ xs, ∀ y2 ∈ ys, ∀ (d2 : Int) (s : compareState),
          ¬ ((!c.CompareUnexportedFields && x2.1.PkgPath != "") = true) →
          Ret s g1 g2 (rec ⟨some x2.2, ⟨xa.addr, xa.ro.field x2.1⟩⟩
            ⟨some y2.2, ⟨ya.addr, ya.ro.field x2.1⟩⟩ d2 s) :=
        fun x2 hx2 y2 hy2 => hrec x2 (by simp [hx2]) y2 (by simp [hy2])
      simp only [structLoop]
      split
      · exact ih ys hl hr s
      · rename_i hv
        apply popCheck_ret (hrec (f, xv) (by simp) (f2, yv) (by simp) _ _ hv)
        intro s2 h2
        exact ih ys hl hr s2

theorem mapLoopRight_ret (c : Comparer) (yr : RO) (g1 g2 : Prop) (hy : g2 → yr.isRO = false)
    (xes yes : List (Val × Val)) (ks : List Val) :
    ∀ (s : compareState), Ret s g1 g2 (mapLoopRight c yr xes yes ks s) := by
  induction ks with
  | nil => intro s; exact ret_ok s s g1 g2 true rfl
  | cons k ks ih =>
    intro s
    simp only [mapLoopRight]
    split
    · exact ih s
    · apply popCheck_ret (ret_appendV (s.push _ _) _ _ _ g1 g2 ?_)
      · intro s2 h2
        exact ih s2
      · intro k2
        split
        · rw [isRO_ro, isRO_join, isRO_ro, hy k2]; rfl
        · rfl

theorem mapLoop_ret (c : Comparer) {rec : Rec} (xr yr : RO) (d : Int) (g1 g2 : Prop)
    (hx : g2 → xr.isRO = false) (hy : g2 → yr.isRO = false)
    (xes yes : List (Val × Val)) (ks : List Val)
    (hrec : ∀ (ox oy : Option Val) (d2 : Int) (s : compareState),
      (∀ v, ox = some v → ∃ e ∈ xes, e.2 = v) → (∀ w, oy = some w → ∃ e ∈ yes, e.2 = w) →
      Ret s g1 g2 (rec ⟨ox, ⟨false, (xr.join xr.ro).ro⟩⟩ ⟨oy, ⟨false, (yr.join xr.ro).ro⟩⟩ d2 s)) :
    ∀ (s : compareState), Ret s g1 g2 (mapLoop c rec xr yr d xes yes ks s) := by
  induction ks with
  | nil => intro s; simp only [mapLoop]; exact mapLoopRight_ret c yr g1 g2 hy xes yes _ s
  | cons k ks ih =>
    intro s
    simp only [mapLoop]
    refine @popCheck_ret c s "map" ("[" ++ fmtValue (some k) ++ "]") g1 g2 _ _ ?_
      (fun s2 _ => ih s2)
    split
    · apply hrec
      · intro v hv
        obtain ⟨e, he, _, h2⟩ := mapIndex_some_mem hv
        exact ⟨e, he, h2⟩
      · intro v hv
        obtain ⟨e, he, _, h2⟩ := mapIndex_some_mem hv
        exact ⟨e, he, h2⟩
    · split
      · exact ret_appendV (s.push _ _) _ _ _ g1 g2
          (fun k2 => by rw [isRO_ro, isRO_join, isRO_ro, hx k2]; rfl)
      · exact ret_ok (s.push _ _) ((s.push _ _).append _ _) g1 g2 true rfl

theorem nilCheck_ret {nilIsEmpty : Bool} {marker : String} {x y : Val} {xr yr : RO}
    {xNil yNil : Bool} {xLen yLen : Nat} {s : compareState} {o : Outcome} (g1 g2 : Prop)
    (hx : g2 → xr.isRO = false) (hy : g2 → yr.isRO = false)
    (h : nilCheck nilIsEmpty marker x y xr yr xNil yNil xLen yLen s = some o) :
    Ret s g1 g2 o := by
  unfold nilCheck at h
  split at h
  · split at h
    · cases h; exact ret_appendV s _ _ _ g1 g2 hy
    · split at h
      · cases h; exact ret_appendV s _ _ _ g1 g2 hx
      · cases h
  · split at h
    · cases h; exact ret_appendV s _ _ _ g1 g2 hy
    · split at h
      · cases h; exact ret_appendV s _ _ _ g1 g2 hx
      · cases h

theorem setFloat64_isSome (p : Int) (v : GoFloat) (h : v.isNaN = false) :
    (setFloat64 p v).isSome = true := by
  cases v with
  | nan => simp [GoFloat.isNaN] at h
  | inf s => rfl
  | fin s m e =>
    simp only [setFloat64]
    split
    · rfl
    · split <;> rfl

theorem floatDiffers_isSome (c : Comparer) (a b : GoFloat) (ha : a.isNaN = false)
    (hb : b.isNaN = false) : ∃ r, floatDiffers c a b = some r := by
  have h1 := setFloat64_isSome c.FloatPrecision a ha
  have h2 := setFloat64_isSome c.FloatPrecision b hb
  obtain ⟨fa, hfa⟩ := Option.isSome_iff_exists.mp h1
  obtain ⟨fb, hfb⟩ := Option.isSome_iff_exists.mp h2
  exact ⟨cmpNe fa fb, by simp [floatDiffers, hfa, hfb]⟩

theorem not_word_typ (x : Val) (t : String) (k : WordKind) (w : Nat)
    (hx : ∀ t2 k2 w2, x ≠ .word t2 k2 w2) : x.typ ≠ (Val.word t k w).typ := by
  cases k <;> cases x <;>
    first | exact absurd rfl (hx _ _ _) | simp [Val.typ, Val.kind]

/-! ## The switch returns -/

theorem roSafe_root (c : Comparer) (x y : Val) :
    RoSafe c ⟨some x, Flag.root⟩ ⟨some y, Flag.root⟩ ↔
      (c.CompareUnexportedFields = false ∨ x.exported = true) := by
  simp [RoSafe, Flag.root, isRO_clear, exportedOpt]

theorem kindSwitch_ret (c : Comparer) {rec : Rec} (x y : Value) (xv yv : Val) (d : Int)
    (s : compareState) (hty : xv.typ = yv.typ)
    (hrec : ∀ (x2 y2 : Value) (d2 : Int) (s2 : compareState), sizeOpt x2.v < xv.size →
      Ret s2 (complexOkOpt x2.v = true ∧ complexOkOpt y2.v = true) (RoSafe c x2 y2)
        (rec x2 y2 d2 s2)) :
    Ret s (xv.complexOk = true ∧ yv.complexOk = true)
      (RoSafe c ⟨some xv, x.flag⟩ ⟨some yv, y.flag⟩) (kindSwitch c rec x y xv yv d s) := by
  obtain ⟨xo, xf⟩ := x
  obtain ⟨yo, yf⟩ := y
  simp only []
  have hxr : RoSafe c ⟨some xv, xf⟩ ⟨some yv, yf⟩ → xf.ro.isRO = false := fun h => h.1
  have hyr : RoSafe c ⟨some xv, xf⟩ ⟨some yv, yf⟩ → yf.ro.isRO = false := fun h => h.2.1
  cases xv with
  | bool t a =>
    cases yv <;> first | exact absurd hty (not_word_typ _ _ _ _ (by intros; simp)) |
      simp only [Val.typ, Val.tname, Val.kind, GoType.mk.injEq, and_true, and_false,
        reduceCtorEq, true_and, false_and] at hty
    simp only [kindSwitch]
    split <;> exact ret_ok _ _ _ _ _ rfl
  | int t a =>
    cases yv <;> first | exact absurd hty (not_word_typ _ _ _ _ (by intros; simp)) |
      simp only [Val.typ, Val.tname, Val.kind, GoType.mk.injEq, and_true, and_false,
        reduceCtorEq, true_and, false_and] at hty
    simp only [kindSwitch]
    split <;> exact ret_ok _ _ _ _ _ rfl
  | uint t a =>
    cases yv <;> first | exact absurd hty (not_word_typ _ _ _ _ (by intros; simp)) |
      simp only [Val.typ, Val.tname, Val.kind, GoType.mk.injEq, and_true, and_false,
        reduceCtorEq, true_and, false_and] at hty
    simp only [kindSwitch]
    split <;> exact ret_ok _ _ _ _ _ rfl
  | str t a =>
    cases yv <;> first | exact absurd hty (not_word_typ _ _ _ _ (by intros; simp)) |
      simp only [Val.typ, Val.tname, Val.kind, GoType.mk.injEq, and_true, and_false,
        reduceCtorEq, true_and, false_and] at hty
    simp only [kindSwitch]
    split <;> exact ret_ok _ _ _ _ _ rfl
  | func t a =>
    cases yv <;> first | exact absurd hty (not_word_typ _ _ _ _ (by intros; simp)) |
      simp only [Val.typ, Val.tname, Val.kind, GoType.mk.injEq, and_true, and_false,
        reduceCtorEq, true_and, false_and] at hty
    simp only [kindSwitch]
    split
    · exact ret_appendV s _ _ _ _ _ (fun k => by rw [isRO_join, hxr k, hyr k]; rfl)
    · exact ret_ok _ _ _ _ _ rfl
  | word t k a =>
    cases yv with
    | word u k2 b =>
      simp only [kindSwitch]
      split
      · rename_i hr
        refine Or.inr ⟨rfl, fun k => ?_⟩
        rw [isRO_join, hxr k, hyr k] at hr
        cases hr
      · split <;> exact ret_ok _ _ _ _ _ rfl
    | _ => exact absurd hty.symm (not_word_typ _ _ _ _ (by intros; simp))
  | float t vx =>
    cases yv <;> first | exact absurd hty (not_word_typ _ _ _ _ (by intros; simp)) |
      simp only [Val.typ, Val.tname, Val.kind, GoType.mk.injEq, and_true, and_false,
        reduceCtorEq, true_and, false_and] at hty
    rename_i u vy
    simp only [kindSwitch]
    by_cases h1 : vx.isNaN = true ∧ vy.isNaN = true
    · rw [if_pos h1]; exact ret_ok _ _ _ _ _ rfl
    · rw [if_neg h1]
      by_cases h2 : vx.isNaN = true ∨ vy.isNaN = true
      · rw [if_pos h2]; exact ret_ok _ _ _ _ _ rfl
      · rw [if_neg h2]
        split
        · split <;> exact ret_ok _ _ _ _ _ rfl
        · obtain ⟨r, hr⟩ := floatDiffers_isSome c vx vy
            (by cases h : vx.isNaN <;> simp_all) (by cases h : vy.isNaN <;> simp_all)
          rw [hr]
          cases r <;> exact ret_ok _ _ _ _ _ rfl
  | complex t rx ix =>
    cases yv <;> first | exact absurd hty (not_word_typ _ _ _ _ (by intros; simp)) |
      simp only [Val.typ, Val.tname, Val.kind, GoType.mk.injEq, and_true, and_false,
        reduceCtorEq, true_and, false_and] at hty
    rename_i u ry iy
    simp only [kindSwitch]
    have hbad : ∀ a b : GoFloat, floatDiffers c a b = none →
        ¬ (a.isNaN = false ∧ b.isNaN = false) := by
      intro a b h0 hab
      obtain ⟨r, hr⟩ := floatDiffers_isSome c a b hab.1 hab.2
      rw [hr] at h0
      cases h0
    split
    · split <;> exact ret_ok _ _ _ _ _ rfl
    · cases h1 : floatDiffers c rx ry with
      | none =>
        refine Or.inl ⟨rfl, ?_⟩
        intro hg
        simp only [Val.complexOk, Bool.and_eq_true, Bool.not_eq_true'] at hg
        exact hbad rx ry h1 ⟨hg.1.1, hg.2.1⟩
      | some r =>
        cases r with
        | true => exact ret_ok _ _ _ _ _ rfl
        | false =>
          simp only []
          cases h2 : floatDiffers c ix iy with
          | none =>
            refine Or.inl ⟨rfl, ?_⟩
            intro hg
            simp only [Val.complexOk, Bool.and_eq_true, Bool.not_eq_true'] at hg
            exact hbad ix iy h2 ⟨hg.1.2, hg.2.2⟩
          | some r2 => cases r2 <;> exact ret_ok _ _ _ _ _ rfl
  | array t xs =>
    cases yv <;> first | exact absurd hty (not_word_typ _ _ _ _ (by intros; simp)) |
      simp only [Val.typ, Val.tname, Val.kind, GoType.mk.injEq, and_true, and_false,
        reduceCtorEq, true_and, false_and] at hty
    rename_i u ys
    simp only [kindSwitch]
    apply arrayLoop_ret c _ _ d _ _ xs ys hty.2
    intro x2 hx2 y2 hy2 d2 s2
    refine ret_conv rfl ?_ ?_ (hrec ⟨some x2, _⟩ ⟨some y2, _⟩ d2 s2
      (by have := mem_sizeList hx2; simp only [sizeOpt, Val.size]; omega))
    · intro hg
      simp only [Val.complexOk] at hg
      exact ⟨mem_complexOkList hx2 hg.1, mem_complexOkList hy2 hg.2⟩
    · intro hg
      refine ⟨by simp only [isRO_ro]; exact hg.1, by simp only [isRO_ro]; exact hg.2.1, ?_⟩
      exact hg.2.2.imp id (fun h => mem_exportedList hx2 (by simpa [exportedOpt, Val.exported] using h))
  | struct t xs =>
    cases yv <;> first | exact absurd hty (not_word_typ _ _ _ _ (by intros; simp)) |
      simp only [Val.typ, Val.tname, Val.kind, GoType.mk.injEq, and_true, and_false,
        reduceCtorEq, true_and, false_and] at hty
    rename_i u ys
    simp only [kindSwitch]
    apply structLoop_ret c _ _ d _ _ xs ys
      (by have := congrArg List.length hty.2; simpa using this)
    intro x2 hx2 y2 hy2 d2 s2 hv
    refine ret_conv rfl ?_ ?_ (hrec ⟨some x2.2, _⟩ ⟨some y2.2, _⟩ d2 s2
      (by have := mem_sizeFields hx2; simp only [sizeOpt, Val.size]; omega))
    · intro hg
      simp only [Val.complexOk] at hg
      exact ⟨mem_complexOkFields hx2 hg.1, mem_complexOkFields hy2 hg.2⟩
    · intro hg
      have hpk : x2.1.PkgPath = "" := by
        rcases hg.2.2 with h | h
        · simpa [h] using hv
        · exact (mem_exportedFields hx2 (by simpa [exportedOpt, Val.exported] using h)).1
      refine ⟨isRO_field _ _ hg.1 hpk, isRO_field _ _ hg.2.1 hpk, ?_⟩
      exact hg.2.2.imp id (fun h =>
        (mem_exportedFields hx2 (by simpa [exportedOpt, Val.exported] using h)).2)
  | slice t l hx =>
    cases yv <;> first | exact absurd hty (not_word_typ _ _ _ _ (by intros; simp)) |
      simp only [Val.typ, Val.tname, Val.kind, GoType.mk.injEq, and_true, and_false,
        reduceCtorEq, true_and, false_and] at hty
    rename_i u l2 hy
    simp only [kindSwitch]
    split
    · rename_i o h1
      exact nilCheck_ret _ _ hxr hyr h1
    · split
      · exact ret_ok _ _ _ _ _ rfl
      · apply sliceLoop_ret c _ _ d _ _ (fun k => by simp only [isRO_ro]; exact hxr k)
          (fun k => by simp only [isRO_ro]; exact hyr k) (elemsOf hx) (elemsOf hy)
        intro x2 hx2 y2 hy2 d2 s2
        cases hx with
        | none => simp [elemsOf] at hx2
        | some p =>
          obtain ⟨p, xs⟩ := p
          cases hy with
          | none => simp [elemsOf] at hy2
          | some q =>
            obtain ⟨q, ys⟩ := q
            simp only [elemsOf] at hx2 hy2
            refine ret_conv rfl ?_ ?_ (hrec ⟨some x2, _⟩ ⟨some y2, _⟩ d2 s2
              (by have := mem_sizeList hx2; simp only [sizeOpt, Val.size]; omega))
            · intro hg
              simp only [Val.complexOk] at hg
              exact ⟨mem_complexOkList hx2 hg.1, mem_complexOkList hy2 hg.2⟩
            · intro hg
              refine ⟨by simp only [isRO_ro]; exact hg.1, by simp only [isRO_ro]; exact hg.2.1,
                ?_⟩
              exact hg.2.2.imp id (fun h =>
                mem_exportedList hx2 (by simpa [exportedOpt, Val.exported] using h))
  | map t l hx =>
    cases yv <;> first | exact absurd hty (not_word_typ _ _ _ _ (by intros; simp)) |
      simp only [Val.typ, Val.tname, Val.kind, GoType.mk.injEq, and_true, and_false,
        reduceCtorEq, true_and, false_and] at hty
    rename_i u l2 hy
    simp only [kindSwitch]
    split
    · rename_i o h1
      exact nilCheck_ret _ _ hxr hyr h1
    · split
      · exact ret_ok _ _ _ _ _ rfl
      · apply mapLoop_ret c _ _ d _ _ hxr hyr (elemsOf hx) (elemsOf hy)
        intro ox oy d2 s2 hox hoy
        have hsz : sizeOpt ox < (Val.map t l hx).size := by
          cases ox with
          | none => simp only [sizeOpt]; exact size_pos _
          | some v =>
            obtain ⟨e, he, hev⟩ := hox v rfl
            subst hev
            cases hx with
            | none => simp [elemsOf] at he
            | some p =>
              obtain ⟨p, xs⟩ := p
              simp only [elemsOf] at he
              have := mem_sizeEntries he
              simp only [sizeOpt, Val.size]; omega
        refine ret_conv rfl ?_ ?_ (hrec ⟨ox, _⟩ ⟨oy, _⟩ d2 s2 hsz)
        · intro hg
          constructor
          · cases ox with
            | none => rfl
            | some v =>
              obtain ⟨e, he, hev⟩ := hox v rfl
              subst hev
              cases hx with
              | none => simp [elemsOf] at he
              | some p =>
                obtain ⟨p, xs⟩ := p
                simp only [elemsOf] at he
                simp only [Val.complexOk] at hg
                exact mem_complexOkEntries he hg.1
          · cases oy with
            | none => rfl
            | some v =>
              obtain ⟨e, he, hev⟩ := hoy v rfl
              subst hev
              cases hy with
              | none => simp [elemsOf] at he
              | some p =>
                obtain ⟨p, ys⟩ := p
                simp only [elemsOf] at he
                simp only [Val.complexOk] at hg
                exact mem_complexOkEntries he hg.2
        · intro hg
          refine ⟨?_, ?_, ?_⟩
          · simp only [isRO_ro, isRO_join]; rw [hg.1]; rfl
          · simp only [isRO_ro, isRO_join]; rw [hg.1, hg.2.1]; rfl
          · refine hg.2.2.imp id (fun h => ?_)
            cases ox with
            | none => rfl
            | some v =>
              obtain ⟨e, he, hev⟩ := hox v rfl
              subst hev
              cases hx with
              | none => simp [elemsOf] at he
              | some p =>
                obtain ⟨p, xs⟩ := p
                simp only [elemsOf] at he
                exact mem_exportedEntries he (by simpa [exportedOpt, Val.exported] using h)
  | ptr t l hx =>
    cases yv <;> first | exact absurd hty (not_word_typ _ _ _ _ (by intros; simp)) |
      simp only [Val.typ, Val.tname, Val.kind, GoType.mk.injEq, and_true, and_false,
        reduceCtorEq, true_and, false_and] at hty
    rename_i u l2 hy
    simp only [kindSwitch]
    split
    · exact ret_ok _ _ _ _ _ rfl
    · refine ret_conv rfl ?_ ?_ (hrec _ _ d s ?_)
      · intro hg
        constructor
        · cases hx with
          | none => rfl
          | some p => obtain ⟨p, v⟩ := p; simpa [Val.complexOk, complexOkOpt] using hg.1
        · cases hy with
          | none => rfl
          | some p => obtain ⟨p, v⟩ := p; simpa [Val.complexOk, complexOkOpt] using hg.2
      · intro hg
        refine ⟨hg.1, hg.2.1, hg.2.2.imp id (fun h => ?_)⟩
        cases hx with
        | none => rfl
        | some p => obtain ⟨p, v⟩ := p; simpa [exportedOpt, Val.exported] using h
      · cases hx with
        | none => simp [sizeOpt, Val.size]
        | some p => obtain ⟨p, v⟩ := p; simp [sizeOpt, Val.size]
  | iface t l hx =>
    cases yv <;> first | exact absurd hty (not_word_typ _ _ _ _ (by intros; simp)) |
      simp only [Val.typ, Val.tname, Val.kind, GoType.mk.injEq, and_true, and_false,
        reduceCtorEq, true_and, false_and] at hty
    rename_i u l2 hy
    simp only [kindSwitch]
    cases hx with
    | none =>
      cases hy with
      | none => exact ret_ok _ _ _ _ _ rfl
      | some w => exact ret_appendV s _ _ _ _ _ hyr
    | some v =>
      cases hy with
      | none => exact ret_appendV s _ _ _ _ _ hxr
      | some w =>
        simp only []
        refine ret_conv rfl ?_ ?_ (hrec _ _ d s (by simp [sizeOpt, Val.size]))
        · intro hg
          simpa [Val.complexOk, complexOkOpt] using hg
        · intro hg
          refine ⟨by simp only [isRO_ro]; exact hg.1, by simp only [isRO_ro]; exact hg.2.1, ?_⟩
          exact hg.2.2.imp id (fun h => by simpa [exportedOpt, Val.exported] using h)

/-- A call of `deepValueEqual` with fuel above the size of its left operand
returns with the stack restored, or panics in `SetFloat64` on the NaN part of a
complex number, or in `Interface` on a value reached through an unexported
field. -/
theorem deepValueEqual_ret (c : Comparer) :
    ∀ (fuel : Nat) (x y : Value) (d : Int) (s : compareState), sizeOpt x.v < fuel →
      Ret s (complexOkOpt x.v = true ∧ complexOkOpt y.v = true) (RoSafe c x y)
        (deepValueEqual c fuel x y d s) := by
  intro fuel
  induction fuel with
  | zero => intro x y d s h; omega
  | succ n ih =>
    intro x y d s hsz
    obtain ⟨xo, xa⟩ := x
    obtain ⟨yo, ya⟩ := y
    simp only [deepValueEqual]
    split
    · exact ret_ok _ _ _ _ _ rfl
    · cases xo with
      | none =>
        cases yo with
        | none => exact ret_ok _ _ _ _ _ rfl
        | some yv => exact ret_ok _ _ _ _ _ rfl
      | some xv =>
        cases yo with
        | none => exact ret_ok _ _ _ _ _ rfl
        | some yv =>
          simp only []
          split
          · exact ret_ok _ _ _ _ _ rfl
          · rename_i hty
            split
            · exact ret_ok _ _ _ _ _ rfl
            · have hk := @kindSwitch_ret c (deepValueEqual c n) ⟨some xv, xa⟩ ⟨some yv, ya⟩ xv yv d
                (if xa.addr && ya.addr && hard xv.kind then
                  { s with visited := ⟨min xv.loc yv.loc, max xv.loc yv.loc, xv.typ⟩ :: s.visited }
                else s) (by simpa using hty)
                (fun x2 y2 d2 s2 h2 => ih x2 y2 d2 s2 (by simp only [sizeOpt] at hsz; omega))
              refine ret_conv ?_ (fun h => h) (fun h => h) hk
              split <;> rfl

/-- Equal returns a list of diffs, or panics in `SetFloat64` on the NaN part of a
complex number inside one of the operands, or panics in `Interface` on a value
reached through an unexported field, which takes CompareUnexportedFields and
an unexported field inside the left operand. -/
theorem equal_returns (c : Comparer) (x y : Option Val) :
    (∃ ds, c.Equal x y = .ok ds) ∨
    (c.Equal x y = .error .nanFloat ∧ ¬ (complexOkOpt x = true ∧ complexOkOpt y = true)) ∨
    (c.Equal x y = .error .readOnly ∧ c.CompareUnexportedFields = true ∧
      exportedOpt x = false) := by
  cases x with
  | none =>
    cases y with
    | none => exact Or.inl ⟨_, rfl⟩
    | some yv => exact Or.inl ⟨_, rfl⟩
  | some xv =>
    cases y with
    | none => exact Or.inl ⟨_, rfl⟩
    | some yv =>
      have h := deepValueEqual_ret c (xv.size + 1) ⟨some xv, Flag.root⟩ ⟨some yv, Flag.root⟩ 0
        compareState.init (by simp [sizeOpt])
      simp only [Comparer.Equal]
      cases hr : deepValueEqual c (xv.size + 1) ⟨some xv, Flag.root⟩ ⟨some yv, Flag.root⟩ 0
          compareState.init with
      | ok r => obtain ⟨b, s⟩ := r; exact Or.inl ⟨_, rfl⟩
      | error e =>
        rw [hr] at h
        rcases h with ⟨he, hg⟩ | ⟨he, hg⟩
        · subst he
          exact Or.inr (Or.inl ⟨rfl, hg⟩)
        · subst he
          refine Or.inr (Or.inr ⟨rfl, ?_⟩)
          rw [roSafe_root] at hg
          simp only [exportedOpt]
          cases h1 : c.CompareUnexportedFields <;> cases h2 : xv.exported <;> simp_all

/-! ## Plain values hold no complex number -/

theorem complexOkList_of (xs : List Val) (h : ∀ x ∈ xs, x.complexOk = true) :
    complexOkList xs = true := by
  induction xs with
  | nil => rfl
  | cons x xs ih =>
    simp only [complexOkList, Bool.and_eq_true]
    exact ⟨h x (by simp), ih (fun y hy => h y (by simp [hy]))⟩

theorem complexOkFields_of (xs : List (StructField × Val))
    (h : ∀ x ∈ xs, x.2.complexOk = true) : complexOkFields xs = true := by
  induction xs with
  | nil => rfl
  | cons x xs ih =>
    obtain ⟨f, v⟩ := x
    simp only [complexOkFields, Bool.and_eq_true]
    exact ⟨h (f, v) (by simp), ih (fun y hy => h y (by simp [hy]))⟩

theorem complexOkEntries_of (xs : List (Val × Val))
    (h : ∀ x ∈ xs, x.2.complexOk = true) : complexOkEntries xs = true := by
  induction xs with
  | nil => rfl
  | cons x xs ih =>
    obtain ⟨f, v⟩ := x
    simp only [complexOkEntries, Bool.and_eq_true]
    exact ⟨h (f, v) (by simp), ih (fun y hy => h y (by simp [hy]))⟩

theorem plain_complexOk_le : ∀ (n : Nat) (v : Val), v.size ≤ n → v.plain = true →
    v.complexOk = true := by
  intro n
  induction n with
  | zero => intro v h; have := size_pos v; omega
  | succ n ih =>
    intro v hs hp
    cases v with
    | complex t a b => simp [Val.plain] at hp
    | array t xs =>
      simp only [Val.plain] at hp
      simp only [Val.size] at hs
      simp only [Val.complexOk]
      exact complexOkList_of xs (fun x hx =>
        ih x (by have := mem_sizeList hx; omega) (mem_plainList hx hp))
    | struct t xs =>
      simp only [Val.plain] at hp
      simp only [Val.size] at hs
      simp only [Val.complexOk]
      exact complexOkFields_of xs (fun x hx =>
        ih x.2 (by have := mem_sizeFields hx; omega) (mem_plainFields hx hp))
    | slice t l h =>
      cases h with
      | none => rfl
      | some p =>
        obtain ⟨p, xs⟩ := p
        simp only [Val.plain] at hp
        simp only [Val.size] at hs
        simp only [Val.complexOk]
        exact complexOkList_of xs (fun x hx =>
          ih x (by have := mem_sizeList hx; omega) (mem_plainList hx hp))
    | map t l h =>
      cases h with
      | none => rfl
      | some p =>
        obtain ⟨p, xs⟩ := p
        simp only [Val.plain] at hp
        simp only [Val.size] at hs
        simp only [Val.complexOk]
        exact complexOkEntries_of xs (fun x hx =>
          ih x.2 (by have := mem_sizeEntries hx; omega) (mem_plainEntries hx hp))
    | ptr t l h =>
      cases h with
      | none => rfl
      | some p =>
        obtain ⟨p, w⟩ := p
        simp only [Val.plain] at hp
        simp only [Val.size] at hs
        simp only [Val.complexOk]
        exact ih w (by omega) hp
    | iface t l h =>
      cases h with
      | none => rfl
      | some w =>
        simp only [Val.plain] at hp
        simp only [Val.size] at hs
        simp only [Val.complexOk]
        exact ih w (by omega) hp
    | _ => rfl

theorem plain_complexOk (v : Val) (h : v.plain = true) : v.complexOk = true :=
  plain_complexOk_le v.size v (Nat.le_refl _) h

/-! ## The entry point -/

@[simp] theorem root_ro : Flag.root.ro = RO.clear := rfl

@[simp] theorem root_addr : Flag.root.addr = false := rfl

theorem dve_type_mismatch (c : Comparer) (fuel : Nat) (xa ya : Flag) (x y : Val) (d : Int)
    (s : compareState) (hd : ¬ (c.MaxDepth > 0 ∧ d > c.MaxDepth)) (h : x.typ ≠ y.typ) :
    deepValueEqual c (fuel + 1) ⟨some x, xa⟩ ⟨some y, ya⟩ d s
      = .ok (false, s.append x.typ.name y.typ.name) := by
  simp only [deepValueEqual, if_neg hd]
  simp [h]

/-- With a positive cap and fresh storage, `Equal` returns what `scan` reads off
the events of the unbounded comparison. -/
theorem equal_eq_scan (c : Comparer) (hm : 0 < c.MaxDiffs) (x y : Val)
    (hf : FreshL (x.locs false) (y.locs false) []) (hmo : x.mapsOk = true) :
    c.Equal (some x) (some y)
      = scan c.MaxDiffs.toNat (diffTrace c (x.size + 1) RO.clear (some x) (some y) 0 []) := by
  have h := deepValueEqual_agree c (x.size + 1) ⟨some x, Flag.root⟩ ⟨some y, Flag.root⟩ 0
    compareState.init (by simpa [compareState.init] using hm)
    (by simpa [locsOpt, compareState.init, Flag.root] using hf) (by simpa [mapsOkOpt] using hmo)
    rfl
  unfold Agree at h
  simp only [compareState.init, List.length_nil, Nat.cast_zero, sub_zero, List.nil_append,
    root_ro] at h
  simp only [Comparer.Equal, compareState.init]
  cases hs : scan c.MaxDiffs.toNat (diffTrace c (x.size + 1) RO.clear (some x) (some y) 0 [])
    with
  | error f => rw [hs] at h; simp only [] at h; rw [h]
  | ok ds =>
    rw [hs] at h
    obtain ⟨b, V, ho, _⟩ := h
    rw [ho]

/-- With a positive cap, a list returned by `Equal` has at most that many
diffs. -/
theorem equal_length_le_cap (c : Comparer) (x y : Option Val) (ds : List Diff)
    (hm : 0 < c.MaxDiffs) (h : c.Equal x y = .ok ds) : (ds.length : Int) ≤ c.MaxDiffs := by
  cases x with
  | none =>
    cases y with
    | none => simp only [Comparer.Equal] at h; cases h; simpa using hm.le
    | some yv =>
      simp only [Comparer.Equal] at h
      cases h
      simp [compareState.init]
      omega
  | some xv =>
    cases y with
    | none =>
      simp only [Comparer.Equal] at h
      cases h
      simp [compareState.init]
      omega
    | some yv =>
      simp only [Comparer.Equal] at h
      cases hr : deepValueEqual c (xv.size + 1) ⟨some xv, Flag.root⟩ ⟨some yv, Flag.root⟩ 0
          compareState.init with
      | error e => rw [hr] at h; cases h
      | ok p =>
        obtain ⟨b, s⟩ := p
        rw [hr] at h
        cases h
        exact deepValueEqual_cap c _ _ _ _ _ _ _ hr (by simpa [compareState.init] using hm)

/-! ## The claims -/

/-- C1: for a Comparer with a positive diff cap, no depth limit, unexported
fields compared and nil kept apart from empty, and two non-nil operands that
share no storage, the left one built only from booleans, integers, strings,
arrays, slices, structs, maps, pointers and interfaces, `Equal` returns the
empty list exactly when the operands are deeply equal; and it does return a
list when the left operand has no unexported field and the right one is built
from the same kinds. -/
theorem C1_no_diffs_iff_deeply_equal (c : Comparer) (x y : Val)
    (hm : 0 < c.MaxDiffs) (hd : c.MaxDepth ≤ 0) (hu : c.CompareUnexportedFields = true)
    (hnm : c.NilMapsAreEmpty = false) (hns : c.NilSlicesAreEmpty = false)
    (hp : x.plain = true) (hmo : x.mapsOk = true) (hs : NoShare x y) :
    (c.Equal (some x) (some y) = .ok [] ↔ deepEq x y = true) ∧
    (x.exported = true → y.plain = true → ∃ ds, c.Equal (some x) (some y) = .ok ds) := by
  constructor
  · have hn := List.nodup_append.mp hs.1
    have hf : FreshL (x.locs false) (y.locs false) [] :=
      ⟨hn.1, fun a ha => ⟨by simp [footprint], fun hb => hn.2.2 ha hb⟩⟩
    rw [equal_eq_scan c hm x y hf hmo, scan_eq_nil_iff]
    exact trace_nil_iff c hd hu hnm hns (x.size + 1) RO.clear x y 0 [] (by omega) hp hmo hs.2
  · intro hx hy
    rcases equal_returns c (some x) (some y) with h | h | h
    · exact h
    · exact absurd ⟨plain_complexOk x hp, plain_complexOk y hy⟩ h.2
    · have h2 := h.2.2
      simp only [exportedOpt] at h2
      rw [hx] at h2
      cases h2

/-- C1 at two structs with an unexported slice field and a map field, stored
apart: the comparison returns no diff exactly when they are deeply equal. -/
theorem C1_no_diffs_iff_deeply_equal_witness :
    ({ NewComparer with CompareUnexportedFields := true } : Comparer).Equal
        (some (.struct "deep.T" [(⟨"a", "deep", false⟩, intSlice 4096 [1, 2]),
          (⟨"M", "", false⟩, intStrMap 4200 [(1, "one")])]))
        (some (.struct "deep.T" [(⟨"a", "deep", false⟩, intSlice 8192 [1, 2]),
          (⟨"M", "", false⟩, intStrMap 8300 [(1, "one")])])) = .ok [] ∧
    deepEq
        (.struct "deep.T" [(⟨"a", "deep", false⟩, intSlice 4096 [1, 2]),
          (⟨"M", "", false⟩, intStrMap 4200 [(1, "one")])])
        (.struct "deep.T" [(⟨"a", "deep", false⟩, intSlice 8192 [1, 2]),
          (⟨"M", "", false⟩, intStrMap 8300 [(1, "one")])]) = true :=
  ⟨rfl, (C1_no_diffs_iff_deeply_equal { NewComparer with CompareUnexportedFields := true }
    (.struct "deep.T" [(⟨"a", "deep", false⟩, intSlice 4096 [1, 2]),
      (⟨"M", "", false⟩, intStrMap 4200 [(1, "one")])])
    (.struct "deep.T" [(⟨"a", "deep", false⟩, intSlice 8192 [1, 2]),
      (⟨"M", "", false⟩, intStrMap 8300 [(1, "one")])])
    (by decide) (by decide) rfl rfl rfl rfl rfl
    ⟨by decide, by decide, by decide, by decide, by decide⟩).1.mp rfl⟩

/-- C2: when MaxDiffs = m is positive, for all operands a list returned by
`Equal` has at most m diffs, and `Equal` does return one when no complex number
inside an operand has a NaN part and no unexported field is compared; with
MaxDiffs = 1 comparing `[3]int{1,2,3}` with `[3]int{0,0,0}` yields exactly one
diff. -/
theorem C2_diffs_within_cap (c : Comparer) (x y : Option Val) (hm : 0 < c.MaxDiffs) :
    (∀ ds, c.Equal x y = .ok ds → (ds.length : Int) ≤ c.MaxDiffs) ∧
    (complexOkOpt x = true → complexOkOpt y = true →
      (c.CompareUnexportedFields = false ∨ exportedOpt x = true) →
      ∃ ds, c.Equal x y = .ok ds) ∧
    ({ NewComparer with MaxDiffs := 1 } : Comparer).Equal
        (some (intArray [1, 2, 3])) (some (intArray [0, 0, 0]))
      = .ok [⟨"1", "0", "array[0]"⟩] :=
  ⟨fun ds h => equal_length_le_cap c x y ds hm h,
   fun hx hy he => (equal_returns c x y).elim id (fun h => h.elim
     (fun h1 => absurd ⟨hx, hy⟩ h1.2)
     (fun h2 => he.elim (fun e => absurd h2.2.1 (by simp [e]))
       (fun e => absurd h2.2.2 (by simp [e])))),
   rfl⟩

/-- C2 at a concrete input: the capped comparison of the two arrays returns one
diff, within the cap of one. -/
theorem C2_diffs_within_cap_witness :
    ({ NewComparer with MaxDiffs := 1 } : Comparer).Equal
        (some (intArray [1, 2, 3])) (some (intArray [0, 0, 0]))
      = .ok [⟨"1", "0", "array[0]"⟩] ∧
    ((1 : Nat) : Int) ≤ ({ NewComparer with MaxDiffs := 1 } : Comparer).MaxDiffs :=
  ⟨rfl, (C2_diffs_within_cap { NewComparer with MaxDiffs := 1 } (some (intArray [1, 2, 3]))
    (some (intArray [0, 0, 0])) (by decide)).1 [⟨"1", "0", "array[0]"⟩] rfl⟩

/-- C3 (the code at the failing inputs): with MaxDiffs = 0 the comparison of
`[3]int{1,2,3}` with `[3]int{0,0,0}` stops after the first element and returns
one diff where a cap of 3 returns three, and the comparison of `[3]int{1,2,3}`
with `[3]int{1,2,4}` returns no diff where a cap of 1 returns one. -/
theorem C3_zero_cap_stops_after_first_element :
    ({ NewComparer with MaxDiffs := 0 } : Comparer).Equal
        (some (intArray [1, 2, 3])) (some (intArray [0, 0, 0]))
      = .ok [⟨"1", "0", "array[0]"⟩] ∧
    ({ NewComparer with MaxDiffs := 3 } : Comparer).Equal
        (some (intArray [1, 2, 3])) (some (intArray [0, 0, 0]))
      = .ok [⟨"1", "0", "array[0]"⟩, ⟨"2", "0", "array[1]"⟩, ⟨"3", "0", "array[2]"⟩] ∧
    ({ NewComparer with MaxDiffs := 0 } : Comparer).Equal
        (some (intArray [1, 2, 3])) (some (intArray [1, 2, 4]))
      = .ok [] ∧
    ({ NewComparer with MaxDiffs := 1 } : Comparer).Equal
        (some (intArray [1, 2, 3])) (some (intArray [1, 2, 4]))
      = .ok [⟨"3", "4", "array[2]"⟩] :=
  ⟨rfl, rfl, rfl, rfl⟩

/-- C5 (the code at the failing input): comparing the complex number NaN+0i, which
holds no function, with itself panics under the default configuration and
returns one diff under FloatPrecision = 0, whereas the float NaN compared with
itself returns no diff. -/
theorem C5_complex_nan_not_reflexive :
    NewComparer.Equal (some (.complex "complex128" .nan (.fin false 0 0)))
        (some (.complex "complex128" .nan (.fin false 0 0))) = .error .nanFloat ∧
    ({ NewComparer with FloatPrecision := 0 } : Comparer).Equal
        (some (.complex "complex128" .nan (.fin false 0 0)))
        (some (.complex "complex128" .nan (.fin false 0 0)))
      = .ok [⟨"(NaN+0p0i)", "(NaN+0p0i)", ""⟩] ∧
    NewComparer.Equal (some (.float "float64" .nan)) (some (.float "float64" .nan)) = .ok [] :=
  ⟨rfl, rfl, rfl⟩

/-- C6: for every configuration, `Equal(nil, nil)` returns no diffs, and for every
non-nil value v, `Equal(nil, v)` returns the single diff with left rendering
"<nil>", right rendering that of v and empty path, and `Equal(v, nil)` the
mirrored one. -/
theorem C6_nil_operands (c : Comparer) :
    c.Equal none none = .ok [] ∧
    ∀ v : Val,
      c.Equal none (some v) = .ok [⟨"<nil>", fmtV 0 v, ""⟩] ∧
      c.Equal (some v) none = .ok [⟨fmtV 0 v, "<nil>", ""⟩] :=
  ⟨rfl, fun _ => ⟨rfl, rfl⟩⟩

/-- C7: for every configuration and all non-nil values whose types differ, `Equal`
returns exactly one diff, with the descriptions of the two types as renderings
and an empty path; nothing of the contents is compared. -/
theorem C7_type_mismatch (c : Comparer) (x y : Val) (h : x.typ ≠ y.typ) :
    c.Equal (some x) (some y) = .ok [⟨x.typ.name, y.typ.name, ""⟩] := by
  have hd : ¬ (c.MaxDepth > 0 ∧ (0 : Int) > c.MaxDepth) := by omega
  simp only [Comparer.Equal, dve_type_mismatch c _ _ _ x y 0 _ hd h]
  rfl

/-- C7 at the inputs of the test table: `basic{1,0.5}` against `notBasic{1,0.5}`,
`int32(1)` against `int64(1)`, and `[]int{1,2,3}` against `[3]int{1,2,3}`. -/
theorem C7_type_mismatch_witness :
    NewComparer.Equal
        (some (.struct "deep.basic" [(⟨"X", "", false⟩, vInt 1), (⟨"Y", "", false⟩, .float "float32" (.fin false 1 (-1)))]))
        (some (.struct "deep.notBasic" [(⟨"X", "", false⟩, vInt 1), (⟨"Y", "", false⟩, .float "float32" (.fin false 1 (-1)))]))
      = .ok [⟨"deep.basic", "deep.notBasic", ""⟩] ∧
    NewComparer.Equal (some (.int "int32" 1)) (some (.int "int64" 1))
      = .ok [⟨"int32", "int64", ""⟩] ∧
    NewComparer.Equal (some (intSlice 4096 [1, 2, 3])) (some (intArray [1, 2, 3]))
      = .ok [⟨"[]int", "[3]int", ""⟩] :=
  ⟨C7_type_mismatch NewComparer _ _ (by decide),
   C7_type_mismatch NewComparer _ _ (by decide),
   C7_type_mismatch NewComparer _ _ (by decide)⟩

/-- C8: when MaxDiffs = m is positive, comparing two integer arrays of the same
length returns, in increasing index order, one diff for each index where the
elements differ (the first m of them), with path `array[i]` and the decimal
renderings of the two elements; under the default configuration
`[3]int{1,2,3}` against `[3]int{1,2,4}` gives the single diff whose String() is
"array[2]: 3 != 4". -/
theorem C8_integer_arrays (c : Comparer) (xs ys : List Int) (hm : 0 < c.MaxDiffs)
    (hlen : xs.length = ys.length) :
    c.Equal (some (intArray xs)) (some (intArray ys))
      = .ok ((intArrayDiffs 0 xs ys).take c.MaxDiffs.toNat) ∧
    (Equal (some (intArray [1, 2, 3])) (some (intArray [1, 2, 4]))).map (List.map Diff.String)
      = .ok ["array[2]: 3 != 4"] := by
  refine ⟨?_, rfl⟩
  rw [equal_eq_scan c hm _ _
    (by simp only [intArray, Val.locs, locsList_ints]; exact freshL_nil _ _)
    (by simp only [intArray, Val.mapsOk, mapsOkList_ints]),
    diffTrace_intArray c xs ys hlen]
  exact scan_diffs _ (by omega) _

/-- C8 at the arrays of the test table under the default configuration. -/
theorem C8_integer_arrays_witness :
    NewComparer.Equal (some (intArray [1, 2, 3])) (some (intArray [1, 2, 4]))
      = .ok [⟨"3", "4", "array[2]"⟩] ∧
    (Equal (some (intArray [1, 2, 3])) (some (intArray [1, 2, 4]))).map (List.map Diff.String)
      = .ok ["array[2]: 3 != 4"] :=
  C8_integer_arrays NewComparer [1, 2, 3] [1, 2, 4] (by decide) rfl

/-- C9: when MaxDiffs = m is positive, comparing two non-nil maps from integers
to strings that do not share storage returns the first m of: for each key of
the left map, a diff against "<no key>" when the right map lacks it or a diff
of the two values when they differ, then for each key only the right map has,
a diff with left rendering "<no key>"; each at path `map[k]`.  Their number is
min(m, a + b + c) for a keys only on the left, b keys only on the right and c
common keys with different values; `{1:"one",2:"two"}` against `{1:"one"}`
gives one diff in either order. -/
theorem C9_integer_string_maps (c : Comparer) (px py : Nat) (xs ys : List (Int × String))
    (hm : 0 < c.MaxDiffs) (hp : px ≠ py)
    (hx : (xs.map Prod.fst).Nodup) (hy : (ys.map Prod.fst).Nodup) :
    c.Equal (some (intStrMap px xs)) (some (intStrMap py ys))
      = .ok ((mapDiffs xs ys).take c.MaxDiffs.toNat) ∧
    (((mapDiffs xs ys).take c.MaxDiffs.toNat).length : Int)
      = min c.MaxDiffs ((keysOnlyIn xs ys + keysOnlyIn ys xs + keysDiffering xs ys : Nat) : Int) ∧
    NewComparer.Equal (some (intStrMap 4096 [(1, "one"), (2, "two")]))
        (some (intStrMap 8192 [(1, "one")]))
      = .ok [⟨"two", "<no key>", "map[2]"⟩] ∧
    NewComparer.Equal (some (intStrMap 8192 [(1, "one")]))
        (some (intStrMap 4096 [(1, "one"), (2, "two")]))
      = .ok [⟨"<no key>", "two", "map[2]"⟩] := by
  refine ⟨?_, ?_, rfl, rfl⟩
  · rw [equal_eq_scan c hm _ _
      (by simp only [intStrMap, Val.locs, locsEntries_enc]; exact freshL_nil _ _)
      (by simp only [intStrMap, Val.mapsOk, keysDistinct_enc xs hx, mapsOkEntries_enc,
        Bool.and_self]),
      diffTrace_intStrMap c px py hp xs ys hx hy]
    exact scan_diffs _ (by omega) _
  · rw [List.length_take, mapDiffs, List.length_append, length_mapDiffsLeft,
      length_mapDiffsRight]
    omega

/-- C9 at the maps of the test table, in both operand orders. -/
theorem C9_integer_string_maps_witness :
    (NewComparer.Equal (some (intStrMap 4096 [(1, "one"), (2, "two")]))
        (some (intStrMap 8192 [(1, "one")]))
      = .ok [⟨"two", "<no key>", "map[2]"⟩] ∧
     NewComparer.Equal (some (intStrMap 8192 [(1, "one")]))
        (some (intStrMap 4096 [(1, "one"), (2, "two")]))
      = .ok [⟨"<no key>", "two", "map[2]"⟩]) ∧
    ((1 : Nat) : Int) = min NewComparer.MaxDiffs ((1 : Nat) : Int) :=
  ⟨⟨(C9_integer_string_maps NewComparer 4096 8192 [(1, "one"), (2, "two")] [(1, "one")]
      (by decide) (by decide) (by decide) (by decide)).1,
    (C9_integer_string_maps NewComparer 8192 4096 [(1, "one")] [(1, "one"), (2, "two")]
      (by decide) (by decide) (by decide) (by decide)).1⟩,
   (C9_integer_string_maps NewComparer 4096 8192 [(1, "one"), (2, "two")] [(1, "one")]
      (by decide) (by decide) (by decide) (by decide)).2.1⟩

/-- C10: for every configuration, a nil slice against a non-nil empty slice of
the same type gives one diff (rendering "<nil slice>" on the nil side) when
NilSlicesAreEmpty is false and none when it is true; likewise for maps with
"<nil map>" and NilMapsAreEmpty; and a nil slice or map against a non-empty one
gives exactly one diff under either setting. -/
theorem C10_nil_versus_empty (c : Comparer) (t : String) (l1 l2 p : Nat) :
    c.Equal (some (.slice t l1 none)) (some (.slice t l2 (some (p, []))))
      = (if c.NilSlicesAreEmpty then .ok [] else .ok [⟨"<nil slice>", "[]", ""⟩]) ∧
    c.Equal (some (.slice t l2 (some (p, [])))) (some (.slice t l1 none))
      = (if c.NilSlicesAreEmpty then .ok [] else .ok [⟨"[]", "<nil slice>", ""⟩]) ∧
    c.Equal (some (.map t l1 none)) (some (.map t l2 (some (p, []))))
      = (if c.NilMapsAreEmpty then .ok [] else .ok [⟨"<nil map>", "map[]", ""⟩]) ∧
    c.Equal (some (.map t l2 (some (p, [])))) (some (.map t l1 none))
      = (if c.NilMapsAreEmpty then .ok [] else .ok [⟨"map[]", "<nil map>", ""⟩]) ∧
    (∀ (e : Val) (es : List Val),
      c.Equal (some (.slice t l1 none)) (some (.slice t l2 (some (p, e :: es))))
        = .ok [⟨"<nil slice>", fmtV 0 (.slice t l2 (some (p, e :: es))), ""⟩] ∧
      c.Equal (some (.slice t l2 (some (p, e :: es)))) (some (.slice t l1 none))
        = .ok [⟨fmtV 0 (.slice t l2 (some (p, e :: es))), "<nil slice>", ""⟩]) ∧
    (∀ (e : Val × Val) (es : List (Val × Val)),
      c.Equal (some (.map t l1 none)) (some (.map t l2 (some (p, e :: es))))
        = .ok [⟨"<nil map>", fmtV 0 (.map t l2 (some (p, e :: es))), ""⟩] ∧
      c.Equal (some (.map t l2 (some (p, e :: es)))) (some (.map t l1 none))
        = .ok [⟨fmtV 0 (.map t l2 (some (p, e :: es))), "<nil map>", ""⟩]) := by
  have hd : ¬ (c.MaxDepth > 0 ∧ (0 : Int) > c.MaxDepth) := by omega
  have e1 : fmtV 0 (.slice t l2 (some (p, []))) = "[]" := rfl
  have e2 : fmtV 0 (.map t l2 (some (p, []))) = "map[]" := rfl
  have e3 : String.join [] = "" := rfl
  refine ⟨?_, ?_, ?_, ?_, ?_, ?_⟩
  · cases hs : c.NilSlicesAreEmpty <;>
      simp [Comparer.Equal, deepValueEqual, hd, Val.typ, Val.kind, Val.tname, kindSwitch, nilCheck, hs,
        elemsOf, pointerOf, sliceLoop, sliceLoopRight, compareState.init, compareState.append, compareState.appendV, Flag.root, RO.clear,
        RO.isRO,
        fmtValue, e1, e3]
  · cases hs : c.NilSlicesAreEmpty <;>
      simp [Comparer.Equal, deepValueEqual, hd, Val.typ, Val.kind, Val.tname, kindSwitch, nilCheck, hs,
        elemsOf, pointerOf, sliceLoop, sliceLoopRight, compareState.init, compareState.append, compareState.appendV, Flag.root, RO.clear,
        RO.isRO,
        fmtValue, e1, e3]
  · cases hs : c.NilMapsAreEmpty <;>
      simp [Comparer.Equal, deepValueEqual, hd, Val.typ, Val.kind, Val.tname, kindSwitch, nilCheck, hs,
        elemsOf, pointerOf, mapLoop, mapLoopRight, mapKeys, compareState.init, compareState.append, compareState.appendV, Flag.root, RO.clear,
        RO.isRO,
        fmtValue, e2, e3]
  · cases hs : c.NilMapsAreEmpty <;>
      simp [Comparer.Equal, deepValueEqual, hd, Val.typ, Val.kind, Val.tname, kindSwitch, nilCheck, hs,
        elemsOf, pointerOf, mapLoop, mapLoopRight, mapKeys, compareState.init, compareState.append, compareState.appendV, Flag.root, RO.clear,
        RO.isRO,
        fmtValue, e2, e3]
  · intro e es
    constructor <;> cases hs : c.NilSlicesAreEmpty <;>
      simp [Comparer.Equal, deepValueEqual, hd, Val.typ, Val.kind, Val.tname, kindSwitch, nilCheck, hs,
        elemsOf, pointerOf, compareState.init, compareState.append, compareState.appendV, Flag.root, RO.clear,
        RO.isRO, fmtValue, e3]
  · intro e es
    constructor <;> cases hs : c.NilMapsAreEmpty <;>
      simp [Comparer.Equal, deepValueEqual, hd, Val.typ, Val.kind, Val.tname, kindSwitch, nilCheck, hs,
        elemsOf, pointerOf, compareState.init, compareState.append, compareState.appendV, Flag.root, RO.clear,
        RO.isRO, fmtValue, e3]

/-! ## Functions, floats and renderings at the root -/

/-- The comparison of two valid values of one type that are not of a
reference-bearing kind, at the root: the outcome of the kind switch. -/
theorem equal_root (c : Comparer) (x y : Val) (hty : x.typ = y.typ) (hk : hard x.kind = false) :
    c.Equal (some x) (some y)
      = (kindSwitch c (deepValueEqual c x.size) ⟨some x, Flag.root⟩ ⟨some y, Flag.root⟩ x y 0
          compareState.init).map (fun p => p.2.result) := by
  have hd : ¬ (c.MaxDepth > 0 ∧ (0 : Int) > c.MaxDepth) := by omega
  simp only [Comparer.Equal, deepValueEqual, if_neg hd, hty, hk, ne_eq, not_true_eq_false,
    if_false, Bool.and_false, Bool.false_eq_true, false_and]
  generalize kindSwitch c (deepValueEqual c x.size) ⟨some x, Flag.root⟩ ⟨some y, Flag.root⟩ x y 0
    compareState.init = o
  cases o with
  | error e => rfl
  | ok p => obtain ⟨b, s⟩ := p; rfl

/-- C12: for every configuration and every two functions of one type, `Equal`
returns no diffs when both are nil and otherwise exactly one diff, with the
renderings of the two functions and an empty path, also for a non-nil function
against itself; so it returns no diffs exactly when both are nil. -/
theorem C12_functions (c : Comparer) (t : String) (f g : Nat) :
    c.Equal (some (.func t f)) (some (.func t g))
      = .ok (if f = 0 ∧ g = 0 then []
          else [⟨fmtV 0 (.func t f), fmtV 0 (.func t g), ""⟩]) ∧
    (c.Equal (some (.func t f)) (some (.func t g)) = .ok [] ↔ f = 0 ∧ g = 0) ∧
    NewComparer.Equal (some (.func "func()" 4096)) (some (.func "func()" 4096))
      = .ok [⟨"0x1000", "0x1000", ""⟩] := by
  have h : c.Equal (some (.func t f)) (some (.func t g))
      = .ok (if f = 0 ∧ g = 0 then []
          else [⟨fmtV 0 (.func t f), fmtV 0 (.func t g), ""⟩]) := by
    rw [equal_root c (.func t f) (.func t g) rfl rfl]
    by_cases hf : f = 0 <;> by_cases hg : g = 0 <;>
      simp [Except.map, kindSwitch, hf, hg, compareState.appendV, compareState.append, compareState.init,
        Flag.root, RO.clear, RO.isRO, RO.join, fmtValue, String.join]
  refine ⟨h, ?_, rfl⟩
  rw [h]
  by_cases hfg : f = 0 ∧ g = 0 <;> simp [hfg]

/-- C13: for every configuration and every float type, NaN against NaN gives no
diffs, and NaN against a float that is not NaN gives exactly one diff, in
either operand order. -/
theorem C13_nan_floats (c : Comparer) (t : String) (v : GoFloat) :
    c.Equal (some (.float t .nan)) (some (.float t .nan)) = .ok [] ∧
    c.Equal (some (.float t .nan)) (some (.float t v))
      = .ok (if v.isNaN then [] else [⟨"NaN", fmtFloat v, ""⟩]) ∧
    c.Equal (some (.float t v)) (some (.float t .nan))
      = .ok (if v.isNaN then [] else [⟨fmtFloat v, "NaN", ""⟩]) := by
  refine ⟨?_, ?_, ?_⟩
  · rw [equal_root c (.float t .nan) (.float t .nan) rfl rfl]
    simp [Except.map, kindSwitch, GoFloat.isNaN, compareState.init]
  · rw [equal_root c (.float t .nan) (.float t v) rfl rfl]
    cases v <;>
      simp [Except.map, kindSwitch, GoFloat.isNaN, compareState.append, compareState.init, fmtFloat,
        String.join]
  · rw [equal_root c (.float t v) (.float t .nan) rfl rfl]
    cases v <;>
      simp [Except.map, kindSwitch, GoFloat.isNaN, compareState.append, compareState.init, fmtFloat,
        String.join]

/-- C16: `Diff.String` renders a diff with a non-empty path as the path, ": ",
the left rendering, " != " and the right rendering, and a diff with an empty
path as the left rendering, " != " and the right rendering; so the diff of the
integers 1 and 2 at the root reads "1 != 2". -/
theorem C16_diff_string (d : Diff) :
    d.String = (if d.stack = "" then d.left ++ " != " ++ d.right
      else d.stack ++ ": " ++ d.left ++ " != " ++ d.right) ∧
    (Equal (some (vInt 1)) (some (vInt 2))).map (List.map Diff.String) = .ok ["1 != 2"] ∧
    (Equal (some (intSlice 4096 [1])) (some (intSlice 8192 [2]))).map (List.map Diff.String)
      = .ok ["slice[0]: 1 != 2"] := by
  refine ⟨?_, rfl, rfl⟩
  unfold Diff.String
  by_cases h : d.stack = "" <;> simp [h]

/-! ## Rounding to a given precision -/

theorem bitLen_lt : ∀ (f m : Nat), m ≤ f → m < 2 ^ bitLen f m := by
  intro f
  induction f with
  | zero => intro m h; simp [bitLen]; omega
  | succ f ih =>
    intro m h
    by_cases hm : m = 0
    · simp [bitLen, hm]
    · simp only [bitLen, if_neg hm]
      have h2 := ih (m / 2) (by omega)
      rw [pow_succ]
      omega

theorem bitLen_ge : ∀ (f m : Nat), m ≤ f → 0 < m → 2 ^ (bitLen f m - 1) ≤ m := by
  intro f
  induction f with
  | zero => intro m h h0; omega
  | succ f ih =>
    intro m h h0
    have hm : m ≠ 0 := by omega
    simp only [bitLen, if_neg hm, Nat.add_sub_cancel]
    by_cases h1 : m / 2 = 0
    · have : bitLen f (m / 2) = 0 := by
        rw [h1]; cases f <;> simp [bitLen]
      rw [this]; simp; omega
    · have h2 := ih (m / 2) (by omega) (by omega)
      have h3 : bitLen f (m / 2) = (bitLen f (m / 2) - 1) + 1 := by
        have : bitLen f (m / 2) ≠ 0 := by
          cases f with
          | zero => omega
          | succ f => simp [bitLen, h1]
        omega
      rw [h3, pow_succ]
      omega

/-- What `roundMant` returns when the mantissa has more than `p` digits: the
exponent grows by the number of dropped digits, the new mantissa has `p` digits
or is `2 ^ p`, the value moves by at most half a unit of the last kept digit,
and in a tie the even mantissa is taken. -/
theorem roundMant_nearest_even (p m : Nat) (e : Int) (hp : 0 < p) (hn : p < bitLen m m) :
    (roundMant p m e).2 = e + ((bitLen m m - p : Nat) : Int) ∧
    2 ^ (p - 1) ≤ (roundMant p m e).1 ∧ (roundMant p m e).1 ≤ 2 ^ p ∧
    2 * ((roundMant p m e).1 * 2 ^ (bitLen m m - p)) ≤ 2 * m + 2 ^ (bitLen m m - p) ∧
    2 * m ≤ 2 * ((roundMant p m e).1 * 2 ^ (bitLen m m - p)) + 2 ^ (bitLen m m - p) ∧
    ((2 * ((roundMant p m e).1 * 2 ^ (bitLen m m - p)) = 2 * m + 2 ^ (bitLen m m - p) ∨
      2 * m = 2 * ((roundMant p m e).1 * 2 ^ (bitLen m m - p)) + 2 ^ (bitLen m m - p)) →
      (roundMant p m e).1 % 2 = 0) := by
  have hm0 : 0 < m := by
    rcases Nat.eq_zero_or_pos m with h | h
    · subst h; simp [bitLen] at hn
    · exact h
  obtain ⟨sh, hsh⟩ : ∃ sh, sh = bitLen m m - p := ⟨_, rfl⟩
  have hsh1 : 1 ≤ sh := by omega
  have hlt := bitLen_lt m m (le_refl _)
  have hge := bitLen_ge m m (le_refl _) hm0
  have hS : 2 ^ sh = 2 * 2 ^ (sh - 1) := by
    conv_lhs => rw [show sh = (sh - 1) + 1 by omega]
    rw [pow_succ]; ring
  have hN : 2 ^ bitLen m m = 2 ^ p * 2 ^ sh := by
    rw [← pow_add]; congr 1; omega
  have hN1 : 2 ^ (bitLen m m - 1) = 2 ^ (p - 1) * 2 ^ sh := by
    rw [← pow_add]; congr 1; omega
  have hdm := Nat.div_add_mod m (2 ^ sh)
  have hSpos : 0 < 2 ^ sh := Nat.two_pow_pos sh
  have hr := Nat.mod_lt m hSpos
  have hq1 : m / 2 ^ sh < 2 ^ p := by
    rw [Nat.div_lt_iff_lt_mul hSpos]; omega
  have hq2 : 2 ^ (p - 1) ≤ m / 2 ^ sh := by
    rw [Nat.le_div_iff_mul_le hSpos]; omega
  have hP : 2 ^ (p - 1) ≤ 2 ^ p := Nat.pow_le_pow_right (by decide) (by omega)
  have hmul : (m / 2 ^ sh + 1) * 2 ^ sh = m / 2 ^ sh * 2 ^ sh + 2 ^ sh := by ring
  have hcomm : 2 ^ sh * (m / 2 ^ sh) = m / 2 ^ sh * 2 ^ sh := by ring
  rw [hcomm] at hdm
  simp only [roundMant, if_neg (not_le.mpr hn), ← hsh]
  generalize hX : m / 2 ^ sh * 2 ^ sh = X at *
  generalize hH : 2 ^ (sh - 1) = H at *
  generalize hSS : 2 ^ sh = S at *
  split
  · rename_i hc
    refine ⟨rfl, by omega, by omega, ?_, ?_, ?_⟩
    · simp only []; rw [hmul]; omega
    · simp only []; rw [hmul]; omega
    · simp only []; rw [hmul]; omega
  · rename_i hc
    refine ⟨rfl, by omega, by omega, ?_, ?_, ?_⟩
    · simp only []; rw [hX]; omega
    · simp only []; rw [hX]; omega
    · simp only []; rw [hX]; omega

/-! ## Floats at the root and runs that fail -/

/-- C14: for every configuration and every two floats that are not NaN, `Equal`
returns no diffs when FloatPrecision = P is positive and the two round (to
nearest, ties to even: see `roundMant_nearest_even`) to the same value with a
mantissa of P digits, or when P is not positive and the two are equal;
otherwise it returns exactly one diff.  The float64 values 0.123456781 and
0.123456782 give one diff at precision 34 and none at precision 21. -/
theorem C14_float_tolerance (c : Comparer) (t : String) (x y : GoFloat)
    (hx : x.isNaN = false) (hy : y.isNaN = false) :
    c.Equal (some (.float t x)) (some (.float t y))
      = .ok (if (0 < c.FloatPrecision ∧ sameRounded c.FloatPrecision x y = true)
              ∨ (c.FloatPrecision ≤ 0 ∧ GoFloat.eq x y = true) then []
          else [⟨fmtFloat x, fmtFloat y, ""⟩]) ∧
    ({ NewComparer with FloatPrecision := 34 } : Comparer).Equal
        (some (.float "float64" float0123456781)) (some (.float "float64" float0123456782))
      = .ok [⟨"8895998606527375p-56", "8895998678584969p-56", ""⟩] ∧
    ({ NewComparer with FloatPrecision := 21 } : Comparer).Equal
        (some (.float "float64" float0123456781)) (some (.float "float64" float0123456782))
      = .ok [] := by
  refine ⟨?_, rfl, rfl⟩
  rw [equal_root c (.float t x) (.float t y) rfl rfl]
  have hs : ∃ a b, setFloat64 c.FloatPrecision x = some a ∧ setFloat64 c.FloatPrecision y = some b := by
    cases x <;> cases y <;> simp [GoFloat.isNaN] at hx hy <;> simp only [setFloat64] <;>
      (repeat' split) <;> exact ⟨_, _, rfl, rfl⟩
  obtain ⟨a, b, ha, hb⟩ := hs
  by_cases hp : c.FloatPrecision ≤ 0
  · have hp2 : ¬ (0 < c.FloatPrecision) := by omega
    cases he : GoFloat.eq x y <;>
      simp [Except.map, kindSwitch, hx, hy, hp, hp2, he, compareState.append, compareState.init, String.join]
  · have hp2 : 0 < c.FloatPrecision := by omega
    cases he : GoFloat.eq a b <;>
      simp [Except.map, kindSwitch, hx, hy, hp, hp2, he, floatDiffers, sameRounded, ha, hb, cmpNe,
        compareState.append, compareState.init, String.join]

/-- C14 at the floats 0.5 and 0.6 of the test table, which differ at precision
4 and round to the same float at precision 1. -/
theorem C14_float_tolerance_witness :
    ({ NewComparer with FloatPrecision := 4 } : Comparer).Equal
        (some (.float "float64" (.fin false 5404319552844595 (-53))))
        (some (.float "float64" (.fin false 1 (-1))))
      = .ok [⟨"5404319552844595p-53", "1p-1", ""⟩] ∧
    ({ NewComparer with FloatPrecision := 1 } : Comparer).Equal
        (some (.float "float64" (.fin false 5404319552844595 (-53))))
        (some (.float "float64" (.fin false 1 (-1))))
      = .ok [] :=
  ⟨(C14_float_tolerance { NewComparer with FloatPrecision := 4 } "float64"
      (.fin false 5404319552844595 (-53)) (.fin false 1 (-1)) rfl rfl).1,
   (C14_float_tolerance { NewComparer with FloatPrecision := 1 } "float64"
      (.fin false 5404319552844595 (-53)) (.fin false 1 (-1)) rfl rfl).1⟩

/-- C17 (the code at failing inputs): `Equal` returns a list of diffs, or panics
in `SetFloat64` on a complex number with a NaN part, or panics in `Interface`
on a value under an unexported field; and both panics occur: under the default
configuration the complex number NaN+0i against 1+0i panics, and with
CompareUnexportedFields set a struct whose unexported slice field is nil
against one where it is empty panics, where infinite parts and NaN floats do
give a list. -/
theorem C17_runs_that_fail :
    (∀ (c : Comparer) (x y : Option Val),
      (∃ ds, c.Equal x y = .ok ds) ∨
      (c.Equal x y = .error .nanFloat ∧ ¬ (complexOkOpt x = true ∧ complexOkOpt y = true)) ∨
      (c.Equal x y = .error .readOnly ∧ c.CompareUnexportedFields = true
        ∧ exportedOpt x = false)) ∧
    NewComparer.Equal (some (.complex "complex128" .nan (.fin false 0 0)))
        (some (.complex "complex128" (.fin false 1 0) (.fin false 0 0))) = .error .nanFloat ∧
    NewComparer.Equal (some (.complex "complex128" (.fin false 1 0) .nan))
        (some (.complex "complex128" (.fin false 1 0) (.fin false 0 0))) = .error .nanFloat ∧
    ({ NewComparer with CompareUnexportedFields := true } : Comparer).Equal
        (some (.struct "deep.S" [(⟨"u", "deep", false⟩, .slice "[]int" 0 none)]))
        (some (.struct "deep.S" [(⟨"u", "deep", false⟩, .slice "[]int" 0 (some (4096, [])))]))
      = .error .readOnly ∧
    NewComparer.Equal (some (.complex "complex128" (.inf false) (.inf true)))
        (some (.complex "complex128" (.inf false) (.fin false 0 0)))
      = .ok [⟨"(+Inf-Infi)", "(+Inf+0p0i)", ""⟩] ∧
    NewComparer.Equal (some (.float "float64" .nan)) (some (.float "float64" (.inf false)))
      = .ok [⟨"NaN", "+Inf", ""⟩] :=
  ⟨equal_returns, rfl, rfl, rfl, rfl, rfl⟩

/-! ## Integer slices -/

theorem slice_path (i : Nat) :
    String.join (pushStack [] "slice" ("[" ++ toString i ++ "]"))
      = "slice[" ++ toString i ++ "]" := by
  rw [path_root, ← String.append_assoc, ← String.append_assoc]
  rfl

theorem traceSliceRight_ints :
    ∀ (ys : List Int) (i : Nat),
      traceSliceRight RO.clear.ro [] (ys.map vInt) i
        = (intSliceRest false i ys).map Item.diff := by
  intro ys
  induction ys with
  | nil => intro i; simp [traceSliceRight, intSliceRest]
  | cons y ys ih =>
    intro i
    simp only [List.map_cons, traceSliceRight, intSliceRest, ih (i + 1), mkItem_clear_ro,
      mkDiff, slice_path]
    rfl

theorem traceSliceLeft_ints (c : Comparer) (f : Nat) :
    ∀ (xs : List Int) (i : Nat),
      traceSlice (diffTrace c f) RO.clear.ro 0 [] (xs.map vInt) [] i
        = (intSliceRest true i xs).map Item.diff := by
  intro xs
  induction xs with
  | nil => intro i; simp [traceSlice, traceSliceRight, intSliceRest]
  | cons x xs ih =>
    intro i
    simp only [List.map_cons, traceSlice, intSliceRest, ih (i + 1), mkItem_clear_ro,
      mkDiff, slice_path]
    rfl

theorem traceSlice_ints (c : Comparer) (f : Nat)
    (hd : ¬ (c.MaxDepth > 0 ∧ (0 : Int) + 1 > c.MaxDepth)) :
    ∀ (xs ys : List Int) (i : Nat),
      traceSlice (diffTrace c (f + 1)) RO.clear.ro 0 [] (xs.map vInt) (ys.map vInt) i
        = (intSliceDiffs i xs ys).map Item.diff := by
  intro xs
  induction xs with
  | nil =>
    intro ys i
    simp only [List.map_nil, traceSlice, intSliceDiffs]
    exact traceSliceRight_ints ys i
  | cons x xs ih =>
    intro ys i
    cases ys with
    | nil =>
      simp only [intSliceDiffs, List.map_nil]
      exact traceSliceLeft_ints c (f + 1) (x :: xs) i
    | cons y ys =>
      simp only [List.map_cons, traceSlice, intSliceDiffs, List.map_append]
      rw [ih ys (i + 1), diffTrace_int c f _ x y _ _ hd]
      congr 1
      split
      · simp only [List.map_cons, List.map_nil, mkDiff, slice_path]
      · rfl

theorem intSlice_size (p : Nat) (xs : List Int) :
    (intSlice p xs).size = sizeList (xs.map vInt) + 1 := by
  simp [intSlice, Val.size, Nat.add_comm]

theorem diffTrace_intSlice (c : Comparer) (px py : Nat) (xs ys : List Int)
    (h : px ≠ py ∨ xs.length = ys.length) :
    diffTrace c ((intSlice px xs).size + 1) RO.clear (some (intSlice px xs))
        (some (intSlice py ys)) 0 []
      = (intSliceDiffs 0 xs ys).map Item.diff := by
  have hd0 : ¬ (c.MaxDepth > 0 ∧ (0 : Int) > c.MaxDepth) := by omega
  have hd1 : ¬ (c.MaxDepth > 0 ∧ (0 : Int) + 1 > c.MaxDepth) := by omega
  have hs : ¬ (px = py ∧ ¬ xs.length = ys.length) := by
    rintro ⟨h1, h2⟩
    rcases h with h | h
    · exact h h1
    · exact h2 h
  rw [intSlice_size]
  simp only [diffTrace, if_neg hd0, intSlice, Val.typ, Val.tname, Val.kind, ne_eq,
    not_true_eq_false, if_false, traceSwitch, nilDiff, Option.isNone_some, Bool.false_and,
    Bool.false_eq_true, Bool.not_false, Bool.and_false, Bool.and_true, if_false, pointerOf,
    elemsOf, ite_self, List.length_map, if_neg hs]
  exact traceSlice_ints c _ hd1 xs ys 0

/-- C20: when MaxDiffs = m is positive, comparing two non-nil integer slices
that do not share storage or have the same length returns, in increasing index
order, the first m of: one diff for each common index where the elements
differ, and one diff for each index beyond the shorter length, with
"<no value>" on the side of the shorter slice and the element on the other
side; each at path `slice[i]`.  Under the default configuration
`make([]int, 3)` against `make([]int, 4)` gives exactly one diff. -/
theorem C20_integer_slices (c : Comparer) (px py : Nat) (xs ys : List Int)
    (hm : 0 < c.MaxDiffs) (hp : px ≠ py ∨ xs.length = ys.length) :
    c.Equal (some (intSlice px xs)) (some (intSlice py ys))
      = .ok ((intSliceDiffs 0 xs ys).take c.MaxDiffs.toNat) ∧
    Equal (some (intSlice 4096 [0, 0, 0])) (some (intSlice 8192 [0, 0, 0, 0]))
      = .ok [⟨"<no value>", "0", "slice[3]"⟩] := by
  refine ⟨?_, rfl⟩
  rw [equal_eq_scan c hm _ _
    (by simp only [intSlice, Val.locs, locsList_ints]; exact freshL_nil _ _)
    (by simp only [intSlice, Val.mapsOk, mapsOkList_ints]),
    diffTrace_intSlice c px py xs ys hp]
  exact scan_diffs _ (by omega) _

/-- C20 at slices of the test table: `[]int{1,2,3}` against `[]int{1,2,4}`, and
`make([]int, 4)` against `make([]int, 3)`. -/
theorem C20_integer_slices_witness :
    NewComparer.Equal (some (intSlice 4096 [1, 2, 3])) (some (intSlice 8192 [1, 2, 4]))
      = .ok [⟨"3", "4", "slice[2]"⟩] ∧
    NewComparer.Equal (some (intSlice 8192 [0, 0, 0, 0])) (some (intSlice 4096 [0, 0, 0]))
      = .ok [⟨"0", "<no value>", "slice[3]"⟩] :=
  ⟨(C20_integer_slices NewComparer 4096 8192 [1, 2, 3] [1, 2, 4] (by decide)
      (Or.inl (by decide))).1,
   (C20_integer_slices NewComparer 8192 4096 [0, 0, 0, 0] [0, 0, 0] (by decide)
      (Or.inl (by decide))).1⟩

/-! ## Structs of scalars -/

theorem diffTrace_scalar (c : Comparer) (f : Nat) (r : RO) (x y : Val) (d : Int)
    (st : List String) (hd : ¬ (c.MaxDepth > 0 ∧ d > c.MaxDepth))
    (hx : x.scalar = true) (hty : x.typ = y.typ) :
    diffTrace c (f + 1) r (some x) (some y) d st
      = if scalarNe x y = true then [.diff (mkDiff st (fmtV 0 x) (fmtV 0 y))] else [] := by
  have key : ∀ t k w, x.typ ≠ (Val.word t k w).typ := by
    intro t k w
    cases k <;> cases x <;> simp only [Val.scalar, Bool.false_eq_true] at hx <;>
      simp [Val.typ, Val.kind, Val.tname]
  cases y with
  | word t k w => exact absurd hty (key t k w)
  | bool u b =>
    cases x <;> simp only [Val.scalar, Bool.false_eq_true] at hx <;>
      simp [Val.typ, Val.kind, Val.tname] at hty
    subst hty
    simp only [diffTrace, if_neg hd, Val.typ, Val.tname, Val.kind, ne_eq, not_true_eq_false,
      if_false, traceSwitch, scalarNe, fmtV, bne_iff_ne]
  | int u b =>
    cases x <;> simp only [Val.scalar, Bool.false_eq_true] at hx <;>
      simp [Val.typ, Val.kind, Val.tname] at hty
    subst hty
    simp only [diffTrace, if_neg hd, Val.typ, Val.tname, Val.kind, ne_eq, not_true_eq_false,
      if_false, traceSwitch, scalarNe, fmtV, bne_iff_ne]
  | uint u b =>
    cases x <;> simp only [Val.scalar, Bool.false_eq_true] at hx <;>
      simp [Val.typ, Val.kind, Val.tname] at hty
    subst hty
    simp only [diffTrace, if_neg hd, Val.typ, Val.tname, Val.kind, ne_eq, not_true_eq_false,
      if_false, traceSwitch, scalarNe, fmtV, bne_iff_ne]
  | str u b =>
    cases x <;> simp only [Val.scalar, Bool.false_eq_true] at hx <;>
      simp [Val.typ, Val.kind, Val.tname] at hty
    subst hty
    simp only [diffTrace, if_neg hd, Val.typ, Val.tname, Val.kind, ne_eq, not_true_eq_false,
      if_false, traceSwitch, scalarNe, fmtV, bne_iff_ne]
  | _ =>
    cases x <;> simp only [Val.scalar, Bool.false_eq_true] at hx <;>
      simp [Val.typ, Val.kind, Val.tname] at hty

theorem locs_scalar (a : Bool) (x : Val) (hx : x.scalar = true) : x.locs a = [] := by
  cases x <;> simp only [Val.scalar, Bool.false_eq_true] at hx <;> simp [Val.locs]

theorem mapsOk_scalar (x : Val) (hx : x.scalar = true) : x.mapsOk = true := by
  cases x <;> simp only [Val.scalar, Bool.false_eq_true] at hx <;> simp [Val.mapsOk]

theorem scalarFields_names :
    ∀ (xs ys : List (StructField × Val)), scalarFields xs ys = true →
      xs.map Prod.fst = ys.map Prod.fst ∧ locsFields false xs = [] ∧ mapsOkFields xs = true := by
  intro xs
  induction xs with
  | nil =>
    intro ys h
    cases ys with
    | nil => exact ⟨rfl, rfl, rfl⟩
    | cons y ys => simp [scalarFields] at h
  | cons x xs ih =>
    intro ys h
    obtain ⟨f, xv⟩ := x
    cases ys with
    | nil => simp [scalarFields] at h
    | cons y ys =>
      obtain ⟨g, yv⟩ := y
      simp only [scalarFields, Bool.and_eq_true, beq_iff_eq] at h
      obtain ⟨⟨⟨hfg, hs⟩, _⟩, hr⟩ := h
      obtain ⟨h1, h2, h3⟩ := ih ys hr
      refine ⟨by simp [hfg, h1], ?_, ?_⟩
      · simp [locsFields, locs_scalar false xv hs, h2]
      · simp [mapsOkFields, mapsOk_scalar xv hs, h3]

theorem struct_path (n : String) :
    String.join (pushStack [] "struct" ("." ++ n)) = "struct." ++ n := by
  rw [path_root, ← String.append_assoc]
  rfl

theorem traceStruct_scalars (c : Comparer) (f : Nat) (r : RO)
    (hd : ¬ (c.MaxDepth > 0 ∧ (0 : Int) + 1 > c.MaxDepth)) :
    ∀ (xs ys : List (StructField × Val)), scalarFields xs ys = true →
      traceStruct c (diffTrace c (f + 1)) r 0 [] xs ys
        = (structDiffs c.CompareUnexportedFields xs ys).map Item.diff := by
  intro xs
  induction xs with
  | nil => intro ys _; cases ys <;> simp [traceStruct, structDiffs]
  | cons x xs ih =>
    intro ys h
    obtain ⟨fx, xv⟩ := x
    cases ys with
    | nil => simp [scalarFields] at h
    | cons y ys =>
      obtain ⟨g, yv⟩ := y
      simp only [scalarFields, Bool.and_eq_true, beq_iff_eq] at h
      obtain ⟨⟨⟨_, hs⟩, hty⟩, hr⟩ := h
      simp only [traceStruct, structDiffs, List.tail_cons, List.map_append, ih ys hr]
      split
      · rfl
      · rw [diffTrace_scalar c f _ xv yv _ _ hd hs hty]
        congr 1
        unfold scalarDiffs
        split
        · simp only [List.map_cons, List.map_nil, mkDiff, struct_path]
        · rfl

theorem structDiffs_policy :
    ∀ (xs ys : List (StructField × Val)), exportedAgree xs ys = true →
      structDiffs false xs ys = [] ∧
      (structDiffs true xs ys).length = differingUnexported xs ys := by
  intro xs
  induction xs with
  | nil => intro ys _; cases ys <;> simp [structDiffs, differingUnexported]
  | cons x xs ih =>
    intro ys h
    obtain ⟨f, xv⟩ := x
    cases ys with
    | nil => simp [structDiffs, differingUnexported]
    | cons y ys =>
      obtain ⟨g, yv⟩ := y
      simp only [exportedAgree, Bool.and_eq_true, Bool.or_eq_true, bne_iff_ne, ne_eq,
        Bool.not_eq_true'] at h
      obtain ⟨h1, h2⟩ := h
      obtain ⟨i1, i2⟩ := ih ys h2
      simp only [structDiffs, differingUnexported, i1, List.append_nil, List.length_append, i2,
        Bool.not_false, Bool.not_true, Bool.true_and, Bool.false_and, Bool.false_eq_true,
        if_false]
      by_cases hp : f.PkgPath = ""
      · have hne : scalarNe xv yv = false := by
          rcases h1 with h1 | h1
          · exact absurd hp h1
          · exact h1
        simp [hp, scalarDiffs, hne]
      · by_cases hne : scalarNe xv yv = true
        · simp [hp, scalarDiffs, hne]
        · simp [hp, scalarDiffs, hne]

/-- C11 (as stated, at failing inputs): with CompareUnexportedFields set, two
structs that differ in one unexported field, an array of two integers, give
two diffs; and with CompareUnexportedFields unset, two structs that hold the
same non-nil function in an exported field and differ only in an unexported
integer field give one diff. -/
theorem C11_policy_counterexample :
    ({ NewComparer with CompareUnexportedFields := true } : Comparer).Equal
        (some (.struct "deep.A" [(⟨"u", "deep", false⟩, intArray [1, 1])]))
        (some (.struct "deep.A" [(⟨"u", "deep", false⟩, intArray [2, 2])]))
      = .ok [⟨"1", "2", "struct.u[0]"⟩, ⟨"1", "2", "struct.u[1]"⟩] ∧
    NewComparer.Equal
        (some (.struct "deep.F" [(⟨"F", "", false⟩, .func "func()" 4096),
          (⟨"u", "deep", false⟩, vInt 1)]))
        (some (.struct "deep.F" [(⟨"F", "", false⟩, .func "func()" 4096),
          (⟨"u", "deep", false⟩, vInt 2)]))
      = .ok [⟨"0x1000", "0x1000", "struct.F"⟩] :=
  ⟨rfl, rfl⟩

/-- C11 (amended): when MaxDiffs = m is positive, comparing two structs of one
type whose fields all hold booleans, integers or strings returns, in field
order, the first m of: one diff for each compared field whose values differ,
at path `struct.<Name>`, where the exported fields are compared always and the
unexported ones only when CompareUnexportedFields is set.  So two such structs
that differ only in unexported fields give no diffs when it is unset and one
diff per differing unexported field, up to m, when it is set.  The struct
`unexported{E:1,u:1}` against `{E:1,u:2}` gives 0 and 1 diffs, and against
`{E:2,u:2}` gives 1 and 2. -/
theorem C11_unexported_fields (c : Comparer) (t : String) (xs ys : List (StructField × Val))
    (hm : 0 < c.MaxDiffs) (hf : scalarFields xs ys = true) :
    c.Equal (some (.struct t xs)) (some (.struct t ys))
      = .ok ((structDiffs c.CompareUnexportedFields xs ys).take c.MaxDiffs.toNat) ∧
    (exportedAgree xs ys = true →
      structDiffs false xs ys = [] ∧
      (structDiffs true xs ys).length = differingUnexported xs ys) ∧
    NewComparer.Equal (some (unexportedVal 1 1)) (some (unexportedVal 1 2)) = .ok [] ∧
    ({ NewComparer with CompareUnexportedFields := true } : Comparer).Equal
        (some (unexportedVal 1 1)) (some (unexportedVal 1 2))
      = .ok [⟨"1", "2", "struct.u"⟩] ∧
    NewComparer.Equal (some (unexportedVal 1 1)) (some (unexportedVal 2 2))
      = .ok [⟨"1", "2", "struct.E"⟩] ∧
    ({ NewComparer with CompareUnexportedFields := true } : Comparer).Equal
        (some (unexportedVal 1 1)) (some (unexportedVal 2 2))
      = .ok [⟨"1", "2", "struct.E"⟩, ⟨"1", "2", "struct.u"⟩] := by
  refine ⟨?_, structDiffs_policy xs ys, rfl, rfl, rfl, rfl⟩
  obtain ⟨h1, h2, h3⟩ := scalarFields_names xs ys hf
  have hd0 : ¬ (c.MaxDepth > 0 ∧ (0 : Int) > c.MaxDepth) := by omega
  have hd1 : ¬ (c.MaxDepth > 0 ∧ (0 : Int) + 1 > c.MaxDepth) := by omega
  rw [equal_eq_scan c hm _ _
    (by simp only [Val.locs, h2]; exact freshL_nil _ _)
    (by simp only [Val.mapsOk, h3])]
  have hsz : (Val.struct t xs).size = sizeFields xs + 1 := by
    simp [Val.size, Nat.add_comm]
  simp only [diffTrace, if_neg hd0, Val.typ, h1, ne_eq, not_true_eq_false, if_false,
    traceSwitch]
  rw [hsz]
  rw [traceStruct_scalars c _ _ hd1 xs ys hf]
  exact scan_diffs _ (by omega) _

/-- C11 (amended) at the structs of the test table with unexported fields
compared: `unexported{E:1,u:1}` against `unexported{E:1,u:2}`. -/
theorem C11_unexported_fields_witness :
    ({ NewComparer with CompareUnexportedFields := true } : Comparer).Equal
        (some (unexportedVal 1 1)) (some (unexportedVal 1 2))
      = .ok [⟨"1", "2", "struct.u"⟩] ∧
    structDiffs false
        [((⟨"E", "", false⟩ : StructField), vInt 1), (⟨"u", "deep", false⟩, vInt 1)]
        [((⟨"E", "", false⟩ : StructField), vInt 1), (⟨"u", "deep", false⟩, vInt 2)] = [] :=
  ⟨(C11_unexported_fields { NewComparer with CompareUnexportedFields := true } "deep.unexported"
      [(⟨"E", "", false⟩, vInt 1), (⟨"u", "deep", false⟩, vInt 1)]
      [(⟨"E", "", false⟩, vInt 1), (⟨"u", "deep", false⟩, vInt 2)] (by decide) rfl).1,
   ((C11_unexported_fields { NewComparer with CompareUnexportedFields := true }
      "deep.unexported"
      [(⟨"E", "", false⟩, vInt 1), (⟨"u", "deep", false⟩, vInt 1)]
      [(⟨"E", "", false⟩, vInt 1), (⟨"u", "deep", false⟩, vInt 2)] (by decide) rfl).2.1 rfl).1⟩

/-! ## Nests -/

theorem sizeList_append (xs ys : List Val) : sizeList (xs ++ ys) = sizeList xs + sizeList ys := by
  induction xs with
  | nil => simp [sizeList]
  | cons x xs ih =>
    show sizeList (x :: (xs ++ ys)) = sizeList (x :: xs) + sizeList ys
    simp only [sizeList, ih]; omega

theorem sizeFields_append (xs ys : List (StructField × Val)) :
    sizeFields (xs ++ ys) = sizeFields xs + sizeFields ys := by
  induction xs with
  | nil => simp [sizeFields]
  | cons x xs ih =>
    obtain ⟨f, v⟩ := x
    show sizeFields ((f, v) :: (xs ++ ys)) = sizeFields ((f, v) :: xs) + sizeFields ys
    simp only [sizeFields, ih]; omega

theorem sizeEntries_append (xs ys : List (Val × Val)) :
    sizeEntries (xs ++ ys) = sizeEntries xs + sizeEntries ys := by
  induction xs with
  | nil => simp [sizeEntries]
  | cons x xs ih =>
    obtain ⟨k, v⟩ := x
    show sizeEntries ((k, v) :: (xs ++ ys)) = sizeEntries ((k, v) :: xs) + sizeEntries ys
    simp only [sizeEntries, ih]; omega

theorem layer_typ (c : Comparer) (l : Layer) (hl : l.entered c = true) (v w : Val) :
    (l.left v).typ = (l.right w).typ := by
  cases l with
  | array t xpre ypre xpost ypost =>
    simp only [Layer.entered, Bool.and_eq_true, beq_iff_eq] at hl
    simp [Layer.left, Layer.right, Val.typ, hl.1, hl.2]
  | struct t f xpre ypre xpost ypost =>
    simp only [Layer.entered, Bool.and_eq_true, beq_iff_eq] at hl
    simp [Layer.left, Layer.right, Val.typ, hl.1.2, hl.2]
  | slice t lx ly px py xpre ypre xpost ypost =>
    simp [Layer.left, Layer.right, Val.typ, Val.kind, Val.tname]
  | map t lx ly px py kx ky xpre ypre xpost ypost =>
    simp [Layer.left, Layer.right, Val.typ, Val.kind, Val.tname]
  | ptr t lx ly px py => simp [Layer.left, Layer.right, Val.typ, Val.kind, Val.tname]
  | iface t lx ly => simp [Layer.left, Layer.right, Val.typ, Val.kind, Val.tname]

theorem nest_size (x : Val) : ∀ ls : List Layer, ls.length + 1 ≤ (nestLeft ls x).size := by
  intro ls
  induction ls with
  | nil => have := size_pos x; simp only [nestLeft, List.length_nil]; omega
  | cons l ls ih =>
    cases l <;>
      simp only [nestLeft, Layer.left, Val.size, sizeList, sizeFields, sizeEntries,
        sizeList_append, sizeFields_append, sizeEntries_append, List.length_cons] <;> omega

theorem nest_size_eq (x x2 : Val) (h : x.size = x2.size) :
    ∀ ls : List Layer, (nestLeft ls x).size = (nestLeft ls x2).size := by
  intro ls
  induction ls with
  | nil => exact h
  | cons l ls ih =>
    cases l <;>
      simp only [nestLeft, Layer.left, Val.size, sizeList, sizeFields, sizeEntries,
        sizeList_append, sizeFields_append, sizeEntries_append, ih]

theorem scalar_size (x : Val) (hx : x.scalar = true) : x.size = 1 := by
  cases x <;> simp only [Val.scalar, Bool.false_eq_true] at hx <;> rfl

theorem mapIndex_hole (k0 v v2 k : Val) (post : List (Val × Val)) (h : goEq k0 k = false) :
    ∀ pre : List (Val × Val),
      mapIndex (pre ++ (k0, v) :: post) k = mapIndex (pre ++ (k0, v2) :: post) k := by
  intro pre
  induction pre with
  | nil => simp [mapIndex, h]
  | cons e es ih =>
    obtain ⟨k1, v1⟩ := e
    rw [List.cons_append, List.cons_append, mapIndex, mapIndex, ih]

theorem mapIndex_hole_isSome (k0 v v2 k : Val) (post : List (Val × Val)) :
    ∀ pre : List (Val × Val),
      (mapIndex (pre ++ (k0, v) :: post) k).isSome
        = (mapIndex (pre ++ (k0, v2) :: post) k).isSome := by
  intro pre
  induction pre with
  | nil => simp only [List.nil_append, mapIndex]; split <;> rfl
  | cons e es ih =>
    obtain ⟨k1, v1⟩ := e
    rw [List.cons_append, List.cons_append, mapIndex, mapIndex]
    split
    · rfl
    · exact ih

theorem mapIndex_hole_self (k0 v k : Val) (post : List (Val × Val)) (h : goEq k0 k = true) :
    ∀ pre : List (Val × Val), (∀ e ∈ pre, goEq e.1 k = false) →
      mapIndex (pre ++ (k0, v) :: post) k = some v := by
  intro pre
  induction pre with
  | nil => intro _; simp [mapIndex, h]
  | cons e es ih =>
    intro hp
    obtain ⟨k1, v1⟩ := e
    have h1 := hp (k1, v1) (List.mem_cons_self _ _)
    simp only [] at h1
    rw [List.cons_append, mapIndex]
    simp only [h1, Bool.false_eq_true, if_false]
    exact ih (fun e he => hp e (List.mem_cons_of_mem _ he))

/-! ## Values that refer to themselves -/

theorem typeLoop_run (c : Comparer) (f n a1 a2 : Nat) (r1 r2 : Val) (h : a1 ≠ a2) :
    deepValueEqual c (f + 3)
        ⟨some (.ptr "*deep.typeLoop" 0 (some (a1, typeLoopVar r1 (n + 2) a1 a2))), Flag.root⟩
        ⟨some (.ptr "*deep.typeLoop" 0 (some (a2, typeLoopVar r2 (n + 2) a2 a1))), Flag.root⟩
        0 compareState.init
      = .ok (true, ⟨[], [], [⟨min a1 a2, max a1 a2, ⟨"deep.typeLoop", .ptr, 0, []⟩⟩]⟩) := by
  have hd : ¬ (c.MaxDepth > 0 ∧ (0 : Int) > c.MaxDepth) := by omega
  have h2 : ¬ a2 = a1 := fun e => h e.symm
  simp [deepValueEqual, hd, kindSwitch, typeLoopVar, Val.typ, Val.kind, Val.tname, Val.loc, hard,
    pointerOf, h, h2, Flag.root, compareState.init, Nat.min_comm a2 a1, Nat.max_comm a2 a1]

theorem interfaceLoop_run (c : Comparer) (f n a1 a2 : Nat) (r1 r2 : Val) (h : a1 ≠ a2) :
    deepValueEqual c (f + 4)
        ⟨some (.ptr "*deep.interfaceLoop" 0 (some (a1, interfaceLoopVar r1 (n + 2) a1 a2))),
          Flag.root⟩
        ⟨some (.ptr "*deep.interfaceLoop" 0 (some (a2, interfaceLoopVar r2 (n + 2) a2 a1))),
          Flag.root⟩
        0 compareState.init
      = .ok (true, ⟨[], [], [⟨min a1 a2, max a1 a2, ⟨"deep.interfaceLoop", .iface, 0, []⟩⟩]⟩) := by
  have hd : ¬ (c.MaxDepth > 0 ∧ (0 : Int) > c.MaxDepth) := by omega
  have h2 : ¬ a2 = a1 := fun e => h e.symm
  simp [deepValueEqual, hd, kindSwitch, interfaceLoopVar, Val.typ, Val.kind, Val.tname, Val.loc,
    hard, pointerOf, h, h2, Flag.root, compareState.init, Nat.min_comm a2 a1,
    Nat.max_comm a2 a1]

theorem typeLoop_size (r : Val) (n a b : Nat) :
    ∃ f, (Val.ptr "*deep.typeLoop" 0 (some (a, typeLoopVar r (n + 2) a b))).size + 1 = f + 3 :=
  ⟨(typeLoopVar r n a b).size + 1, by simp only [typeLoopVar, Val.size]; omega⟩

theorem interfaceLoop_size (r : Val) (n a b : Nat) :
    ∃ f, (Val.ptr "*deep.interfaceLoop" 0 (some (a, interfaceLoopVar r (n + 2) a b))).size + 1
      = f + 4 :=
  ⟨(interfaceLoopVar r n a b).size + 2, by simp only [interfaceLoopVar, Val.size]; omega⟩

theorem same_pointer (c : Comparer) (t : String) (l1 l2 a : Nat) (v w : Val) :
    c.Equal (some (.ptr t l1 (some (a, v)))) (some (.ptr t l2 (some (a, w)))) = .ok [] := by
  have hd : ¬ (c.MaxDepth > 0 ∧ (0 : Int) > c.MaxDepth) := by omega
  simp [Comparer.Equal, deepValueEqual, hd, kindSwitch, Val.typ, Val.kind, Val.tname, pointerOf,
    Flag.root, compareState.init]

theorem selfMap_size (r : Val) (d : Nat) : ∀ n : Nat, n + 1 ≤ (selfMap r n d).size := by
  intro n
  induction n with
  | zero => have := size_pos r; simp only [selfMap]; omega
  | succ n ih => simp only [selfMap, Val.size, sizeEntries]; omega

theorem selfMap_locs (r : Val) (d : Nat) (hr : r.locs false = []) :
    ∀ n : Nat, (selfMap r n d).locs false = [] := by
  intro n
  induction n with
  | zero => exact hr
  | succ n ih => simp [selfMap, Val.locs, locsEntries, ih]

theorem selfMap_mapsOk (r : Val) (d : Nat) (hr : r.mapsOk = true) :
    ∀ n : Nat, (selfMap r n d).mapsOk = true := by
  intro n
  induction n with
  | zero => exact hr
  | succ n ih => simp [selfMap, Val.mapsOk, keysDistinct, keyFresh, mapsOkEntries, ih]

/-- Events of the comparison of two maps that hold themselves, unfolded `n`
times and ending in a nil map on the left and an empty map on the right: the
difference at the end is met, whatever `n` is. -/
theorem selfMap_trace (c : Comparer) (hd : c.MaxDepth ≤ 0) (hn : c.NilMapsAreEmpty = false)
    (d1 d2 : Nat) (h : d1 ≠ d2) :
    ∀ (n f : Nat) (r : RO) (d : Int) (st : List String), n ≤ f → r.isRO = false →
      diffTrace c (f + 1) r (some (selfMap (.map "deep.M" 0 none) n d1))
          (some (selfMap (.map "deep.M" 0 (some (d2, []))) n d2)) d st
        = [.diff (mkDiff (selfPath n st) "<nil map>" "map[]")] := by
  intro n
  induction n with
  | zero =>
    intro f r d st _ hr
    have hdd : ¬ (c.MaxDepth > 0 ∧ d > c.MaxDepth) := by omega
    have e : fmtValue (some (Val.map "deep.M" 0 (some (d2, [])))) = "map[]" := rfl
    simp [diffTrace, hdd, selfMap, Val.typ, Val.kind, Val.tname, traceSwitch, nilDiff, hn, mkItem,
      hr, selfPath, e]
  | succ n ih =>
    intro f r d st hf hr
    obtain ⟨f, rfl⟩ : ∃ g, f = g + 1 := ⟨f - 1, by omega⟩
    have hdd : ¬ (c.MaxDepth > 0 ∧ d > c.MaxDepth) := by omega
    have hg : goEq (vStr "a") (vStr "a") = true := rfl
    rw [diffTrace]
    simp only [if_neg hdd, selfMap, Val.typ, Val.kind, Val.tname, ne_eq, not_true_eq_false,
      if_false, traceSwitch, nilDiff, Option.isNone_some, elemsOf, List.length_singleton,
      Bool.false_and, Bool.and_false, Bool.false_eq_true, ite_self, Bool.not_false,
      Bool.and_true, pointerOf, if_neg h, mapKeys, List.map_cons, List.map_nil, traceMap,
      traceMapRight, mapIndex, hg, if_true, Option.isSome_some, List.append_nil, selfPath]
    exact ih f r.ro (d + 1) _ (by omega) (by rw [isRO_ro]; exact hr)

/-- C18: comparing the pointer loop of the test table (`tLoop1 = &tLoop2`,
`tLoop2 = &tLoop1`) as `&tLoop1` with `&tLoop2` or with itself returns no diffs
for every configuration, however far the references are followed and whatever
lies beyond, and likewise for the interface loop; but two maps that hold
themselves under the key "a", when MaxDepth is not positive, are descended
through every level of their unfolding: a difference placed `n` levels down is
reported for every `n`, so on the maps themselves the comparison does not
end. -/
theorem C18_loops (c : Comparer) (n a1 a2 : Nat) (r1 r2 : Val) (h : a1 ≠ a2) :
    c.Equal (some (.ptr "*deep.typeLoop" 0 (some (a1, typeLoopVar r1 (n + 2) a1 a2))))
        (some (.ptr "*deep.typeLoop" 0 (some (a2, typeLoopVar r2 (n + 2) a2 a1)))) = .ok [] ∧
    c.Equal (some (.ptr "*deep.typeLoop" 0 (some (a1, typeLoopVar r1 (n + 2) a1 a2))))
        (some (.ptr "*deep.typeLoop" 0 (some (a1, typeLoopVar r2 (n + 2) a1 a2)))) = .ok [] ∧
    c.Equal
        (some (.ptr "*deep.interfaceLoop" 0 (some (a1, interfaceLoopVar r1 (n + 2) a1 a2))))
        (some (.ptr "*deep.interfaceLoop" 0 (some (a2, interfaceLoopVar r2 (n + 2) a2 a1))))
      = .ok [] ∧
    c.Equal
        (some (.ptr "*deep.interfaceLoop" 0 (some (a1, interfaceLoopVar r1 (n + 2) a1 a2))))
        (some (.ptr "*deep.interfaceLoop" 0 (some (a1, interfaceLoopVar r2 (n + 2) a1 a2))))
      = .ok [] ∧
    (0 < c.MaxDiffs → c.MaxDepth ≤ 0 → c.NilMapsAreEmpty = false →
      c.Equal (some (selfMap (.map "deep.M" 0 none) n a1))
          (some (selfMap (.map "deep.M" 0 (some (a2, []))) n a2))
        = .ok [⟨"<nil map>", "map[]", String.join (selfPath n [])⟩]) := by
  refine ⟨?_, same_pointer c _ _ _ _ _ _, ?_, same_pointer c _ _ _ _ _ _, ?_⟩
  · obtain ⟨f, hf⟩ := typeLoop_size r1 n a1 a2
    simp only [Comparer.Equal, hf, typeLoop_run c f n a1 a2 r1 r2 h]
  · obtain ⟨f, hf⟩ := interfaceLoop_size r1 n a1 a2
    simp only [Comparer.Equal, hf, interfaceLoop_run c f n a1 a2 r1 r2 h]
  · intro hm hd hn
    have hsz := selfMap_size (.map "deep.M" 0 none) a1 n
    have hl : (selfMap (.map "deep.M" 0 none) n a1).locs false = [] :=
      selfMap_locs (.map "deep.M" 0 none) a1 rfl n
    have ho : (selfMap (.map "deep.M" 0 none) n a1).mapsOk = true :=
      selfMap_mapsOk (.map "deep.M" 0 none) a1 rfl n
    rw [equal_eq_scan c hm _ _ (by rw [hl]; exact freshL_nil _ _) ho,
      selfMap_trace c hd hn a1 a2 h n _ RO.clear 0 [] (by omega) rfl]
    simp [scan, mkDiff]

/-- C18 at the loops of the test table followed four times, with nothing beyond,
and at the maps unfolded three times under the default configuration. -/
theorem C18_loops_witness :
    NewComparer.Equal
        (some (.ptr "*deep.typeLoop" 0 (some (4096,
          typeLoopVar (.ptr "deep.typeLoop" 4096 none) 4 4096 8192))))
        (some (.ptr "*deep.typeLoop" 0 (some (8192,
          typeLoopVar (.ptr "deep.typeLoop" 8192 none) 4 8192 4096)))) = .ok [] ∧
    NewComparer.Equal
        (some (.ptr "*deep.interfaceLoop" 0 (some (4096,
          interfaceLoopVar (.iface "deep.interfaceLoop" 4096 none) 4 4096 8192))))
        (some (.ptr "*deep.interfaceLoop" 0 (some (8192,
          interfaceLoopVar (.iface "deep.interfaceLoop" 8192 none) 4 8192 4096)))) = .ok [] ∧
    NewComparer.Equal (some (selfMap (.map "deep.M" 0 none) 3 4096))
        (some (selfMap (.map "deep.M" 0 (some (8192, []))) 3 8192))
      = .ok [⟨"<nil map>", "map[]", "map[a][a][a]"⟩] :=
  ⟨(C18_loops NewComparer 2 4096 8192 (.ptr "deep.typeLoop" 4096 none)
      (.ptr "deep.typeLoop" 8192 none) (by decide)).1,
   (C18_loops NewComparer 2 4096 8192 (.iface "deep.interfaceLoop" 4096 none)
      (.iface "deep.interfaceLoop" 8192 none) (by decide)).2.2.1,
   (C18_loops NewComparer 3 4096 8192 (.ptr "deep.typeLoop" 4096 none)
      (.ptr "deep.typeLoop" 8192 none) (by decide)).2.2.2.2 (by decide) (by decide) rfl⟩

/-! ## The order of map keys -/

theorem keyFresh_iff (k : Val) (es : List (Val × Val)) :
    keyFresh k es = true ↔ ∀ e ∈ es, goEq k e.1 = false ∧ goEq e.1 k = false := by
  induction es with
  | nil => simp [keyFresh]
  | cons e es ih =>
    obtain ⟨k2, v⟩ := e
    simp only [keyFresh, Bool.and_eq_true, Bool.not_eq_true', ih, List.mem_cons, forall_eq_or_imp]

theorem keysDistinct_iff (es : List (Val × Val)) :
    keysDistinct es = true
      ↔ es.Pairwise (fun a b => goEq a.1 b.1 = false ∧ goEq b.1 a.1 = false) := by
  induction es with
  | nil => simp [keysDistinct]
  | cons e es ih =>
    obtain ⟨k, v⟩ := e
    simp only [keysDistinct, Bool.and_eq_true, keyFresh_iff, ih, List.pairwise_cons]

theorem keysDistinct_perm {es es2 : List (Val × Val)} (h : es.Perm es2)
    (hd : keysDistinct es = true) : keysDistinct es2 = true := by
  rw [keysDistinct_iff] at hd ⊢
  exact (h.pairwise_iff (fun hab => ⟨hab.2, hab.1⟩)).mp hd

theorem mapIndex_of_mem {es : List (Val × Val)} (hd : keysDistinct es = true)
    {e : Val × Val} (he : e ∈ es) {k : Val} (hk : goEq e.1 k = true) :
    mapIndex es k = some e.2 := by
  induction es with
  | nil => simp at he
  | cons e0 es ih =>
    obtain ⟨k0, v0⟩ := e0
    simp only [keysDistinct, Bool.and_eq_true] at hd
    simp only [mapIndex]
    rcases List.mem_cons.mp he with h | h
    · subst h
      simp only [] at hk
      simp [hk]
    · by_cases h0 : goEq k0 k = true
      · have h1 : goEq k e.1 = true := by rw [goEq_symm]; exact hk
        have h2 := goEq_trans h0 h1
        have h3 := (keyFresh_mem hd.1 h).1
        simp only [] at h3
        rw [h2] at h3
        cases h3
      · simp only [h0, Bool.false_eq_true, if_false]
        exact ih hd.2 h

theorem mapIndex_perm {es es2 : List (Val × Val)} (h : es.Perm es2)
    (hd : keysDistinct es = true) (k : Val) : mapIndex es2 k = mapIndex es k := by
  have hd2 := keysDistinct_perm h hd
  cases hm : mapIndex es k with
  | some w =>
    obtain ⟨e, he, hk, hw⟩ := mapIndex_some_mem hm
    rw [mapIndex_of_mem hd2 (h.mem_iff.mp he) hk, hw]
  | none =>
    cases hm2 : mapIndex es2 k with
    | none => rfl
    | some w =>
      obtain ⟨e, he, hk, _⟩ := mapIndex_some_mem hm2
      rw [mapIndex_of_mem hd (h.mem_iff.mpr he) hk] at hm
      cases hm

theorem traceMapRight_flatMap (r : RO) (st : List String) (xes yes : List (Val × Val)) :
    ∀ ks : List Val,
      traceMapRight r st xes yes ks
        = ks.flatMap (keyItemsRight r st (mapIndex xes) (mapIndex yes)) := by
  intro ks
  induction ks with
  | nil => rfl
  | cons k ks ih =>
    simp only [traceMapRight, List.flatMap_cons, keyItemsRight, ih]
    split <;> rfl

theorem traceMap_flatMap (recT : RecT) (r : RO) (d : Int) (st : List String)
    (xes yes : List (Val × Val)) :
    ∀ ks : List Val,
      traceMap recT r d st xes yes ks
        = ks.flatMap (keyItems recT r d st (mapIndex xes) (mapIndex yes))
          ++ (mapKeys yes).flatMap (keyItemsRight r st (mapIndex xes) (mapIndex yes)) := by
  intro ks
  induction ks with
  | nil => simp only [traceMap, List.flatMap_nil, List.nil_append, traceMapRight_flatMap]
  | cons k ks ih =>
    simp only [traceMap, List.flatMap_cons, keyItems, ih, List.append_assoc]

theorem traceMap_perm (recT : RecT) (r : RO) (d : Int) (st : List String)
    {xes xes2 yes yes2 : List (Val × Val)} (hx : xes.Perm xes2) (hy : yes.Perm yes2)
    (hkx : keysDistinct xes = true) (hky : keysDistinct yes = true) :
    (traceMap recT r d st xes2 yes2 (mapKeys xes2)).Perm
      (traceMap recT r d st xes yes (mapKeys xes)) := by
  rw [traceMap_flatMap, traceMap_flatMap]
  have e1 : mapIndex xes2 = mapIndex xes := funext (mapIndex_perm hx hkx)
  have e2 : mapIndex yes2 = mapIndex yes := funext (mapIndex_perm hy hky)
  rw [e1, e2]
  exact List.Perm.append
    (List.Perm.flatMap_right _ (List.Perm.map _ hx.symm))
    (List.Perm.flatMap_right _ (List.Perm.map _ hy.symm))

theorem sizeEntries_sum (es : List (Val × Val)) :
    sizeEntries es = (es.map (fun e => e.1.size + e.2.size)).sum := by
  induction es with
  | nil => rfl
  | cons e es ih => obtain ⟨k, v⟩ := e; simp [sizeEntries, ih]

theorem locsEntries_flatMap (es : List (Val × Val)) :
    locsEntries es = es.flatMap (fun e => e.2.locs false) := by
  induction es with
  | nil => rfl
  | cons e es ih => obtain ⟨k, v⟩ := e; simp [locsEntries, ih]

theorem mapsOkEntries_all (es : List (Val × Val)) :
    mapsOkEntries es = true ↔ ∀ e ∈ es, e.2.mapsOk = true := by
  induction es with
  | nil => simp [mapsOkEntries]
  | cons e es ih => obtain ⟨k, v⟩ := e; simp [mapsOkEntries, ih]

theorem diffsOf_perm {a b : List Item} (h : a.Perm b) : (diffsOf a).Perm (diffsOf b) := by
  induction h with
  | nil => exact List.Perm.nil
  | cons x _ ih => cases x <;> simp only [diffsOf] <;> [exact ih.cons _; exact ih]
  | swap x y l =>
    cases x <;> cases y <;> simp only [diffsOf] <;>
      first | exact List.Perm.swap _ _ _ | exact List.Perm.refl _
  | trans _ _ ih1 ih2 => exact ih1.trans ih2

theorem noFault_iff (a : List Item) : noFault a = true ↔ ∀ i ∈ a, ∃ d, i = .diff d := by
  induction a with
  | nil => simp [noFault]
  | cons x xs ih =>
    cases x with
    | diff d => simp [noFault, ih]
    | fault f => simp [noFault]

theorem noFault_perm {a b : List Item} (h : a.Perm b) (hn : noFault a = true) :
    noFault b = true := by
  rw [noFault_iff] at hn ⊢
  exact fun i hi => hn i (h.mem_iff.mpr hi)

theorem noFault_eq (a : List Item) (hn : noFault a = true) : a = (diffsOf a).map Item.diff := by
  induction a with
  | nil => rfl
  | cons x xs ih =>
    cases x with
    | diff d =>
      simp only [noFault] at hn
      simp only [diffsOf, List.map_cons]
      rw [← ih hn]
    | fault f => simp [noFault] at hn

/-- A run that ends below the cap has met no fault and returns all the diffs of
the events. -/
theorem scan_below_cap :
    ∀ (items : List Item) (k : Nat) (ds : List Diff), scan k items = .ok ds → ds.length < k →
      noFault items = true ∧ diffsOf items = ds := by
  intro items
  induction items with
  | nil =>
    intro k ds h _
    simp only [scan] at h
    cases h
    exact ⟨rfl, rfl⟩
  | cons x xs ih =>
    intro k ds h hlt
    cases x with
    | fault f => simp [scan] at h
    | diff d =>
      simp only [scan] at h
      by_cases hk : k ≤ 1
      · simp only [if_pos hk] at h
        cases h
        simp only [List.length_singleton] at hlt
        omega
      · simp only [if_neg hk] at h
        cases hr : scan (k - 1) xs with
        | error e => rw [hr] at h; cases h
        | ok ds2 =>
          rw [hr] at h
          cases h
          simp only [List.length_cons] at hlt
          obtain ⟨h1, h2⟩ := ih (k - 1) ds2 hr (by omega)
          exact ⟨by simp only [noFault]; exact h1, by simp only [diffsOf, h2]⟩

/-- C19 (as stated, at failing inputs): with MaxDiffs = 1, the map
`{1:"a", 2:"b"}` against an empty map gives the diff of key 1 when its keys are
iterated in the order 1, 2 and the diff of key 2 in the order 2, 1, and the two
lists are not permutations of each other. -/
theorem C19_cap_counterexample :
    ({ NewComparer with MaxDiffs := 1 } : Comparer).Equal
        (some (intStrMap 4096 [(1, "a"), (2, "b")])) (some (intStrMap 8192 []))
      = .ok [⟨"a", "<no key>", "map[1]"⟩] ∧
    ({ NewComparer with MaxDiffs := 1 } : Comparer).Equal
        (some (intStrMap 4096 [(2, "b"), (1, "a")])) (some (intStrMap 8192 []))
      = .ok [⟨"b", "<no key>", "map[2]"⟩] ∧
    ¬ List.Perm [(⟨"a", "<no key>", "map[1]"⟩ : Diff)] [⟨"b", "<no key>", "map[2]"⟩] :=
  ⟨rfl, rfl, by decide⟩

theorem diffTrace_map_perm (c : Comparer) (f : Nat) (r : RO) (d : Int) (st : List String)
    (tx ty : String) (lx ly p q : Nat) {xes xes2 yes yes2 : List (Val × Val)}
    (hx : xes.Perm xes2) (hy : yes.Perm yes2)
    (hkx : keysDistinct xes = true) (hky : keysDistinct yes = true) :
    (diffTrace c (f + 1) r (some (.map tx lx (some (p, xes2)))) (some (.map ty ly (some (q, yes2))))
        d st).Perm
      (diffTrace c (f + 1) r (some (.map tx lx (some (p, xes)))) (some (.map ty ly (some (q, yes))))
        d st) := by
  rw [diffTrace, diffTrace]
  split
  · exact List.Perm.refl _
  · simp only [Val.typ, Val.tname, Val.kind]
    split
    · exact List.Perm.refl _
    · simp only [traceSwitch, nilDiff, Option.isNone_some, Bool.false_and, Bool.and_false,
        Bool.false_eq_true, if_false, ite_self, Bool.not_false, Bool.and_true, pointerOf,
        elemsOf]
      split
      · exact List.Perm.refl _
      · exact traceMap_perm _ r d st hx hy hkx hky

/-- C19 (amended): when MaxDiffs is positive, for two non-nil maps with pairwise
different keys inside which no addressable variable is met twice, if `Equal`
returns fewer than MaxDiffs diffs under one iteration order of the keys of the
two maps, then under any other iteration order it returns a permutation of
that list. -/
theorem C19_key_order (c : Comparer) (tx ty : String) (lx ly p q : Nat)
    (xes xes2 yes yes2 : List (Val × Val)) (ds : List Diff)
    (hm : 0 < c.MaxDiffs) (hx : xes.Perm xes2) (hy : yes.Perm yes2)
    (hkx : keysDistinct xes = true) (hky : keysDistinct yes = true)
    (hmo : mapsOkEntries xes = true) (hs : (locsEntries xes ++ locsEntries yes).Nodup)
    (h : c.Equal (some (.map tx lx (some (p, xes)))) (some (.map ty ly (some (q, yes)))) = .ok ds)
    (hlt : (ds.length : Int) < c.MaxDiffs) :
    ∃ ds2, c.Equal (some (.map tx lx (some (p, xes2)))) (some (.map ty ly (some (q, yes2))))
        = .ok ds2 ∧ ds2.Perm ds := by
  have hfresh : ∀ a b : List (Val × Val), (locsEntries a ++ locsEntries b).Nodup →
      FreshL ((Val.map tx lx (some (p, a))).locs false) ((Val.map ty ly (some (q, b))).locs false)
        [] := by
    intro a b hn
    have hn2 := List.nodup_append.mp hn
    simp only [Val.locs, Bool.false_eq_true, if_false, List.nil_append]
    exact ⟨hn2.1, fun z hz => ⟨by simp [footprint], fun hb => hn2.2.2 hz hb⟩⟩
  have hs2 : (locsEntries xes2 ++ locsEntries yes2).Nodup := by
    refine (List.Perm.nodup_iff ?_).mp hs
    rw [locsEntries_flatMap, locsEntries_flatMap, locsEntries_flatMap, locsEntries_flatMap]
    exact List.Perm.append (List.Perm.flatMap_right _ hx) (List.Perm.flatMap_right _ hy)
  have hmo2 : mapsOkEntries xes2 = true := by
    rw [mapsOkEntries_all] at hmo ⊢
    exact fun e he => hmo e (hx.mem_iff.mpr he)
  have hsz : (Val.map tx lx (some (p, xes2))).size = (Val.map tx lx (some (p, xes))).size := by
    simp only [Val.size, sizeEntries_sum]
    rw [(List.Perm.map _ hx).sum_eq]
  rw [equal_eq_scan c hm _ _ (hfresh xes yes hs)
    (by simp only [Val.mapsOk, hkx, hmo, Bool.and_self])] at h
  rw [equal_eq_scan c hm _ _ (hfresh xes2 yes2 hs2)
    (by simp only [Val.mapsOk, keysDistinct_perm hx hkx, hmo2, Bool.and_self]), hsz]
  have hp := diffTrace_map_perm c (Val.map tx lx (some (p, xes))).size RO.clear 0 [] tx ty lx ly
    p q hx hy hkx hky
  obtain ⟨h1, h2⟩ := scan_below_cap _ _ _ h (by omega)
  have h3 := noFault_perm hp.symm h1
  have h4 := diffsOf_perm hp
  rw [h2] at h4
  refine ⟨diffsOf (diffTrace c ((Val.map tx lx (some (p, xes))).size + 1) RO.clear
    (some (.map tx lx (some (p, xes2)))) (some (.map ty ly (some (q, yes2)))) 0 []), ?_, h4⟩
  have h5 := noFault_eq _ h3
  conv_lhs => rw [h5]
  rw [scan_diffs _ (by omega) _, List.take_of_length_le]
  rw [h4.length_eq]
  omega

/-- C19 (amended) at the maps `{1:"a", 2:"b"}` and `{2:"c", 3:"d"}` under the
default configuration, the keys of each taken in both orders: the same three
diffs, in two orders. -/
theorem C19_key_order_witness :
    NewComparer.Equal (some (intStrMap 4096 [(1, "a"), (2, "b")]))
        (some (intStrMap 8192 [(2, "c"), (3, "d")]))
      = .ok [⟨"a", "<no key>", "map[1]"⟩, ⟨"b", "c", "map[2]"⟩, ⟨"<no key>", "d", "map[3]"⟩] ∧
    NewComparer.Equal (some (intStrMap 4096 [(2, "b"), (1, "a")]))
        (some (intStrMap 8192 [(3, "d"), (2, "c")]))
      = .ok [⟨"b", "c", "map[2]"⟩, ⟨"a", "<no key>", "map[1]"⟩, ⟨"<no key>", "d", "map[3]"⟩] ∧
    List.Perm
      [(⟨"b", "c", "map[2]"⟩ : Diff), ⟨"a", "<no key>", "map[1]"⟩, ⟨"<no key>", "d", "map[3]"⟩]
      [⟨"a", "<no key>", "map[1]"⟩, ⟨"b", "c", "map[2]"⟩, ⟨"<no key>", "d", "map[3]"⟩] :=
  ⟨rfl, rfl, by
    obtain ⟨ds2, h1, h2⟩ := C19_key_order NewComparer "map[int]string" "map[int]string" 0 0
      4096 8192
      [(vInt 1, vStr "a"), (vInt 2, vStr "b")] [(vInt 2, vStr "b"), (vInt 1, vStr "a")]
      [(vInt 2, vStr "c"), (vInt 3, vStr "d")] [(vInt 3, vStr "d"), (vInt 2, vStr "c")]
      [⟨"a", "<no key>", "map[1]"⟩, ⟨"b", "c", "map[2]"⟩, ⟨"<no key>", "d", "map[3]"⟩]
      (by decide) (List.Perm.swap _ _ _) (List.Perm.swap _ _ _) rfl rfl rfl (by decide) rfl
      (by decide)
    have e : NewComparer.Equal (some (intStrMap 4096 [(2, "b"), (1, "a")]))
        (some (intStrMap 8192 [(3, "d"), (2, "c")]))
      = .ok [⟨"b", "c", "map[2]"⟩, ⟨"a", "<no key>", "map[1]"⟩,
          ⟨"<no key>", "d", "map[3]"⟩] := rfl
    have h3 := h1.symm.trans e
    cases h3
    exact h2⟩

/-! ## Slices over the same storage -/

/-- C21: for every configuration, two non-nil slices of one type that start at
the same storage address and have different lengths give no diffs, whatever
their elements are: none of them is compared and no index is reported.  So
`s[:1]` against `s[:3]` of a slice of complex numbers that starts with NaN gives
no diffs, where `s[:1]` against a copy of it panics. -/
theorem C21_aliasing_short_circuit (c : Comparer) (t : String) (lx ly p : Nat)
    (xs ys : List Val) (h : xs.length ≠ ys.length) :
    c.Equal (some (.slice t lx (some (p, xs)))) (some (.slice t ly (some (p, ys)))) = .ok [] ∧
    NewComparer.Equal
        (some (.slice "[]complex128" 0 (some (4096, [.complex "complex128" .nan (.fin false 0 0)]))))
        (some (.slice "[]complex128" 0 (some (4096, [.complex "complex128" .nan (.fin false 0 0),
          .complex "complex128" (.fin false 1 0) (.fin false 0 0),
          .complex "complex128" (.fin false 1 1) (.fin false 0 0)]))))
      = .ok [] ∧
    NewComparer.Equal
        (some (.slice "[]complex128" 0 (some (4096, [.complex "complex128" .nan (.fin false 0 0)]))))
        (some (.slice "[]complex128" 0 (some (8192, [.complex "complex128" .nan (.fin false 0 0)]))))
      = .error .nanFloat := by
  refine ⟨?_, rfl, rfl⟩
  have hd : ¬ (c.MaxDepth > 0 ∧ (0 : Int) > c.MaxDepth) := by omega
  cases hn : c.NilSlicesAreEmpty <;>
    simp [Comparer.Equal, deepValueEqual, hd, Val.typ, Val.kind, Val.tname, kindSwitch, nilCheck,
      hn, elemsOf, pointerOf, h, Flag.root, compareState.init]

/-- C21 at `s[:1]` and `s[:3]` of the slice `s = []int{1, 2, 3}`, in both
operand orders. -/
theorem C21_aliasing_short_circuit_witness :
    NewComparer.Equal (some (intSlice 4096 [1])) (some (intSlice 4096 [1, 2, 3])) = .ok [] ∧
    NewComparer.Equal (some (intSlice 4096 [1, 2, 3])) (some (intSlice 4096 [1])) = .ok [] :=
  ⟨(C21_aliasing_short_circuit NewComparer "[]int" 0 0 4096 [vInt 1]
      [vInt 1, vInt 2, vInt 3] (by decide)).1,
   (C21_aliasing_short_circuit NewComparer "[]int" 0 0 4096 [vInt 1, vInt 2, vInt 3]
      [vInt 1] (by decide)).1⟩

/-! ## Runs only append to the result -/

theorem popCheck_ext {c : Comparer} {o : Outcome} {next : compareState → Outcome} {b : Bool}
    {s' : compareState} {r : List Diff}
    (ho : ∀ b1 s1, o = .ok (b1, s1) → ∃ ds, s1.result = r ++ ds)
    (hn : ∀ s2 b s', next s2 = .ok (b, s') → ∃ ds, s'.result = s2.result ++ ds)
    (h : popCheck c o next = .ok (b, s')) : ∃ ds, s'.result = r ++ ds := by
  obtain ⟨b1, s1, s2, h1, hp, h2⟩ := popCheck_ok h
  have hr := (pop_ok hp).1
  obtain ⟨ds, hds⟩ := ho b1 s1 h1
  rcases h2 with ⟨_, _, rfl⟩ | ⟨_, hnx⟩
  · exact ⟨ds, by rw [hr, hds]⟩
  · obtain ⟨ds2, hds2⟩ := hn s2 b s' hnx
    exact ⟨ds ++ ds2, by rw [hds2, hr, hds, List.append_assoc]⟩

theorem ok_ext {s : compareState} {x y : String} {b : Bool} :
    ∀ b1 s1, (Except.ok (b, s.append x y) : Outcome) = .ok (b1, s1) →
      ∃ ds, s1.result = s.result ++ ds := by
  intro b1 s1 h
  injection h with h
  injection h with _ h2
  subst h2
  exact ⟨_, rfl⟩

theorem same_ext {s : compareState} {b : Bool} :
    ∀ b1 s1, (Except.ok (b, s) : Outcome) = .ok (b1, s1) → ∃ ds, s1.result = s.result ++ ds := by
  intro b1 s1 h
  injection h with h
  injection h with _ h2
  subst h2
  exact ⟨[], by simp⟩

theorem appendV_ext {s : compareState} {r : RO} {x y : String} :
    ∀ b1 s1, s.appendV r x y = .ok (b1, s1) → ∃ ds, s1.result = s.result ++ ds := by
  intro b1 s1 h
  unfold compareState.appendV at h
  split at h
  · cases h
  · exact ok_ext b1 s1 h

theorem arrayLoop_ext {c : Comparer} {rec : Rec} (hrec : RecExt rec) (xa ya : Flag) (d : Int) :
    ∀ (xs ys : List Val) (i : Nat) (s : compareState) (b : Bool) (s' : compareState),
      arrayLoop c rec xa ya d xs ys i s = .ok (b, s') → ∃ ds, s'.result = s.result ++ ds := by
  intro xs
  induction xs with
  | nil =>
    intro ys i s b s' h
    simp only [arrayLoop] at h
    exact same_ext b s' h
  | cons xe xs ih =>
    intro ys i s b s' h
    cases ys with
    | nil => simp [arrayLoop] at h
    | cons ye ys =>
      simp only [arrayLoop] at h
      refine popCheck_ext ?_ ?_ h
      · intro b1 s1 h1
        exact hrec _ _ _ (s.push _ _) _ _ h1
      · intro s2 b s' hn
        exact ih ys (i+1) s2 b s' hn

theorem sliceLoopRight_ext {c : Comparer} (ya : Flag) :
    ∀ (ys : List Val) (i : Nat) (s : compareState) (b : Bool) (s' : compareState),
      sliceLoopRight c ya ys i s = .ok (b, s') → ∃ ds, s'.result = s.result ++ ds := by
  intro ys
  induction ys with
  | nil =>
    intro i s b s' h
    simp only [sliceLoopRight] at h
    exact same_ext b s' h
  | cons ye ys ih =>
    intro i s b s' h
    simp only [sliceLoopRight] at h
    refine popCheck_ext (r := s.result) (appendV_ext (s := s.push _ _)) ?_ h
    intro s2 b s' hn
    exact ih (i+1) s2 b s' hn

theorem sliceLoop_ext {c : Comparer} {rec : Rec} (hrec : RecExt rec) (xa ya : Flag) (d : Int) :
    ∀ (xs ys : List Val) (i : Nat) (s : compareState) (b : Bool) (s' : compareState),
      sliceLoop c rec xa ya d xs ys i s = .ok (b, s') → ∃ ds, s'.result = s.result ++ ds := by
  intro xs
  induction xs with
  | nil =>
    intro ys i s b s' h
    simp only [sliceLoop] at h
    exact sliceLoopRight_ext ya ys i s b s' h
  | cons xe xs ih =>
    intro ys i s b s' h
    cases ys with
    | nil =>
      simp only [sliceLoop] at h
      refine popCheck_ext (r := s.result) (appendV_ext (s := s.push _ _)) ?_ h
      intro s2 b s' hn
      exact ih [] (i+1) s2 b s' hn
    | cons ye ys =>
      simp only [sliceLoop] at h
      refine popCheck_ext ?_ ?_ h
      · intro b1 s1 h1
        exact hrec _ _ _ (s.push _ _) _ _ h1
      · intro s2 b s' hn
        exact ih ys (i+1) s2 b s' hn

theorem structLoop_ext {c : Comparer} {rec : Rec} (hrec : RecExt rec) (xa ya : Flag) (d : Int) :
    ∀ (xs ys : List (StructField × Val)) (s : compareState) (b : Bool) (s' : compareState),
      structLoop c rec xa ya d xs ys s = .ok (b, s') → ∃ ds, s'.result = s.result ++ ds := by
  intro xs
  induction xs with
  | nil =>
    intro ys s b s' h
    simp only [structLoop] at h
    exact same_ext b s' h
  | cons x xs ih =>
    obtain ⟨f, xv⟩ := x
    intro ys s b s' h
    simp only [structLoop] at h
    split at h
    · exact ih _ s b s' h
    · split at h
      · refine popCheck_ext ?_ ?_ h
        · intro b1 s1 h1
          exact hrec _ _ _ (s.push _ _) _ _ h1
        · intro s2 b s' hn
          exact ih _ s2 b s' hn
      · cases h

theorem mapLoopRight_ext {c : Comparer} (yr : RO) (xes yes : List (Val × Val)) :
    ∀ (ks : List Val) (s : compareState) (b : Bool) (s' : compareState),
      mapLoopRight c yr xes yes ks s = .ok (b, s') → ∃ ds, s'.result = s.result ++ ds := by
  intro ks
  induction ks with
  | nil =>
    intro s b s' h
    simp only [mapLoopRight] at h
    exact same_ext b s' h
  | cons k ks ih =>
    intro s b s' h
    simp only [mapLoopRight] at h
    split at h
    · exact ih s b s' h
    · refine popCheck_ext (r := s.result) (appendV_ext (s := s.push _ _)) ?_ h
      intro s2 b s' hn
      exact ih s2 b s' hn

theorem mapLoop_ext {c : Comparer} {rec : Rec} (hrec : RecExt rec) (xr yr : RO) (d : Int)
    (xes yes : List (Val × Val)) :
    ∀ (ks : List Val) (s : compareState) (b : Bool) (s' : compareState),
      mapLoop c rec xr yr d xes yes ks s = .ok (b, s') → ∃ ds, s'.result = s.result ++ ds := by
  intro ks
  induction ks with
  | nil =>
    intro s b s' h
    simp only [mapLoop] at h
    exact mapLoopRight_ext yr xes yes _ s b s' h
  | cons k ks ih =>
    intro s b s' h
    simp only [mapLoop] at h
    refine popCheck_ext (r := s.result) ?_ ?_ h
    · intro b1 s1 h1
      split at h1
      · exact hrec _ _ _ (s.push _ _) _ _ h1
      · split at h1
        · exact appendV_ext (s := s.push _ _) b1 s1 h1
        · exact ok_ext (s := s.push _ _) b1 s1 h1
    · intro s2 b s' hn
      exact ih s2 b s' hn

theorem nilCheck_ext {e : Bool} {mk : String} {x y : Val} {xr yr : RO}
    {xn yn : Bool} {xl yl : Nat} {s : compareState} {o : Outcome}
    (h : nilCheck e mk x y xr yr xn yn xl yl s = some o) :
    ∀ b1 s1, o = .ok (b1, s1) → ∃ ds, s1.result = s.result ++ ds := by
  unfold nilCheck at h
  split at h <;> split at h
  · cases h; exact appendV_ext
  · split at h
    · cases h; exact appendV_ext
    · cases h
  · cases h; exact appendV_ext
  · split at h
    · cases h; exact appendV_ext
    · cases h

theorem kindSwitch_ext {c : Comparer} {rec : Rec} (hrec : RecExt rec) (x y : Value)
    (xv yv : Val) (d : Int) (s : compareState) (b : Bool) (s' : compareState)
    (h : kindSwitch c rec x y xv yv d s = .ok (b, s')) : ∃ ds, s'.result = s.result ++ ds := by
  unfold kindSwitch at h
  split at h
  · exact arrayLoop_ext hrec _ _ _ _ _ _ _ _ _ h
  · split at h
    · rename_i o hn
      exact nilCheck_ext hn _ _ h
    · split at h
      · exact same_ext _ _ h
      · exact sliceLoop_ext hrec _ _ _ _ _ _ _ _ _ h
  · split at h
    · exact same_ext _ _ h
    · exact appendV_ext _ _ h
    · exact appendV_ext _ _ h
    · exact hrec _ _ _ _ _ _ h
  · split at h
    · exact same_ext _ _ h
    · exact hrec _ _ _ _ _ _ h
  · exact structLoop_ext hrec _ _ _ _ _ _ _ _ h
  · split at h
    · rename_i o hn
      exact nilCheck_ext hn _ _ h
    · split at h
      · exact same_ext _ _ h
      · exact mapLoop_ext hrec _ _ _ _ _ _ _ _ _ h
  all_goals (repeat' split at h) <;>
    first | exact same_ext _ _ h | exact ok_ext _ _ h | exact appendV_ext _ _ h | cases h

theorem deepValueEqual_ext (c : Comparer) : ∀ fuel : Nat, RecExt (deepValueEqual c fuel) := by
  intro fuel
  induction fuel with
  | zero => intro x y d s b s' h; simp [deepValueEqual] at h
  | succ n ih =>
    intro x y d s b s' h
    simp only [deepValueEqual] at h
    split at h
    · exact same_ext _ _ h
    · split at h
      · exact same_ext _ _ h
      · exact ok_ext _ _ h
      · exact ok_ext _ _ h
      · split at h
        · exact ok_ext _ _ h
        · split at h
          · exact same_ext _ _ h
          · have h2 := kindSwitch_ext ih _ _ _ _ _ _ _ _ h
            revert h2
            split <;> exact id

/-! ## A run under a smaller cap follows the run under a larger one -/

theorem sim_error (m : Nat) (st : List String) (e : Fault) (o : Outcome) :
    Sim m st (.error e) o := fun _ _ h => by cases h

theorem sim_same {m : Nat} {st : List String} {o : Outcome}
    (h : ∀ b s', o = .ok (b, s') → s'.result.length ≤ m ∧ s'.stack = st) : Sim m st o o := by
  intro b2 s2 h2
  obtain ⟨h3, h4⟩ := h b2 s2 h2
  by_cases hl : s2.result.length < m
  · exact Or.inl ⟨hl, h4, h2⟩
  · exact Or.inr ⟨by omega, b2, s2, h2, by rw [List.take_of_length_le h3], h4⟩

theorem sim_ok {m : Nat} (s : compareState) (b : Bool) (hl : s.result.length < m) :
    Sim m s.stack (.ok (b, s)) (.ok (b, s)) := by
  refine sim_same ?_
  intro b1 s1 h
  injection h with h
  injection h with _ h2
  subst h2
  exact ⟨by omega, rfl⟩

theorem sim_append {m : Nat} (s : compareState) (b : Bool) (x y : String)
    (hl : s.result.length < m) :
    Sim m s.stack (.ok (b, s.append x y)) (.ok (b, s.append x y)) := by
  refine sim_same ?_
  intro b1 s1 h
  injection h with h
  injection h with _ h2
  subst h2
  exact ⟨by simp only [append_result, List.length_append, List.length_singleton]; omega, rfl⟩

theorem sim_appendV {m : Nat} (s : compareState) (r : RO) (x y : String)
    (hl : s.result.length < m) : Sim m s.stack (s.appendV r x y) (s.appendV r x y) := by
  unfold compareState.appendV
  split
  · exact sim_error _ _ _ _
  · exact sim_append s false x y hl

theorem popCheck_sim {c c2 : Comparer} {m : Nat} (hm : (m : Int) = c.MaxDiffs)
    (hle : c.MaxDiffs ≤ c2.MaxDiffs) {o2 o : Outcome} {next2 next : compareState → Outcome}
    {st : List String} (v i : String)
    (h1 : Sim m (pushStack st v i) o2 o)
    (hext : ∀ s b s', next2 s = .ok (b, s') → ∃ ds, s'.result = s.result ++ ds)
    (hnext : ∀ s, s.result.length < m → s.stack = st → Sim m st (next2 s) (next s)) :
    Sim m st (popCheck c2 o2 next2) (popCheck c o next) := by
  intro b' s' h
  obtain ⟨b1, s1, sp, h1o, hp, h2⟩ := popCheck_ok h
  obtain ⟨hpr, _, hps, _⟩ := pop_ok hp
  rcases h1 b1 s1 h1o with ⟨hl, hst, ho⟩ | ⟨hl, b, s1c, ho, hres, hst⟩
  · have hsp : sp.stack = st := by rw [hps, hst, pushStack_dropLast]
    rcases h2 with ⟨hge, _, _⟩ | ⟨_, hnx⟩
    · exfalso
      rw [hpr] at hge
      omega
    · have hc : popCheck c o next = next sp := by
        rw [ho]
        simp only [popCheck, hp]
        rw [if_neg]
        rw [hpr]
        omega
      rw [hc]
      exact hnext sp (by rw [hpr]; exact hl) hsp b' s' hnx
  · have hlen : s1c.result.length = m := by
      rw [hres, List.length_take]
      omega
    have hpc : s1c.pop = .ok ⟨s1c.result, st, s1c.visited⟩ := by
      have hne : ¬ (pushStack st v i).length = 0 := by
        intro h0
        exact pushStack_ne_nil st v i (List.length_eq_zero.mp h0)
      simp only [compareState.pop, hst, if_neg hne, pushStack_dropLast]
    have hc : popCheck c o next = .ok (false, ⟨s1c.result, st, s1c.visited⟩) := by
      rw [ho]
      simp only [popCheck, hpc]
      rw [if_pos]
      omega
    have hpre : ∃ ds, s'.result = s1.result ++ ds := by
      rcases h2 with ⟨_, _, rfl⟩ | ⟨_, hnx⟩
      · exact ⟨[], by rw [hpr]; simp⟩
      · obtain ⟨ds, hds⟩ := hext sp b' s' hnx
        exact ⟨ds, by rw [hds, hpr]⟩
    obtain ⟨ds, hds⟩ := hpre
    refine Or.inr ⟨by rw [hds, List.length_append]; omega, false, _, hc, ?_, rfl⟩
    simp only []
    rw [hres, hds, List.take_append_of_le_length hl]

theorem arrayLoop_sim {c c2 : Comparer} {m : Nat} (hm : (m : Int) = c.MaxDiffs)
    (hle : c.MaxDiffs ≤ c2.MaxDiffs) {rec2 rec : Rec} (hext : RecExt rec2)
    (hsim : RecSim m rec2 rec) (xa ya : Flag) (d : Int) :
    ∀ (xs ys : List Val) (i : Nat) (s : compareState), s.result.length < m →
      Sim m s.stack (arrayLoop c2 rec2 xa ya d xs ys i s) (arrayLoop c rec xa ya d xs ys i s) := by
  intro xs
  induction xs with
  | nil => intro ys i s hl; simp only [arrayLoop]; exact sim_ok s true hl
  | cons xe xs ih =>
    intro ys i s hl
    cases ys with
    | nil => simp only [arrayLoop]; exact sim_error _ _ _ _
    | cons ye ys =>
      simp only [arrayLoop]
      refine popCheck_sim hm hle "array" _ (hsim _ _ _ (s.push _ _) hl)
        (fun s2 b s' h => arrayLoop_ext hext xa ya d xs ys (i + 1) s2 b s' h) ?_
      intro s2 hl2 hst
      rw [← hst]
      exact ih ys (i + 1) s2 hl2

theorem sliceLoopRight_sim {c c2 : Comparer} {m : Nat} (hm : (m : Int) = c.MaxDiffs)
    (hle : c.MaxDiffs ≤ c2.MaxDiffs) (ya : Flag) :
    ∀ (ys : List Val) (i : Nat) (s : compareState), s.result.length < m →
      Sim m s.stack (sliceLoopRight c2 ya ys i s) (sliceLoopRight c ya ys i s) := by
  intro ys
  induction ys with
  | nil => intro i s hl; simp only [sliceLoopRight]; exact sim_ok s true hl
  | cons ye ys ih =>
    intro i s hl
    simp only [sliceLoopRight]
    refine popCheck_sim hm hle "slice" _ (sim_appendV (s.push _ _) _ _ _ hl)
      (fun s2 b s' h => sliceLoopRight_ext ya ys (i + 1) s2 b s' h) ?_
    intro s2 hl2 hst
    rw [← hst]
    exact ih (i + 1) s2 hl2

theorem sliceLoop_sim {c c2 : Comparer} {m : Nat} (hm : (m : Int) = c.MaxDiffs)
    (hle : c.MaxDiffs ≤ c2.MaxDiffs) {rec2 rec : Rec} (hext : RecExt rec2)
    (hsim : RecSim m rec2 rec) (xa ya : Flag) (d : Int) :
    ∀ (xs ys : List Val) (i : Nat) (s : compareState), s.result.length < m →
      Sim m s.stack (sliceLoop c2 rec2 xa ya d xs ys i s) (sliceLoop c rec xa ya d xs ys i s) := by
  intro xs
  induction xs with
  | nil =>
    intro ys i s hl
    simp only [sliceLoop]
    exact sliceLoopRight_sim hm hle ya ys i s hl
  | cons xe xs ih =>
    intro ys i s hl
    cases ys with
    | nil =>
      simp only [sliceLoop]
      refine popCheck_sim hm hle "slice" _ (sim_appendV (s.push _ _) _ _ _ hl)
        (fun s2 b s' h => sliceLoop_ext hext xa ya d xs [] (i + 1) s2 b s' h) ?_
      intro s2 hl2 hst
      rw [← hst]
      exact ih [] (i + 1) s2 hl2
    | cons ye ys =>
      simp only [sliceLoop]
      refine popCheck_sim hm hle "slice" _ (hsim _ _ _ (s.push _ _) hl)
        (fun s2 b s' h => sliceLoop_ext hext xa ya d xs ys (i + 1) s2 b s' h) ?_
      intro s2 hl2 hst
      rw [← hst]
      exact ih ys (i + 1) s2 hl2

theorem structLoop_sim {c c2 : Comparer} {m : Nat} (hm : (m : Int) = c.MaxDiffs)
    (hle : c.MaxDiffs ≤ c2.MaxDiffs) (hcu : c2.CompareUnexportedFields = c.CompareUnexportedFields)
    {rec2 rec : Rec} (hext : RecExt rec2) (hsim : RecSim m rec2 rec) (xa ya : Flag) (d : Int) :
    ∀ (xs ys : List (StructField × Val)) (s : compareState), s.result.length < m →
      Sim m s.stack (structLoop c2 rec2 xa ya d xs ys s) (structLoop c rec xa ya d xs ys s) := by
  intro xs
  induction xs with
  | nil => intro ys s hl; simp only [structLoop]; exact sim_ok s true hl
  | cons x xs ih =>
    obtain ⟨f, xv⟩ := x
    intro ys s hl
    simp only [structLoop, hcu]
    split
    · exact ih _ s hl
    · cases ys with
      | nil => exact sim_error _ _ _ _
      | cons y ys =>
        obtain ⟨g, yv⟩ := y
        simp only []
        refine popCheck_sim hm hle "struct" _ (hsim _ _ _ (s.push _ _) hl)
          (fun s2 b s' h => structLoop_ext hext xa ya d xs ys s2 b s' h) ?_
        intro s2 hl2 hst
        rw [← hst]
        exact ih ys s2 hl2

theorem mapLoopRight_sim {c c2 : Comparer} {m : Nat} (hm : (m : Int) = c.MaxDiffs)
    (hle : c.MaxDiffs ≤ c2.MaxDiffs) (yr : RO) (xes yes : List (Val × Val)) :
    ∀ (ks : List Val) (s : compareState), s.result.length < m →
      Sim m s.stack (mapLoopRight c2 yr xes yes ks s) (mapLoopRight c yr xes yes ks s) := by
  intro ks
  induction ks with
  | nil => intro s hl; simp only [mapLoopRight]; exact sim_ok s true hl
  | cons k ks ih =>
    intro s hl
    simp only [mapLoopRight]
    split
    · exact ih s hl
    · refine popCheck_sim hm hle "map" _ (sim_appendV (s.push _ _) _ _ _ hl)
        (fun s2 b s' h => mapLoopRight_ext yr xes yes ks s2 b s' h) ?_
      intro s2 hl2 hst
      rw [← hst]
      exact ih s2 hl2

theorem mapLoop_sim {c c2 : Comparer} {m : Nat} (hm : (m : Int) = c.MaxDiffs)
    (hle : c.MaxDiffs ≤ c2.MaxDiffs) {rec2 rec : Rec} (hext : RecExt rec2)
    (hsim : RecSim m rec2 rec) (xr yr : RO) (d : Int) (xes yes : List (Val × Val)) :
    ∀ (ks : List Val) (s : compareState), s.result.length < m →
      Sim m s.stack (mapLoop c2 rec2 xr yr d xes yes ks s) (mapLoop c rec xr yr d xes yes ks s) := by
  intro ks
  induction ks with
  | nil =>
    intro s hl
    simp only [mapLoop]
    exact mapLoopRight_sim hm hle yr xes yes _ s hl
  | cons k ks ih =>
    intro s hl
    simp only [mapLoop]
    refine popCheck_sim hm hle "map" ("[" ++ fmtValue (some k) ++ "]") ?_
      (fun s2 b s' h => mapLoop_ext hext xr yr d xes yes ks s2 b s' h) ?_
    · split
      · exact hsim _ _ _ (s.push _ _) hl
      · split
        · exact sim_appendV (s.push _ _) _ _ _ hl
        · exact sim_append (s.push _ _) true _ _ hl
    · intro s2 hl2 hst
      rw [← hst]
      exact ih s2 hl2

theorem nilCheck_sim {m : Nat} {e : Bool} {mk : String} {x y : Val} {xr yr : RO}
    {xn yn : Bool} {xl yl : Nat} {s : compareState} {o : Outcome}
    (hl : s.result.length < m)
    (h : nilCheck e mk x y xr yr xn yn xl yl s = some o) : Sim m s.stack o o := by
  unfold nilCheck at h
  split at h <;> split at h
  · cases h; exact sim_appendV s _ _ _ hl
  · split at h
    · cases h; exact sim_appendV s _ _ _ hl
    · cases h
  · cases h; exact sim_appendV s _ _ _ hl
  · split at h
    · cases h; exact sim_appendV s _ _ _ hl
    · cases h

theorem floatDiffers_same {c c2 : Comparer} (h : c2.FloatPrecision = c.FloatPrecision)
    (a b : GoFloat) : floatDiffers c2 a b = floatDiffers c a b := by
  simp only [floatDiffers, h]

/-! ## The cap only truncates -/

theorem kindSwitch_sim {c c2 : Comparer} {m : Nat} (hm : (m : Int) = c.MaxDiffs)
    (hle : c.MaxDiffs ≤ c2.MaxDiffs) (hc : SameButCap c c2) {rec2 rec : Rec}
    (hext : RecExt rec2) (hsim : RecSim m rec2 rec) (x y : Value) (xv yv : Val) (d : Int)
    (s : compareState) (hl : s.result.length < m) :
    Sim m s.stack (kindSwitch c2 rec2 x y xv yv d s) (kindSwitch c rec x y xv yv d s) := by
  obtain ⟨hcu, hfp, _, hnm, hns⟩ := hc
  cases xv <;> cases yv <;>
    first
    | exact sim_error _ _ _ _
    | (simp only [kindSwitch, hns, hnm, hfp, floatDiffers_same hfp]
       first
       | exact sim_error _ _ _ _
       | exact arrayLoop_sim hm hle hext hsim _ _ _ _ _ _ _ hl
       | exact structLoop_sim hm hle hcu hext hsim _ _ _ _ _ _ hl
       | ((repeat' split) <;>
           first
           | exact sim_error _ _ _ _
           | exact sim_ok s _ hl
           | exact sim_append s _ _ _ hl
           | exact sim_appendV s _ _ _ hl
           | exact hsim _ _ _ s hl
           | exact sliceLoop_sim hm hle hext hsim _ _ _ _ _ _ _ hl
           | exact mapLoop_sim hm hle hext hsim _ _ _ _ _ _ _ hl
           | exact nilCheck_sim hl (by assumption)))

theorem deepValueEqual_sim {c c2 : Comparer} {m : Nat} (hm : (m : Int) = c.MaxDiffs)
    (hle : c.MaxDiffs ≤ c2.MaxDiffs) (hc : SameButCap c c2) :
    ∀ fuel : Nat, RecSim m (deepValueEqual c2 fuel) (deepValueEqual c fuel) := by
  intro fuel
  induction fuel with
  | zero => intro x y d s hl; simp only [deepValueEqual]; exact sim_error _ _ _ _
  | succ n ih =>
    intro x y d s hl
    simp only [deepValueEqual, hc.2.2.1]
    split
    · exact sim_ok s true hl
    · split
      · exact sim_ok s true hl
      · exact sim_append s false _ _ hl
      · exact sim_append s false _ _ hl
      · split
        · exact sim_append s false _ _ hl
        · split
          · exact sim_ok s true hl
          · split
            · exact kindSwitch_sim hm hle hc (deepValueEqual_ext c2 n) ih _ _ _ _ _
                { s with visited := _ } hl
            · exact kindSwitch_sim hm hle hc (deepValueEqual_ext c2 n) ih _ _ _ _ _ s hl

/-- With a positive cap `m` and a cap `k` that is at least `m`, whenever the
comparison under the cap `k` returns a list, the comparison under the cap `m`
returns its first `m` diffs. -/
theorem equal_cap_take (c c2 : Comparer) (hm : 0 < c.MaxDiffs)
    (hle : c.MaxDiffs ≤ c2.MaxDiffs) (hc : SameButCap c c2) (x y : Option Val) (ds : List Diff)
    (h : c2.Equal x y = .ok ds) : c.Equal x y = .ok (ds.take c.MaxDiffs.toNat) := by
  have hk : 1 ≤ c.MaxDiffs.toNat := by omega
  cases x with
  | none =>
    cases y with
    | none =>
      simp only [Comparer.Equal] at h ⊢
      cases h
      rw [List.take_nil]
    | some yv =>
      simp only [Comparer.Equal] at h ⊢
      cases h
      rw [List.take_of_length_le]
      simpa [compareState.init] using hk
  | some xv =>
    cases y with
    | none =>
      simp only [Comparer.Equal] at h ⊢
      cases h
      rw [List.take_of_length_le]
      simpa [compareState.init] using hk
    | some yv =>
      simp only [Comparer.Equal] at h ⊢
      cases hr : deepValueEqual c2 (xv.size + 1) ⟨some xv, Flag.root⟩ ⟨some yv, Flag.root⟩ 0
          compareState.init with
      | error e => rw [hr] at h; cases h
      | ok p =>
        obtain ⟨b2, s2⟩ := p
        rw [hr] at h
        cases h
        have hs := deepValueEqual_sim (m := c.MaxDiffs.toNat) (by omega) hle hc (xv.size + 1)
          ⟨some xv, Flag.root⟩ ⟨some yv, Flag.root⟩ 0 compareState.init
          (by simp only [compareState.init, List.length_nil]; omega) b2 s2 hr
        rcases hs with ⟨hl, _, ho⟩ | ⟨_, b, s1, ho, hres, _⟩
        · rw [ho]
          simp only []
          rw [List.take_of_length_le (by omega)]
        · rw [ho]
          simp only [hres]

/-- C22: for two configurations that differ only in MaxDiffs, with caps
0 < m <= k, and all operands, shared storage included: whenever the comparison
under the cap k returns a list of n diffs, the comparison under the cap m
returns exactly its first min(m, n) diffs.  Map entries are compared in their
stored order in both runs. -/
theorem C22_cap_truncates (c : Comparer) (k : Int) (x y : Option Val) (ds : List Diff)
    (hm : 0 < c.MaxDiffs) (hk : c.MaxDiffs ≤ k)
    (h : ({ c with MaxDiffs := k } : Comparer).Equal x y = .ok ds) :
    c.Equal x y = .ok (ds.take c.MaxDiffs.toNat) ∧
    (ds.take c.MaxDiffs.toNat).length = min c.MaxDiffs.toNat ds.length :=
  ⟨equal_cap_take c { c with MaxDiffs := k } hm hk ⟨rfl, rfl, rfl, rfl, rfl⟩ x y ds h,
   List.length_take _ _⟩

/-- C22 at the arrays `[3]int{1,2,3}` and `[3]int{0,0,0}` with the caps 2 and
10: the three diffs under the cap 10, and the first two of them under the
cap 2. -/
theorem C22_cap_truncates_witness :
    ({ NewComparer with MaxDiffs := 10 } : Comparer).Equal
        (some (intArray [1, 2, 3])) (some (intArray [0, 0, 0]))
      = .ok [⟨"1", "0", "array[0]"⟩, ⟨"2", "0", "array[1]"⟩, ⟨"3", "0", "array[2]"⟩] ∧
    ({ NewComparer with MaxDiffs := 2 } : Comparer).Equal
        (some (intArray [1, 2, 3])) (some (intArray [0, 0, 0]))
      = .ok [⟨"1", "0", "array[0]"⟩, ⟨"2", "0", "array[1]"⟩] :=
  ⟨rfl, (C22_cap_truncates { NewComparer with MaxDiffs := 2 } 10 (some (intArray [1, 2, 3]))
    (some (intArray [0, 0, 0]))
    [⟨"1", "0", "array[0]"⟩, ⟨"2", "0", "array[1]"⟩, ⟨"3", "0", "array[2]"⟩]
    (by decide) (by decide) rfl).1⟩

/-! ## Rounding twice -/

theorem bitLen_unique (m n : Nat) (hn : 0 < n) (h1 : 2 ^ (n - 1) ≤ m) (h2 : m < 2 ^ n) :
    bitLen m m = n := by
  have hm : 0 < m := lt_of_lt_of_le (Nat.two_pow_pos _) h1
  have hlt := bitLen_lt m m (le_refl _)
  have hge := bitLen_ge m m (le_refl _) hm
  by_contra hne
  rcases Nat.lt_or_gt_of_ne hne with h | h
  · have : 2 ^ bitLen m m ≤ 2 ^ (n - 1) := Nat.pow_le_pow_right (by decide) (by omega)
    omega
  · have : 2 ^ n ≤ 2 ^ (bitLen m m - 1) := Nat.pow_le_pow_right (by decide) (by omega)
    omega

/-- The rounding of `m / S` to the nearest integer, ties to even, where `S` is
twice `H`. -/
theorem round_twice (H Ht m q1 : Nat) (hH : 0 < H) (hHt : 0 < Ht)
    (hq1 : q1 = if m % (2 * H) > H ∨ (m % (2 * H) = H ∧ m / (2 * H) % 2 = 1)
      then m / (2 * H) + 1 else m / (2 * H))
    (hnt : q1 % (2 * Ht) ≠ Ht) :
    (if m % (2 * H * (2 * Ht)) > H * (2 * Ht)
        ∨ (m % (2 * H * (2 * Ht)) = H * (2 * Ht) ∧ m / (2 * H * (2 * Ht)) % 2 = 1)
      then m / (2 * H * (2 * Ht)) + 1 else m / (2 * H * (2 * Ht)))
    = (if q1 % (2 * Ht) > Ht ∨ (q1 % (2 * Ht) = Ht ∧ q1 / (2 * Ht) % 2 = 1)
      then q1 / (2 * Ht) + 1 else q1 / (2 * Ht)) := by
  have hSpos : 0 < 2 * H := by omega
  have hTpos : 0 < 2 * Ht := by omega
  have hSTpos : 0 < 2 * H * (2 * Ht) := Nat.mul_pos hSpos hTpos
  have hm := Nat.div_add_mod m (2 * H)
  have hr := Nat.mod_lt m hSpos
  have hb := Nat.div_add_mod q1 (2 * Ht)
  have hrb := Nat.mod_lt q1 hTpos
  generalize hq : m / (2 * H) = q at *
  generalize hrr : m % (2 * H) = r at *
  generalize hqb : q1 / (2 * Ht) = qb at *
  generalize hrbb : q1 % (2 * Ht) = rb at *
  -- the quotient and remainder of m by S * T
  have key : ∀ Q R, R + 2 * H * (2 * Ht) * Q = m → R < 2 * H * (2 * Ht) →
      m / (2 * H * (2 * Ht)) = Q ∧ m % (2 * H * (2 * Ht)) = R := by
    intro Q R e1 e2
    exact (Nat.div_mod_unique hSTpos).mpr ⟨e1, e2⟩
  have hHT : H * (2 * Ht) = Ht * (2 * H) := by ring
  have e0 : 2 * H * (2 * Ht) = 2 * (Ht * (2 * H)) := by ring
  have hB1 : rb * (2 * H) + 2 * H ≤ 2 * Ht * (2 * H) := by
    have : (rb + 1) * (2 * H) ≤ 2 * Ht * (2 * H) := Nat.mul_le_mul_right _ (by omega)
    rw [Nat.add_mul, Nat.one_mul] at this
    exact this
  have e1 : 2 * Ht * (2 * H) = 2 * (Ht * (2 * H)) := by ring
  have hH2 : H < Ht * (2 * H) := by
    have : 1 * (2 * H) ≤ Ht * (2 * H) := Nat.mul_le_mul_right _ (by omega)
    omega
  -- the rounded quotient on the right
  have hright : (if rb > Ht ∨ (rb = Ht ∧ qb % 2 = 1) then qb + 1 else qb)
      = if Ht < rb then qb + 1 else qb := by
    by_cases h : Ht < rb
    · rw [if_pos (Or.inl h), if_pos h]
    · rw [if_neg (by rintro (h2 | h2) <;> omega), if_neg h]
  rw [hright]
  -- it suffices to find the quotient and the remainder on the left
  have fin : ∀ Q R, R + 2 * H * (2 * Ht) * Q = m → R < 2 * H * (2 * Ht) →
      (R < Ht * (2 * H) ∧ Q = (if Ht < rb then qb + 1 else qb)) ∨
      (Ht * (2 * H) < R ∧ Q + 1 = (if Ht < rb then qb + 1 else qb)) →
      (if m % (2 * H * (2 * Ht)) > H * (2 * Ht)
          ∨ (m % (2 * H * (2 * Ht)) = H * (2 * Ht) ∧ m / (2 * H * (2 * Ht)) % 2 = 1)
        then m / (2 * H * (2 * Ht)) + 1 else m / (2 * H * (2 * Ht)))
      = (if Ht < rb then qb + 1 else qb) := by
    intro Q R e1 e2 h
    obtain ⟨hQ, hR⟩ := key Q R e1 e2
    rw [hQ, hR, hHT]
    rcases h with ⟨h3, h4⟩ | ⟨h3, h4⟩
    · rw [if_neg (by rintro (h5 | h5) <;> omega)]
      exact h4
    · rw [if_pos (Or.inl h3)]
      exact h4
  by_cases hc : r > H ∨ (r = H ∧ q % 2 = 1)
  · -- the first rounding went up
    rw [if_pos hc] at hq1
    have hrH : H ≤ r := by rcases hc with h | h <;> omega
    rcases Nat.eq_zero_or_pos rb with h0 | h0
    · -- the rounded mantissa is a multiple of T
      have hqb : 0 < qb := by
        rcases Nat.eq_zero_or_pos qb with h | h
        · rw [h, h0] at hb; omega
        · exact h
      obtain ⟨qb2, rfl⟩ : ∃ k, qb = k + 1 := ⟨qb - 1, by omega⟩
      have hqv : q + 1 = 2 * Ht * (qb2 + 1) := by omega
      refine fin qb2 (2 * H * (2 * Ht) - 2 * H + r) ?_ ?_ (Or.inr ⟨?_, ?_⟩)
      · have e2 : 2 * H * (2 * Ht) * (qb2 + 1) = 2 * H * (q + 1) := by rw [hqv]; ring
        have e3 : 2 * H * (2 * Ht) * (qb2 + 1) = 2 * H * (2 * Ht) * qb2 + 2 * H * (2 * Ht) := by
          ring
        have e4 : 2 * H * (q + 1) = 2 * H * q + 2 * H := by ring
        have e5 : 2 * H ≤ 2 * H * (2 * Ht) := Nat.le_mul_of_pos_right _ hTpos
        omega
      · have e5 : 2 * H ≤ 2 * H * (2 * Ht) := Nat.le_mul_of_pos_right _ hTpos
        omega
      · omega
      · rw [if_neg (by omega)]
    · obtain ⟨rb2, rfl⟩ : ∃ k, rb = k + 1 := ⟨rb - 1, by omega⟩
      have hqv : q = 2 * Ht * qb + rb2 := by omega
      have e2 : rb2 * (2 * H) + r + 2 * H * (2 * Ht) * qb = m := by
        rw [← hm, hqv]; ring
      have hB3 : (rb2 + 1) * (2 * H) = rb2 * (2 * H) + 2 * H := by ring
      rw [hB3] at hB1
      by_cases hlt : rb2 + 1 < Ht
      · have hB2 : (rb2 + 1) * (2 * H) + 2 * H ≤ Ht * (2 * H) := by
          have : (rb2 + 1 + 1) * (2 * H) ≤ Ht * (2 * H) := Nat.mul_le_mul_right _ (by omega)
          rw [Nat.add_mul _ 1, Nat.one_mul] at this
          exact this
        rw [hB3] at hB2
        refine fin qb (rb2 * (2 * H) + r) e2 (by omega) (Or.inl ⟨by omega, ?_⟩)
        rw [if_neg (by omega)]
      · have hgt : Ht < rb2 + 1 := by omega
        have hB2 : Ht * (2 * H) ≤ rb2 * (2 * H) := Nat.mul_le_mul_right _ (by omega)
        refine fin qb (rb2 * (2 * H) + r) e2 (by omega) (Or.inr ⟨by omega, ?_⟩)
        rw [if_pos hgt]
  · -- the first rounding went down
    rw [if_neg hc] at hq1
    have hrH : r ≤ H := by
      by_contra h
      exact hc (Or.inl (by omega))
    have hqv : q = 2 * Ht * qb + rb := by omega
    have e2 : rb * (2 * H) + r + 2 * H * (2 * Ht) * qb = m := by
      rw [← hm, hqv]; ring
    by_cases hlt : rb < Ht
    · have hB2 : rb * (2 * H) + 2 * H ≤ Ht * (2 * H) := by
        have : (rb + 1) * (2 * H) ≤ Ht * (2 * H) := Nat.mul_le_mul_right _ (by omega)
        rw [Nat.add_mul, Nat.one_mul] at this
        exact this
      refine fin qb (rb * (2 * H) + r) e2 (by omega) (Or.inl ⟨by omega, ?_⟩)
      rw [if_neg (by omega)]
    · have hgt : Ht < rb := by omega
      have hB2 : Ht * (2 * H) + 2 * H ≤ rb * (2 * H) := by
        have : (Ht + 1) * (2 * H) ≤ rb * (2 * H) := Nat.mul_le_mul_right _ (by omega)
        rw [Nat.add_mul, Nat.one_mul] at this
        exact this
      refine fin qb (rb * (2 * H) + r) e2 (by omega) (Or.inr ⟨by omega, ?_⟩)
      rw [if_pos hgt]

/-! ## Rounding at two precisions -/

theorem roundMant_small (p m : Nat) (e : Int) (h : bitLen m m ≤ p) : roundMant p m e = (m, e) := by
  simp only [roundMant, if_pos h]

theorem roundMant_big (p m : Nat) (e : Int) (h : p < bitLen m m) :
    roundMant p m e
      = ((if m % 2 ^ (bitLen m m - p) > 2 ^ (bitLen m m - p - 1)
            ∨ (m % 2 ^ (bitLen m m - p) = 2 ^ (bitLen m m - p - 1)
              ∧ m / 2 ^ (bitLen m m - p) % 2 = 1)
          then m / 2 ^ (bitLen m m - p) + 1 else m / 2 ^ (bitLen m m - p)),
         e + ((bitLen m m - p : Nat) : Int)) := by
  simp only [roundMant, if_neg (not_le.mpr h)]
  split <;> rfl

theorem bitLen_pos (m : Nat) (hm : 0 < m) : 0 < bitLen m m := by
  have := bitLen_lt m m (le_refl _)
  rcases Nat.eq_zero_or_pos (bitLen m m) with h | h
  · rw [h] at this; omega
  · exact h

theorem roundMant_pos (p m : Nat) (e : Int) (hp : 0 < p) (hm : 0 < m) :
    0 < (roundMant p m e).1 := by
  by_cases h : bitLen m m ≤ p
  · rw [roundMant_small p m e h]; exact hm
  · have h2 := (roundMant_nearest_even p m e hp (by omega)).2.1
    exact lt_of_lt_of_le (Nat.two_pow_pos _) h2

theorem bitLen_mul_pow (m k : Nat) (hm : 0 < m) :
    bitLen (m * 2 ^ k) (m * 2 ^ k) = bitLen m m + k := by
  have hn := bitLen_pos m hm
  have hlt := bitLen_lt m m (le_refl _)
  have hge := bitLen_ge m m (le_refl _) hm
  apply bitLen_unique _ _ (by omega)
  · have e1 : bitLen m m + k - 1 = (bitLen m m - 1) + k := by omega
    rw [e1, pow_add]
    exact Nat.mul_le_mul_right _ hge
  · rw [pow_add]
    exact Nat.mul_lt_mul_of_pos_right hlt (Nat.two_pow_pos k)

/-- The value of a rounding does not depend on how the float is written: the
mantissa `m * 2 ^ k` with the exponent `e - k` rounds to the same value as the
mantissa `m` with the exponent `e`. -/
theorem roundMant_scale (p m k : Nat) (e : Int) (hm : 0 < m) :
    (((roundMant p (m * 2 ^ k) (e - k)).1 : ℚ) * (2 : ℚ) ^ (roundMant p (m * 2 ^ k) (e - k)).2)
      = ((roundMant p m e).1 : ℚ) * (2 : ℚ) ^ (roundMant p m e).2 := by
  have h2 : (2 : ℚ) ≠ 0 := by norm_num
  have hb := bitLen_mul_pow m k hm
  by_cases h1 : p < bitLen m m
  · -- both are rounded, to the same mantissa and exponent
    have h3 : p < bitLen (m * 2 ^ k) (m * 2 ^ k) := by rw [hb]; omega
    rw [roundMant_big p m e h1, roundMant_big p _ _ h3, hb]
    have e1 : bitLen m m + k - p = (bitLen m m - p) + k := by omega
    have e2 : bitLen m m - p + k - 1 = (bitLen m m - p - 1) + k := by omega
    have hk : 0 < 2 ^ k := Nat.two_pow_pos k
    rw [e1, e2, pow_add, pow_add, Nat.mul_mod_mul_right, Nat.mul_div_mul_right _ _ hk]
    have c1 : (m % 2 ^ (bitLen m m - p) * 2 ^ k > 2 ^ (bitLen m m - p - 1) * 2 ^ k)
        ↔ (m % 2 ^ (bitLen m m - p) > 2 ^ (bitLen m m - p - 1)) :=
      Nat.mul_lt_mul_right hk
    have c2 : (m % 2 ^ (bitLen m m - p) * 2 ^ k = 2 ^ (bitLen m m - p - 1) * 2 ^ k)
        ↔ (m % 2 ^ (bitLen m m - p) = 2 ^ (bitLen m m - p - 1)) :=
      Nat.mul_left_inj (by omega)
    simp only [c1, c2]
    have e3 : e - (k : Int) + (((bitLen m m - p + k : Nat)) : Int)
        = e + ((bitLen m m - p : Nat) : Int) := by
      push_cast; ring
    rw [e3]
  · rw [roundMant_small p m e (by omega)]
    by_cases h3 : p < bitLen (m * 2 ^ k) (m * 2 ^ k)
    · -- only the longer mantissa is rounded, and nothing is dropped but zeros
      rw [roundMant_big p _ _ h3, hb]
      obtain ⟨j, hj⟩ : ∃ j, k = (bitLen m m + k - p) + j := ⟨k - (bitLen m m + k - p), by
        rw [hb] at h3; omega⟩
      have hsh : 0 < bitLen m m + k - p := by rw [hb] at h3; omega
      generalize bitLen m m + k - p = sh at *
      have hS : 0 < 2 ^ sh := Nat.two_pow_pos sh
      have e1 : m * 2 ^ k = (m * 2 ^ j) * 2 ^ sh := by rw [hj, pow_add]; ring
      have hmod : m * 2 ^ k % 2 ^ sh = 0 := by rw [e1]; exact Nat.mul_mod_left _ _
      have hdiv : m * 2 ^ k / 2 ^ sh = m * 2 ^ j := by rw [e1]; exact Nat.mul_div_cancel _ hS
      have hhalf : 0 < 2 ^ (sh - 1) := Nat.two_pow_pos _
      rw [hmod, hdiv, if_neg (by rintro (h | h) <;> omega)]
      simp only []
      push_cast
      have e2 : e - (k : Int) + (sh : Int) = e - (j : Int) := by omega
      rw [e2, zpow_sub₀ h2, zpow_natCast]
      field_simp
      ring
    · rw [roundMant_small p _ _ (by omega)]
      simp only []
      push_cast
      rw [zpow_sub₀ h2, zpow_natCast]
      field_simp
      ring

theorem bitLen_two_pow (p : Nat) : bitLen (2 ^ p) (2 ^ p) = p + 1 :=
  bitLen_unique _ _ (by omega) (by simp) (Nat.pow_lt_pow_right (by decide) (by omega))

theorem tieMant_false {p2 q : Nat} (h : tieMant p2 q = false) (hb : p2 < bitLen q q) :
    q % 2 ^ (bitLen q q - p2) ≠ 2 ^ (bitLen q q - p2 - 1) := by
  intro he
  simp [tieMant, hb, he] at h

/-- Rounding to `p` digits and then to `p2 <= p` digits gives the value of
rounding to `p2` digits at once, unless the first rounding gives a value
halfway between two adjacent values of `p2` digits. -/
theorem roundMant_twice (p p2 m : Nat) (e : Int) (hp2 : 0 < p2) (hle : p2 ≤ p)
    (hnt : tieMant p2 (roundMant p m e).1 = false) :
    ((roundMant p2 m e).1 : ℚ) * (2 : ℚ) ^ (roundMant p2 m e).2
      = ((roundMant p2 (roundMant p m e).1 (roundMant p m e).2).1 : ℚ)
          * (2 : ℚ) ^ (roundMant p2 (roundMant p m e).1 (roundMant p m e).2).2 := by
  have h2 : (2 : ℚ) ≠ 0 := by norm_num
  by_cases h1 : bitLen m m ≤ p
  · rw [roundMant_small p m e h1]
  · have hn : p < bitLen m m := by omega
    obtain ⟨hexp, hge, hle2, _⟩ := roundMant_nearest_even p m e (by omega) hn
    have hq1 := congrArg Prod.fst (roundMant_big p m e hn)
    simp only [] at hq1
    generalize hV1 : (roundMant p m e).1 = q1 at *
    generalize hV2 : (roundMant p m e).2 = e1 at *
    by_cases heq : p2 = p
    · subst heq
      rw [roundMant_big p2 m e hn]
      simp only []
      rw [← hq1]
      by_cases hov : q1 = 2 ^ p2
      · have hbl : bitLen q1 q1 = p2 + 1 := by rw [hov]; exact bitLen_two_pow p2
        rw [roundMant_big p2 q1 e1 (by omega), hbl]
        have e3 : p2 + 1 - p2 = 1 := by omega
        have e4 : (2 : Nat) ^ p2 = 2 * 2 ^ (p2 - 1) := by
          conv_lhs => rw [show p2 = (p2 - 1) + 1 by omega]
          rw [pow_succ]; ring
        have hmod : q1 % 2 ^ 1 = 0 := by rw [hov, e4]; simp
        have hdiv : q1 / 2 ^ 1 = 2 ^ (p2 - 1) := by rw [hov, e4]; simp
        rw [e3, hmod, hdiv, if_neg (by simp)]
        simp only []
        rw [hov, hexp]
        have e7 : (2 : ℚ) ^ (p2 : ℕ) = 2 * 2 ^ (p2 - 1 : ℕ) := by
          conv_lhs => rw [show p2 = (p2 - 1) + 1 by omega]
          rw [pow_succ]; ring
        push_cast
        rw [e7, zpow_add₀ h2 _ 1, zpow_one]
        ring
      · have hbl : bitLen q1 q1 = p2 :=
          bitLen_unique _ _ hp2 hge (lt_of_le_of_ne hle2 hov)
        rw [roundMant_small p2 q1 e1 (by omega), hexp]
    · have hlt : p2 < p := by omega
      have hn2 : p2 < bitLen m m := by omega
      rw [roundMant_big p2 m e hn2]
      simp only []
      -- the powers of two in terms of the two halves
      have a1 : 2 ^ (bitLen m m - p) = 2 * 2 ^ (bitLen m m - p - 1) := by
        conv_lhs => rw [show bitLen m m - p = (bitLen m m - p - 1) + 1 by omega]
        rw [pow_succ]; ring
      have a2 : 2 ^ (p - p2) = 2 * 2 ^ (p - p2 - 1) := by
        conv_lhs => rw [show p - p2 = (p - p2 - 1) + 1 by omega]
        rw [pow_succ]; ring
      have a3 : 2 ^ (bitLen m m - p2)
          = 2 * 2 ^ (bitLen m m - p - 1) * (2 * 2 ^ (p - p2 - 1)) := by
        rw [← a1, ← a2, ← pow_add]; congr 1; omega
      have a4 : 2 ^ (bitLen m m - p2 - 1)
          = 2 ^ (bitLen m m - p - 1) * (2 * 2 ^ (p - p2 - 1)) := by
        rw [← a2, ← pow_add]; congr 1; omega
      rw [a1] at hq1
      rw [a3, a4]
      by_cases hov : q1 = 2 ^ p
      · have hbl : bitLen q1 q1 = p + 1 := by rw [hov]; exact bitLen_two_pow p
        have e5 : (2 : Nat) ^ p = 2 ^ p2 * 2 ^ (p - p2) := by
          rw [← pow_add]; congr 1; omega
        have hTpos : 0 < 2 ^ (p - p2) := Nat.two_pow_pos _
        have hmodT : q1 % (2 * 2 ^ (p - p2 - 1)) = 0 := by
          rw [← a2, hov, e5]; exact Nat.mul_mod_left _ _
        have hdivT : q1 / (2 * 2 ^ (p - p2 - 1)) = 2 ^ p2 := by
          rw [← a2, hov, e5]; exact Nat.mul_div_cancel _ hTpos
        have hHt : 0 < 2 ^ (p - p2 - 1) := Nat.two_pow_pos _
        rw [round_twice (2 ^ (bitLen m m - p - 1)) (2 ^ (p - p2 - 1)) m q1 (Nat.two_pow_pos _)
          hHt hq1 (by rw [hmodT]; omega), hmodT, hdivT, if_neg (by rintro (h | h) <;> omega)]
        rw [roundMant_big p2 q1 e1 (by omega), hbl]
        have e6 : (2 : Nat) ^ p = 2 ^ (p2 - 1) * 2 ^ (p + 1 - p2) := by
          rw [← pow_add]; congr 1; omega
        have hS : 0 < 2 ^ (p + 1 - p2) := Nat.two_pow_pos _
        have hmod : q1 % 2 ^ (p + 1 - p2) = 0 := by rw [hov, e6]; exact Nat.mul_mod_left _ _
        have hdiv : q1 / 2 ^ (p + 1 - p2) = 2 ^ (p2 - 1) := by
          rw [hov, e6]; exact Nat.mul_div_cancel _ hS
        have hh : 0 < 2 ^ (p + 1 - p2 - 1) := Nat.two_pow_pos _
        rw [hmod, hdiv, if_neg (by rintro (h | h) <;> omega)]
        simp only []
        rw [hexp]
        have e7 : (2 : ℚ) ^ (p2 : ℕ) = 2 * 2 ^ (p2 - 1 : ℕ) := by
          conv_lhs => rw [show p2 = (p2 - 1) + 1 by omega]
          rw [pow_succ]; ring
        have e8 : e + ((bitLen m m - p : ℕ) : ℤ) + ((p + 1 - p2 : ℕ) : ℤ)
            = e + ((bitLen m m - p2 : ℕ) : ℤ) + 1 := by omega
        push_cast
        rw [e8, e7, zpow_add₀ h2 _ 1, zpow_one]
        ring
      · have hbl : bitLen q1 q1 = p :=
          bitLen_unique _ _ (by omega) hge (lt_of_le_of_ne hle2 hov)
        have hnt2 := tieMant_false hnt (by omega)
        rw [hbl, a2] at hnt2
        rw [round_twice (2 ^ (bitLen m m - p - 1)) (2 ^ (p - p2 - 1)) m q1 (Nat.two_pow_pos _)
          (Nat.two_pow_pos _) hq1 hnt2]
        rw [roundMant_big p2 q1 e1 (by omega), hbl, a2, hexp]
        simp only []
        have e8 : e + ((bitLen m m - p : ℕ) : ℤ) + ((p - p2 : ℕ) : ℤ)
            = e + ((bitLen m m - p2 : ℕ) : ℤ) := by omega
        rw [e8]

/-- Two ways of writing one value round to the same value. -/
theorem roundMant_congr (p q1 q2 : Nat) (e1 e2 : Int) (h1 : 0 < q1) (h2 : 0 < q2)
    (hv : (q1 : ℚ) * (2 : ℚ) ^ e1 = (q2 : ℚ) * (2 : ℚ) ^ e2) :
    ((roundMant p q1 e1).1 : ℚ) * (2 : ℚ) ^ (roundMant p q1 e1).2
      = ((roundMant p q2 e2).1 : ℚ) * (2 : ℚ) ^ (roundMant p q2 e2).2 := by
  have two : (2 : ℚ) ≠ 0 := by norm_num
  have key : ∀ (a b : Nat) (ea eb : Int), 0 < a → eb ≤ ea →
      (a : ℚ) * (2 : ℚ) ^ ea = (b : ℚ) * (2 : ℚ) ^ eb →
      ((roundMant p b eb).1 : ℚ) * (2 : ℚ) ^ (roundMant p b eb).2
        = ((roundMant p a ea).1 : ℚ) * (2 : ℚ) ^ (roundMant p a ea).2 := by
    intro a b ea eb ha hle h
    obtain ⟨k, hk⟩ : ∃ k : Nat, eb = ea - (k : Int) := ⟨(ea - eb).toNat, by omega⟩
    subst hk
    have hz : (2 : ℚ) ^ (ea - (k : Int)) ≠ 0 := zpow_ne_zero _ two
    have hpow : (2 : ℚ) ^ ea = (2 : ℚ) ^ (ea - (k : Int)) * (2 : ℚ) ^ k := by
      rw [← zpow_natCast, ← zpow_add₀ two]
      congr 1
      omega
    have hb : (b : ℚ) = ((a * 2 ^ k : Nat) : ℚ) := by
      rw [hpow] at h
      have h3 : (a : ℚ) * (2 : ℚ) ^ k * (2 : ℚ) ^ (ea - (k : Int))
          = (b : ℚ) * (2 : ℚ) ^ (ea - (k : Int)) := by
        rw [← h]; ring
      have h4 := mul_right_cancel₀ hz h3
      rw [← h4]
      push_cast
      ring
    have hb2 : b = a * 2 ^ k := by exact_mod_cast hb
    rw [hb2]
    exact roundMant_scale p a k ea ha
  rcases le_total e2 e1 with h | h
  · exact (key q1 q2 e1 e2 h1 h hv).symm
  · exact key q2 q1 e2 e1 h2 h hv.symm

/-- The mantissa and exponent to which `setFloat64` brings a finite float that
is not zero. -/
theorem setFloat64_fin (P : Int) (s : Bool) (m : Nat) (e : Int) (hm : m ≠ 0) :
    setFloat64 P (.fin s m e)
      = some (.fin s (if P < 53 then roundMant P.toNat m e else (m, e)).1
          (if P < 53 then roundMant P.toNat m e else (m, e)).2) := by
  simp only [setFloat64, if_neg hm]
  split <;> rfl

theorem sameRounded_fin (P : Int) (s1 s2 : Bool) (m1 m2 : Nat) (e1 e2 : Int)
    (h1 : m1 ≠ 0) (h2 : m2 ≠ 0) (hP : 0 < P) :
    sameRounded P (.fin s1 m1 e1) (.fin s2 m2 e2) = true ↔
      s1 = s2 ∧
      (((if P < 53 then roundMant P.toNat m1 e1 else (m1, e1)).1 : ℚ)
          * (2 : ℚ) ^ (if P < 53 then roundMant P.toNat m1 e1 else (m1, e1)).2
        = ((if P < 53 then roundMant P.toNat m2 e2 else (m2, e2)).1 : ℚ)
          * (2 : ℚ) ^ (if P < 53 then roundMant P.toNat m2 e2 else (m2, e2)).2) := by
  simp only [sameRounded, setFloat64_fin P _ _ _ h1, setFloat64_fin P _ _ _ h2, floatEq_fin]
  have p1 : (if P < 53 then roundMant P.toNat m1 e1 else (m1, e1)).1 ≠ 0 := by
    split
    · exact (roundMant_pos _ _ _ (by omega) (by omega)).ne'
    · exact h1
  constructor
  · rintro (h | h)
    · exact absurd h.1 p1
    · exact h
  · exact fun h => Or.inr h

/-! ## Lowering the precision -/

theorem setFloat64_fin_some (P : Int) (s : Bool) (m : Nat) (e : Int) :
    ∃ q e2, setFloat64 P (.fin s m e) = some (.fin s q e2) := by
  simp only [setFloat64]
  split
  · exact ⟨_, _, rfl⟩
  · split <;> exact ⟨_, _, rfl⟩

theorem setFloat64_zero (P : Int) (s : Bool) (e : Int) :
    setFloat64 P (.fin s 0 e) = some (.fin s 0 0) := by
  simp [setFloat64]

/-- Two floats that round to the same value at the precision `P` round to the
same value at every lower positive precision `P2`, unless the value they round
to at `P` lies halfway between two adjacent values of precision `P2`. -/
theorem sameRounded_mono (P P2 : Int) (x y : GoFloat) (h0 : 0 < P2) (hle : P2 ≤ P)
    (h : sameRounded P x y = true)
    (htx : ∀ v, setFloat64 P x = some v → v.tieAt P2 = false)
    (hty : ∀ v, setFloat64 P y = some v → v.tieAt P2 = false) :
    sameRounded P2 x y = true := by
  cases x with
  | nan => simp [sameRounded, setFloat64] at h
  | inf s =>
    cases y with
    | nan => simp [sameRounded, setFloat64] at h
    | inf s2 => simpa [sameRounded, setFloat64] using h
    | fin s2 m2 e2 =>
      obtain ⟨q, e3, hq⟩ := setFloat64_fin_some P s2 m2 e2
      unfold sameRounded at h
      rw [hq] at h
      simp [setFloat64, GoFloat.eq] at h
  | fin s1 m1 e1 =>
    cases y with
    | nan =>
      obtain ⟨q, e3, hq⟩ := setFloat64_fin_some P s1 m1 e1
      unfold sameRounded at h
      rw [hq] at h
      simp [setFloat64] at h
    | inf s2 =>
      obtain ⟨q, e3, hq⟩ := setFloat64_fin_some P s1 m1 e1
      unfold sameRounded at h
      rw [hq] at h
      simp [setFloat64, GoFloat.eq] at h
    | fin s2 m2 e2 =>
      have two : (2 : ℚ) ≠ 0 := by norm_num
      have hPpos : 0 < P := by omega
      by_cases z1 : m1 = 0
      · by_cases z2 : m2 = 0
        · subst z1 z2
          simp [sameRounded, setFloat64, GoFloat.eq]
        · exfalso
          subst z1
          have hq := setFloat64_fin P s2 m2 e2 z2
          have hpos : (if P < 53 then roundMant P.toNat m2 e2 else (m2, e2)).1 ≠ 0 := by
            split
            · exact (roundMant_pos _ _ _ (by omega) (by omega)).ne'
            · exact z2
          unfold sameRounded at h
          rw [hq, setFloat64_zero] at h
          simp only [floatEq_fin] at h
          rcases h with h | h
          · exact hpos h.2
          · have h3 := h.2
            simp only [Nat.cast_zero, zero_mul] at h3
            rcases mul_eq_zero.mp h3.symm with h4 | h4
            · exact hpos (by exact_mod_cast h4)
            · exact zpow_ne_zero _ two h4
      · by_cases z2 : m2 = 0
        · exfalso
          subst z2
          have hq := setFloat64_fin P s1 m1 e1 z1
          have hpos : (if P < 53 then roundMant P.toNat m1 e1 else (m1, e1)).1 ≠ 0 := by
            split
            · exact (roundMant_pos _ _ _ (by omega) (by omega)).ne'
            · exact z1
          unfold sameRounded at h
          rw [hq, setFloat64_zero] at h
          simp only [floatEq_fin] at h
          rcases h with h | h
          · exact hpos h.1
          · have h3 := h.2
            simp only [Nat.cast_zero, zero_mul] at h3
            rcases mul_eq_zero.mp h3 with h4 | h4
            · exact hpos (by exact_mod_cast h4)
            · exact zpow_ne_zero _ two h4
        · rw [sameRounded_fin P s1 s2 m1 m2 e1 e2 z1 z2 hPpos] at h
          rw [sameRounded_fin P2 s1 s2 m1 m2 e1 e2 z1 z2 h0]
          refine ⟨h.1, ?_⟩
          have hv := h.2
          by_cases hP2 : P2 < 53
          · simp only [if_pos hP2]
            by_cases hP : P < 53
            · simp only [if_pos hP] at hv
              have t1 : tieMant P2.toNat (roundMant P.toNat m1 e1).1 = false := by
                have := htx _ (setFloat64_fin P s1 m1 e1 z1)
                simpa [GoFloat.tieAt, hP] using this
              have t2 : tieMant P2.toNat (roundMant P.toNat m2 e2).1 = false := by
                have := hty _ (setFloat64_fin P s2 m2 e2 z2)
                simpa [GoFloat.tieAt, hP] using this
              rw [roundMant_twice P.toNat P2.toNat m1 e1 (by omega) (by omega) t1,
                roundMant_twice P.toNat P2.toNat m2 e2 (by omega) (by omega) t2]
              exact roundMant_congr _ _ _ _ _
                (roundMant_pos _ _ _ (by omega) (by omega))
                (roundMant_pos _ _ _ (by omega) (by omega)) hv
            · simp only [if_neg hP] at hv
              exact roundMant_congr _ _ _ _ _ (by omega) (by omega) hv
          · have hP : ¬ P < 53 := by omega
            simp only [if_neg hP2]
            simp only [if_neg hP] at hv
            exact hv

/-- The comparison of two floats that are not NaN under a positive
precision. -/
theorem equal_float_pos (c : Comparer) (t : String) (x y : GoFloat)
    (hx : x.isNaN = false) (hy : y.isNaN = false) (hp : 0 < c.FloatPrecision) :
    c.Equal (some (.float t x)) (some (.float t y))
      = .ok (if sameRounded c.FloatPrecision x y = true then []
          else [⟨fmtFloat x, fmtFloat y, ""⟩]) := by
  rw [equal_root c (.float t x) (.float t y) rfl rfl]
  have hs : ∃ a b, setFloat64 c.FloatPrecision x = some a
      ∧ setFloat64 c.FloatPrecision y = some b := by
    cases x <;> cases y <;> simp [GoFloat.isNaN] at hx hy <;> simp only [setFloat64] <;>
      (repeat' split) <;> exact ⟨_, _, rfl, rfl⟩
  obtain ⟨a, b, ha, hb⟩ := hs
  have hp2 : ¬ c.FloatPrecision ≤ 0 := by omega
  cases he : GoFloat.eq a b <;>
    simp [Except.map, kindSwitch, hx, hy, hp2, he, floatDiffers, sameRounded, ha, hb, cmpNe,
      compareState.append, compareState.init, String.join]

/-- C23 (as stated, at failing inputs): the float64 values `1 + 2^-21 - 2^-52`
and `1 + 2^-21 + 2^-52` are not NaN and give no diffs with FloatPrecision = 34,
but one diff with the lower FloatPrecision = 21; likewise 1.4375 and 1.5625 give
no diffs with FloatPrecision = 2 and one diff with FloatPrecision = 1. -/
theorem C23_tie_counterexample :
    floatBelowTie.isNaN = false ∧ floatAboveTie.isNaN = false ∧
    ({ NewComparer with FloatPrecision := 34 } : Comparer).Equal
        (some (.float "float64" floatBelowTie)) (some (.float "float64" floatAboveTie))
      = .ok [] ∧
    ({ NewComparer with FloatPrecision := 21 } : Comparer).Equal
        (some (.float "float64" floatBelowTie)) (some (.float "float64" floatAboveTie))
      = .ok [⟨fmtFloat floatBelowTie, fmtFloat floatAboveTie, ""⟩] ∧
    ({ NewComparer with FloatPrecision := 2 } : Comparer).Equal
        (some (.float "float64" (.fin false 23 (-4)))) (some (.float "float64" (.fin false 25 (-4))))
      = .ok [] ∧
    ({ NewComparer with FloatPrecision := 1 } : Comparer).Equal
        (some (.float "float64" (.fin false 23 (-4)))) (some (.float "float64" (.fin false 25 (-4))))
      = .ok [⟨fmtFloat (.fin false 23 (-4)), fmtFloat (.fin false 25 (-4)), ""⟩] :=
  ⟨rfl, rfl, rfl, rfl, rfl, rfl⟩

/-- C23 (amended): for every Comparer, every two floats `x` and `y` that are
not NaN and every precision `P2` with `0 < P2 ≤ FloatPrecision`, if Equal
returns no diffs for `x` and `y`, and the values that `x` and `y` are rounded
to at FloatPrecision do not lie exactly halfway between two adjacent values of
precision `P2`, then Equal also returns no diffs for them once FloatPrecision
is lowered to `P2`. -/
theorem C23_precision_monotone (c : Comparer) (P2 : Int) (t : String) (x y : GoFloat)
    (hx : x.isNaN = false) (hy : y.isNaN = false)
    (h0 : 0 < P2) (hle : P2 ≤ c.FloatPrecision)
    (h : c.Equal (some (.float t x)) (some (.float t y)) = .ok [])
    (htx : ∀ v, setFloat64 c.FloatPrecision x = some v → v.tieAt P2 = false)
    (hty : ∀ v, setFloat64 c.FloatPrecision y = some v → v.tieAt P2 = false) :
    ({ c with FloatPrecision := P2 } : Comparer).Equal (some (.float t x)) (some (.float t y))
      = .ok [] := by
  have hs : sameRounded c.FloatPrecision x y = true := by
    rw [equal_float_pos c t x y hx hy (by omega)] at h
    by_contra hn
    rw [if_neg hn] at h
    cases h
  have h2 := sameRounded_mono c.FloatPrecision P2 x y h0 hle hs htx hty
  rw [equal_float_pos _ t x y hx hy h0]
  exact congrArg Except.ok (if_pos h2)

/-- C23 (amended) at the floats 0.123456781 and 0.123456782 of the test table:
no diffs with FloatPrecision = 21, hence none with FloatPrecision = 4. -/
theorem C23_precision_monotone_witness :
    ({ NewComparer with FloatPrecision := 21 } : Comparer).Equal
        (some (.float "float64" float0123456781)) (some (.float "float64" float0123456782))
      = .ok [] ∧
    ({ NewComparer with FloatPrecision := 4 } : Comparer).Equal
        (some (.float "float64" float0123456781)) (some (.float "float64" float0123456782))
      = .ok [] :=
  ⟨rfl, C23_precision_monotone { NewComparer with FloatPrecision := 21 } 4 "float64"
    float0123456781 float0123456782 rfl rfl (by decide) (by decide) rfl
    (fun v hv => by cases hv; rfl) (fun v hv => by cases hv; rfl)⟩

/-! ## The place of two scalars inside two operands -/

theorem mapKeys_hole (k v : Val) (pre post : List (Val × Val)) :
    mapKeys (pre ++ (k, v) :: post) = mapKeys pre ++ k :: mapKeys post := by
  simp [mapKeys]

theorem mem_mapKeys {k : Val} {es : List (Val × Val)} (h : k ∈ mapKeys es) :
    ∃ e ∈ es, e.1 = k := by
  simpa [mapKeys] using h

theorem diffsOf_append (a b : List Item) : diffsOf (a ++ b) = diffsOf a ++ diffsOf b := by
  induction a with
  | nil => rfl
  | cons x xs ih =>
    cases x with
    | diff d => rw [List.cons_append]; simp only [diffsOf, ih, List.cons_append]
    | fault f => rw [List.cons_append]; simp only [diffsOf, ih]

theorem scan_take {k : Nat} {items : List Item} {ds : List Diff} (hk : 1 ≤ k)
    (h : scan k items = .ok ds) : ds = (diffsOf items).take k := by
  induction items generalizing k ds with
  | nil => simp only [scan, Except.ok.injEq] at h; subst h; simp [diffsOf]
  | cons it items ih =>
    cases it with
    | fault f => simp [scan] at h
    | diff d =>
      simp only [scan] at h
      simp only [diffsOf]
      split at h
      · rename_i h1
        have hk1 : k = 1 := by omega
        simp only [Except.ok.injEq] at h
        subst h hk1
        rfl
      · rename_i h1
        cases hr : scan (k - 1) items with
        | error e => rw [hr] at h; cases h
        | ok ds2 =>
          rw [hr] at h
          simp only [Except.ok.injEq] at h
          subst h
          rw [ih (by omega) hr]
          obtain ⟨j, rfl⟩ : ∃ j, k = j + 1 := ⟨k - 1, by omega⟩
          simp

/-- C15 (as stated, at failing inputs): a mismatch of two scalars within the
depth limit that is not reported.  With MaxDepth = 2 and MaxDiffs = 1 the arrays
`[2]int{1,2}` and `[2]int{3,4}` give only the diff at index 0 (MaxDiffs = 10
gives both); with MaxDepth = 2 the scalars in an unexported field, at depth 1,
give no diff; with MaxDepth = 2 two maps that reach one pointer variable at two
depths give no diff for the scalars at depth 2; and with MaxDepth = 0 two slices
whose two elements point to one struct give the diff of its scalars under index
0 only. -/
theorem C15_cap_counterexample :
    ({ NewComparer with MaxDepth := 2, MaxDiffs := 1 } : Comparer).Equal
        (some (intArray [1, 2])) (some (intArray [3, 4]))
      = .ok [⟨"1", "3", "array[0]"⟩] ∧
    ({ NewComparer with MaxDepth := 2, MaxDiffs := 10 } : Comparer).Equal
        (some (intArray [1, 2])) (some (intArray [3, 4]))
      = .ok [⟨"1", "3", "array[0]"⟩, ⟨"2", "4", "array[1]"⟩] ∧
    ({ NewComparer with MaxDepth := 2 } : Comparer).Equal
        (some (.struct "deep.S" [(⟨"u", "deep", false⟩, vInt 1)]))
        (some (.struct "deep.S" [(⟨"u", "deep", false⟩, vInt 2)]))
      = .ok [] ∧
    ({ NewComparer with MaxDepth := 2 } : Comparer).Equal (some sharedRight) (some sharedLeft)
      = .ok [] ∧
    ({ NewComparer with MaxDepth := 0 } : Comparer).Equal
        (some (twicePointed 4096 5000 5000 6000 1)) (some (twicePointed 8192 9000 9000 10000 2))
      = .ok [⟨"1", "2", "slice[0].F[0]"⟩] :=
  ⟨rfl, rfl, rfl, rfl, rfl⟩

/-! ## Shared storage: the account of a run -/

theorem evCount_append (a b : List Ev) : evCount (a ++ b) = evCount a + evCount b := by
  induction a with
  | nil => simp [evCount]
  | cons e a ih =>
    cases e with
    | diff => rw [List.cons_append]; simp only [evCount, ih]; omega
    | pair d x y => rw [List.cons_append]; simp only [evCount, ih]

theorem evPairs_append (a b : List Ev) : evPairs (a ++ b) = evPairs a ++ evPairs b := by
  induction a with
  | nil => simp [evPairs]
  | cons e a ih =>
    cases e with
    | diff => rw [List.cons_append]; simp only [evPairs, ih]
    | pair d x y => rw [List.cons_append]; simp only [evPairs, ih, List.cons_append]

theorem evCount_replicate (n : Nat) : evCount (List.replicate n Ev.diff) = n := by
  induction n with
  | zero => rfl
  | succ n ih => simp only [List.replicate_succ, evCount, ih]

theorem evSymm_diff : EvSymm [.diff] [.diff] := ⟨rfl, fun _ _ _ => by simp [evPairs]⟩

theorem evSymm_append {a b a2 b2 : List Ev} (h1 : EvSymm a a2) (h2 : EvSymm b b2) :
    EvSymm (a ++ b) (a2 ++ b2) := by
  refine ⟨by rw [evCount_append, evCount_append, h1.1, h2.1], fun d p q => ?_⟩
  rw [evPairs_append, evPairs_append, List.mem_append, List.mem_append, h1.2, h2.2]

theorem evSymm_cons_diff {a a2 : List Ev} (h : EvSymm a a2) : EvSymm (.diff :: a) (.diff :: a2) :=
  @evSymm_append [.diff] a [.diff] a2 evSymm_diff h

theorem evSymm_symm {a b : List Ev} (h : EvSymm a b) : EvSymm b a :=
  ⟨h.1.symm, fun d p q => (h.2 d q p).symm⟩

theorem evShift_refl (R : List Ev) : EvShift R R := ⟨rfl, rfl⟩

theorem evShift_append {a b a2 b2 : List Ev} (h1 : EvShift a a2) (h2 : EvShift b b2) :
    EvShift (a ++ b) (a2 ++ b2) := by
  refine ⟨by rw [evCount_append, evCount_append, h1.1, h2.1], ?_⟩
  rw [evPairs_append, evPairs_append, List.map_append, List.map_append, h1.2, h2.2]

theorem evShift_cons_diff {a a2 : List Ev} (h : EvShift a a2) :
    EvShift (.diff :: a) (.diff :: a2) :=
  @evShift_append [.diff] a [.diff] a2 (evShift_refl _) h

theorem agreeV_intro_ok {c : Comparer} {s : compareState} {t : List Item × List visit}
    {o : Outcome} (ds : List Diff) (b : Bool) (V : List visit)
    (hs : scan (c.MaxDiffs - s.result.length).toNat t.1 = .ok ds)
    (ho : o = .ok (b, ⟨s.result ++ ds, s.stack, V⟩))
    (hV : ((s.result ++ ds).length : Int) < c.MaxDiffs → V = t.2) : AgreeV c s t o := by
  unfold AgreeV; rw [hs]; exact ⟨b, V, ho, hV⟩

theorem agreeV_intro_error {c : Comparer} {s : compareState} {t : List Item × List visit}
    {o : Outcome} {f : Fault}
    (hs : scan (c.MaxDiffs - s.result.length).toNat t.1 = .error f)
    (ho : o = .error f) : AgreeV c s t o := by
  unfold AgreeV; rw [hs]; exact ho

theorem agreeV_nil (c : Comparer) (s : compareState) (b : Bool) :
    AgreeV c s ([], s.visited) (.ok (b, s)) := by
  refine agreeV_intro_ok [] b s.visited (by simp [scan]) ?_ ?_
  · simp
  · intro _; rfl

theorem agreeV_diff (c : Comparer) (s : compareState) (b : Bool) (l r : String) :
    AgreeV c s ([.diff (mkDiff s.stack l r)], s.visited) (.ok (b, s.append l r)) := by
  refine agreeV_intro_ok [mkDiff s.stack l r] b s.visited ?_ ?_ ?_
  · simp only [scan]
    split
    · rfl
    · rfl
  · rfl
  · intro _; rfl

theorem agreeV_fault (c : Comparer) (s : compareState) (f : Fault) (V : List visit) :
    AgreeV c s ([.fault f], V) (.error f) :=
  agreeV_intro_error (by simp [scan]) rfl

theorem agreeV_appendV (c : Comparer) (s : compareState) (r : RO) (x y : String) :
    AgreeV c s ([mkItem r s.stack x y], s.visited) (s.appendV r x y) := by
  unfold mkItem compareState.appendV
  split
  · exact agreeV_fault c s _ _
  · exact agreeV_diff c s false _ _

/-- Sequencing: the body of a loop iteration followed by the rest of the loop. -/
theorem popCheck_agreeV {c : Comparer} {s : compareState} (v i : String)
    {t1 : List Item × List visit} {t2 : List visit → List Item × List visit} {o : Outcome}
    {next : compareState → Outcome}
    (hl : (s.result.length : Int) < c.MaxDiffs)
    (h1 : AgreeV c (s.push v i) t1 o)
    (h2 : ∀ s2 : compareState, s2.stack = s.stack → (s2.result.length : Int) < c.MaxDiffs →
      s2.visited = t1.2 → AgreeV c s2 (t2 t1.2) (next s2)) :
    AgreeV c s (seqV t1 t2) (popCheck c o next) := by
  unfold AgreeV at h1
  simp only [push_result] at h1
  cases hs : scan (c.MaxDiffs - s.result.length).toNat t1.1 with
  | error f =>
    rw [hs] at h1
    subst h1
    exact agreeV_intro_error (scan_append_error hs) rfl
  | ok ds1 =>
    rw [hs] at h1
    obtain ⟨b, V, ho, hV⟩ := h1
    subst ho
    have hk : 1 ≤ (c.MaxDiffs - s.result.length).toNat := by omega
    have hpop : compareState.pop ⟨s.result ++ ds1, (s.push v i).stack, V⟩
        = .ok ⟨s.result ++ ds1, s.stack, V⟩ := pop_push s _ V v i
    unfold popCheck
    simp only [hpop]
    by_cases hge : ((s.result ++ ds1).length : Int) ≥ c.MaxDiffs
    · rw [if_pos hge]
      refine agreeV_intro_ok ds1 false V (scan_append_full hk hs ?_) rfl ?_
      · simp at hge; omega
      · intro hlt; exact absurd hge (by omega)
    · rw [if_neg hge]
      have hlt : ds1.length < (c.MaxDiffs - s.result.length).toNat := by
        simp at hge; omega
      have hVe : V = t1.2 := hV (by omega)
      have h2' := h2 ⟨s.result ++ ds1, s.stack, V⟩ rfl (by simpa using hge) hVe
      unfold AgreeV at h2' ⊢
      simp only [seqV]
      rw [scan_append_lt hs hlt]
      have e : (c.MaxDiffs - ((s.result ++ ds1).length : Nat)).toNat
          = (c.MaxDiffs - s.result.length).toNat - ds1.length := by
        simp; omega
      simp only [] at h2'
      rw [e] at h2'
      cases hs2 : scan ((c.MaxDiffs - s.result.length).toNat - ds1.length) (t2 t1.2).1 with
      | error f => rw [hs2] at h2'; simpa using h2'
      | ok ds2 =>
        rw [hs2] at h2'
        obtain ⟨b2, V2, ho2, hV2⟩ := h2'
        refine ⟨b2, V2, ?_, ?_⟩
        · simp only [ho2, List.append_assoc]
        · intro h3
          exact hV2 (by simpa [List.append_assoc] using h3)

theorem arrayLoop_agreeV {c : Comparer} {rec : Rec} {recV : RecV} (hrec : RecAgreeV c rec recV)
    (xa ya : Flag) (hro : ya.ro = xa.ro) (d : Int) :
    ∀ (xs ys : List Val) (i : Nat) (s : compareState),
      (s.result.length : Int) < c.MaxDiffs →
      AgreeV c s (traceArrayV recV xa.ro (xa.addr && ya.addr) d s.stack xs ys i s.visited)
        (arrayLoop c rec xa ya d xs ys i s) := by
  intro xs
  induction xs with
  | nil =>
    intro ys i s hl
    simp only [arrayLoop, traceArrayV]
    exact agreeV_nil c s true
  | cons xe xs ih =>
    intro ys i s hl
    cases ys with
    | nil =>
      simp only [arrayLoop, traceArrayV]
      exact agreeV_fault c s _ _
    | cons ye ys =>
      simp only [arrayLoop, traceArrayV]
      refine popCheck_agreeV "array" ("[" ++ toString i ++ "]") hl ?_ ?_
      · exact hrec ⟨some xe, xa⟩ ⟨some ye, ya⟩ (d + 1)
          (s.push "array" ("[" ++ toString i ++ "]")) (by simpa using hl) hro
      · intro s2 hst hl2 hv
        have := ih ys (i + 1) s2 hl2
        rw [hst, hv] at this
        exact this

theorem sliceLoopRight_agreeV {c : Comparer} (ya : Flag) :
    ∀ (ys : List Val) (i : Nat) (s : compareState),
      (s.result.length : Int) < c.MaxDiffs →
      AgreeV c s (traceSliceRight ya.ro s.stack ys i, s.visited) (sliceLoopRight c ya ys i s) := by
  intro ys
  induction ys with
  | nil =>
    intro i s hl
    simp only [sliceLoopRight, traceSliceRight]
    exact agreeV_nil c s true
  | cons ye ys ih =>
    intro i s hl
    simp only [sliceLoopRight, traceSliceRight]
    have := @popCheck_agreeV c s "slice" ("[" ++ toString i ++ "]")
      ([mkItem ya.ro (pushStack s.stack "slice" ("[" ++ toString i ++ "]")) "<no value>"
        (fmtValue (some ye))], s.visited)
      (fun V => (traceSliceRight ya.ro s.stack ys (i + 1), V)) _
      (sliceLoopRight c ya ys (i + 1)) hl
      (agreeV_appendV c (s.push "slice" ("[" ++ toString i ++ "]")) _ _ _)
      (fun s2 hst hl2 hv => by
        have := ih (i + 1) s2 hl2
        rw [hst, hv] at this
        exact this)
    simpa [seqV] using this

theorem sliceLoop_agreeV {c : Comparer} {rec : Rec} {recV : RecV} (hrec : RecAgreeV c rec recV)
    (xr : RO) (d : Int) :
    ∀ (xs ys : List Val) (i : Nat) (s : compareState),
      (s.result.length : Int) < c.MaxDiffs →
      AgreeV c s (traceSliceV recV xr d s.stack xs ys i s.visited)
        (sliceLoop c rec ⟨true, xr⟩ ⟨true, xr⟩ d xs ys i s) := by
  intro xs
  induction xs with
  | nil =>
    intro ys i s hl
    simp only [sliceLoop, traceSliceV]
    exact sliceLoopRight_agreeV ⟨true, xr⟩ ys i s hl
  | cons xe xs ih =>
    intro ys i s hl
    cases ys with
    | nil =>
      simp only [sliceLoop, traceSliceV]
      refine popCheck_agreeV "slice" ("[" ++ toString i ++ "]") hl ?_ ?_
      · exact agreeV_appendV c (s.push "slice" ("[" ++ toString i ++ "]")) _ _ _
      · intro s2 hst hl2 hv
        have := ih [] (i + 1) s2 hl2
        rw [hst, hv] at this
        exact this
    | cons ye ys =>
      simp only [sliceLoop, traceSliceV]
      refine popCheck_agreeV "slice" ("[" ++ toString i ++ "]") hl ?_ ?_
      · exact hrec ⟨some xe, ⟨true, xr⟩⟩ ⟨some ye, ⟨true, xr⟩⟩ (d + 1)
          (s.push "slice" ("[" ++ toString i ++ "]")) (by simpa using hl) rfl
      · intro s2 hst hl2 hv
        have := ih ys (i + 1) s2 hl2
        rw [hst, hv] at this
        exact this

theorem structLoop_agreeV {c : Comparer} {rec : Rec} {recV : RecV} (hrec : RecAgreeV c rec recV)
    (xa ya : Flag) (hro : ya.ro = xa.ro) (d : Int) :
    ∀ (xs ys : List (StructField × Val)) (s : compareState),
      (s.result.length : Int) < c.MaxDiffs →
      AgreeV c s (traceStructV c recV xa.ro (xa.addr && ya.addr) d s.stack xs ys s.visited)
        (structLoop c rec xa ya d xs ys s) := by
  intro xs
  induction xs with
  | nil =>
    intro ys s hl
    simp only [structLoop, traceStructV]
    exact agreeV_nil c s true
  | cons x xs ih =>
    obtain ⟨f, xv⟩ := x
    intro ys s hl
    simp only [structLoop, traceStructV]
    split
    · exact ih ys.tail s hl
    · cases ys with
      | nil => exact agreeV_fault c s _ _
      | cons y ys =>
        obtain ⟨g, yv⟩ := y
        simp only []
        refine popCheck_agreeV "struct" ("." ++ f.Name) hl ?_ ?_
        · exact hrec ⟨some xv, ⟨xa.addr, xa.ro.field f⟩⟩ ⟨some yv, ⟨ya.addr, ya.ro.field f⟩⟩
            (d + 1) (s.push "struct" ("." ++ f.Name)) (by simpa using hl) (by simp only [hro])
        · intro s2 hst hl2 hv
          have := ih ys s2 hl2
          rw [hst, hv] at this
          exact this

theorem mapLoopRight_agreeV {c : Comparer} (r : RO) (xes yes : List (Val × Val)) :
    ∀ (ks : List Val) (s : compareState),
      (s.result.length : Int) < c.MaxDiffs →
      AgreeV c s (traceMapRight r s.stack xes yes ks, s.visited)
        (mapLoopRight c r xes yes ks s) := by
  intro ks
  induction ks with
  | nil =>
    intro s hl
    simp only [mapLoopRight, traceMapRight]
    exact agreeV_nil c s true
  | cons k ks ih =>
    intro s hl
    simp only [mapLoopRight, traceMapRight, RO.join_ro_ro]
    split
    · exact ih s hl
    · have := @popCheck_agreeV c s "map" ("[" ++ fmtValue (some k) ++ "]")
        ([mkItem (if (mapIndex yes k).isSome = true then r.ro else RO.clear)
          (pushStack s.stack "map" ("[" ++ fmtValue (some k) ++ "]")) "<no key>"
          (fmtValue (mapIndex yes k))], s.visited)
        (fun V => (traceMapRight r s.stack xes yes ks, V)) _
        (mapLoopRight c r xes yes ks) hl
        (agreeV_appendV c (s.push "map" ("[" ++ fmtValue (some k) ++ "]")) _ _ _)
        (fun s2 hst hl2 hv => by
          have := ih s2 hl2
          rw [hst, hv] at this
          exact this)
      simpa [seqV] using this

theorem mapLoop_agreeV {c : Comparer} {rec : Rec} {recV : RecV} (hrec : RecAgreeV c rec recV)
    (r : RO) (d : Int) (xes yes : List (Val × Val)) :
    ∀ (ks : List Val) (s : compareState),
      (s.result.length : Int) < c.MaxDiffs →
      AgreeV c s (traceMapV recV r d s.stack xes yes ks s.visited)
        (mapLoop c rec r r d xes yes ks s) := by
  intro ks
  induction ks with
  | nil =>
    intro s hl
    simp only [mapLoop, traceMapV]
    exact mapLoopRight_agreeV r xes yes _ s hl
  | cons k ks ih =>
    intro s hl
    simp only [mapLoop, traceMapV, traceKeyV, RO.join_ro_ro]
    refine popCheck_agreeV "map" ("[" ++ fmtValue (some k) ++ "]") hl ?_ ?_
    · split
      · exact hrec ⟨mapIndex xes k, ⟨false, r.ro⟩⟩ ⟨mapIndex yes k, ⟨false, r.ro⟩⟩ (d + 1)
          (s.push "map" ("[" ++ fmtValue (some k) ++ "]")) (by simpa using hl) rfl
      · split
        · exact agreeV_appendV c (s.push "map" ("[" ++ fmtValue (some k) ++ "]")) _ _ _
        · exact agreeV_diff c (s.push "map" ("[" ++ fmtValue (some k) ++ "]")) true _ _
    · intro s2 hst hl2 hv
      have := ih s2 hl2
      rw [hst] at this
      have e : ∀ t : List Item × List visit, t.2 = s2.visited →
          AgreeV c s2 (traceMapV recV r d s.stack xes yes ks s2.visited)
            (mapLoop c rec r r d xes yes ks s2) →
          AgreeV c s2 (traceMapV recV r d s.stack xes yes ks t.2)
            (mapLoop c rec r r d xes yes ks s2) := by
        intro t ht h; rw [ht]; exact h
      exact e _ hv.symm this

theorem nilCheck_agreeV (c : Comparer) (e : Bool) (mk : String) (x y : Val)
    (r : RO) (xn yn : Bool) (xl yl : Nat) (s : compareState) :
    (nilCheck e mk x y r r xn yn xl yl s = none ∧ nilDiff e mk x y r xn yn xl yl s.stack = none) ∨
    (∃ o it, nilCheck e mk x y r r xn yn xl yl s = some o ∧
      nilDiff e mk x y r xn yn xl yl s.stack = some it ∧ AgreeV c s ([it], s.visited) o) := by
  unfold nilCheck nilDiff
  split
  · split
    · exact Or.inr ⟨_, _, rfl, rfl, agreeV_appendV c s r _ _⟩
    · split
      · exact Or.inr ⟨_, _, rfl, rfl, agreeV_appendV c s r _ _⟩
      · exact Or.inl ⟨rfl, rfl⟩
  · split
    · exact Or.inr ⟨_, _, rfl, rfl, agreeV_appendV c s r _ _⟩
    · split
      · exact Or.inr ⟨_, _, rfl, rfl, agreeV_appendV c s r _ _⟩
      · exact Or.inl ⟨rfl, rfl⟩

/-! ## The traversal agrees with its events, shared storage included -/

theorem agreeV_state {c : Comparer} {s s2 : compareState} {t : List Item × List visit}
    {o : Outcome} (h : AgreeV c s2 t o) (hr : s2.result = s.result) (hst : s2.stack = s.stack) :
    AgreeV c s t o := by
  unfold AgreeV at h ⊢
  rw [hr, hst] at h
  exact h

theorem kindSwitch_agreeV {c : Comparer} {rec : Rec} {recV : RecV} (hrec : RecAgreeV c rec recV)
    (x y : Value) (xv yv : Val) (d : Int) (s : compareState)
    (hl : (s.result.length : Int) < c.MaxDiffs) (hro : y.flag.ro = x.flag.ro) :
    AgreeV c s
      (traceSwitchV c recV x.flag.ro (x.flag.addr && y.flag.addr) xv yv d s.stack s.visited)
      (kindSwitch c rec x y xv yv d s) := by
  obtain ⟨xo, xa, r⟩ := x
  obtain ⟨yo, ya, r2⟩ := y
  simp only [] at hro ⊢
  subst hro
  cases xv with
  | bool t a =>
    cases yv <;> simp only [kindSwitch, traceSwitchV, traceSwitch] <;>
      try exact agreeV_fault c s _ _
    split
    · exact agreeV_diff c s _ _ _
    · exact agreeV_nil c s _
  | int t a =>
    cases yv <;> simp only [kindSwitch, traceSwitchV, traceSwitch] <;>
      try exact agreeV_fault c s _ _
    split
    · exact agreeV_diff c s _ _ _
    · exact agreeV_nil c s _
  | uint t a =>
    cases yv <;> simp only [kindSwitch, traceSwitchV, traceSwitch] <;>
      try exact agreeV_fault c s _ _
    split
    · exact agreeV_diff c s _ _ _
    · exact agreeV_nil c s _
  | str t a =>
    cases yv <;> simp only [kindSwitch, traceSwitchV, traceSwitch] <;>
      try exact agreeV_fault c s _ _
    split
    · exact agreeV_diff c s _ _ _
    · exact agreeV_nil c s _
  | func t a =>
    cases yv <;> simp only [kindSwitch, traceSwitchV, traceSwitch, RO.join_self] <;>
      try exact agreeV_fault c s _ _
    split
    · exact agreeV_appendV c s _ _ _
    · exact agreeV_nil c s _
  | word t k a =>
    cases yv <;> simp only [kindSwitch, traceSwitchV, traceSwitch, RO.join_self] <;>
      try exact agreeV_fault c s _ _
    split
    · exact agreeV_fault c s _ _
    · split
      · exact agreeV_diff c s _ _ _
      · exact agreeV_nil c s _
  | float t a =>
    cases yv <;> simp only [kindSwitch, traceSwitchV, traceSwitch] <;>
      try exact agreeV_fault c s _ _
    repeat' split
    all_goals first
      | exact agreeV_diff c s _ _ _
      | exact agreeV_nil c s _
      | exact agreeV_fault c s _ _
  | complex t a b =>
    cases yv <;> simp only [kindSwitch, traceSwitchV, traceSwitch] <;>
      try exact agreeV_fault c s _ _
    repeat' split
    all_goals first
      | exact agreeV_diff c s _ _ _
      | exact agreeV_nil c s _
      | exact agreeV_fault c s _ _
  | array t xs =>
    cases yv <;> simp only [kindSwitch, traceSwitchV, traceSwitch] <;>
      try exact agreeV_fault c s _ _
    exact arrayLoop_agreeV hrec ⟨xa, r2.ro⟩ ⟨ya, r2.ro⟩ rfl d xs _ 0 s hl
  | struct t xs =>
    cases yv <;> simp only [kindSwitch, traceSwitchV, traceSwitch] <;>
      try exact agreeV_fault c s _ _
    exact structLoop_agreeV hrec ⟨xa, r2⟩ ⟨ya, r2⟩ rfl d xs _ s hl
  | slice t l hx =>
    cases yv <;> simp only [kindSwitch, traceSwitchV, traceSwitch] <;>
      try exact agreeV_fault c s _ _
    rename_i u l2 hy
    rcases nilCheck_agreeV c c.NilSlicesAreEmpty "<nil slice>" (Val.slice t l hx)
        (Val.slice u l2 hy) r2 hx.isNone hy.isNone (elemsOf hx).length (elemsOf hy).length s with
      ⟨h1, h2⟩ | ⟨o, it, h1, h2, hag⟩
    · simp only [h1, h2]
      split
      · exact agreeV_nil c s _
      · exact sliceLoop_agreeV hrec r2.ro d _ _ 0 s hl
    · simp only [h1, h2]
      exact hag
  | map t l hx =>
    cases yv <;> simp only [kindSwitch, traceSwitchV, traceSwitch] <;>
      try exact agreeV_fault c s _ _
    rename_i u l2 hy
    rcases nilCheck_agreeV c c.NilMapsAreEmpty "<nil map>" (Val.map t l hx)
        (Val.map u l2 hy) r2 hx.isNone hy.isNone (elemsOf hx).length (elemsOf hy).length s with
      ⟨h1, h2⟩ | ⟨o, it, h1, h2, hag⟩
    · simp only [h1, h2]
      split
      · exact agreeV_nil c s _
      · exact mapLoop_agreeV hrec r2 d _ _ _ s hl
    · simp only [h1, h2]
      exact hag
  | ptr t l px =>
    cases yv <;> simp only [kindSwitch, traceSwitchV, traceSwitch] <;>
      try exact agreeV_fault c s _ _
    rename_i u l2 py
    split
    · exact agreeV_nil c s _
    · exact hrec ⟨px.map Prod.snd, ⟨px.isSome, r2⟩⟩ ⟨py.map Prod.snd, ⟨py.isSome, r2⟩⟩ d s hl rfl
  | iface t l dx =>
    cases yv <;> simp only [kindSwitch, traceSwitchV, traceSwitch] <;>
      try exact agreeV_fault c s _ _
    rename_i u l2 dy
    cases dx with
    | none =>
      cases dy with
      | none => exact agreeV_nil c s _
      | some b => exact agreeV_appendV c s _ _ _
    | some a =>
      cases dy with
      | none => exact agreeV_appendV c s _ _ _
      | some b => exact hrec ⟨some a, ⟨false, r2.ro⟩⟩ ⟨some b, ⟨false, r2.ro⟩⟩ d s hl rfl

/-- A capped run of `deepValueEqual` is the outcome read off the events of the
unbounded comparison that threads the visited set, for all operands. -/
theorem deepValueEqual_agreeV (c : Comparer) :
    ∀ fuel : Nat, RecAgreeV c (deepValueEqual c fuel) (vtrace c fuel) := by
  intro fuel
  induction fuel with
  | zero =>
    intro x y d s hl hro
    simp only [deepValueEqual, vtrace]
    exact agreeV_fault c s _ _
  | succ n ih =>
    intro x y d s hl hro
    obtain ⟨xo, xa⟩ := x
    obtain ⟨yo, ya⟩ := y
    simp only [] at hro
    simp only [deepValueEqual, vtrace]
    split
    · exact agreeV_nil c s _
    · cases xo with
      | none =>
        cases yo with
        | none => exact agreeV_nil c s _
        | some yv => exact agreeV_diff c s _ _ _
      | some xv =>
        cases yo with
        | none => exact agreeV_diff c s _ _ _
        | some yv =>
          simp only []
          split
          · exact agreeV_diff c s _ _ _
          · split
            · exact agreeV_nil c s _
            · by_cases hg : (xa.addr && ya.addr && hard xv.kind) = true
              · simp only [hg, if_true]
                exact agreeV_state (kindSwitch_agreeV ih ⟨some xv, xa⟩ ⟨some yv, ya⟩ xv yv d
                  { s with visited := ⟨min xv.loc yv.loc, max xv.loc yv.loc, xv.typ⟩ :: s.visited }
                  hl hro) rfl rfl
              · simp only [hg]
                exact kindSwitch_agreeV ih ⟨some xv, xa⟩ ⟨some yv, ya⟩ xv yv d s hl hro

/-- With a positive cap, `Equal` returns what `scan` reads off the events of the
unbounded comparison that threads the visited set. -/
theorem equal_eq_vscan (c : Comparer) (hm : 0 < c.MaxDiffs) (x y : Val) :
    c.Equal (some x) (some y)
      = scan c.MaxDiffs.toNat
          (vtrace c (x.size + 1) RO.clear false (some x) (some y) 0 [] []).1 := by
  have h := deepValueEqual_agreeV c (x.size + 1) ⟨some x, Flag.root⟩ ⟨some y, Flag.root⟩ 0
    compareState.init (by simpa [compareState.init] using hm) rfl
  unfold AgreeV at h
  simp only [compareState.init, List.length_nil, Nat.cast_zero, sub_zero, List.nil_append,
    root_ro, root_addr, Bool.and_self] at h
  simp only [Comparer.Equal, compareState.init]
  cases hs : scan c.MaxDiffs.toNat
    (vtrace c (x.size + 1) RO.clear false (some x) (some y) 0 [] []).1 with
  | error f => rw [hs] at h; simp only [] at h; rw [h]
  | ok ds =>
    rw [hs] at h
    obtain ⟨b, V, ho, _⟩ := h
    rw [ho]

/-! ## The visited set of the unbounded comparison -/

theorem seqV_assoc (t : List Item × List visit) (f g : List visit → List Item × List visit) :
    seqV (seqV t f) g = seqV t (fun V => seqV (f V) g) := by
  simp only [seqV, List.append_assoc]

theorem traceArrayV_foot {recV : RecV} (h : FootV recV) (r : RO) (a : Bool) (d : Int)
    (st : List String) :
    ∀ (xs ys : List Val) (i : Nat) (V : List visit),
      ∀ z ∈ footprint (traceArrayV recV r a d st xs ys i V).2,
        z ∈ footprint V ∨ z ∈ locsList a xs ∨ z ∈ locsList a ys := by
  intro xs
  induction xs with
  | nil => intro ys i V z hz; simp only [traceArrayV] at hz; exact Or.inl hz
  | cons xe xs ih =>
    intro ys i V z hz
    cases ys with
    | nil => simp only [traceArrayV] at hz; exact Or.inl hz
    | cons ye ys =>
      simp only [traceArrayV, seqV] at hz
      simp only [locsList, List.mem_append]
      rcases ih ys (i + 1) _ z hz with h1 | h1 | h1
      · rcases h _ _ _ _ _ _ _ z h1 with h2 | ⟨_, _, h2 | h2⟩
        · exact Or.inl h2
        · exact Or.inr (Or.inl (Or.inl h2))
        · exact Or.inr (Or.inr (Or.inl h2))
      · exact Or.inr (Or.inl (Or.inr h1))
      · exact Or.inr (Or.inr (Or.inr h1))

theorem traceSliceV_foot {recV : RecV} (h : FootV recV) (r : RO) (d : Int) (st : List String) :
    ∀ (xs ys : List Val) (i : Nat) (V : List visit),
      ∀ z ∈ footprint (traceSliceV recV r d st xs ys i V).2,
        z ∈ footprint V ∨ z ∈ locsList true xs ∨ z ∈ locsList true ys := by
  intro xs
  induction xs with
  | nil => intro ys i V z hz; simp only [traceSliceV] at hz; exact Or.inl hz
  | cons xe xs ih =>
    intro ys i V z hz
    cases ys with
    | nil =>
      simp only [traceSliceV, seqV] at hz
      simp only [locsList, List.mem_append]
      rcases ih [] (i + 1) _ z hz with h1 | h1 | h1
      · exact Or.inl h1
      · exact Or.inr (Or.inl (Or.inr h1))
      · simp only [locsList, List.not_mem_nil] at h1
    | cons ye ys =>
      simp only [traceSliceV, seqV] at hz
      simp only [locsList, List.mem_append]
      rcases ih ys (i + 1) _ z hz with h1 | h1 | h1
      · rcases h _ _ _ _ _ _ _ z h1 with h2 | ⟨_, _, h2 | h2⟩
        · exact Or.inl h2
        · exact Or.inr (Or.inl (Or.inl h2))
        · exact Or.inr (Or.inr (Or.inl h2))
      · exact Or.inr (Or.inl (Or.inr h1))
      · exact Or.inr (Or.inr (Or.inr h1))

theorem traceStructV_foot (c : Comparer) {recV : RecV} (h : FootV recV) (r : RO) (a : Bool)
    (d : Int) (st : List String) :
    ∀ (xs ys : List (StructField × Val)) (V : List visit),
      ∀ z ∈ footprint (traceStructV c recV r a d st xs ys V).2,
        z ∈ footprint V ∨ z ∈ locsFields a xs ∨ z ∈ locsFields a ys := by
  intro xs
  induction xs with
  | nil => intro ys V z hz; simp only [traceStructV] at hz; exact Or.inl hz
  | cons x xs ih =>
    obtain ⟨f, xv⟩ := x
    intro ys V z hz
    simp only [traceStructV] at hz
    simp only [locsFields, List.mem_append]
    split at hz
    · rcases ih ys.tail V z hz with h1 | h1 | h1
      · exact Or.inl h1
      · exact Or.inr (Or.inl (Or.inr h1))
      · exact Or.inr (Or.inr (locsFields_tail a ys z h1))
    · cases ys with
      | nil => simp only at hz; exact Or.inl hz
      | cons y ys =>
        obtain ⟨g, yv⟩ := y
        simp only [seqV] at hz
        simp only [locsFields, List.mem_append]
        rcases ih ys _ z hz with h1 | h1 | h1
        · rcases h _ _ _ _ _ _ _ z h1 with h2 | ⟨_, _, h2 | h2⟩
          · exact Or.inl h2
          · exact Or.inr (Or.inl (Or.inl h2))
          · exact Or.inr (Or.inr (Or.inl h2))
        · exact Or.inr (Or.inl (Or.inr h1))
        · exact Or.inr (Or.inr (Or.inr h1))

theorem traceKeyV_foot {recV : RecV} (h : FootV recV) (r : RO) (d : Int) (st : List String)
    (xes yes : List (Val × Val)) (k : Val) (V : List visit) :
    ∀ z ∈ footprint (traceKeyV recV r d st xes yes k V).2,
      z ∈ footprint V ∨ z ∈ locsEntries xes ∨ z ∈ locsEntries yes := by
  intro z hz
  simp only [traceKeyV] at hz
  split at hz
  · rcases h _ _ _ _ _ _ _ z hz with h2 | ⟨hx, hy, h2 | h2⟩
    · exact Or.inl h2
    · cases hxk : mapIndex xes k with
      | none => rw [hxk] at hx; simp at hx
      | some w => rw [hxk] at h2; exact Or.inr (Or.inl (mapIndex_locs hxk z h2))
    · cases hyk : mapIndex yes k with
      | none => rw [hyk] at hy; simp at hy
      | some w => rw [hyk] at h2; exact Or.inr (Or.inr (mapIndex_locs hyk z h2))
  · split at hz <;> exact Or.inl hz

theorem traceKeysV_foot {recV : RecV} (h : FootV recV) (r : RO) (d : Int) (st : List String)
    (xes yes : List (Val × Val)) :
    ∀ (ks : List Val) (V : List visit),
      ∀ z ∈ footprint (traceKeysV recV r d st xes yes ks V).2,
        z ∈ footprint V ∨ z ∈ locsEntries xes ∨ z ∈ locsEntries yes := by
  intro ks
  induction ks with
  | nil => intro V z hz; simp only [traceKeysV] at hz; exact Or.inl hz
  | cons k ks ih =>
    intro V z hz
    simp only [traceKeysV, seqV] at hz
    rcases ih _ z hz with h1 | h1 | h1
    · exact traceKeyV_foot h r d st xes yes k V z h1
    · exact Or.inr (Or.inl h1)
    · exact Or.inr (Or.inr h1)

theorem traceMapV_keys (recV : RecV) (r : RO) (d : Int) (st : List String)
    (xes yes : List (Val × Val)) :
    ∀ (ks : List Val) (V : List visit),
      traceMapV recV r d st xes yes ks V
        = seqV (traceKeysV recV r d st xes yes ks V)
            (fun V2 => (traceMapRight r st xes yes (mapKeys yes), V2)) := by
  intro ks
  induction ks with
  | nil => intro V; simp only [traceMapV, traceKeysV, seqV, List.nil_append]
  | cons k ks ih =>
    intro V
    rw [traceMapV, traceKeysV, seqV_assoc]
    congr 1
    funext V2
    exact ih V2

theorem traceKeysV_append (recV : RecV) (r : RO) (d : Int) (st : List String)
    (xes yes : List (Val × Val)) :
    ∀ (ks ks2 : List Val) (V : List visit),
      traceKeysV recV r d st xes yes (ks ++ ks2) V
        = seqV (traceKeysV recV r d st xes yes ks V) (traceKeysV recV r d st xes yes ks2) := by
  intro ks
  induction ks with
  | nil => intro ks2 V; simp only [List.nil_append, traceKeysV, seqV]
  | cons k ks ih =>
    intro ks2 V
    rw [List.cons_append, traceKeysV, traceKeysV, seqV_assoc]
    congr 1
    funext V2
    exact ih ks2 V2

theorem traceMapV_foot {recV : RecV} (h : FootV recV) (r : RO) (d : Int) (st : List String)
    (xes yes : List (Val × Val)) (ks : List Val) (V : List visit) :
    ∀ z ∈ footprint (traceMapV recV r d st xes yes ks V).2,
      z ∈ footprint V ∨ z ∈ locsEntries xes ∨ z ∈ locsEntries yes := by
  intro z hz
  rw [traceMapV_keys] at hz
  simp only [seqV] at hz
  exact traceKeysV_foot h r d st xes yes ks V z hz

/-- The kind switch adds to the visited set only addresses of variables inside
the two values. -/
theorem traceSwitchV_foot (c : Comparer) {recV : RecV} (h : FootV recV) (r : RO) (a : Bool)
    (xv yv : Val) (d : Int) (st : List String) (V : List visit) :
    ∀ z ∈ footprint (traceSwitchV c recV r a xv yv d st V).2,
      z ∈ footprint V ∨ z ∈ xv.innerLocs a ∨ z ∈ yv.innerLocs a := by
  intro z hz
  cases xv with
  | array t xs =>
    cases yv with
    | array u ys =>
      simp only [traceSwitchV] at hz
      exact traceArrayV_foot h _ _ _ _ _ _ _ _ z hz
    | _ => simp only [traceSwitchV] at hz; exact Or.inl hz
  | slice t l hx =>
    cases yv with
    | slice u l2 hy =>
      simp only [traceSwitchV] at hz
      split at hz
      · exact Or.inl hz
      · split at hz
        · exact Or.inl hz
        · exact traceSliceV_foot h _ _ _ _ _ _ _ z hz
    | _ => simp only [traceSwitchV] at hz; exact Or.inl hz
  | struct t xs =>
    cases yv with
    | struct u ys =>
      simp only [traceSwitchV] at hz
      exact traceStructV_foot c h _ _ _ _ _ _ _ z hz
    | _ => simp only [traceSwitchV] at hz; exact Or.inl hz
  | map t l hx =>
    cases yv with
    | map u l2 hy =>
      simp only [traceSwitchV] at hz
      split at hz
      · exact Or.inl hz
      · split at hz
        · exact Or.inl hz
        · exact traceMapV_foot h _ _ _ _ _ _ _ z hz
    | _ => simp only [traceSwitchV] at hz; exact Or.inl hz
  | ptr t l px =>
    cases yv with
    | ptr u l2 py =>
      simp only [traceSwitchV] at hz
      split at hz
      · exact Or.inl hz
      · rcases h _ _ _ _ _ _ _ z hz with h2 | ⟨hx, hy, h2⟩
        · exact Or.inl h2
        · simp only [Option.isSome_map'] at hx hy
          simp only [hx, hy, Bool.and_self] at h2
          exact Or.inr h2
    | _ => simp only [traceSwitchV] at hz; exact Or.inl hz
  | iface t l dx =>
    cases yv with
    | iface u l2 dy =>
      simp only [traceSwitchV] at hz
      cases dx with
      | none => cases dy <;> exact Or.inl hz
      | some v =>
        cases dy with
        | none => exact Or.inl hz
        | some w =>
          simp only at hz
          rcases h _ _ _ _ _ _ _ z hz with h2 | ⟨_, _, h2⟩
          · exact Or.inl h2
          · exact Or.inr h2
    | _ => simp only [traceSwitchV] at hz; exact Or.inl hz
  | _ => simp only [traceSwitchV] at hz; exact Or.inl hz

theorem hard_of_typ {xv yv : Val} (h : xv.typ = yv.typ) : hard yv.kind = hard xv.kind := by
  rw [← typ_kind xv, ← typ_kind yv, h]

/-- The unbounded comparison adds to the visited set only addresses of variables
inside its operands. -/
theorem vtrace_foot (c : Comparer) : ∀ fuel : Nat, FootV (vtrace c fuel) := by
  intro fuel
  induction fuel with
  | zero => intro r a x y d st V z hz; simp only [vtrace] at hz; exact Or.inl hz
  | succ fuel ih =>
    intro r a x y d st V z hz
    simp only [vtrace] at hz
    split at hz
    · exact Or.inl hz
    · cases x with
      | none => cases y <;> exact Or.inl hz
      | some xv =>
        cases y with
        | none => exact Or.inl hz
        | some yv =>
          simp only at hz
          split at hz
          · exact Or.inl hz
          · rename_i ht
            have ht2 : xv.typ = yv.typ := not_not.mp ht
            split at hz
            · exact Or.inl hz
            · rcases traceSwitchV_foot c ih r a xv yv d st _ z hz with h1 | h1 | h1
              · by_cases hh : (a && hard xv.kind) = true
                · simp only [hh, if_true, footprint, List.mem_cons] at h1
                  have hh2 : (a && hard yv.kind) = true := by rw [hard_of_typ ht2]; exact hh
                  have hx : xv.loc ∈ locsOpt a (some xv) := by
                    simp only [locsOpt, locs_eq a xv, hh, if_true, List.mem_append,
                      List.mem_singleton, true_or]
                  have hy : yv.loc ∈ locsOpt a (some yv) := by
                    simp only [locsOpt, locs_eq a yv, hh2, if_true, List.mem_append,
                      List.mem_singleton, true_or]
                  rcases h1 with h1 | h1 | h1
                  · refine Or.inr ⟨rfl, rfl, ?_⟩
                    rw [h1]
                    rcases min_choice xv.loc yv.loc with e | e
                    · rw [e]; exact Or.inl hx
                    · rw [e]; exact Or.inr hy
                  · refine Or.inr ⟨rfl, rfl, ?_⟩
                    rw [h1]
                    rcases max_choice xv.loc yv.loc with e | e
                    · rw [e]; exact Or.inl hx
                    · rw [e]; exact Or.inr hy
                  · exact Or.inl h1
                · simp only [hh, if_false] at h1
                  exact Or.inl h1
              · refine Or.inr ⟨rfl, rfl, Or.inl ?_⟩
                simp only [locsOpt, locs_eq a xv, List.mem_append]
                exact Or.inr h1
              · refine Or.inr ⟨rfl, rfl, Or.inr ?_⟩
                simp only [locsOpt, locs_eq a yv, List.mem_append]
                exact Or.inr h1

/-! ## One place inside the loops of the unbounded comparison -/

theorem traceArrayV_split (recV : RecV) (r : RO) (a : Bool) (d : Int) (st : List String)
    (x y : Val) (xpost ypost : List Val) :
    ∀ (xpre ypre : List Val) (i : Nat) (V : List visit), xpre.length = ypre.length →
      traceArrayV recV r a d st (xpre ++ x :: xpost) (ypre ++ y :: ypost) i V
        = seqV (traceArrayV recV r a d st xpre ypre i V) (fun V1 =>
            seqV (recV r a (some x) (some y) (d + 1)
                (pushStack st "array" ("[" ++ toString (i + xpre.length) ++ "]")) V1)
              (traceArrayV recV r a d st xpost ypost (i + xpre.length + 1))) := by
  intro xpre
  induction xpre with
  | nil =>
    intro ypre i V h
    cases ypre with
    | nil => simp [traceArrayV, seqV]
    | cons y ys => simp at h
  | cons x1 xs ih =>
    intro ypre i V h
    cases ypre with
    | nil => simp at h
    | cons y1 ys =>
      simp only [List.length_cons, Nat.add_right_cancel_iff] at h
      have e : i + 1 + xs.length = i + (xs.length + 1) := by omega
      rw [List.cons_append, List.cons_append, traceArrayV, traceArrayV, seqV_assoc]
      congr 1
      funext V2
      rw [ih ys (i + 1) V2 h, e, List.length_cons]

theorem traceSliceV_split (recV : RecV) (r : RO) (d : Int) (st : List String)
    (x y : Val) (xpost ypost : List Val) :
    ∀ (xpre ypre : List Val) (i : Nat) (V : List visit), xpre.length = ypre.length →
      traceSliceV recV r d st (xpre ++ x :: xpost) (ypre ++ y :: ypost) i V
        = seqV (traceSliceV recV r d st xpre ypre i V) (fun V1 =>
            seqV (recV r true (some x) (some y) (d + 1)
                (pushStack st "slice" ("[" ++ toString (i + xpre.length) ++ "]")) V1)
              (traceSliceV recV r d st xpost ypost (i + xpre.length + 1))) := by
  intro xpre
  induction xpre with
  | nil =>
    intro ypre i V h
    cases ypre with
    | nil => simp [traceSliceV, traceSliceRight, seqV]
    | cons y ys => simp at h
  | cons x1 xs ih =>
    intro ypre i V h
    cases ypre with
    | nil => simp at h
    | cons y1 ys =>
      simp only [List.length_cons, Nat.add_right_cancel_iff] at h
      have e : i + 1 + xs.length = i + (xs.length + 1) := by omega
      rw [List.cons_append, List.cons_append, traceSliceV, traceSliceV, seqV_assoc]
      congr 1
      funext V2
      rw [ih ys (i + 1) V2 h, e, List.length_cons]

theorem traceStructV_split (c : Comparer) (recV : RecV) (r : RO) (a : Bool) (d : Int)
    (st : List String) (f : StructField) (x y : Val) (xpost ypost : List (StructField × Val))
    (hf : (!c.CompareUnexportedFields && f.PkgPath != "") = false) :
    ∀ (xpre ypre : List (StructField × Val)) (V : List visit), xpre.length = ypre.length →
      traceStructV c recV r a d st (xpre ++ (f, x) :: xpost) (ypre ++ (f, y) :: ypost) V
        = seqV (traceStructV c recV r a d st xpre ypre V) (fun V1 =>
            seqV (recV (r.field f) a (some x) (some y) (d + 1)
                (pushStack st "struct" ("." ++ f.Name)) V1)
              (traceStructV c recV r a d st xpost ypost)) := by
  intro xpre
  induction xpre with
  | nil =>
    intro ypre V h
    cases ypre with
    | nil => simp [traceStructV, hf, seqV]
    | cons y ys => simp at h
  | cons x1 xs ih =>
    intro ypre V h
    obtain ⟨g, xv⟩ := x1
    cases ypre with
    | nil => simp at h
    | cons y1 ys =>
      obtain ⟨g2, yv⟩ := y1
      simp only [List.length_cons, Nat.add_right_cancel_iff] at h
      by_cases hs : (!c.CompareUnexportedFields && g.PkgPath != "") = true
      · simp only [List.cons_append, traceStructV, hs, if_true, List.tail_cons]
        exact ih ys V h
      · simp only [List.cons_append, traceStructV, hs, Bool.false_eq_true, if_false]
        rw [seqV_assoc]
        congr 1
        funext V2
        exact ih ys V2 h

theorem traceKeyV_hole (recV : RecV) (r : RO) (d : Int) (st : List String)
    (kx ky a b a0 b0 k : Val) (xpre ypre xpost ypost : List (Val × Val))
    (hk : goEq kx k = false ∧ goEq ky k = false) (V : List visit) :
    traceKeyV recV r d st (xpre ++ (kx, a) :: xpost) (ypre ++ (ky, b) :: ypost) k V
      = traceKeyV recV r d st (xpre ++ (kx, a0) :: xpost) (ypre ++ (ky, b0) :: ypost) k V := by
  simp only [traceKeyV, mapIndex_hole kx a a0 k xpost hk.1 xpre,
    mapIndex_hole ky b b0 k ypost hk.2 ypre]

theorem traceKeysV_hole (recV : RecV) (r : RO) (d : Int) (st : List String)
    (kx ky a b a0 b0 : Val) (xpre ypre xpost ypost : List (Val × Val)) :
    ∀ (ks : List Val), (∀ k ∈ ks, goEq kx k = false ∧ goEq ky k = false) →
      ∀ V : List visit,
        traceKeysV recV r d st (xpre ++ (kx, a) :: xpost) (ypre ++ (ky, b) :: ypost) ks V
          = traceKeysV recV r d st (xpre ++ (kx, a0) :: xpost) (ypre ++ (ky, b0) :: ypost)
              ks V := by
  intro ks
  induction ks with
  | nil => intro _ V; simp only [traceKeysV]
  | cons k ks ih =>
    intro hk V
    rw [traceKeysV, traceKeysV,
      traceKeyV_hole recV r d st kx ky a b a0 b0 k xpre ypre xpost ypost
        (hk k (List.mem_cons_self _ _)) V]
    congr 1
    funext V2
    exact ih (fun k2 h2 => hk k2 (List.mem_cons_of_mem _ h2)) V2

theorem traceMapRight_hole (r : RO) (st : List String) (kx ky a b a0 b0 : Val)
    (xpre ypre xpost ypost : List (Val × Val)) (hxy : goEq kx ky = true) :
    ∀ (ks : List Val), (∀ k ∈ ks, k = ky ∨ goEq ky k = false) →
      traceMapRight r st (xpre ++ (kx, a) :: xpost) (ypre ++ (ky, b) :: ypost) ks
        = traceMapRight r st (xpre ++ (kx, a0) :: xpost) (ypre ++ (ky, b0) :: ypost) ks := by
  intro ks
  induction ks with
  | nil => intro _; simp only [traceMapRight]
  | cons k ks ih =>
    intro hk
    have ih2 := ih (fun k2 h2 => hk k2 (List.mem_cons_of_mem _ h2))
    simp only [traceMapRight, mapIndex_hole_isSome kx a a0 k xpost xpre, ih2]
    split
    · rfl
    · rename_i hn
      rcases hk k (List.mem_cons_self _ _) with h1 | h1
      · exfalso
        apply hn
        rw [h1]
        exact mapIndex_isSome_of_mem (e := (kx, a0)) (by simp) hxy
      · rw [mapIndex_hole ky b b0 k ypost h1 ypre]

/-- Events of the comparison of two maps that hold the entries `(kx, a)` and
`(ky, b)` under equal keys which no other key equals: the events of the keys
before, those of `a` against `b`, and the events of the other keys, none of which
depends on `a` or `b` but through the visited set. -/
theorem traceMapV_split (recV : RecV) (r : RO) (d : Int) (st : List String)
    (kx ky a b a0 b0 : Val) (xpre ypre xpost ypost : List (Val × Val))
    (hxx : goEq kx kx = true) (hyx : goEq ky kx = true)
    (hs : ∀ e ∈ xpre ++ xpost ++ ypre ++ ypost, goEq e.1 kx = false ∧ goEq kx e.1 = false ∧
      goEq e.1 ky = false ∧ goEq ky e.1 = false) (V : List visit) :
    traceMapV recV r d st (xpre ++ (kx, a) :: xpost) (ypre ++ (ky, b) :: ypost)
        (mapKeys (xpre ++ (kx, a) :: xpost)) V
      = seqV (traceKeysV recV r d st (xpre ++ (kx, a0) :: xpost) (ypre ++ (ky, b0) :: ypost)
            (mapKeys xpre) V) (fun V1 =>
          seqV (recV r.ro false (some a) (some b) (d + 1)
              (pushStack st "map" ("[" ++ fmtValue (some kx) ++ "]")) V1) (fun V2 =>
            seqV (traceKeysV recV r d st (xpre ++ (kx, a0) :: xpost)
                (ypre ++ (ky, b0) :: ypost) (mapKeys xpost) V2) (fun V3 =>
              (traceMapRight r st (xpre ++ (kx, a0) :: xpost) (ypre ++ (ky, b0) :: ypost)
                (mapKeys (ypre ++ (ky, b0) :: ypost)), V3)))) := by
  have hx : ∀ e ∈ xpre ++ xpost, goEq kx e.1 = false ∧ goEq ky e.1 = false := fun e he =>
    ⟨(hs e (by simp only [List.mem_append] at he ⊢; tauto)).2.1,
     (hs e (by simp only [List.mem_append] at he ⊢; tauto)).2.2.2⟩
  have hy : ∀ e ∈ ypre ++ ypost, goEq ky e.1 = false := fun e he =>
    (hs e (by simp only [List.mem_append] at he ⊢; tauto)).2.2.2
  have hpre : ∀ k ∈ mapKeys xpre, goEq kx k = false ∧ goEq ky k = false := fun k hk => by
    obtain ⟨e, he, rfl⟩ := mem_mapKeys hk
    exact hx e (List.mem_append_left _ he)
  have hpost : ∀ k ∈ mapKeys xpost, goEq kx k = false ∧ goEq ky k = false := fun k hk => by
    obtain ⟨e, he, rfl⟩ := mem_mapKeys hk
    exact hx e (List.mem_append_right _ he)
  have hright : ∀ k ∈ mapKeys (ypre ++ (ky, b) :: ypost), k = ky ∨ goEq ky k = false := by
    intro k hk
    rw [mapKeys_hole, List.mem_append, List.mem_cons] at hk
    rcases hk with hk | hk | hk
    · obtain ⟨e, he, rfl⟩ := mem_mapKeys hk
      exact Or.inr (hy e (List.mem_append_left _ he))
    · exact Or.inl hk
    · obtain ⟨e, he, rfl⟩ := mem_mapKeys hk
      exact Or.inr (hy e (List.mem_append_right _ he))
  have hxy : goEq kx ky = true := by rw [goEq_symm]; exact hyx
  have e1 : mapIndex (xpre ++ (kx, a) :: xpost) kx = some a :=
    mapIndex_hole_self kx a kx xpost hxx xpre
      (fun e he => (hs e (by simp only [List.mem_append]; tauto)).1)
  have e2 : mapIndex (ypre ++ (ky, b) :: ypost) kx = some b :=
    mapIndex_hole_self ky b kx ypost hyx ypre
      (fun e he => (hs e (by simp only [List.mem_append]; tauto)).1)
  have hkeys : mapKeys (ypre ++ (ky, b) :: ypost) = mapKeys (ypre ++ (ky, b0) :: ypost) := by
    rw [mapKeys_hole, mapKeys_hole]
  rw [traceMapV_keys, mapKeys_hole, traceKeysV_append,
    traceMapRight_hole r st kx ky a b a0 b0 xpre ypre xpost ypost hxy _ hright, hkeys]
  simp only [seqV, traceKeysV, traceKeyV, e1, e2, Option.isSome_some, if_true,
    traceKeysV_hole recV r d st kx ky a b a0 b0 xpre ypre xpost ypost _ hpre,
    traceKeysV_hole recV r d st kx ky a b a0 b0 xpre ypre xpost ypost _ hpost,
    List.append_assoc]

/-! ## The way to a place -/

theorem vtrace_scalar (c : Comparer) (f : Nat) (r : RO) (a : Bool) (x y : Val) (d : Int)
    (st : List String) (V : List visit) (hd : ¬ (c.MaxDepth > 0 ∧ d > c.MaxDepth))
    (hx : x.scalar = true) (hty : x.typ = y.typ) :
    vtrace c (f + 1) r a (some x) (some y) d st V
      = (if scalarNe x y = true then [.diff (mkDiff st (fmtV 0 x) (fmtV 0 y))] else [], V) := by
  have key : ∀ t k w, x.typ ≠ (Val.word t k w).typ := by
    intro t k w
    cases k <;> cases x <;> simp only [Val.scalar, Bool.false_eq_true] at hx <;>
      simp [Val.typ, Val.kind, Val.tname]
  cases y with
  | word t k w => exact absurd hty (key t k w)
  | bool u b =>
    cases x <;> simp only [Val.scalar, Bool.false_eq_true] at hx <;>
      simp [Val.typ, Val.kind, Val.tname] at hty
    subst hty
    simp only [vtrace, if_neg hd, Val.typ, Val.tname, Val.kind, ne_eq, not_true_eq_false,
      if_false, hard, Bool.and_false, Bool.false_eq_true, false_and, traceSwitchV,
      traceSwitch, scalarNe, fmtV, bne_iff_ne]
  | int u b =>
    cases x <;> simp only [Val.scalar, Bool.false_eq_true] at hx <;>
      simp [Val.typ, Val.kind, Val.tname] at hty
    subst hty
    simp only [vtrace, if_neg hd, Val.typ, Val.tname, Val.kind, ne_eq, not_true_eq_false,
      if_false, hard, Bool.and_false, Bool.false_eq_true, false_and, traceSwitchV,
      traceSwitch, scalarNe, fmtV, bne_iff_ne]
  | uint u b =>
    cases x <;> simp only [Val.scalar, Bool.false_eq_true] at hx <;>
      simp [Val.typ, Val.kind, Val.tname] at hty
    subst hty
    simp only [vtrace, if_neg hd, Val.typ, Val.tname, Val.kind, ne_eq, not_true_eq_false,
      if_false, hard, Bool.and_false, Bool.false_eq_true, false_and, traceSwitchV,
      traceSwitch, scalarNe, fmtV, bne_iff_ne]
  | str u b =>
    cases x <;> simp only [Val.scalar, Bool.false_eq_true] at hx <;>
      simp [Val.typ, Val.kind, Val.tname] at hty
    subst hty
    simp only [vtrace, if_neg hd, Val.typ, Val.tname, Val.kind, ne_eq, not_true_eq_false,
      if_false, hard, Bool.and_false, Bool.false_eq_true, false_and, traceSwitchV,
      traceSwitch, scalarNe, fmtV, bne_iff_ne]
  | _ =>
    cases x <;> simp only [Val.scalar, Bool.false_eq_true] at hx <;>
      simp [Val.typ, Val.kind, Val.tname] at hty

/-- A pair of variables of which one has an address not passed so far is not in
the visited set. -/
theorem first_not_mem {V : List visit} {seen : List Nat} (hV : ∀ z ∈ footprint V, z ∈ seen)
    (lx ly : Nat) (t : GoType) (h : ¬ (lx ∈ seen ∧ ly ∈ seen)) :
    (⟨min lx ly, max lx ly, t⟩ : visit) ∉ V := by
  intro hm
  obtain ⟨h1, h2⟩ := mem_footprint hm
  simp only at h1 h2
  rcases le_total lx ly with hle | hle
  · rw [min_eq_left hle] at h1
    rw [max_eq_right hle] at h2
    exact h ⟨hV _ h1, hV _ h2⟩
  · rw [min_eq_right hle] at h1
    rw [max_eq_left hle] at h2
    exact h ⟨hV _ h2, hV _ h1⟩

theorem enter_foot {V : List visit} {seen : List Nat} (hV : ∀ z ∈ footprint V, z ∈ seen)
    (b : Bool) (lx ly : Nat) (t : GoType) :
    ∀ z ∈ footprint (if b = true then (⟨min lx ly, max lx ly, t⟩ : visit) :: V else V),
      z ∈ seen ++ (if b = true then [lx, ly] else []) := by
  intro z hz
  cases b with
  | false =>
    simp only [Bool.false_eq_true, if_false, List.append_nil] at hz ⊢
    exact hV z hz
  | true =>
    simp only [if_true, footprint, List.mem_cons, List.mem_append, List.not_mem_nil,
      or_false] at hz ⊢
    rcases hz with h1 | h1 | h1
    · rcases min_choice lx ly with e | e
      · rw [e] at h1; exact Or.inr (Or.inl h1)
      · rw [e] at h1; exact Or.inr (Or.inr h1)
    · rcases max_choice lx ly with e | e
      · rw [e] at h1; exact Or.inr (Or.inl h1)
      · rw [e] at h1; exact Or.inr (Or.inr h1)
    · exact Or.inl (hV z h1)

/-- The comparison of two values of one type within the depth limit, when the
pair is not in the visited set, is the kind switch started from the visited set
with the pair added. -/
theorem vtrace_enter (c : Comparer) (f : Nat) (r : RO) (a : Bool) (xv yv : Val) (d : Int)
    (st : List String) (V : List visit) (hd : ¬ (c.MaxDepth > 0 ∧ d > c.MaxDepth))
    (ht : xv.typ = yv.typ)
    (hv : (a && hard xv.kind) = true →
      (⟨min xv.loc yv.loc, max xv.loc yv.loc, xv.typ⟩ : visit) ∉ V) :
    vtrace c (f + 1) r a (some xv) (some yv) d st V
      = traceSwitchV c (vtrace c f) r a xv yv d st
          (if (a && hard xv.kind) = true then
            (⟨min xv.loc yv.loc, max xv.loc yv.loc, xv.typ⟩ : visit) :: V
          else V) := by
  have h2 : ¬ ((a && hard xv.kind) = true
      ∧ (⟨min xv.loc yv.loc, max xv.loc yv.loc, xv.typ⟩ : visit) ∈ V) :=
    fun h => hv h.1 h.2
  simp only [vtrace, if_neg hd, ht, ne_eq, not_true_eq_false, if_false]
  rw [← ht, if_neg h2]

/-! ## The place of two scalars reached for the first time -/

theorem first_of_flag {a : Bool} {seen : List Nat} {lx ly : Nat}
    (h : (!a || !(seen.contains lx && seen.contains ly)) = true) (ha : a = true) :
    ¬ (lx ∈ seen ∧ ly ∈ seen) := by
  intro hb
  subst ha
  have h1 : seen.contains lx = true := List.elem_iff.mpr hb.1
  have h2 : seen.contains ly = true := List.elem_iff.mpr hb.2
  rw [h1, h2] at h
  cases h

theorem locsEntries_hole (k : Val) (pre post : List (Val × Val)) :
    locsEntries (pre ++ (k, vInt 0) :: post) = locsEntries (pre ++ post) := by
  simp [locsEntries_flatMap, vInt, Val.locs]

/-- Events of the comparison of two operands that hold two scalars of one type
at one place whose variables are reached for the first time: events `B` and `A`
that do not depend on the scalars, and between them the diff of the scalars at
the path of the place, unless the depth of the place exceeds a positive
MaxDepth. -/
theorem nest_splitV (c : Comparer) :
    ∀ (ls : List Layer) (f : Nat) (r : RO) (a : Bool) (d : Int) (st : List String)
      (V : List visit) (seen : List Nat),
      ls.length ≤ f → nestEntered c ls = true → nestFirst a seen ls = true →
      (∀ z ∈ footprint V, z ∈ seen) →
      ∃ (B A : List Item) (V2 : List visit), ∀ x y : Val, x.scalar = true → x.typ = y.typ →
        vtrace c (f + 1) r a (some (nestLeft ls x)) (some (nestRight ls y)) d st V
          = (B ++ ((if c.MaxDepth > 0 ∧ d + (nestDepth ls : Int) > c.MaxDepth then []
              else if scalarNe x y = true then
                [.diff (mkDiff (nestStack st ls) (fmtV 0 x) (fmtV 0 y))]
              else []) ++ A), V2) := by
  intro ls
  induction ls with
  | nil =>
    intro f r a d st V seen _ _ _ _
    refine ⟨[], [], V, fun x y hx hty => ?_⟩
    simp only [nestLeft, nestRight, nestDepth, nestStack, Nat.cast_zero, add_zero,
      List.nil_append, List.append_nil]
    by_cases hd : c.MaxDepth > 0 ∧ d > c.MaxDepth
    · simp only [vtrace, if_pos hd]
    · rw [vtrace_scalar c f r a x y d st V hd hx hty, if_neg hd]
  | cons l ls ih =>
    intro f r a d st V seen hf he hfirst hV
    obtain ⟨f, rfl⟩ : ∃ g, f = g + 1 := ⟨f - 1, by simp only [List.length_cons] at hf; omega⟩
    simp only [List.length_cons, Nat.add_le_add_iff_right] at hf
    simp only [nestEntered, Bool.and_eq_true] at he
    obtain ⟨hl, he⟩ := he
    rw [nestFirst, Bool.and_eq_true] at hfirst
    obtain ⟨hf1, hf2⟩ := hfirst
    by_cases hd : c.MaxDepth > 0 ∧ d > c.MaxDepth
    · have hd2 : c.MaxDepth > 0 ∧ d + ((nestDepth (l :: ls) : Nat) : Int) > c.MaxDepth :=
        ⟨hd.1, by have := Int.natCast_nonneg (nestDepth (l :: ls)); omega⟩
      refine ⟨[], [], V, fun x y _ _ => ?_⟩
      simp only [vtrace, if_pos hd, if_pos hd2, List.nil_append]
    · have e1 : (d + 1 + (nestDepth ls : Int) > c.MaxDepth)
          ↔ (d + ((1 + nestDepth ls : Nat) : Int) > c.MaxDepth) := by
        push_cast; omega
      have e0 : (d + (nestDepth ls : Int) > c.MaxDepth)
          ↔ (d + ((0 + nestDepth ls : Nat) : Int) > c.MaxDepth) := by
        push_cast; omega
      cases l with
      | array t xpre ypre xpost ypost =>
        have hl2 := hl
        simp only [Layer.entered, Bool.and_eq_true, beq_iff_eq] at hl2
        simp only [Layer.inner, Layer.hard, Layer.passed, Bool.and_false, Bool.false_eq_true,
          if_false, List.append_nil] at hf2
        have hfoot : ∀ z ∈ footprint
            (traceArrayV (vtrace c (f + 1)) r.ro a d st xpre ypre 0 V).2,
            z ∈ seen ++ (locsList a xpre ++ locsList a ypre) := by
          intro z hz
          simp only [List.mem_append]
          rcases traceArrayV_foot (vtrace_foot c (f + 1)) r.ro a d st xpre ypre 0 V z hz
            with h1 | h1 | h1
          · exact Or.inl (hV z h1)
          · exact Or.inr (Or.inl h1)
          · exact Or.inr (Or.inr h1)
        obtain ⟨B, A, V2, h⟩ := ih f r.ro a (d + 1)
          (pushStack st "array" ("[" ++ toString (0 + xpre.length) ++ "]")) _ _ hf he hf2 hfoot
        refine ⟨(traceArrayV (vtrace c (f + 1)) r.ro a d st xpre ypre 0 V).1 ++ B,
          A ++ (traceArrayV (vtrace c (f + 1)) r.ro a d st xpost ypost
            (0 + xpre.length + 1) V2).1,
          (traceArrayV (vtrace c (f + 1)) r.ro a d st xpost ypost
            (0 + xpre.length + 1) V2).2,
          fun x y hx hty => ?_⟩
        have ht := layer_typ c _ hl (nestLeft ls x) (nestRight ls y)
        rw [nestLeft, nestRight, vtrace_enter c (f + 1) r a _ _ d st V hd ht
          (fun hh => by simp [Layer.left, Val.kind, hard] at hh)]
        simp only [Layer.left, Layer.right, traceSwitchV, Val.kind, hard, Bool.and_false,
          Bool.false_eq_true, if_false]
        rw [traceArrayV_split _ _ _ _ _ _ _ _ _ _ _ _ _ hl2.1]
        simp only [seqV, h x y hx hty]
        simp only [List.append_assoc, e1, nestStack, nestDepth, Layer.level, Nat.zero_add]
      | slice t lx ly px py xpre ypre xpost ypost =>
        have hl2 := hl
        simp only [Layer.entered, Bool.and_eq_true, beq_iff_eq, Bool.or_eq_true, bne_iff_ne,
          ne_eq] at hl2
        simp only [Layer.inner, Layer.hard, Layer.passed, Layer.addrs, Bool.and_true]
          at hf1 hf2
        have hV0 := enter_foot hV a lx ly ⟨t, .slice, 0, []⟩
        have hfoot : ∀ z ∈ footprint
            (traceSliceV (vtrace c (f + 1)) r.ro d st xpre ypre 0
              (if a = true then (⟨min lx ly, max lx ly, ⟨t, .slice, 0, []⟩⟩ : visit) :: V
               else V)).2,
            z ∈ seen ++ (if a = true then [lx, ly] else [])
              ++ (locsList true xpre ++ locsList true ypre) := by
          intro z hz
          refine List.mem_append.mpr ?_
          rcases traceSliceV_foot (vtrace_foot c (f + 1)) r.ro d st xpre ypre 0 _ z hz
            with h1 | h1 | h1
          · exact Or.inl (hV0 z h1)
          · exact Or.inr (List.mem_append.mpr (Or.inl h1))
          · exact Or.inr (List.mem_append.mpr (Or.inr h1))
        obtain ⟨B, A, V2, h⟩ := ih f r.ro true (d + 1)
          (pushStack st "slice" ("[" ++ toString (0 + xpre.length) ++ "]")) _ _ hf he hf2 hfoot
        refine ⟨(traceSliceV (vtrace c (f + 1)) r.ro d st xpre ypre 0
              (if a = true then (⟨min lx ly, max lx ly, ⟨t, .slice, 0, []⟩⟩ : visit) :: V
               else V)).1 ++ B,
          A ++ (traceSliceV (vtrace c (f + 1)) r.ro d st xpost ypost
            (0 + xpre.length + 1) V2).1,
          (traceSliceV (vtrace c (f + 1)) r.ro d st xpost ypost
            (0 + xpre.length + 1) V2).2,
          fun x y hx hty => ?_⟩
        have ht := layer_typ c _ hl (nestLeft ls x) (nestRight ls y)
        have hal : ¬ (px = py ∧ ¬ (xpre ++ nestLeft ls x :: xpost).length
            = (ypre ++ nestRight ls y :: ypost).length) := by
          rintro ⟨h1, h2⟩
          rcases hl2.2 with h3 | h3
          · exact h3 h1
          · apply h2
            simp only [List.length_append, List.length_cons, hl2.1, h3]
        rw [nestLeft, nestRight, vtrace_enter c (f + 1) r a _ _ d st V hd ht
          (fun hh => first_not_mem hV _ _ _
            (first_of_flag hf1 (by simpa [Layer.left, Val.kind, hard] using hh)))]
        simp only [Layer.left, Layer.right, traceSwitchV, Val.kind, hard, Bool.and_true,
          Val.loc, Val.typ, Val.tname, nilDiff, Option.isNone_some, elemsOf,
          Bool.false_and, Bool.and_false, Bool.false_eq_true, if_false, ite_self, Bool.not_false,
          pointerOf, ne_eq, if_neg hal]
        rw [traceSliceV_split _ _ _ _ _ _ _ _ _ _ _ _ hl2.1]
        simp only [seqV, h x y hx hty]
        simp only [List.append_assoc, e1, nestStack, nestDepth, Layer.level, Nat.zero_add]
      | struct t fd xpre ypre xpost ypost =>
        have hl2 := hl
        simp only [Layer.entered, Bool.and_eq_true, beq_iff_eq, Bool.or_eq_true] at hl2
        have hskip : (!c.CompareUnexportedFields && fd.PkgPath != "") = false := by
          rcases hl2.1.1 with h | h
          · simp [h]
          · simp [h]
        have hlen : xpre.length = ypre.length := by
          have := congrArg List.length hl2.1.2
          simpa using this
        simp only [Layer.inner, Layer.hard, Layer.passed, Bool.and_false, Bool.false_eq_true,
          if_false, List.append_nil] at hf2
        have hfoot : ∀ z ∈ footprint
            (traceStructV c (vtrace c (f + 1)) r a d st xpre ypre V).2,
            z ∈ seen ++ (locsFields a xpre ++ locsFields a ypre) := by
          intro z hz
          simp only [List.mem_append]
          rcases traceStructV_foot c (vtrace_foot c (f + 1)) r a d st xpre ypre V z hz
            with h1 | h1 | h1
          · exact Or.inl (hV z h1)
          · exact Or.inr (Or.inl h1)
          · exact Or.inr (Or.inr h1)
        obtain ⟨B, A, V2, h⟩ := ih f (r.field fd) a (d + 1)
          (pushStack st "struct" ("." ++ fd.Name)) _ _ hf he hf2 hfoot
        refine ⟨(traceStructV c (vtrace c (f + 1)) r a d st xpre ypre V).1 ++ B,
          A ++ (traceStructV c (vtrace c (f + 1)) r a d st xpost ypost V2).1,
          (traceStructV c (vtrace c (f + 1)) r a d st xpost ypost V2).2,
          fun x y hx hty => ?_⟩
        have ht := layer_typ c _ hl (nestLeft ls x) (nestRight ls y)
        rw [nestLeft, nestRight, vtrace_enter c (f + 1) r a _ _ d st V hd ht
          (fun hh => by simp [Layer.left, Val.kind, hard] at hh)]
        simp only [Layer.left, Layer.right, traceSwitchV, Val.kind, hard, Bool.and_false,
          Bool.false_eq_true, if_false]
        rw [traceStructV_split c _ _ _ _ _ _ _ _ _ _ hskip _ _ _ hlen]
        simp only [seqV, h x y hx hty]
        simp only [List.append_assoc, e1, nestStack, nestDepth, Layer.level]
      | map t lx ly px py kx ky xpre ypre xpost ypost =>
        have hl2 := hl
        simp only [Layer.entered, Bool.and_eq_true, bne_iff_ne, ne_eq, List.all_eq_true,
          Bool.not_eq_true'] at hl2
        obtain ⟨⟨⟨hp, hxx⟩, hyx⟩, hs⟩ := hl2
        simp only [Layer.inner, Layer.hard, Layer.passed, Layer.addrs, Bool.and_true]
          at hf1 hf2
        have hV0 := enter_foot hV a lx ly ⟨t, .map, 0, []⟩
        have hfoot : ∀ z ∈ footprint
            (traceKeysV (vtrace c (f + 1)) r d st (xpre ++ (kx, vInt 0) :: xpost)
              (ypre ++ (ky, vInt 0) :: ypost) (mapKeys xpre)
              (if a = true then (⟨min lx ly, max lx ly, ⟨t, .map, 0, []⟩⟩ : visit) :: V
               else V)).2,
            z ∈ seen ++ (if a = true then [lx, ly] else [])
              ++ (locsEntries (xpre ++ xpost) ++ locsEntries (ypre ++ ypost)) := by
          intro z hz
          refine List.mem_append.mpr ?_
          rcases traceKeysV_foot (vtrace_foot c (f + 1)) r d st _ _ _ _ z hz
            with h1 | h1 | h1
          · exact Or.inl (hV0 z h1)
          · rw [locsEntries_hole] at h1; exact Or.inr (List.mem_append.mpr (Or.inl h1))
          · rw [locsEntries_hole] at h1; exact Or.inr (List.mem_append.mpr (Or.inr h1))
        obtain ⟨B, A, V2, h⟩ := ih f r.ro false (d + 1)
          (pushStack st "map" ("[" ++ fmtValue (some kx) ++ "]")) _ _ hf he hf2 hfoot
        refine ⟨(traceKeysV (vtrace c (f + 1)) r d st (xpre ++ (kx, vInt 0) :: xpost)
              (ypre ++ (ky, vInt 0) :: ypost) (mapKeys xpre)
              (if a = true then (⟨min lx ly, max lx ly, ⟨t, .map, 0, []⟩⟩ : visit) :: V
               else V)).1 ++ B,
          A ++ ((traceKeysV (vtrace c (f + 1)) r d st (xpre ++ (kx, vInt 0) :: xpost)
              (ypre ++ (ky, vInt 0) :: ypost) (mapKeys xpost) V2).1
            ++ traceMapRight r st (xpre ++ (kx, vInt 0) :: xpost)
                (ypre ++ (ky, vInt 0) :: ypost) (mapKeys (ypre ++ (ky, vInt 0) :: ypost))),
          (traceKeysV (vtrace c (f + 1)) r d st (xpre ++ (kx, vInt 0) :: xpost)
              (ypre ++ (ky, vInt 0) :: ypost) (mapKeys xpost) V2).2,
          fun x y hx hty => ?_⟩
        have ht := layer_typ c _ hl (nestLeft ls x) (nestRight ls y)
        rw [nestLeft, nestRight, vtrace_enter c (f + 1) r a _ _ d st V hd ht
          (fun hh => first_not_mem hV _ _ _
            (first_of_flag hf1 (by simpa [Layer.left, Val.kind, hard] using hh)))]
        simp only [Layer.left, Layer.right, traceSwitchV, Val.kind, hard, Bool.and_true,
          Val.loc, Val.typ, Val.tname, nilDiff, Option.isNone_some, elemsOf,
          Bool.false_and, Bool.and_false, Bool.false_eq_true, if_false, ite_self, Bool.not_false,
          pointerOf, if_neg hp]
        rw [traceMapV_split _ r d st kx ky _ _ (vInt 0) (vInt 0) xpre ypre xpost ypost hxx hyx
          (fun e he => by
            have := hs e he
            simp only [Bool.and_eq_true, Bool.not_eq_true'] at this
            exact ⟨this.1.1.1, this.1.1.2, this.1.2, this.2⟩)]
        simp only [seqV, h x y hx hty]
        simp only [List.append_assoc, e1, nestStack, nestDepth, Layer.level]
      | ptr t lx ly px py =>
        have hl2 := hl
        simp only [Layer.entered, bne_iff_ne, ne_eq] at hl2
        simp only [Layer.inner, Layer.hard, Layer.passed, Layer.addrs, Bool.and_true,
          List.append_nil] at hf1 hf2
        have hV0 := enter_foot hV a lx ly ⟨t, .ptr, 0, []⟩
        obtain ⟨B, A, V2, h⟩ := ih f r true d st _ _ hf he hf2 hV0
        refine ⟨B, A, V2, fun x y hx hty => ?_⟩
        have ht := layer_typ c _ hl (nestLeft ls x) (nestRight ls y)
        rw [nestLeft, nestRight, vtrace_enter c (f + 1) r a _ _ d st V hd ht
          (fun hh => first_not_mem hV _ _ _
            (first_of_flag hf1 (by simpa [Layer.left, Val.kind, hard] using hh)))]
        simp only [Layer.left, Layer.right, traceSwitchV, Val.kind, hard, Bool.and_true,
          Val.loc, Val.typ, Val.tname, pointerOf, if_neg hl2, Option.map_some',
          Option.isSome_some, Bool.and_self]
        rw [h x y hx hty]
        simp only [e0, nestStack, nestDepth, Layer.level]
      | iface t lx ly =>
        simp only [Layer.inner, Layer.hard, Layer.passed, Layer.addrs, Bool.and_true,
          List.append_nil] at hf1 hf2
        have hV0 := enter_foot hV a lx ly ⟨t, .iface, 0, []⟩
        obtain ⟨B, A, V2, h⟩ := ih f r.ro false d st _ _ hf he hf2 hV0
        refine ⟨B, A, V2, fun x y hx hty => ?_⟩
        have ht := layer_typ c _ hl (nestLeft ls x) (nestRight ls y)
        rw [nestLeft, nestRight, vtrace_enter c (f + 1) r a _ _ d st V hd ht
          (fun hh => first_not_mem hV _ _ _
            (first_of_flag hf1 (by simpa [Layer.left, Val.kind, hard] using hh)))]
        simp only [Layer.left, Layer.right, traceSwitchV, Val.kind, hard, Bool.and_true,
          Val.loc, Val.typ, Val.tname]
        rw [h x y hx hty]
        simp only [e0, nestStack, nestDepth, Layer.level]

/-- C15 (amended): when MaxDiffs is positive, take two operands that hold two
scalars of one type at the same place, below levels (arrays, slices, structs,
maps, pointers, interfaces, each with whatever else it holds) that lead the
comparison to the place, every addressable variable on the way being reached
for the first time (other storage may be shared).  There are two lists `before`
and `after` that do not depend on the two scalars such that, when `Equal`
returns, the list returned holds the first MaxDiffs diffs of: `before`, then the
diff of the two scalars at the path of the place if they differ and either
MaxDepth is not positive or the nesting depth of the place (one for each array,
slice, struct and map, nothing for a pointer or an interface) is at most
MaxDepth, then `after`.  `Equal` returns when no complex number inside the
operands has a NaN part and no unexported field is compared.  With
MaxDepth = 2, `[][]int{{1}}` against `[][]int{{2}}` gives one diff and
`[][][]int{{{1}}}` against `[][][]int{{{2}}}` gives none. -/
theorem C15_depth_ceiling (c : Comparer) (ls : List Layer)
    (hm : 0 < c.MaxDiffs) (he : nestEntered c ls = true)
    (hf : nestFirst false [] ls = true) :
    (∃ before after : List Diff, ∀ x y : Val, x.scalar = true → x.typ = y.typ →
      ∀ ds, c.Equal (some (nestLeft ls x)) (some (nestRight ls y)) = .ok ds →
        ds = (before
          ++ (if 0 < c.MaxDepth ∧ c.MaxDepth < (nestDepth ls : Int) then []
              else scalarDiffs (String.join (nestStack [] ls)) x y)
          ++ after).take c.MaxDiffs.toNat) ∧
    (∀ x y : Val, (nestLeft ls x).complexOk = true → (nestRight ls y).complexOk = true →
      (c.CompareUnexportedFields = false ∨ (nestLeft ls x).exported = true) →
      ∃ ds, c.Equal (some (nestLeft ls x)) (some (nestRight ls y)) = .ok ds) ∧
    ({ NewComparer with MaxDepth := 2 } : Comparer).Equal
        (some (.slice "[][]int" 0 (some (4096, [.slice "[]int" 4096 (some (5000, [vInt 1]))]))))
        (some (.slice "[][]int" 0 (some (8192, [.slice "[]int" 8192 (some (9000, [vInt 2]))]))))
      = .ok [⟨"1", "2", "slice[0][0]"⟩] ∧
    ({ NewComparer with MaxDepth := 2 } : Comparer).Equal
        (some (.slice "[][][]int" 0 (some (4096, [.slice "[][]int" 4096
          (some (5000, [.slice "[]int" 5000 (some (6000, [vInt 1]))]))]))))
        (some (.slice "[][][]int" 0 (some (8192, [.slice "[][]int" 8192
          (some (9000, [.slice "[]int" 9000 (some (10000, [vInt 2]))]))]))))
      = .ok [] := by
  refine ⟨?_, ?_, rfl, rfl⟩
  · obtain ⟨B, A, V2, h⟩ := nest_splitV c ls (nestLeft ls (vInt 0)).size RO.clear false 0 []
      [] [] (by have := nest_size (vInt 0) ls; omega) he hf
      (fun z hz => by simp only [footprint, List.not_mem_nil] at hz)
    refine ⟨diffsOf B, diffsOf A, fun x y hx hty ds hds => ?_⟩
    rw [equal_eq_vscan c hm,
      nest_size_eq x (vInt 0) (by rw [scalar_size x hx]; rfl) ls, h x y hx hty] at hds
    have hd := scan_take (by omega) hds
    have e : (c.MaxDepth > 0 ∧ (0 : Int) + (nestDepth ls : Int) > c.MaxDepth)
        ↔ (0 < c.MaxDepth ∧ c.MaxDepth < (nestDepth ls : Int)) := by
      constructor <;> rintro ⟨h1, h2⟩ <;> exact ⟨by omega, by omega⟩
    rw [hd, diffsOf_append, diffsOf_append, List.append_assoc]
    congr 3
    simp only [e]
    split
    · rfl
    · unfold scalarDiffs
      split
      · simp [diffsOf, mkDiff]
      · rfl
  · intro x y hx hy hE
    rcases equal_returns c (some (nestLeft ls x)) (some (nestRight ls y)) with h | h | h
    · exact h
    · exact absurd ⟨hx, hy⟩ h.2
    · rcases hE with hE | hE
      · rw [hE] at h; cases h.2.1
      · have h2 := h.2.2
        simp only [exportedOpt] at h2
        rw [hE] at h2
        cases h2

/-- C15 (amended) at the arrays `[2]int{1,2}` and `[2]int{1,3}` under
MaxDepth = 1 and MaxDiffs = 1: the scalars at index 1 lie at depth 1 and their
diff is the list returned, where `[2]int{1,2}` against itself returns no diff;
and at two slices whose two elements point to one struct, under MaxDepth = 0:
the field `F` of the struct is reached for the first time under index 0, and
the diff of its scalars is the one returned. -/
theorem C15_depth_ceiling_witness :
    ({ NewComparer with MaxDepth := 1, MaxDiffs := 1 } : Comparer).Equal
        (some (intArray [1, 2])) (some (intArray [1, 3])) = .ok [⟨"2", "3", "array[1]"⟩] ∧
    ({ NewComparer with MaxDepth := 1, MaxDiffs := 1 } : Comparer).Equal
        (some (intArray [1, 2])) (some (intArray [1, 2])) = .ok [] ∧
    (∃ before after : List Diff,
      [(⟨"2", "3", "array[1]"⟩ : Diff)]
        = (before ++ [(⟨"2", "3", "array[1]"⟩ : Diff)] ++ after).take 1 ∧
      ([] : List Diff) = (before ++ [] ++ after).take 1) ∧
    ({ NewComparer with MaxDepth := 0 } : Comparer).Equal
        (some (twicePointed 4096 5000 5000 6000 1)) (some (twicePointed 8192 9000 9000 10000 2))
      = .ok [⟨"1", "2", "slice[0].F[0]"⟩] ∧
    (∃ before after : List Diff,
      [(⟨"1", "2", "slice[0].F[0]"⟩ : Diff)]
        = (before ++ [(⟨"1", "2", "slice[0].F[0]"⟩ : Diff)] ++ after).take 10) := by
  refine ⟨rfl, rfl, ?_, rfl, ?_⟩
  · obtain ⟨b, a, h⟩ := (C15_depth_ceiling { NewComparer with MaxDepth := 1, MaxDiffs := 1 }
      [.array "[2]int" [vInt 1] [vInt 1] [] []] (by decide) rfl rfl).1
    exact ⟨b, a, h (vInt 2) (vInt 3) rfl rfl _ rfl, h (vInt 2) (vInt 2) rfl rfl _ rfl⟩
  · obtain ⟨b, a, h⟩ := (C15_depth_ceiling { NewComparer with MaxDepth := 0 }
      [.slice "[]*deep.S" 0 0 4096 8192 [] []
          [.ptr "*deep.S" 4104 (some (5000,
            .struct "deep.S" [(⟨"F", "", false⟩, .slice "[]int" 5000 (some (6000, [vInt 1])))]))]
          [.ptr "*deep.S" 8200 (some (9000,
            .struct "deep.S"
              [(⟨"F", "", false⟩, .slice "[]int" 9000 (some (10000, [vInt 2])))]))],
        .ptr "*deep.S" 4096 8192 5000 9000,
        .struct "deep.S" ⟨"F", "", false⟩ [] [] [] [],
        .slice "[]int" 5000 9000 6000 10000 [] [] [] []] (by decide) rfl rfl).1
    exact ⟨b, a, h (vInt 1) (vInt 2) rfl rfl _ rfl⟩

end deep
